import Mathlib

/-!
# AMReX `AmrMesh` grid generation: a shallow embedding

Source: `Src/AmrCore/AMReX_AmrMesh.cpp`.

The space dimension `AMREX_SPACEDIM` is the parameter `D` (1, 2 or 3 in the
source).  C++ `int` values are modelled by `Int` (no overflow is modelled),
C++ integer division and remainder by `Int.tdiv` and `Int.tmod`, a
`Vector<T>` indexed by level by a function `Int → T`.

The box calculus (`Box`, `BoxList`, `BoxArray`) is not part of the translated
file; its operations are modelled here from their use in the source and from
the specification, cell-centred boxes only.
-/

namespace amrex

/-! ## Integer vectors and boxes -/

/-- An `IntVect`: one integer per space direction. -/
abbrev IntVect (D : Nat) := Fin D → Int

/-- C++ `a / b` on `int`: truncation toward zero. -/
def cdiv (a b : Int) : Int := Int.tdiv a b

/-- C++ `a % b` on `int`: the sign follows the dividend. -/
def cmod (a b : Int) : Int := Int.tmod a b

/-- Modelled from the spec: `Box`, a cell-centred rectangular index region given by
its low and high corner (both inclusive). -/
structure Box (D : Nat) where
  smallEnd : IntVect D
  bigEnd : IntVect D

namespace Box

variable {D : Nat}

/-- Modelled from the spec: `Box::ok`, the box holds at least one cell. -/
def ok (b : Box D) : Prop := ∀ d, b.smallEnd d ≤ b.bigEnd d

instance (b : Box D) : Decidable b.ok := by unfold ok; infer_instance

/-- Modelled from the spec: `Box::length(d)`, number of cells in direction `d`. -/
def length (b : Box D) (d : Fin D) : Int := b.bigEnd d - b.smallEnd d + 1

/-- Modelled from the spec: `Box::contains(IntVect)`. -/
def contains (b : Box D) (c : IntVect D) : Prop :=
  ∀ d, b.smallEnd d ≤ c d ∧ c d ≤ b.bigEnd d

instance (b : Box D) (c : IntVect D) : Decidable (b.contains c) := by
  unfold contains; infer_instance

/-- Modelled from the spec: `Box::shift(dir, n)`, translation by `n` cells in direction `dir`. -/
def shift (b : Box D) (dir : Fin D) (n : Int) : Box D :=
  { smallEnd := Function.update b.smallEnd dir (b.smallEnd dir + n)
    bigEnd := Function.update b.bigEnd dir (b.bigEnd dir + n) }

/-- Modelled from the spec: `Box::operator&`, the intersection of two boxes (possibly empty). -/
def intersect (a b : Box D) : Box D :=
  { smallEnd := fun d => max (a.smallEnd d) (b.smallEnd d)
    bigEnd := fun d => min (a.bigEnd d) (b.bigEnd d) }

/-- Modelled from the spec: `Box::grow(n)`, growth by `n` cells on every side
("accretion" of one box). -/
def grow (b : Box D) (n : Int) : Box D :=
  { smallEnd := fun d => b.smallEnd d - n
    bigEnd := fun d => b.bigEnd d + n }

/-- Modelled from the spec: `Box::refine(ratio)` of a cell-centred box. -/
def refine (b : Box D) (r : IntVect D) : Box D :=
  { smallEnd := fun d => b.smallEnd d * r d
    bigEnd := fun d => (b.bigEnd d + 1) * r d - 1 }

/-- Modelled from the spec: `Box::coarsen(ratio)` of a cell-centred box: both corners are
divided by the ratio, rounding toward minus infinity. -/
def coarsen (b : Box D) (r : IntVect D) : Box D :=
  { smallEnd := fun d => b.smallEnd d / r d
    bigEnd := fun d => b.bigEnd d / r d }

/-- Modelled from the spec: `Box::intersects`, the two boxes share a cell. -/
def intersects (a b : Box D) : Prop := (a.intersect b).ok

instance (a b : Box D) : Decidable (a.intersects b) := by unfold intersects; infer_instance

/-- Modelled from the spec: `Box::contains(Box)`. -/
def containsBox (a b : Box D) : Prop :=
  ∀ d, a.smallEnd d ≤ b.smallEnd d ∧ b.bigEnd d ≤ a.bigEnd d

instance (a b : Box D) : Decidable (a.containsBox b) := by unfold containsBox; infer_instance

end Box

/-! ## Box lists -/

/-- Modelled from the spec: `BoxList` (and `BoxArray`), a list of boxes. -/
abbrev BoxList (D : Nat) := List (Box D)

namespace BoxList

variable {D : Nat}

/-- The region of a box list: the cell `c` lies in one of its boxes. -/
def covers (bl : BoxList D) (c : IntVect D) : Prop := ∃ b ∈ bl, b.contains c

instance (bl : BoxList D) (c : IntVect D) : Decidable (covers bl c) := by
  unfold covers; infer_instance

/-- Modelled from the spec: `BoxList::shift(dir, n)`. -/
def shift (bl : BoxList D) (dir : Fin D) (n : Int) : BoxList D :=
  bl.map (fun b => b.shift dir n)

/-- Modelled from the spec: `BoxList::intersect(Box)`: every box is intersected with `b`,
empty intersections are removed. -/
def intersect (bl : BoxList D) (b : Box D) : BoxList D :=
  (bl.map (fun x => x.intersect b)).filter (fun x => decide x.ok)

/-- Modelled from the spec: `BoxList::catenate`, the boxes of `other` are appended. -/
def catenate (bl other : BoxList D) : BoxList D := bl ++ other

/-- Modelled from the spec: `BoxList::accrete(n)`, every box is grown by `n` cells. -/
def accrete (bl : BoxList D) (n : Int) : BoxList D := bl.map (fun b => b.grow n)

/-- Modelled from the spec: `BoxList::refine(ratio)`. -/
def refine (bl : BoxList D) (r : IntVect D) : BoxList D := bl.map (fun b => b.refine r)

/-- Modelled from the spec: `BoxList::coarsen(ratio)`. -/
def coarsen (bl : BoxList D) (r : IntVect D) : BoxList D := bl.map (fun b => b.coarsen r)

/-- Modelled from the spec: `BoxArray::growcoarsen(n, ratio)`, every box is grown by `n` cells and
then coarsened. -/
def growcoarsen (bl : BoxList D) (n : Int) (r : IntVect D) : BoxList D :=
  bl.map (fun b => (b.grow n).coarsen r)

/-- Modelled from the spec: `BoxArray::grow(n)`, every box is grown by `n` cells. -/
def grow (bl : BoxList D) (n : Int) : BoxList D := bl.map (fun b => b.grow n)

/-- Modelled from the spec: `BoxList::isDisjoint`, no two boxes of the list share a cell. -/
def isDisjoint (bl : BoxList D) : Prop := bl.Pairwise (fun a b => ¬ a.intersects b)

instance (bl : BoxList D) : Decidable (isDisjoint bl) := by unfold isDisjoint; infer_instance

end BoxList

/-! ## Complement of a box list in a box -/

section Complement

variable {D : Nat}

/-- Modelled from the spec: `Box::setSmall(d, v)`. -/
def Box.setSmall (b : Box D) (d : Fin D) (v : Int) : Box D :=
  { b with smallEnd := Function.update b.smallEnd d v }

/-- Modelled from the spec: `Box::setBig(d, v)`. -/
def Box.setBig (b : Box D) (d : Fin D) (v : Int) : Box D :=
  { b with bigEnd := Function.update b.bigEnd d v }

/-- Modelled from the spec: the direction sweep of `boxDiff`: in each direction the
slabs of `b1` below and above `b2` are cut off, the remainder is swept further. -/
def boxDiffAux (b2 : Box D) : List (Fin D) → Box D → BoxList D
  | [], _ => []
  | i :: ds, b1 =>
    let out1 : BoxList D :=
      if b1.smallEnd i < b2.smallEnd i ∧ b2.smallEnd i ≤ b1.bigEnd i
      then [b1.setBig i (b2.smallEnd i - 1)] else []
    let b1a : Box D :=
      if b1.smallEnd i < b2.smallEnd i ∧ b2.smallEnd i ≤ b1.bigEnd i
      then b1.setSmall i (b2.smallEnd i) else b1
    let out2 : BoxList D :=
      if b1a.smallEnd i ≤ b2.bigEnd i ∧ b2.bigEnd i < b1a.bigEnd i
      then [b1a.setSmall i (b2.bigEnd i + 1)] else []
    let b1b : Box D :=
      if b1a.smallEnd i ≤ b2.bigEnd i ∧ b2.bigEnd i < b1a.bigEnd i
      then b1a.setBig i (b2.bigEnd i) else b1a
    out1 ++ out2 ++ boxDiffAux b2 ds b1b

/-- Modelled from the spec: `boxDiff(b1, b2)`, a list of boxes covering the cells of `b1`
that are not in `b2`. -/
def boxDiff (b1 b2 : Box D) : BoxList D :=
  if b2.containsBox b1 then []
  else if ¬ b1.intersects b2 then [b1]
  else boxDiffAux b2 (List.finRange D).reverse b1

/-- Modelled from the spec: `BoxList::complementIn(b, bl)` (and `parallelComplementIn`,
which computes the same list): the part of the box `b` not covered by `bl`. -/
def BoxList.complementIn (b : Box D) (bl : BoxList D) : BoxList D :=
  bl.foldl (fun acc x => acc.flatMap (fun p => boxDiff p x)) [b]

/-- Modelled from the spec: `BoxArray::contains(Box)`, the box lies in the region of the list. -/
def BoxList.containsBox (bl : BoxList D) (b : Box D) : Bool :=
  (BoxList.complementIn b bl).isEmpty

/-- Modelled from the spec: `BoxArray::contains(BoxArray)`: a non-empty array whose region
holds every box of `ba`. -/
def BoxList.containsList (bl ba : BoxList D) : Bool :=
  !bl.isEmpty && ba.all (fun b => bl.containsBox b)

end Complement

/-! ## `AmrMesh::ProjPeriodic` -/

section ProjPeriodic

variable {D : Nat}

/-- The flag `is_per[d]`; the source reads it only behind `r != 0`, which never
holds for a direction `d ≥ AMREX_SPACEDIM`. -/
def isPer (is_per : Fin D → Int) (d : Nat) : Bool :=
  if h : d < D then is_per ⟨d, h⟩ != 0 else false

/-- The call `blorig.shift(d, n)`, reached only for `d < AMREX_SPACEDIM`. -/
def shiftDir (bl : BoxList D) (d : Nat) (n : Int) : BoxList D :=
  if h : d < D then bl.shift ⟨d, h⟩ n else bl

/-- The value `domain.length(d)`, read only for `d < AMREX_SPACEDIM`. -/
def domLength (domain : Box D) (d : Nat) : Int :=
  if h : d < D then domain.length ⟨d, h⟩ else 0

/-- Loop bounds `nist..niend`, `njst..njend`, `nkst..nkend`: `-1..1` when the
direction exists (`#if AMREX_SPACEDIM`), else `0..0`. -/
def shiftRange (D d : Nat) : List Int := if d < D then [-1, 0, 1] else [0]

/-- Body of the innermost (`rk`) loop; the state is `(blorig, blout)`. -/
def projPeriodicK (domain : Box D) (is_per : Fin D → Int)
    (st : BoxList D × BoxList D) (rk : Int) : BoxList D × BoxList D :=
  if rk ≠ 0 ∧ isPer is_per 2 = false then st
  else
    let blorig := if rk ≠ 0 ∧ isPer is_per 2 = true
      then shiftDir st.1 2 (rk * domLength domain 2) else st.1
    let tmp := blorig.intersect domain
    let blout := st.2.catenate tmp
    let blorig := if rk ≠ 0 ∧ isPer is_per 2 = true
      then shiftDir blorig 2 (-rk * domLength domain 2) else blorig
    (blorig, blout)

/-- Body of the middle (`rj`) loop. -/
def projPeriodicJ (domain : Box D) (is_per : Fin D → Int)
    (st : BoxList D × BoxList D) (rj : Int) : BoxList D × BoxList D :=
  if rj ≠ 0 ∧ isPer is_per 1 = false then st
  else
    let blorig := if rj ≠ 0 ∧ isPer is_per 1 = true
      then shiftDir st.1 1 (rj * domLength domain 1) else st.1
    let st1 := (shiftRange D 2).foldl (projPeriodicK domain is_per) (blorig, st.2)
    let blorig := if rj ≠ 0 ∧ isPer is_per 1 = true
      then shiftDir st1.1 1 (-rj * domLength domain 1) else st1.1
    (blorig, st1.2)

/-- Body of the outer (`ri`) loop. -/
def projPeriodicI (domain : Box D) (is_per : Fin D → Int)
    (st : BoxList D × BoxList D) (ri : Int) : BoxList D × BoxList D :=
  if ri ≠ 0 ∧ isPer is_per 0 = false then st
  else
    let blorig := if ri ≠ 0 ∧ isPer is_per 0 = true
      then shiftDir st.1 0 (ri * domLength domain 0) else st.1
    let st1 := (shiftRange D 1).foldl (projPeriodicJ domain is_per) (blorig, st.2)
    let blorig := if ri ≠ 0 ∧ isPer is_per 0 = true
      then shiftDir st1.1 0 (-ri * domLength domain 0) else st1.1
    (blorig, st1.2)

/-- The function `AmrMesh::ProjPeriodic(blout, domain, is_per)`: the new value of `blout`. -/
def ProjPeriodic (blout : BoxList D) (domain : Box D) (is_per : Fin D → Int) : BoxList D :=
  ((shiftRange D 0).foldl (projPeriodicI domain is_per) (blout, blout)).2

end ProjPeriodic

/-! ## The mesh object -/

/-- The data members of `AmrMesh` (with those of `AmrInfo` and of the level
geometries) that grid generation reads. -/
structure AmrMesh (D : Nat) where
  max_level : Int
  finest_level : Int
  ref_ratio : Int → IntVect D
  blocking_factor : Int → IntVect D
  max_grid_size : Int → IntVect D
  n_error_buf : Int → IntVect D
  n_proper : Int
  grid_eff : ℚ
  use_fixed_coarse_grids : Bool
  use_fixed_upto_level : Int
  refine_grid_layout : Bool
  refine_grid_layout_dims : IntVect D
  use_new_chop : Bool
  /-- The index domain `Geom(lev).Domain()`. -/
  domain : Int → Box D
  /-- The flags `Geom(lev).isPeriodic()`. -/
  is_periodic : Int → Fin D → Int
  /-- Whether `Geom(0).ProbDomain().volume() > 0.0`. -/
  prob_volume_pos : Bool
  grids : Int → BoxList D

/-- The integers `lo, lo+1, ..., hi-1`. -/
def intRange (lo hi : Int) : List Int :=
  (List.range (hi - lo).toNat).map (fun (k : Nat) => lo + (k : Int))

/-- The levels `lo, lo+1, ..., hi-1` of a loop `for (i = lo; i < hi; i++)`. -/
def levelsUp (lo hi : Int) : List Int := intRange lo hi

/-- The levels `hi, hi-1, ..., lo` of a loop `for (i = hi; i >= lo; i--)`. -/
def levelsDown (hi lo : Int) : List Int :=
  (List.range (hi + 1 - lo).toNat).map (fun (k : Nat) => hi - (k : Int))

/-! ## `AmrMesh::ChopGrids` -/

section ChopGrids

variable {D : Nat}

/-- Lexicographic order of `std::pair<int,int>`. -/
def pairLE (p q : Int × Nat) : Prop := p.1 < q.1 ∨ (p.1 = q.1 ∧ p.2 ≤ q.2)

instance : DecidableRel pairLE := fun p q => by unfold pairLE; infer_instance

/-- The array `chunk_dir` after `std::sort`, read from `idx = AMREX_SPACEDIM-1`
down to `0`: the directions in the order in which the loop tries them. -/
def chunkOrder (chunk : IntVect D) : List (Fin D) :=
  ((List.finRange D).insertionSort
    (fun a b => pairLE (chunk a, a.val) (chunk b, b.val))).reverse

/-- The test guarding the halving of direction `idim`. -/
def canHalve (m : AmrMesh D) (lev : Int) (chunk : IntVect D) (idim : Fin D) : Bool :=
  m.refine_grid_layout_dims idim != 0 &&
    (cdiv (chunk idim) 2 != 0 &&
      cmod (cdiv (chunk idim) 2) (m.blocking_factor lev idim) == 0)

/-- Local state of `ChopGrids`: the cap `chunk`, the box array `ba`, and (as a
record for the proofs) every cap handed to `ba.maxSize`, latest first. -/
structure ChopState (D : Nat) where
  chunk : IntVect D
  ba : BoxList D
  applied : List (IntVect D)

/-- The `for (idx ...)` loop of one pass: the first direction in `chunkOrder`
that can be halved is halved and `ba.maxSize(chunk)` is applied; then `break`. -/
def chopPass (maxSize : IntVect D → BoxList D → BoxList D) (m : AmrMesh D) (lev : Int)
    (st : ChopState D) : ChopState D :=
  match (chunkOrder st.chunk).find? (canHalve m lev st.chunk) with
  | some idim =>
    let chunk := Function.update st.chunk idim (cdiv (st.chunk idim) 2)
    { chunk := chunk, ba := maxSize chunk st.ba, applied := chunk :: st.applied }
  | none => st

/-- The `while (ba.size() < target_size)` loop, `fuel` bounding the number of passes. -/
def chopLoop (maxSize : IntVect D → BoxList D → BoxList D) (m : AmrMesh D) (lev : Int)
    (target_size : Int) : Nat → ChopState D → Option (ChopState D)
  | 0, _ => none
  | fuel + 1, st =>
    if (st.ba.length : Int) < target_size then
      let st1 := chopPass maxSize m lev st
      if st1.chunk = st.chunk then some st1
      else chopLoop maxSize m lev target_size fuel st1
    else some st

/-- The initial cap: `max_grid_size[lev]` limited to the domain length. -/
def chunkInit (m : AmrMesh D) (lev : Int) : IntVect D :=
  fun d => min (m.max_grid_size lev d) ((m.domain lev).length d)

/-- Number of passes after which the loop has certainly stopped. -/
def chopFuel (chunk : IntVect D) : Nat :=
  ((List.finRange D).map (fun d => (chunk d).natAbs)).sum + 1

/-- The body of `ChopGrids` after the early return: the final local state. -/
def chopRun (maxSize : IntVect D → BoxList D → BoxList D) (m : AmrMesh D) (lev : Int)
    (ba : BoxList D) (target_size : Int) : Option (ChopState D) :=
  chopLoop maxSize m lev target_size (chopFuel (chunkInit m lev))
    { chunk := chunkInit m lev, ba := ba, applied := [] }

/-- The function `AmrMesh::ChopGrids(lev, ba, target_size)`: the new value of `ba`. -/
def ChopGrids (maxSize : IntVect D → BoxList D → BoxList D) (m : AmrMesh D) (lev : Int)
    (ba : BoxList D) (target_size : Int) : Option (BoxList D) :=
  if ∀ d, m.refine_grid_layout_dims d = 0 then some ba
  else (chopRun maxSize m lev ba target_size).map (fun st => st.ba)

end ChopGrids

/-! ## External collaborators -/

/-- The values of a tag (`TagBox::TagVal`). -/
inductive TagVal where
  | CLEAR
  | BUF
  | SET
  deriving DecidableEq, Repr

/-- The routines and callbacks that `MakeNewGrids` calls and that are not part of
the translated file: the box-list simplification, the box chopping `maxSize`,
the tag array `TagBoxArray` (type `T`), the cluster list `ClusterList` (type `C`),
the virtual functions supplied by the client, and the number of processes. -/
structure Collab (D : Nat) (T C : Type) where
  /-- The routine `BoxList::simplify` (also `simplified_list`, `simplified`). -/
  simplify : BoxList D → BoxList D
  /-- The routine `BoxArray::maxSize(chunk)`, also run by `BoxArray(BoxList, max_grid_size)`. -/
  maxSize : IntVect D → BoxList D → BoxList D
  /-- The constructor `TagBoxArray(grids, dmap, ngrow)`. -/
  tagInit : BoxList D → IntVect D → T
  /-- The routine `TagBoxArray::buffer(nbuf)`. -/
  buffer : IntVect D → T → T
  /-- The routine `TagBoxArray::setVal(BoxArray, val)`. -/
  setVal : BoxList D → TagVal → T → T
  /-- The routine `TagBoxArray::coarsen(ratio)`. -/
  tagCoarsen : IntVect D → T → T
  /-- The routine `TagBoxArray::mapPeriodicRemoveDuplicates` for the geometry with the
  given index domain and periodicity flags. -/
  mapPeriodicRemoveDuplicates : Box D → (Fin D → Int) → T → T
  /-- The routine `TagBoxArray::collate`. -/
  collate : T → List (IntVect D)
  /-- The constructor `ClusterList(tagvec.data(), tagvec.size())`. -/
  clusterList : List (IntVect D) → C
  /-- The routine `ClusterList::chop(grid_eff)`. -/
  chop : ℚ → C → C
  /-- The routine `ClusterList::new_chop(grid_eff)`. -/
  new_chop : ℚ → C → C
  /-- The routine `ClusterList::intersect(BoxArray)`. -/
  clusterIntersect : BoxList D → C → C
  /-- The routine `ClusterList::boxList`. -/
  boxList : C → BoxList D
  /-- The virtual function `ErrorEst(lev, tags, time, ngrow)`. -/
  ErrorEst : Int → T → ℚ → Int → T
  /-- The virtual function `ManualTagsPlacement(lev, tags, bf_lev)`. -/
  ManualTagsPlacement : Int → T → (Int → IntVect D) → T
  /-- The virtual function `GetAreaNotToTag(lev)`. -/
  GetAreaNotToTag : Int → BoxList D
  /-- The value `ParallelDescriptor::NProcs()`. -/
  NProcs : Int

/-! ## `AmrMesh::MakeNewGrids(lbase, time, new_finest, new_grids)` -/

section MakeNewGrids

variable {D : Nat} {T C : Type}

/-- The local `max_crse = std::min(finest_level, max_level-1)`. -/
def max_crse (m : AmrMesh D) : Int := min m.finest_level (m.max_level - 1)

/-- The vector `bf_lev`: zero-initialised, then set for `0 ≤ i ≤ max_crse`. -/
def bf_lev (m : AmrMesh D) (i : Int) : IntVect D :=
  if 0 ≤ i ∧ i ≤ max_crse m then
    fun n => max 1 (cdiv (m.blocking_factor (i + 1) n) (m.ref_ratio i n))
  else fun _ => 0

/-- The vector `rr_lev`, as set for `lbase ≤ i < max_crse` (the only entries read). -/
def rr_lev (m : AmrMesh D) (i : Int) : IntVect D :=
  fun n => cdiv (m.ref_ratio i n * bf_lev m i n) (bf_lev m (i + 1) n)

/-- The vector `pc_domain`, as set for `lbase ≤ i ≤ max_crse` (the only entries read). -/
def pc_domain (m : AmrMesh D) (i : Int) : Box D := (m.domain i).coarsen (bf_lev m i)

/-- The test `geom[lev].isAnyPeriodic()`. -/
def isAnyPeriodic (m : AmrMesh D) (lev : Int) : Bool :=
  decide (∃ d, m.is_periodic lev d ≠ 0)

/-- The entry `p_n_comp_ba[lbase + k]`, the complement of the proper nesting domain. -/
def pnCompAbove (x : Collab D T C) (m : AmrMesh D) (lbase : Int) : Nat → BoxList D
  | 0 =>
    let bl := x.simplify (m.grids lbase)
    let bl := bl.coarsen (bf_lev m lbase)
    let p_n_comp := BoxList.complementIn (pc_domain m lbase) bl
    let p_n_comp := x.simplify p_n_comp
    let p_n_comp := p_n_comp.accrete m.n_proper
    if isAnyPeriodic m lbase
    then ProjPeriodic p_n_comp (pc_domain m lbase) (m.is_periodic lbase)
    else p_n_comp
  | k + 1 =>
    let i : Int := lbase + (k : Int) + 1
    let p_n_comp := pnCompAbove x m lbase k
    let p_n_comp := x.simplify p_n_comp
    let p_n_comp := p_n_comp.refine (rr_lev m (i - 1))
    let p_n_comp := p_n_comp.accrete m.n_proper
    if isAnyPeriodic m i
    then ProjPeriodic p_n_comp (pc_domain m i) (m.is_periodic i)
    else p_n_comp

/-- The vector entry `p_n_comp_ba[i]` for `lbase ≤ i ≤ max_crse`. -/
def p_n_comp_ba (x : Collab D T C) (m : AmrMesh D) (lbase i : Int) : BoxList D :=
  pnCompAbove x m lbase (i - lbase).toNat

/-- The vector entry `p_n_ba[i]` for `lbase ≤ i ≤ max_crse`: the proper nesting domain. -/
def p_n_ba (x : Collab D T C) (m : AmrMesh D) (lbase i : Int) : BoxList D :=
  x.simplify (BoxList.complementIn (pc_domain m i) (p_n_comp_ba x m lbase i))

/-- What the level loop has done, in order: the estimator was called for a level, or
boxes were generated for a level. -/
inductive Event where
  | errorEst (levc : Int)
  | cluster (levf : Int)
  deriving DecidableEq, Repr

/-- The variables the level loop updates: `new_finest`, `new_grids`, and as a record for the
proofs the events so far, latest first. -/
structure GridState (D : Nat) where
  new_finest : Int
  new_grids : Int → BoxList D
  trace : List Event

/-- The loop `while (!levcBA.contains(ba_proj)) { levcBA.grow(1); ++ngrow; }`: the final
`ngrow`, or `none` when it has not ended after `fuel` passes. -/
def growUntilContains : Nat → BoxList D → BoxList D → Int → Option Int
  | 0, _, _, _ => none
  | fuel + 1, levcBA, ba_proj, ngrow =>
    if levcBA.containsList ba_proj then some ngrow
    else growUntilContains fuel (levcBA.grow 1) ba_proj (ngrow + 1)

/-- First part of the loop body: the projected finer grids `ba_proj` and the number
of tag ghost cells `ngt`. -/
def projectDown (x : Collab D T C) (m : AmrMesh D) (fuel : Nat) (st : GridState D)
    (levc : Int) : Option (BoxList D × IntVect D) :=
  let levf := levc + 1
  let ngt := m.n_error_buf levc
  if levf < st.new_finest then
    let ba_proj := x.simplify (st.new_grids (levf + 1))
    let ba_proj := ba_proj.coarsen (m.ref_ratio levf)
    let ba_proj := ba_proj.growcoarsen m.n_proper (m.ref_ratio levc)
    let levcBA := x.simplify (m.grids levc)
    match growUntilContains fuel levcBA ba_proj 0 with
    | none => none
    | some ngrow => some (ba_proj, fun d => max (ngt d) ngrow)
  else some ([], ngt)

/-- The test `!(useFixedCoarseGrids() && levc < useFixedUpToLevel())`. -/
def notFixed (m : AmrMesh D) (levc : Int) : Bool :=
  !(m.use_fixed_coarse_grids && decide (levc < m.use_fixed_upto_level))

/-- The local `bl_max`, the largest component of `bf_lev[levc]` (at least 0). -/
def bl_max (m : AmrMesh D) (levc : Int) : Int :=
  (List.finRange D).foldl (fun acc n => max acc (bf_lev m levc n)) 0

/-- The statement `ErrorEst(levc, tags, time, 0);` of the loop body: the tag array that
the estimator leaves and, as a record for the proofs, the events so far with the event of
this call put in front. -/
def callErrorEst (x : Collab D T C) (levc : Int) (time : ℚ) (tags : T)
    (trace : List Event) : T × List Event :=
  (x.ErrorEst levc tags time 0, Event.errorEst levc :: trace)

/-- Second part of the loop body, from the construction of `tags` to `tags.collate`, on
the record `trace` of the events so far: the updated `new_finest`, the collated tags
`tagvec` and the record, or the fatal error. -/
def tagLevelTraced (x : Collab D T C) (m : AmrMesh D) (lbase : Int) (time : ℚ)
    (new_finest : Int) (levc : Int) (ba_proj : BoxList D) (ngt : IntVect D)
    (trace : List Event) : Except String (Int × List (IntVect D) × List Event) :=
  let levf := levc + 1
  let tags := x.tagInit (m.grids levc) ngt
  let called := if notFixed m levc then callErrorEst x levc time tags trace else (tags, trace)
  let tags := x.buffer (m.n_error_buf levc) called.1
  let tags :=
    if m.use_fixed_coarse_grids ∧ levc ≥ m.use_fixed_upto_level
    then x.setVal (x.GetAreaNotToTag levc) TagVal.CLEAR tags else tags
  let new_finest :=
    if m.use_fixed_coarse_grids ∧ ¬ levc ≥ m.use_fixed_upto_level
    then max new_finest levf else new_finest
  if bl_max m levc ≥ 1 then
    let tags := x.tagCoarsen (bf_lev m levc) tags
    let tags := x.ManualTagsPlacement levc tags (bf_lev m)
    let tags :=
      if levf < new_finest
      then x.setVal (ba_proj.coarsen (bf_lev m levc)) TagVal.SET tags else tags
    let tags := x.mapPeriodicRemoveDuplicates (pc_domain m levc) (m.is_periodic levc) tags
    let tags := x.setVal (p_n_comp_ba x m lbase levc) TagVal.CLEAR tags
    Except.ok (new_finest, x.collate tags, called.2)
  else Except.error "blocking factor is too small relative to ref_ratio"

/-- Second part of the loop body, from the construction of `tags` to `tags.collate`,
without the record of events: the updated `new_finest` and the collated tags `tagvec`,
or the fatal error. -/
def tagLevel (x : Collab D T C) (m : AmrMesh D) (lbase : Int) (time : ℚ)
    (new_finest : Int) (levc : Int) (ba_proj : BoxList D) (ngt : IntVect D) :
    Except String (Int × List (IntVect D)) :=
  match tagLevelTraced x m lbase time new_finest levc ba_proj ngt [] with
  | Except.ok (new_finest, tagvec, _) => Except.ok (new_finest, tagvec)
  | Except.error e => Except.error e

/-- The cluster boxes: `clist` is built from the tags, chopped (`new_chop` or `chop`),
intersected with the nesting domain `pn` and turned into the box list `new_bx`. -/
def clusterBoxes (x : Collab D T C) (use_new_chop : Bool) (grid_eff : ℚ) (pn : BoxList D)
    (tagvec : List (IntVect D)) : BoxList D :=
  let clist := x.clusterList tagvec
  let clist := if use_new_chop then x.new_chop grid_eff clist else x.chop grid_eff clist
  let clist := x.clusterIntersect pn clist
  x.boxList clist

/-- The box list `new_bx` from its declaration to `new_bx.refine(ref_ratio[levc])`
(the list computed on the I/O process and broadcast). -/
def makeNewBoxes (x : Collab D T C) (m : AmrMesh D) (lbase levc : Int)
    (tagvec : List (IntVect D)) : BoxList D :=
  let new_bx := clusterBoxes x m.use_new_chop m.grid_eff (p_n_ba x m lbase levc) tagvec
  let new_bx := new_bx.refine (bf_lev m levc)
  let new_bx := x.simplify new_bx
  let new_bx := if new_bx.length > 0 then new_bx.intersect (m.domain levc) else new_bx
  new_bx.refine (m.ref_ratio levc)

/-- Third part of the loop body: `if (!tagvec.empty()) { ... }`. -/
def clusterLevel (x : Collab D T C) (m : AmrMesh D) (lbase levc : Int)
    (st : GridState D) (tagvec : List (IntVect D)) : GridState D :=
  let levf := levc + 1
  if tagvec.isEmpty then st
  else
    let new_finest := if notFixed m levc then max st.new_finest levf else st.new_finest
    if levf > m.use_fixed_upto_level then
      let new_bx := makeNewBoxes x m lbase levc tagvec
      { new_finest := new_finest
        new_grids := Function.update st.new_grids levf
          (x.maxSize (m.max_grid_size levf) new_bx)
        trace := Event.cluster levf :: st.trace }
    else { st with new_finest := new_finest }

/-- One pass of `for (int levc = max_crse; levc >= lbase; levc--)`.  The result is
`none` when the inner `while` loop has not ended within `fuel` passes. -/
def levelStep (x : Collab D T C) (m : AmrMesh D) (lbase : Int) (time : ℚ) (fuel : Nat)
    (st : GridState D) (levc : Int) : Option (Except String (GridState D)) :=
  match projectDown x m fuel st levc with
  | none => none
  | some (ba_proj, ngt) =>
    match tagLevelTraced x m lbase time st.new_finest levc ba_proj ngt st.trace with
    | Except.error e => some (Except.error e)
    | Except.ok (new_finest, tagvec, trace) =>
      let st1 : GridState D :=
        { new_finest := new_finest
          new_grids := st.new_grids
          trace := trace }
      some (Except.ok (clusterLevel x m lbase levc st1 tagvec))

/-- The level loop from the state `st` over the levels `levs`; a fatal error or a
loop that has not ended stops it. -/
def levelLoop (x : Collab D T C) (m : AmrMesh D) (lbase : Int) (time : ℚ) (fuel : Nat) :
    List Int → GridState D → Option (Except String (GridState D))
  | [], st => some (Except.ok st)
  | levc :: rest, st =>
    match levelStep x m lbase time fuel st levc with
    | some (Except.ok st1) => levelLoop x m lbase time fuel rest st1
    | other => other

/-- One pass of the final loop `for (lev = lbase+1; lev <= new_finest; ++lev)`. -/
def finalStep (x : Collab D T C) (m : AmrMesh D) (st : GridState D) (lev : Int) :
    Option (Except String (GridState D)) :=
  if (st.new_grids lev).isEmpty then
    if notFixed m lev then
      some (Except.error "AmrMesh::MakeNewGrids: how did this happen?")
    else some (Except.ok st)
  else if m.refine_grid_layout then
    match ChopGrids x.maxSize m lev (st.new_grids lev) x.NProcs with
    | none => none
    | some ba => some (Except.ok { st with new_grids := Function.update st.new_grids lev ba })
  else some (Except.ok st)

/-- The final loop over the levels `levs`. -/
def finalLoop (x : Collab D T C) (m : AmrMesh D) :
    List Int → GridState D → Option (Except String (GridState D))
  | [], st => some (Except.ok st)
  | lev :: rest, st =>
    match finalStep x m st lev with
    | some (Except.ok st1) => finalLoop x m rest st1
    | other => other

/-- The state after the level loop of `MakeNewGrids`. -/
def afterLevels (x : Collab D T C) (m : AmrMesh D) (lbase : Int) (time : ℚ)
    (new_grids : Int → BoxList D) (fuel : Nat) : Option (Except String (GridState D)) :=
  levelLoop x m lbase time fuel (levelsDown (max_crse m) lbase)
    { new_finest := lbase, new_grids := new_grids, trace := [] }

/-- The function `AmrMesh::MakeNewGrids(lbase, time, new_finest, new_grids)`, bittree off.
The argument `new_grids` is the vector passed in (entries beyond its size are empty
lists); the result holds the returned `new_finest` and `new_grids`, `Except.error` is
a call of `amrex::Abort`, and `none` means that the `while` loop of some level has not
ended within `fuel` passes. -/
def MakeNewGrids (x : Collab D T C) (m : AmrMesh D) (lbase : Int) (time : ℚ)
    (new_grids : Int → BoxList D) (fuel : Nat) : Option (Except String (GridState D)) :=
  match afterLevels x m lbase time new_grids fuel with
  | some (Except.ok st) => finalLoop x m (levelsUp (lbase + 1) (st.new_finest + 1)) st
  | other => other

end MakeNewGrids

/-! ## `AmrMesh::MaxRefRatio` and `AmrMesh::checkInput` -/

section CheckInput

variable {D : Nat}

/-- The function `AmrMesh::MaxRefRatio(lev)`. -/
def MaxRefRatio (m : AmrMesh D) (lev : Int) : Int :=
  (List.finRange D).foldl (fun maxval n => max maxval (m.ref_ratio lev n)) 0

/-- The loop `while (k > 0 && (k%2 == 0)) { k /= 2; }`, at most `fuel` passes. -/
def stripTwos : Nat → Int → Int
  | 0, k => k
  | fuel + 1, k => if k > 0 ∧ cmod k 2 = 0 then stripTwos fuel (cdiv k 2) else k

/-- The value of `k` after the loop of the power-of-two check, started at `k0`
(the loop makes fewer than `k0` passes). -/
def oddPart (k0 : Int) : Int := stripTwos k0.toNat k0

/-- The function `AmrMesh::checkInput`: the message of the first `amrex::Error`
it raises, or `Except.ok` when the configuration is accepted. -/
def checkInput (m : AmrMesh D) : Except String Unit :=
  if m.max_level < 0 then Except.error "checkInput: max_level not set"
  else if ∃ i ∈ levelsUp 0 m.max_level, MaxRefRatio m i < 2 then
    Except.error "Amr::checkInput: bad ref_ratios"
  else if ¬ (m.domain 0).ok then Except.error "level 0 domain bad or not set"
  else if ∃ idim, m.blocking_factor 0 idim ≤ m.max_grid_size 0 idim ∧
      cmod ((m.domain 0).length idim) (m.blocking_factor 0 idim) ≠ 0 then
    Except.error "domain size not divisible by blocking_factor"
  else if ∃ i ∈ levelsUp 0 (m.max_level + 1), ∃ idim,
      oddPart (m.blocking_factor i idim) ≠ 1 then
    Except.error "Amr::checkInput: blocking_factor not power of 2. You can bypass this by setting ParmParse runtime parameter amr.check_input=0, although we do not recommend it."
  else if ∃ i ∈ levelsUp 0 m.max_level, ¬ ∀ idim,
      m.blocking_factor i idim * m.ref_ratio i idim ≥ m.blocking_factor (i + 1) idim then
    Except.error "Blocking factors vary too much between levels"
  else if ∃ i ∈ levelsUp 0 m.max_level, ∃ idim,
      m.blocking_factor i idim ≤ m.max_grid_size i idim ∧
      cmod (m.max_grid_size i idim) (m.blocking_factor i idim) ≠ 0 then
    Except.error "max_grid_size not divisible by blocking_factor"
  else if ∃ i ∈ levelsUp 0 m.max_level, ∃ idim,
      cmod (min (m.blocking_factor i idim) (m.max_grid_size i idim))
        (max 1 (cdiv (m.blocking_factor (i + 1) idim) (m.ref_ratio i idim))) ≠ 0 then
    Except.error "Coarse level blocking factor not a multiple of fine level blocking factor divided by ref ratio"
  else if ¬ m.prob_volume_pos then Except.error "Amr::checkInput: bad physical problem size"
  else Except.ok ()

deriving instance DecidableEq for Except

end CheckInput

/-! ## A reference model of the collaborators

The library routines behind `Collab` are not part of the translated file.  The
definitions of this section model them from the specification, on finite lists of cells
and of boxes, so that `MakeNewGrids` can be run on concrete meshes. -/

section Reference

variable {D : Nat}

/-- Modelled from the spec: `Box::grow(IntVect)`, growth by `n[d]` cells in direction `d`. -/
def Box.growVect (b : Box D) (n : IntVect D) : Box D :=
  { smallEnd := fun d => b.smallEnd d - n d
    bigEnd := fun d => b.bigEnd d + n d }

/-- The cells of a box, listed direction by direction. -/
def Box.cells (b : Box D) : List (IntVect D) :=
  (List.finRange D).foldl
    (fun acc d => acc.flatMap (fun c =>
      (intRange (b.smallEnd d) (b.bigEnd d + 1)).map (fun v => Function.update c d v)))
    [b.smallEnd]

/-- Modelled from the spec: `Box::numPts`, the number of cells of a box. -/
def Box.numPts (b : Box D) : Int :=
  (List.finRange D).foldl (fun acc d => acc * b.length d) 1

/-- Modelled from the spec: the tag field of one level (`TagBoxArray`): the boxes it is
allocated on (ghost cells included) and the cells that are tagged (`SET` or `BUF`). -/
structure TagCells (D : Nat) where
  region : BoxList D
  set : List (IntVect D)

/-- The cells of `cs` that lie in the tag field become tagged. -/
def TagCells.mark (t : TagCells D) (cs : List (IntVect D)) : TagCells D :=
  { t with set := (t.set ++ cs.filter (fun c => decide (t.region.covers c))).dedup }

/-- Modelled from the spec: `TagBoxArray(grids, dmap, ngrow)`: an untagged field over the grids
grown by `ngrow`. -/
def refTagInit (grids : BoxList D) (ngt : IntVect D) : TagCells D :=
  { region := grids.map (fun b => b.growVect ngt), set := [] }

/-- Modelled from the spec: `TagBoxArray::buffer(nbuf)`: every tagged cell tags the cells
within `nbuf` of it in each direction. -/
def refBuffer (nbuf : IntVect D) (t : TagCells D) : TagCells D :=
  t.mark (t.set.flatMap (fun c => (Box.growVect ⟨c, c⟩ nbuf).cells))

/-- Modelled from the spec: `TagBoxArray::setVal(ba, val)`: the cells of the field in `ba` are
cleared (`CLEAR`) or tagged (`SET`, `BUF`). -/
def refSetVal (bl : BoxList D) (v : TagVal) (t : TagCells D) : TagCells D :=
  match v with
  | TagVal.CLEAR => { t with set := t.set.filter (fun c => !decide (bl.covers c)) }
  | _ => t.mark (bl.flatMap Box.cells)

/-- Modelled from the spec: `TagBoxArray::coarsen(ratio)`: a coarse cell is tagged when one of
its fine cells is. -/
def refTagCoarsen (r : IntVect D) (t : TagCells D) : TagCells D :=
  { region := t.region.coarsen r
    set := (t.set.map (fun c => fun d => c d / r d)).dedup }

/-- The periodic image of a cell in the domain: wrapped in the periodic directions. -/
def wrapCell (domain : Box D) (is_per : Fin D → Int) (c : IntVect D) : IntVect D :=
  fun d =>
    if is_per d ≠ 0 ∧ 0 < domain.length d
    then domain.smallEnd d + (c d - domain.smallEnd d) % domain.length d
    else c d

/-- Modelled from the spec: `TagBoxArray::mapPeriodicRemoveDuplicates`: tags are mapped through
the periodic boundaries, each tagged cell is kept once. -/
def refMapPeriodic (domain : Box D) (is_per : Fin D → Int) (t : TagCells D) : TagCells D :=
  { t with set := (t.set.map (wrapCell domain is_per)).dedup }

/-- Modelled from the spec: the bounding box of the tagged cells of a cluster. -/
def minimalBox : List (IntVect D) → Box D
  | [] => { smallEnd := fun _ => 0, bigEnd := fun _ => -1 }
  | p :: ps =>
    { smallEnd := fun d => ps.foldl (fun a q => min a (q d)) (p d)
      bigEnd := fun d => ps.foldl (fun a q => max a (q d)) (p d) }

/-- Modelled from the spec: the fill ratio of a cluster, tagged cells over bounding-box
volume, is at least `eff` (the comparison is cross-multiplied). -/
def effReached (eff : ℚ) (pts : List (IntVect D)) : Prop :=
  eff.num * (minimalBox pts).numPts ≤ (pts.length : Int) * (eff.den : Int)

instance (eff : ℚ) (pts : List (IntVect D)) : Decidable (effReached eff pts) := by
  unfold effReached; infer_instance

/-- Modelled from the spec: `ClusterList(pts, len)`: one initial cluster over all tagged
cells. -/
def refClusterList (tags : List (IntVect D)) : List (List (IntVect D)) :=
  if tags.isEmpty then [] else [tags]

/-- Modelled from the spec: `ClusterList::chop(eff)`: a cluster whose fill ratio is below the
target is split; the splitting rule chosen here is the split into single cells. -/
def refChop (eff : ℚ) (cl : List (List (IntVect D))) : List (List (IntVect D)) :=
  cl.flatMap (fun c => if effReached eff c then [c] else c.map (fun p => [p]))

/-- The clusters that replace the cluster `c` in `ClusterList::intersect`: the cluster
itself when its box is inside the nesting domain, else one cluster per box of the domain
that holds some of its cells. -/
def refSplit (pn : BoxList D) (c : List (IntVect D)) : List (List (IntVect D)) :=
  if pn.containsBox (minimalBox c) then [c]
  else pn.filterMap (fun b =>
    let pts := c.filter (fun p => decide (b.contains p))
    if pts.isEmpty then none else some pts)

/-- Modelled from the spec: `ClusterList::intersect(domain)`: a cluster whose box is not inside
the nesting domain is replaced by one cluster per box of the domain that holds some of
its cells. -/
def refClusterIntersect (pn : BoxList D) (cl : List (List (IntVect D))) :
    List (List (IntVect D)) :=
  cl.flatMap (refSplit pn)

/-- Modelled from the spec: `ClusterList::boxList`: the bounding boxes of the clusters. -/
def refBoxList (cl : List (List (IntVect D))) : BoxList D := cl.map minimalBox

/-- The directions in which two boxes differ. -/
def Box.diffDirs (a b : Box D) : List (Fin D) :=
  (List.finRange D).filter
    (fun d => !(decide (a.smallEnd d = b.smallEnd d) && decide (a.bigEnd d = b.bigEnd d)))

/-- The union of two boxes when it is a box: the boxes are equal, or they differ in one
direction only and touch or overlap there. -/
def Box.tryJoin (a b : Box D) : Option (Box D) :=
  match a.diffDirs b with
  | [] => some a
  | [i] =>
    if a.smallEnd i ≤ b.bigEnd i + 1 ∧ b.smallEnd i ≤ a.bigEnd i + 1 then
      some { smallEnd := Function.update a.smallEnd i (min (a.smallEnd i) (b.smallEnd i))
             bigEnd := Function.update a.bigEnd i (max (a.bigEnd i) (b.bigEnd i)) }
    else none
  | _ => none

/-- The box `b` is merged with the first box of the list it can be joined with, or added
at the end. -/
def mergeInto (b : Box D) : BoxList D → BoxList D
  | [] => [b]
  | a :: rest =>
    match a.tryJoin b with
    | some j => j :: rest
    | none => a :: mergeInto b rest

/-- Modelled from the spec: `BoxList::simplify`: adjacent and redundant boxes are merged (one
sweep over the list). -/
def refSimplify (bl : BoxList D) : BoxList D :=
  bl.foldl (fun acc b => mergeInto b acc) []

/-- The pieces of a box cut in direction `d` so that none is longer than `chunk`. -/
def Box.chopDim (b : Box D) (d : Fin D) (chunk : Int) : BoxList D :=
  if 0 < chunk ∧ chunk < b.length d then
    (List.range ((b.length d + chunk - 1) / chunk).toNat).map (fun (k : Nat) =>
      { smallEnd := Function.update b.smallEnd d (b.smallEnd d + (k : Int) * chunk)
        bigEnd := Function.update b.bigEnd d
          (min (b.bigEnd d) (b.smallEnd d + ((k : Int) + 1) * chunk - 1)) })
  else [b]

/-- Modelled from the spec: `BoxArray::maxSize(chunk)`: boxes longer than the cap are chopped,
direction by direction. -/
def refMaxSize (chunk : IntVect D) (bl : BoxList D) : BoxList D :=
  (List.finRange D).foldl (fun acc d => acc.flatMap (fun b => b.chopDim d (chunk d))) bl

/-- The reference collaborators.  The client is given by `est`, the cells its error
estimator tags at a level and time; `ManualTagsPlacement` does nothing and
`GetAreaNotToTag` is empty, as the defaults of the virtual functions do. -/
def refCollab (est : Int → ℚ → List (IntVect D)) (nprocs : Int) :
    Collab D (TagCells D) (List (List (IntVect D))) :=
  { simplify := refSimplify
    maxSize := refMaxSize
    tagInit := refTagInit
    buffer := refBuffer
    setVal := refSetVal
    tagCoarsen := refTagCoarsen
    mapPeriodicRemoveDuplicates := refMapPeriodic
    collate := fun t => t.set
    clusterList := refClusterList
    chop := refChop
    new_chop := refChop
    clusterIntersect := refClusterIntersect
    boxList := refBoxList
    ErrorEst := fun lev t time _ => t.mark (est lev time)
    ManualTagsPlacement := fun _ t _ => t
    GetAreaNotToTag := fun _ => []
    NProcs := nprocs }

end Reference

/-! ## Auxiliary notions used in the statements and proofs -/

section Auxiliary

variable {D : Nat}

/-- The working copy `blorig` of `ProjPeriodic`, shifted for a non-zero shift `r` in a
periodic direction `d`. -/
def shiftIf (is_per : Fin D → Int) (domain : Box D) (d : Nat) (r : Int) (bl : BoxList D) :
    BoxList D :=
  if r ≠ 0 ∧ isPer is_per d = true then shiftDir bl d (r * domLength domain d) else bl

/-- The boxes one pass of the `rk` loop of `ProjPeriodic` appends to `blout`. -/
def addK (is_per : Fin D → Int) (domain : Box D) (B : BoxList D) (rk : Int) : BoxList D :=
  if rk ≠ 0 ∧ isPer is_per 2 = false then []
  else (shiftIf is_per domain 2 rk B).intersect domain

/-- The boxes one pass of the `rj` loop of `ProjPeriodic` appends to `blout`. -/
def addJ (is_per : Fin D → Int) (domain : Box D) (B : BoxList D) (rj : Int) : BoxList D :=
  if rj ≠ 0 ∧ isPer is_per 1 = false then []
  else (shiftRange D 2).flatMap (addK is_per domain (shiftIf is_per domain 1 rj B))

/-- The boxes one pass of the `ri` loop of `ProjPeriodic` appends to `blout`. -/
def addI (is_per : Fin D → Int) (domain : Box D) (B : BoxList D) (ri : Int) : BoxList D :=
  if ri ≠ 0 ∧ isPer is_per 0 = false then []
  else (shiftRange D 1).flatMap (addJ is_per domain (shiftIf is_per domain 0 ri B))

/-- The property of a cap `ch` of `ChopGrids` relative to the initial cap `ch0`: in each
direction it is the initial value or a positive multiple of the blocking factor reached
by halving, and it is the initial value where the layout flag is 0. -/
def ChunkInv (m : AmrMesh D) (lev : Int) (ch0 ch : IntVect D) : Prop :=
  ∀ d, (ch d = ch0 d ∨
      (0 < ch d ∧ m.blocking_factor lev d ∣ ch d ∧ ∃ k : Nat, ch d = ch0 d / 2 ^ k)) ∧
    (m.refine_grid_layout_dims d = 0 → ch d = ch0 d)

end Auxiliary

/-! ## Contracts of the collaborators -/

section Contracts

variable {D : Nat}

/-- Contract of `BoxList::simplify`: the simplified list covers the same cells, and
its boxes are non-empty when those of the argument are. -/
def SimplifySpec (simplify : BoxList D → BoxList D) : Prop :=
  ∀ bl, (∀ c, (simplify bl).covers c ↔ bl.covers c) ∧
    ((∀ b ∈ bl, b.ok) → ∀ b ∈ simplify bl, b.ok)

/-- A box is aligned to `k`: in every direction its low index and its length are
multiples of `k`. -/
def Box.aligned (k : IntVect D) (b : Box D) : Prop :=
  ∀ d, k d ∣ b.smallEnd d ∧ k d ∣ b.length d

instance (k : IntVect D) (b : Box D) : Decidable (b.aligned k) := by
  unfold Box.aligned; infer_instance

/-- Contract of `BoxList::simplify`: a pairwise disjoint list stays pairwise disjoint. -/
def SimplifyDisjoint (simplify : BoxList D → BoxList D) : Prop :=
  ∀ bl, BoxList.isDisjoint bl → BoxList.isDisjoint (simplify bl)

/-- Contract of `BoxList::simplify`: merging keeps the boxes aligned. -/
def SimplifyAligned (simplify : BoxList D → BoxList D) : Prop :=
  ∀ k bl, (∀ b ∈ bl, Box.aligned k b) → ∀ b ∈ simplify bl, Box.aligned k b

/-- Contract of `BoxArray::maxSize`: the chopped list covers the same cells, its boxes are
non-empty when those of the argument are, and only an empty list is chopped to an
empty list. -/
def MaxSizeRegion (maxSize : IntVect D → BoxList D → BoxList D) : Prop :=
  ∀ chunk bl, (∀ c, (maxSize chunk bl).covers c ↔ bl.covers c) ∧
    ((∀ b ∈ bl, b.ok) → ∀ b ∈ maxSize chunk bl, b.ok) ∧
    (maxSize chunk bl = [] → bl = [])

/-- Contract of `BoxArray::maxSize`: a pairwise disjoint list stays pairwise disjoint. -/
def MaxSizeDisjoint (maxSize : IntVect D → BoxList D → BoxList D) : Prop :=
  ∀ chunk bl, BoxList.isDisjoint bl → BoxList.isDisjoint (maxSize chunk bl)

/-- Contract of `BoxArray::maxSize`: when the cap is a multiple of `k`, a power of two in
each direction, boxes aligned to `k` are chopped into boxes aligned to `k`. -/
def MaxSizeAligned (maxSize : IntVect D → BoxList D → BoxList D) : Prop :=
  ∀ k chunk bl, (∀ d, ∃ e : Nat, k d = 2 ^ e) → (∀ d, k d ∣ chunk d) →
    (∀ b ∈ bl, Box.aligned k b) → ∀ b ∈ maxSize chunk bl, Box.aligned k b

/-- Contract of the clustering: from tags without repetition and a pairwise disjoint
nesting domain it yields pairwise disjoint boxes. -/
def ClusterDisjoint {T C : Type} (x : Collab D T C) : Prop :=
  ∀ new eff pn tagvec, tagvec.Nodup → BoxList.isDisjoint pn →
    BoxList.isDisjoint (clusterBoxes x new eff pn tagvec)

/-- Contract of the clustering: the cluster boxes are non-empty, they lie in the nesting
domain, and they hold every tag that lies in the nesting domain. -/
def ClusterRegion {T C : Type} (x : Collab D T C) : Prop :=
  ∀ new eff pn tagvec,
    (∀ b ∈ clusterBoxes x new eff pn tagvec, b.ok) ∧
    (∀ c, (clusterBoxes x new eff pn tagvec).covers c → pn.covers c) ∧
    (∀ c ∈ tagvec, pn.covers c → (clusterBoxes x new eff pn tagvec).covers c)

/-- Contract of the tag pipeline of one level (`mapPeriodicRemoveDuplicates`, `collate`):
no cell is listed twice in the collated tags. -/
def TagsNodup {T C : Type} (x : Collab D T C) (m : AmrMesh D) (lbase : Int) (time : ℚ) :
    Prop :=
  ∀ nf levc ba_proj ngt nf1 tagvec,
    tagLevel x m lbase time nf levc ba_proj ngt = Except.ok (nf1, tagvec) → tagvec.Nodup

/-- Contract of the tag pipeline of one level (steps `setVal(ba_proj, SET)`,
`mapPeriodicRemoveDuplicates`, `setVal(p_n_comp_ba, CLEAR)`, `collate`): when the
projected grids `ba_proj` (non-empty boxes) lie in the region of the tag array, the
grids grown by `ngt`, every cell of the coarsened domain that the coarsened `ba_proj`
covers and the complement of the nesting domain does not cover is among the collated
tags. -/
def TagsKeepProjection {T C : Type} (x : Collab D T C) (m : AmrMesh D) (lbase : Int)
    (time : ℚ) : Prop :=
  ∀ nf levc ba_proj ngt nf1 tagvec,
    tagLevel x m lbase time nf levc ba_proj ngt = Except.ok (nf1, tagvec) →
    levc + 1 < nf1 →
    (∀ b ∈ ba_proj, b.ok) →
    (∀ c, ba_proj.covers c → BoxList.covers ((m.grids levc).map (fun b => b.growVect ngt)) c) →
    ∀ c, (ba_proj.coarsen (bf_lev m levc)).covers c → (pc_domain m levc).contains c →
      ¬ (p_n_comp_ba x m lbase levc).covers c → c ∈ tagvec

/-- The boxes generated for level `lev` are well placed: they are non-empty, and every
cell of theirs, coarsened to level `lev - 1`, lies in the domain of that level and, coarsened
further by `bf_lev[lev-1]`, in the proper nesting domain of that level. -/
def WellPlaced {T C : Type} (x : Collab D T C) (m : AmrMesh D) (lbase lev : Int)
    (bl : BoxList D) : Prop :=
  (∀ b ∈ bl, b.ok) ∧
  ∀ f, bl.covers f →
    (p_n_ba x m lbase (lev - 1)).covers
      (fun d => f d / m.ref_ratio (lev - 1) d / bf_lev m (lev - 1) d) ∧
    (m.domain (lev - 1)).contains (fun d => f d / m.ref_ratio (lev - 1) d)

/-- The state of the level loop after the levels above `cur` have been processed, as far
as nesting is concerned. -/
def NestInv {T C : Type} (x : Collab D T C) (m : AmrMesh D) (lbase cur : Int)
    (st : GridState D) : Prop :=
  (lbase ≤ st.new_finest ∧
    (st.new_finest = lbase ∨ Event.cluster st.new_finest ∈ st.trace)) ∧
  (∀ lev, Event.cluster lev ∈ st.trace →
    cur < lev ∧ lev ≤ st.new_finest ∧ lev ≤ max_crse m + 1) ∧
  (∀ lev, Event.cluster lev ∈ st.trace → WellPlaced x m lbase lev (st.new_grids lev)) ∧
  (∀ lev, cur < lev → Event.cluster (lev + 1) ∈ st.trace → st.new_grids (lev + 1) ≠ [] →
    Event.cluster lev ∈ st.trace ∧
    ∀ c, ((st.new_grids (lev + 1)).coarsen (m.ref_ratio lev)).covers c →
      (st.new_grids lev).covers c)

end Contracts

/-! ## Concrete meshes -/

section Examples

/-- Whether a run ended normally. -/
def ranOk {α : Type} : Option (Except String α) → Bool
  | some (Except.ok _) => true
  | _ => false

/-- Whether a run ended normally with a result that passes the test `P`. -/
def resultHas {α : Type} (r : Option (Except String α)) (P : α → Bool) : Bool :=
  match r with
  | some (Except.ok a) => P a
  | _ => false

/-- The one-dimensional box `[lo, hi]`. -/
def box1 (lo hi : Int) : Box 1 := { smallEnd := fun _ => lo, bigEnd := fun _ => hi }

/-- The two-dimensional box `[x0, x1] × [y0, y1]`. -/
def box2 (x0 y0 x1 y1 : Int) : Box 2 := { smallEnd := ![x0, y0], bigEnd := ![x1, y1] }

/-- The corners of the boxes of a list, as lists of coordinates. -/
def corners {D : Nat} (bl : BoxList D) : List (List Int × List Int) :=
  bl.map (fun b => (List.ofFn b.smallEnd, List.ofFn b.bigEnd))

/-- A one-dimensional mesh with three levels, two of them in use: the domain `[0,15]`
at level 0, refinement ratio 2, blocking factor 2, one buffer cell of proper nesting;
level 0 covers the domain, level 1 covers `[8,23]`. -/
def lineMesh : AmrMesh 1 :=
  { max_level := 2
    finest_level := 1
    ref_ratio := fun _ _ => 2
    blocking_factor := fun _ _ => 2
    max_grid_size := fun _ _ => 8
    n_error_buf := fun _ _ => 0
    n_proper := 1
    grid_eff := Rat.mk' 7 10 (by decide) (by decide)
    use_fixed_coarse_grids := false
    use_fixed_upto_level := 0
    refine_grid_layout := true
    refine_grid_layout_dims := fun _ => 1
    use_new_chop := false
    domain := fun lev => if lev = 0 then box1 0 15 else if lev = 1 then box1 0 31 else box1 0 63
    is_periodic := fun _ _ => 0
    prob_volume_pos := true
    grids := fun lev =>
      if lev = 0 then [box1 0 7, box1 8 15] else if lev = 1 then [box1 8 23] else [] }

/-- An error estimator for `lineMesh`: it tags the cells 5 and 6 of level 0 and the
cell 20 of level 1. -/
def lineEst : Int → ℚ → List (IntVect 1) := fun lev _ =>
  if lev = 0 then [fun _ => 5, fun _ => 6] else if lev = 1 then [fun _ => 20] else []

/-- A one-dimensional mesh with two levels, one in use, accepted by `checkInput`:
the domain `[0,63]`, refinement ratio 2, blocking factor 8 on both levels, and a
`max_grid_size` of 4 on level 1, below the blocking factor. -/
def smallCapMesh : AmrMesh 1 :=
  { max_level := 1
    finest_level := 0
    ref_ratio := fun _ _ => 2
    blocking_factor := fun _ _ => 8
    max_grid_size := fun lev _ => if lev = 0 then 32 else 4
    n_error_buf := fun _ _ => 0
    n_proper := 1
    grid_eff := Rat.mk' 7 10 (by decide) (by decide)
    use_fixed_coarse_grids := false
    use_fixed_upto_level := 0
    refine_grid_layout := true
    refine_grid_layout_dims := fun _ => 1
    use_new_chop := false
    domain := fun lev => if lev = 0 then box1 0 63 else box1 0 127
    is_periodic := fun _ _ => 0
    prob_volume_pos := true
    grids := fun lev => if lev = 0 then [box1 0 31, box1 32 63] else [] }

/-- An error estimator for `smallCapMesh`: it tags the cell 10 of level 0. -/
def smallCapEst : Int → ℚ → List (IntVect 1) := fun lev _ =>
  if lev = 0 then [fun _ => 10] else []

/-- The two-dimensional scenario mesh: a level-0 domain of 64x64 cells, not periodic,
covered by one level-0 grid; `max_level = 1`, refinement ratio 2, blocking factor 8,
no error buffer, `n_proper = 0`; the other parameters have the defaults set by
`InitAmrMesh` in two dimensions (`max_grid_size` 128, `grid_eff` 0.7). -/
def blockMesh : AmrMesh 2 :=
  { max_level := 1
    finest_level := 0
    ref_ratio := fun _ => ![2, 2]
    blocking_factor := fun _ => ![8, 8]
    max_grid_size := fun _ => ![128, 128]
    n_error_buf := fun _ => ![0, 0]
    n_proper := 0
    grid_eff := Rat.mk' 7 10 (by decide) (by decide)
    use_fixed_coarse_grids := false
    use_fixed_upto_level := 0
    refine_grid_layout := true
    refine_grid_layout_dims := ![1, 1]
    use_new_chop := false
    domain := fun lev => if lev = 0 then box2 0 0 63 63 else box2 0 0 127 127
    is_periodic := fun _ => ![0, 0]
    prob_volume_pos := true
    grids := fun lev => if lev = 0 then [box2 0 0 63 63] else [] }

/-- The error estimator of the scenario: it tags exactly the level-0 cells
`[24,31] x [24,31]`. -/
def blockEst : Int → ℚ → List (IntVect 2) := fun lev _ =>
  if lev = 0 then (box2 24 24 31 31).cells else []

/-- A one-dimensional mesh like `lineMesh`, accepted by `checkInput`, with one cell of
error buffer and a negative `n_proper`. -/
def shrunkMesh : AmrMesh 1 :=
  { max_level := 2
    finest_level := 1
    ref_ratio := fun _ _ => 2
    blocking_factor := fun _ _ => 2
    max_grid_size := fun _ _ => 8
    n_error_buf := fun _ _ => 1
    n_proper := -1
    grid_eff := Rat.mk' 7 10 (by decide) (by decide)
    use_fixed_coarse_grids := false
    use_fixed_upto_level := 0
    refine_grid_layout := true
    refine_grid_layout_dims := fun _ => 1
    use_new_chop := false
    domain := fun lev => if lev = 0 then box1 0 15 else if lev = 1 then box1 0 31 else box1 0 63
    is_periodic := fun _ _ => 0
    prob_volume_pos := true
    grids := fun lev =>
      if lev = 0 then [box1 0 7, box1 8 15] else if lev = 1 then [box1 8 23] else [] }

/-- An error estimator for `shrunkMesh`: it tags the cell 8 of level 1, the first cell of
the level-1 grid. -/
def shrunkEst : Int → ℚ → List (IntVect 1) := fun lev _ =>
  if lev = 1 then [fun _ => 8] else []

end Examples

/-! ## More concrete meshes -/

section MoreExamples

/-- A two-dimensional mesh with two levels that refines in the first direction only:
`ref_ratio[0] = (2,1)`, blocking factor 8, `max_grid_size` 32, a 64x64 level-0 domain. -/
def flatMesh : AmrMesh 2 :=
  { max_level := 1
    finest_level := 0
    ref_ratio := fun _ => ![2, 1]
    blocking_factor := fun _ => ![8, 8]
    max_grid_size := fun _ => ![32, 32]
    n_error_buf := fun _ => ![1, 1]
    n_proper := 1
    grid_eff := Rat.mk' 7 10 (by decide) (by decide)
    use_fixed_coarse_grids := false
    use_fixed_upto_level := 0
    refine_grid_layout := true
    refine_grid_layout_dims := ![1, 1]
    use_new_chop := false
    domain := fun lev => if lev = 0 then box2 0 0 63 63 else box2 0 0 127 63
    is_periodic := fun _ => ![0, 0]
    prob_volume_pos := true
    grids := fun lev => if lev = 0 then [box2 0 0 63 63] else [] }

/-- A one-dimensional mesh with two levels, `ref_ratio[0] = 1` and blocking factor 3. -/
def oddMesh : AmrMesh 1 :=
  { max_level := 1
    finest_level := 0
    ref_ratio := fun _ _ => 1
    blocking_factor := fun _ _ => 3
    max_grid_size := fun _ _ => 32
    n_error_buf := fun _ _ => 1
    n_proper := 1
    grid_eff := Rat.mk' 7 10 (by decide) (by decide)
    use_fixed_coarse_grids := false
    use_fixed_upto_level := 0
    refine_grid_layout := true
    refine_grid_layout_dims := fun _ => 1
    use_new_chop := false
    domain := fun _ => box1 0 63
    is_periodic := fun _ _ => 0
    prob_volume_pos := true
    grids := fun lev => if lev = 0 then [box1 0 31, box1 32 63] else [] }

/-- A one-dimensional mesh with two levels, refinement ratio 2 and blocking factor 8,
whose `max_grid_size` is 16 on level 0 and 12 on level 1, the finest level. -/
def capMesh : AmrMesh 1 :=
  { max_level := 1
    finest_level := 0
    ref_ratio := fun _ _ => 2
    blocking_factor := fun _ _ => 8
    max_grid_size := fun lev _ => if lev = 0 then 16 else 12
    n_error_buf := fun _ _ => 1
    n_proper := 1
    grid_eff := Rat.mk' 7 10 (by decide) (by decide)
    use_fixed_coarse_grids := false
    use_fixed_upto_level := 0
    refine_grid_layout := true
    refine_grid_layout_dims := fun _ => 1
    use_new_chop := false
    domain := fun lev => if lev = 0 then box1 0 63 else box1 0 127
    is_periodic := fun _ _ => 0
    prob_volume_pos := true
    grids := fun lev => if lev = 0 then [box1 0 15, box1 16 31, box1 32 47, box1 48 63] else [] }

/-- A one-dimensional mesh with two levels, one in use, refinement ratio 2 and blocking
factor 1, so that `blocking_factor[1] / ref_ratio[0]` rounds to zero. -/
def unitMesh : AmrMesh 1 :=
  { max_level := 1
    finest_level := 0
    ref_ratio := fun _ _ => 2
    blocking_factor := fun _ _ => 1
    max_grid_size := fun _ _ => 8
    n_error_buf := fun _ _ => 0
    n_proper := 1
    grid_eff := Rat.mk' 7 10 (by decide) (by decide)
    use_fixed_coarse_grids := false
    use_fixed_upto_level := 0
    refine_grid_layout := true
    refine_grid_layout_dims := fun _ => 1
    use_new_chop := false
    domain := fun lev => if lev = 0 then box1 0 15 else box1 0 31
    is_periodic := fun _ _ => 0
    prob_volume_pos := true
    grids := fun lev => if lev = 0 then [box1 0 7, box1 8 15] else [] }

/-- The mesh `lineMesh` with `use_fixed_upto_level = 5` (the fixed-grid mode stays off). -/
def heldMesh : AmrMesh 1 := { lineMesh with use_fixed_upto_level := 5 }

/-- An error estimator that tags nothing. -/
def noEst {D : Nat} : Int → ℚ → List (IntVect D) := fun _ _ => []

end MoreExamples

/-! ## `AmrMesh::InitAmrMesh` and `AmrMesh::GetLevel` -/

section InitAmrMesh

variable {D : Nat}

instance : DecidableEq (Box D) := fun a b =>
  decidable_of_iff (a.smallEnd = b.smallEnd ∧ a.bigEnd = b.bigEnd)
    (by cases a; cases b; simp)

/-- Modelled from the spec: what the queries of `ParmParse pp("amr")` find, the
"configuration surface" read once at set-up.  A scalar parameter is `none` when it is not
supplied; an array parameter is the list of the values supplied (`countval` is its
length), and for the two refinement-ratio arrays `none` means that `queryarr` returns 0. -/
structure AmrParams (D : Nat) where
  max_level : Option Int
  n_proper : Option Int
  grid_eff : Option ℚ
  n_error_buf : List Int
  /-- The arrays `n_error_buf_x`, `n_error_buf_y`, `n_error_buf_z`. -/
  n_error_buf_dir : Fin D → List Int
  ref_ratio_vect : Option (List Int)
  ref_ratio : Option (List Int)
  max_grid_size : List Int
  max_grid_size_dir : Fin D → List Int
  blocking_factor : List Int
  blocking_factor_dir : Fin D → List Int
  n_cell : Option (List Int)
  refine_grid_layout : Option Bool
  /-- The parameters `refine_grid_layout_x`, `_y`, `_z`. -/
  refine_grid_layout_dir : Fin D → Option Int
  check_input : Option Bool
  use_bittree : Option Bool

/-- The two loops `for (i = 0; i < n; ++i) v[i] = a[i];` and
`for (i = n; i <= max_level; ++i) v[i] = a[last];`: the value given to level `i`. -/
def spreadLevels (a : List Int) (n : Int) (last : Int) (i : Int) : Int :=
  if i < n then a.getD i.toNat 0 else a.getD last.toNat 0

/-- The per-level vector after the scalar array (`cnt > 0`: all directions are set) and
the per-direction arrays have been read over the default `dflt`. -/
def readPerLevel (max_level : Int) (dflt : Int → IntVect D) (all : List Int)
    (allLast : Int → Int) (dir : Fin D → List Int) : Int → IntVect D :=
  fun i d =>
    let base :=
      if all.length > 0
      then spreadLevels all (min (all.length : Int) (max_level + 1))
        (allLast (min (all.length : Int) (max_level + 1))) i
      else dflt i d
    if (dir d).length > 0
    then spreadLevels (dir d) (min ((dir d).length : Int) (max_level + 1))
      (min ((dir d).length : Int) (max_level + 1) - 1) i
    else base

/-- The vector `ref_ratio` after the block `if (max_level > 0) { ... }` (the case in
which both arrays are supplied aborts before) and the override by `a_refrat`. -/
def readRefRatio (max_level : Int) (pp : AmrParams D) (a_refrat : List (IntVect D)) :
    Int → IntVect D :=
  let dflt : Int → IntVect D := fun _ _ => 2
  let fromParams : Int → IntVect D :=
    if 0 < max_level then
      match pp.ref_ratio_vect, pp.ref_ratio with
      | some ratios_vect, _ => fun i n => ratios_vect.getD (i.toNat * D + n.val) 0
      | none, some ratios =>
        fun i _ => if i < (ratios.length : Int) then ratios.getD i.toNat 0
          else ratios.getD (ratios.length - 1) 0
      | none, none => dflt
    else dflt
  if a_refrat.isEmpty then fromParams
  else fun i => a_refrat.getD i.toNat (fun _ => 0)

/-- The index domain of level `k`: `Box(0, n_cell - 1)` refined by `ref_ratio[0]`, ...,
`ref_ratio[k-1]` (the loop `geom[i].define(index_domain, ...);
index_domain.refine(ref_ratio[i])`). -/
def levelDomain (n_cell : IntVect D) (ref_ratio : Int → IntVect D) : Nat → Box D
  | 0 => { smallEnd := fun _ => 0, bigEnd := fun d => n_cell d - 1 }
  | k + 1 => (levelDomain n_cell ref_ratio k).refine (ref_ratio (k : Int))

/-- The function `AmrMesh::InitAmrMesh(max_level_in, n_cell_in, a_refrat, rb, coord,
is_per)`, run on an object `m0` that holds the defaults of `AmrInfo`.  The geometry
arguments are given by the periodicity flags `is_per` and by whether the problem domain
has a positive volume; `check_input0` is the default of `check_input`.  The result is the
mesh object set up, or the message of the fatal error.  The debug assertion on
`max_level` is left out.  Modelled from the spec: a `ParmParse::get` or `getarr` of a
parameter that is not supplied is a fatal error (the text of its message is the
library's; a stand-in is used here). -/
def InitAmrMesh (m0 : AmrMesh D) (pp : AmrParams D) (max_level_in : Int)
    (n_cell_in : List Int) (a_refrat : List (IntVect D)) (is_per : Fin D → Int)
    (prob_volume_pos : Bool) (check_input0 : Bool) : Except String (AmrMesh D) :=
  match (if max_level_in = -1 then pp.max_level else some max_level_in) with
  | none => Except.error "ParmParse::get: amr.max_level not found"
  | some max_level =>
    let n_error_buf := readPerLevel max_level (fun _ _ => 1) pp.n_error_buf
      (fun _ => (pp.n_error_buf.length : Int) - 1) pp.n_error_buf_dir
    if 0 < max_level ∧ pp.ref_ratio.isSome ∧ pp.ref_ratio_vect.isSome then
      Except.error "Only input *either* ref_ratio or ref_ratio_vect"
    else
      let ref_ratio := readRefRatio max_level pp a_refrat
      let max_grid_size := readPerLevel max_level
        (fun _ _ => if D = 2 then 128 else 32) pp.max_grid_size
        (fun _ => (pp.max_grid_size.length : Int) - 1) pp.max_grid_size_dir
      let blocking_factor := readPerLevel max_level (fun _ _ => 8) pp.blocking_factor
        (fun _ => (pp.blocking_factor.length : Int) - 1) pp.blocking_factor_dir
      match (if n_cell_in.getD 0 0 = -1 then pp.n_cell else some n_cell_in) with
      | none => Except.error "ParmParse::getarr: amr.n_cell not found"
      | some n_cell =>
        let refine_grid_layout0 := pp.refine_grid_layout.getD m0.refine_grid_layout
        let refine_grid_layout_dims : IntVect D := fun d =>
          (pp.refine_grid_layout_dir d).getD (if refine_grid_layout0 then 1 else 0)
        let m : AmrMesh D :=
          { max_level := max_level
            finest_level := -1
            ref_ratio := ref_ratio
            blocking_factor := blocking_factor
            max_grid_size := max_grid_size
            n_error_buf := n_error_buf
            n_proper := pp.n_proper.getD m0.n_proper
            grid_eff := pp.grid_eff.getD m0.grid_eff
            use_fixed_coarse_grids := m0.use_fixed_coarse_grids
            use_fixed_upto_level := m0.use_fixed_upto_level
            refine_grid_layout := decide (∃ d, refine_grid_layout_dims d ≠ 0)
            refine_grid_layout_dims := refine_grid_layout_dims
            use_new_chop := m0.use_new_chop
            domain := fun lev => levelDomain (fun d => n_cell.getD d.val 0) ref_ratio lev.toNat
            is_periodic := fun _ => is_per
            prob_volume_pos := prob_volume_pos
            grids := fun _ => [] }
        match (if pp.check_input.getD check_input0 then checkInput m else Except.ok ()) with
        | Except.error e => Except.error e
        | Except.ok _ =>
          match pp.use_bittree with
          | none => Except.error "ParmParse::get: amr.use_bittree not found"
          | some _ => Except.ok m

/-- Modelled from the spec: a box together with its index type, one flag per direction
(`true`: node-based in that direction). -/
structure TypedBox (D : Nat) where
  box : Box D
  nodal : Fin D → Bool

/-- Modelled from the spec: `amrex::enclosedCells`, the cell-centred form of a box: in a
node-based direction the high end comes down by one. -/
def enclosedCells (b : TypedBox D) : Box D :=
  { smallEnd := b.box.smallEnd
    bigEnd := fun d => if b.nodal d then b.box.bigEnd d - 1 else b.box.bigEnd d }

/-- The function `AmrMesh::GetLevel(domain)`; the vector `geom` has `max_level + 1`
entries. -/
def GetLevel (m : AmrMesh D) (domain : TypedBox D) : Int :=
  match (levelsUp 0 (m.max_level + 1)).find?
      (fun lev => decide (m.domain lev = enclosedCells domain)) with
  | some lev => lev
  | none => -1

/-- A cell-centred box as an argument of `GetLevel`. -/
def cellBox (b : Box D) : TypedBox D := { box := b, nodal := fun _ => false }

/-- Modelled from the spec: the defaults of `AmrInfo` (one proper-nesting cell, target
efficiency 0.7, no fixed grids, grid chopping on), as an object on which set-up runs. -/
def amrInfo : AmrMesh D :=
  { max_level := 0
    finest_level := -1
    ref_ratio := fun _ _ => 2
    blocking_factor := fun _ _ => 8
    max_grid_size := fun _ _ => 32
    n_error_buf := fun _ _ => 1
    n_proper := 1
    grid_eff := Rat.mk' 7 10 (by decide) (by decide)
    use_fixed_coarse_grids := false
    use_fixed_upto_level := 0
    refine_grid_layout := true
    refine_grid_layout_dims := fun _ => 1
    use_new_chop := false
    domain := fun _ => { smallEnd := fun _ => 0, bigEnd := fun _ => -1 }
    is_periodic := fun _ _ => 0
    prob_volume_pos := false
    grids := fun _ => [] }

/-- The parameter table of a one-level run that supplies both `ref_ratio` and
`ref_ratio_vect`. -/
def bothRatios : AmrParams 1 :=
  { max_level := some 0
    n_proper := none
    grid_eff := none
    n_error_buf := []
    n_error_buf_dir := fun _ => []
    ref_ratio_vect := some [2]
    ref_ratio := some [2]
    max_grid_size := []
    max_grid_size_dir := fun _ => []
    blocking_factor := []
    blocking_factor_dir := fun _ => []
    n_cell := some [16]
    refine_grid_layout := none
    refine_grid_layout_dir := fun _ => none
    check_input := none
    use_bittree := some false }

end InitAmrMesh

/-! ## The driver `AmrMesh::MakeNewGrids(Real time)` -/

section Driver

variable {D : Nat} {T C DM : Type}

/-- A call of `SetBoxArray` or of `SetDistributionMap` that a callback makes. -/
inductive SetterCall (D : Nat) (DM : Type) where
  | boxArray (lev : Int) (ba : BoxList D)
  | distributionMap (lev : Int) (dm : DM)

/-- What happens to the mesh object during the driver, as a record for the proofs: a call
of `MakeNewLevelFromScratch`, or a call of a setter, by the driver itself (`byDriver`) or
by a callback. -/
inductive DriverEvent where
  | fromScratch (lev : Int)
  | setBoxArray (byDriver : Bool) (lev : Int)
  | setDistributionMap (byDriver : Bool) (lev : Int)
  deriving DecidableEq, Repr

/-- The mesh object while the driver runs: the members of `AmrMesh` (among them
`finest_level` and `grids`), the distribution maps `dmap`, the two counters of setter
calls, and the record of events, latest first. -/
structure MeshState (D : Nat) (DM : Type) where
  mesh : AmrMesh D
  dmap : Int → DM
  num_setdm : Int
  num_setba : Int
  log : List DriverEvent

/-- The function `AmrMesh::SetDistributionMap(lev, dmap_in)`. -/
def SetDistributionMap [DecidableEq DM] (s : MeshState D DM) (byDriver : Bool) (lev : Int)
    (dmap_in : DM) : MeshState D DM :=
  { s with
    num_setdm := s.num_setdm + 1
    dmap := if s.dmap lev ≠ dmap_in then Function.update s.dmap lev dmap_in else s.dmap
    log := DriverEvent.setDistributionMap byDriver lev :: s.log }

/-- The function `AmrMesh::SetBoxArray(lev, ba_in)`. -/
def SetBoxArray (s : MeshState D DM) (byDriver : Bool) (lev : Int) (ba_in : BoxList D) :
    MeshState D DM :=
  { s with
    num_setba := s.num_setba + 1
    mesh :=
      { s.mesh with
        grids := if s.mesh.grids lev ≠ ba_in then Function.update s.mesh.grids lev ba_in
          else s.mesh.grids }
    log := DriverEvent.setBoxArray byDriver lev :: s.log }

/-- The functions the driver calls that are not defined in the source: the constructors
`DistributionMapping()` and `DistributionMapping(ba)` of the library, and the virtual
functions `PostProcessBaseGrids` and `MakeNewLevelFromScratch` of the client.  The client
may act on the mesh object through the two setters: `MakeNewLevelFromScratch` is given by
the setter calls it makes, in order, on the object it finds. -/
structure Callbacks (D : Nat) (DM : Type) where
  emptyDM : DM
  makeDM : BoxList D → DM
  PostProcessBaseGrids : BoxList D → BoxList D
  MakeNewLevelFromScratch : MeshState D DM → Int → ℚ → BoxList D → DM → List (SetterCall D DM)

/-- The level that a setter call of a callback acts on. -/
def SetterCall.level : SetterCall D DM → Int
  | SetterCall.boxArray lev _ => lev
  | SetterCall.distributionMap lev _ => lev

/-- A client whose callback `MakeNewLevelFromScratch(lev, ...)` calls the setters for the
level `lev` only. -/
def Callbacks.ownLevel (cb : Callbacks D DM) : Prop :=
  ∀ s lev time ba dm, ∀ c ∈ cb.MakeNewLevelFromScratch s lev time ba dm, c.level = lev

/-- The setter calls of a callback, applied in order. -/
def applyCalls [DecidableEq DM] (s : MeshState D DM) : List (SetterCall D DM) → MeshState D DM
  | [] => s
  | SetterCall.boxArray lev ba :: rest => applyCalls (SetBoxArray s false lev ba) rest
  | SetterCall.distributionMap lev dm :: rest =>
    applyCalls (SetDistributionMap s false lev dm) rest

/-- A call `MakeNewLevelFromScratch(lev, time, ba, dm)`. -/
def runFromScratch [DecidableEq DM] (cb : Callbacks D DM) (s : MeshState D DM) (lev : Int)
    (time : ℚ) (ba : BoxList D) (dm : DM) : MeshState D DM :=
  applyCalls { s with log := DriverEvent.fromScratch lev :: s.log }
    (cb.MakeNewLevelFromScratch s lev time ba dm)

/-- The box array `ba` of `AmrMesh::MakeBaseGrids` before the call of `ChopGrids`: the
domain of level 0 coarsened by `fac`, cut by `maxSize` and refined by `fac`. -/
def baseBoxes (x : Collab D T C) (m : AmrMesh D) : BoxList D :=
  let dom := m.domain 0
  let dom2 := (dom.coarsen (fun _ => 2)).refine (fun _ => 2)
  let fac : IntVect D := fun idim => if dom.length idim ≠ dom2.length idim then 1 else 2
  let ba : BoxList D := [dom.coarsen fac]
  let ba := x.maxSize (fun d => cdiv (m.max_grid_size 0 d) (fac d)) ba
  ba.refine fac

/-- The function `AmrMesh::MakeBaseGrids`. -/
def MakeBaseGrids (x : Collab D T C) (cb : Callbacks D DM) (m : AmrMesh D) :
    Option (BoxList D) :=
  let ba := baseBoxes x m
  match (if m.refine_grid_layout then ChopGrids x.maxSize m 0 ba x.NProcs else some ba) with
  | none => none
  | some ba => some (cb.PostProcessBaseGrids ba)

/-- The function `AmrMesh::MakeNewGrids(lbase, time, new_finest, new_grids, new_dmap)`,
bittree off: the returned `new_finest`, `new_grids` and `new_dmap`. -/
def MakeNewGridsDM (x : Collab D T C) (cb : Callbacks D DM) (m : AmrMesh D) (lbase : Int)
    (time : ℚ) (new_grids : Int → BoxList D) (new_dmap : Int → DM) (fuel : Nat) :
    Option (Except String (Int × (Int → BoxList D) × (Int → DM))) :=
  match MakeNewGrids x m lbase time new_grids fuel with
  | none => none
  | some (Except.error e) => some (Except.error e)
  | some (Except.ok st) =>
    some (Except.ok (st.new_finest, st.new_grids,
      (levelsUp (lbase + 1) (st.new_finest + 1)).foldl
        (fun nd lev => Function.update nd lev (cb.makeDM (st.new_grids lev))) new_dmap))

/-- How a run of the driver, or of one of its loops, ends: it returns, it aborts, a nested
call of `MakeNewGrids(lbase, ...)` has not returned within the fuel given to it, or the
loop has not ended within the number of passes allowed. -/
inductive Outcome (α : Type) where
  | done (a : α)
  | abort (msg : String)
  | stuck
  | unfinished

/-- The local state of the driver: the mesh object, the vectors `new_grids` and `new_dmap`,
and as a record for the proofs the values of `finest_level` before and after each pass of
the growth loop that has raised it (latest first) and the numbers of passes made by the
two loops. -/
structure DriverState (D : Nat) (DM : Type) where
  s : MeshState D DM
  new_grids : Int → BoxList D
  new_dmap : Int → DM
  raised : List (Int × Int)
  grow_passes : Nat
  stab_passes : Nat

/-- The three statements that commit a level above 0: the callback
`MakeNewLevelFromScratch(lev, time, ba, dm)`, then `SetBoxArray(lev, ba)` and
`SetDistributionMap(lev, dm)`. -/
def commitLevel [DecidableEq DM] (cb : Callbacks D DM) (s : MeshState D DM) (lev : Int)
    (time : ℚ) (ba : BoxList D) (dm : DM) : MeshState D DM :=
  SetDistributionMap (SetBoxArray (runFromScratch cb s lev time ba dm) true lev ba) true lev dm

/-- The growth loop `do { ... } while (finest_level < max_level)`, at most `passes` passes. -/
def growLoop [DecidableEq DM] (x : Collab D T C) (cb : Callbacks D DM) (time : ℚ)
    (fuel : Nat) : Nat → DriverState D DM → Outcome (DriverState D DM)
  | 0, _ => Outcome.unfinished
  | passes + 1, g =>
    match MakeNewGridsDM x cb g.s.mesh g.s.mesh.finest_level time g.new_grids g.new_dmap
        fuel with
    | none => Outcome.stuck
    | some (Except.error e) => Outcome.abort e
    | some (Except.ok (new_finest, new_grids, new_dmap)) =>
      let g1 : DriverState D DM :=
        { g with new_grids := new_grids, new_dmap := new_dmap,
                 grow_passes := g.grow_passes + 1 }
      if new_finest ≤ g.s.mesh.finest_level then Outcome.done g1
      else
        let s1 : MeshState D DM :=
          { g.s with mesh := { g.s.mesh with finest_level := new_finest } }
        let s2 := commitLevel cb s1 new_finest time (new_grids s1.mesh.finest_level)
          (new_dmap s1.mesh.finest_level)
        let g2 : DriverState D DM :=
          { g1 with s := s2, raised := (g.s.mesh.finest_level, new_finest) :: g.raised }
        if s2.mesh.finest_level < s2.mesh.max_level then growLoop x cb time fuel passes g2
        else Outcome.done g2

/-- One level of the loop `for (lev = 1; lev <= new_finest; ++lev)` of a stabilization
pass: the mesh object and the flag `grids_the_same`. -/
def stabLevel [DecidableEq DM] (cb : Callbacks D DM) (time : ℚ)
    (new_grids : Int → BoxList D) (new_dmap : Int → DM)
    (acc : MeshState D DM × Bool) (lev : Int) : MeshState D DM × Bool :=
  if new_grids lev ≠ acc.1.mesh.grids lev ∨ new_dmap lev ≠ acc.1.dmap lev then
    (commitLevel cb acc.1 lev time (new_grids lev) (new_dmap lev), false)
  else acc

/-- The loop `for (lev = 1; lev <= new_finest; ++lev)` of a stabilization pass, from the
mesh object `s1` with the flag `grids_the_same` set. -/
def stabPass [DecidableEq DM] (cb : Callbacks D DM) (time : ℚ) (new_finest : Int)
    (new_grids : Int → BoxList D) (new_dmap : Int → DM) (s1 : MeshState D DM) :
    MeshState D DM × Bool :=
  (levelsUp 1 (new_finest + 1)).foldl (stabLevel cb time new_grids new_dmap) (s1, true)

/-- The stabilization loop `for (int it=0; it<4; ++it)`: `left` is the number of passes
left, 4 at the start. -/
def stabLoop [DecidableEq DM] (x : Collab D T C) (cb : Callbacks D DM) (time : ℚ)
    (fuel : Nat) : Nat → DriverState D DM → Outcome (DriverState D DM)
  | 0, g => Outcome.done g
  | left + 1, g =>
    let finest_level := g.s.mesh.finest_level
    let new_grids0 : Int → BoxList D := fun i =>
      if 1 ≤ i ∧ i ≤ finest_level then g.s.mesh.grids i else g.new_grids i
    let new_dmap0 : Int → DM := fun i =>
      if 1 ≤ i ∧ i ≤ finest_level then g.s.dmap i else g.new_dmap i
    match MakeNewGridsDM x cb g.s.mesh 0 time new_grids0 new_dmap0 fuel with
    | none => Outcome.stuck
    | some (Except.error e) => Outcome.abort e
    | some (Except.ok (new_finest, new_grids, new_dmap)) =>
      let g1 : DriverState D DM :=
        { g with new_grids := new_grids, new_dmap := new_dmap,
                 stab_passes := g.stab_passes + 1 }
      if new_finest < finest_level then Outcome.done g1
      else
        let s1 : MeshState D DM :=
          { g.s with mesh := { g.s.mesh with finest_level := new_finest } }
        let r := stabPass cb time new_finest new_grids new_dmap s1
        let g2 : DriverState D DM := { g1 with s := r.1 }
        if r.2 then Outcome.done g2 else stabLoop x cb time fuel left g2

/-- The first block of the driver: `finest_level = 0`, the base grids, the callback for
level 0 and the two guarded setter calls. -/
def commitBase [DecidableEq DM] (x : Collab D T C) (cb : Callbacks D DM)
    (s0 : MeshState D DM) (time : ℚ) : Option (MeshState D DM) :=
  let s : MeshState D DM := { s0 with mesh := { s0.mesh with finest_level := 0 } }
  match MakeBaseGrids x cb s.mesh with
  | none => none
  | some ba =>
    let dm := cb.makeDM ba
    let old_num_setdm := s.num_setdm
    let old_num_setba := s.num_setba
    let s1 := runFromScratch cb s 0 time ba dm
    let s2 := if old_num_setba = s1.num_setba then SetBoxArray s1 true 0 ba else s1
    some (if old_num_setdm = s2.num_setdm then SetDistributionMap s2 true 0 dm else s2)

/-- The local state of the driver when level 0 has been committed: `new_grids[0]` and
`new_dmap[0]` are the committed ones, the other entries are empty. -/
def driverStart (cb : Callbacks D DM) (s : MeshState D DM) : DriverState D DM :=
  { s := s
    new_grids := fun i => if i = 0 then s.mesh.grids 0 else []
    new_dmap := fun i => if i = 0 then s.dmap 0 else cb.emptyDM
    raised := []
    grow_passes := 0
    stab_passes := 0 }

/-- The function `AmrMesh::MakeNewGrids(Real time)`, bittree off, on the mesh object `s0`.
`iterate_on_new_grids` is the flag of `AmrInfo`; `fuel` bounds the inner loop of each
nested call `MakeNewGrids(lbase, ...)`, `passes` the passes of the growth loop. -/
def MakeNewGridsTime [DecidableEq DM] (x : Collab D T C) (cb : Callbacks D DM)
    (iterate_on_new_grids : Bool) (s0 : MeshState D DM) (time : ℚ) (fuel passes : Nat) :
    Outcome (DriverState D DM) :=
  match commitBase x cb s0 time with
  | none => Outcome.stuck
  | some s =>
    let g0 := driverStart cb s
    if s.mesh.max_level > 0 then
      match growLoop x cb time fuel passes g0 with
      | Outcome.done g => if iterate_on_new_grids then stabLoop x cb time fuel 4 g
          else Outcome.done g
      | other => other
    else Outcome.done g0

/-- Whether a run has returned with a state that passes the test `P`. -/
def outcomeHas {α : Type} (o : Outcome α) (P : α → Bool) : Bool :=
  match o with
  | Outcome.done a => P a
  | _ => false

/-- Whether a run has got stuck in a nested call. -/
def isStuck {α : Type} : Outcome α → Bool
  | Outcome.stuck => true
  | _ => false

/-- The mesh object before the driver runs on the configuration `m`: no distribution
maps, counters at zero. -/
def freshState (m : AmrMesh D) : MeshState D (List Nat) :=
  { mesh := m, dmap := fun _ => [], num_setdm := 0, num_setba := 0, log := [] }

/-- Callbacks for one process: every box goes to process 0, and the client sets nothing. -/
def plainCallbacks : Callbacks D (List Nat) :=
  { emptyDM := []
    makeDM := fun ba => List.replicate ba.length 0
    PostProcessBaseGrids := fun ba => ba
    MakeNewLevelFromScratch := fun _ _ _ _ _ => [] }

/-- A client that, when level `lev0` is made, places the boxes of that level itself: it
calls `SetDistributionMap(lev0, dm0)`. -/
def placingCallbacks (lev0 : Int) (dm0 : List Nat) : Callbacks D (List Nat) :=
  { plainCallbacks with
    MakeNewLevelFromScratch := fun _ lev _ _ _ =>
      if lev = lev0 then [SetterCall.distributionMap lev0 dm0] else [] }

/-- A client that, when level `lev0` is made, sets the boxes of the level `lev1` as well:
its callback calls `SetBoxArray(lev1, ba1)`. -/
def crossCallbacks (lev0 lev1 : Int) (ba1 : BoxList D) : Callbacks D (List Nat) :=
  { plainCallbacks with
    MakeNewLevelFromScratch := fun _ lev _ _ _ =>
      if lev = lev0 then [SetterCall.boxArray lev1 ba1] else [] }

/-- A one-dimensional configuration with four levels: the domain `[0,15]` at level 0,
refinement ratio 2, blocking factor 2, no error buffer, `n_proper = 0`. -/
def deepMesh : AmrMesh 1 :=
  { max_level := 3
    finest_level := -1
    ref_ratio := fun _ _ => 2
    blocking_factor := fun _ _ => 2
    max_grid_size := fun _ _ => 8
    n_error_buf := fun _ _ => 0
    n_proper := 0
    grid_eff := Rat.mk' 7 10 (by decide) (by decide)
    use_fixed_coarse_grids := false
    use_fixed_upto_level := 0
    refine_grid_layout := true
    refine_grid_layout_dims := fun _ => 1
    use_new_chop := false
    domain := fun lev =>
      if lev = 0 then box1 0 15 else if lev = 1 then box1 0 31
      else if lev = 2 then box1 0 63 else box1 0 127
    is_periodic := fun _ _ => 0
    prob_volume_pos := true
    grids := fun _ => [] }

/-- An error estimator for `deepMesh`: it tags the cells 5 and 6 of level 0, the cell 12
of level 1 and the cell 24 of level 2. -/
def deepEst : Int → ℚ → List (IntVect 1) := fun lev _ =>
  if lev = 0 then [fun _ => 5, fun _ => 6] else if lev = 1 then [fun _ => 12]
  else if lev = 2 then [fun _ => 24] else []

/-- The configuration `deepMesh` in the fixed-grid mode, with `useFixedUpToLevel() = 4`,
above `max_level`. -/
def fixedDeepMesh : AmrMesh 1 :=
  { deepMesh with use_fixed_coarse_grids := true, use_fixed_upto_level := 4 }

end Driver

/-! ## The tags of a level before they are coarsened -/

section TagStages

variable {D : Nat} {T C : Type}

/-- The tag array of the pass for level `levc` of `MakeNewGrids` after
`tags.buffer(n_error_buf[levc])`. -/
def tagsBuffered (x : Collab D T C) (m : AmrMesh D) (time : ℚ) (levc : Int)
    (ngt : IntVect D) : T :=
  let tags := x.tagInit (m.grids levc) ngt
  let tags := if notFixed m levc then x.ErrorEst levc tags time 0 else tags
  x.buffer (m.n_error_buf levc) tags

/-- The tag array after the block `if (useFixedCoarseGrids()) { ... }` that follows the
buffering. -/
def tagsFixed (x : Collab D T C) (m : AmrMesh D) (time : ℚ) (levc : Int)
    (ngt : IntVect D) : T :=
  let tags := tagsBuffered x m time levc ngt
  if m.use_fixed_coarse_grids ∧ levc ≥ m.use_fixed_upto_level
  then x.setVal (x.GetAreaNotToTag levc) TagVal.CLEAR tags else tags

/-- The value of a cell in the reference tag field. -/
def TagCells.tagAt (t : TagCells D) (c : IntVect D) : TagVal :=
  if c ∈ t.set then TagVal.SET else TagVal.CLEAR

/-- The mesh `lineMesh` in the fixed-grid mode, with `useFixedUpToLevel() = 0`. -/
def fixedMesh : AmrMesh 1 :=
  { lineMesh with use_fixed_coarse_grids := true, use_fixed_upto_level := 0 }

/-- The mesh `lineMesh` in the fixed-grid mode, with `useFixedUpToLevel() = 1`: level 0 is
held fixed, level 1 is not. -/
def heldBaseMesh : AmrMesh 1 :=
  { lineMesh with use_fixed_coarse_grids := true, use_fixed_upto_level := 1 }

/-- The reference collaborators with a client whose `GetAreaNotToTag` is the cell 5 at
every level. -/
def areaCollab : Collab 1 (TagCells 1) (List (List (IntVect 1))) :=
  { refCollab lineEst 1 with GetAreaNotToTag := fun _ => [box1 5 5] }

/-- The mesh `lineMesh` without grids at any level. -/
def bareMesh : AmrMesh 1 :=
  { lineMesh with grids := fun _ => [] }

/-- The configuration `deepMesh` with grids on three levels and `n_proper = 1`: the two
boxes `[0,7]`, `[8,15]` on level 0, the box `[8,23]` on level 1 and the box `[24,39]` on
level 2. -/
def nestedMesh : AmrMesh 1 :=
  { deepMesh with
    finest_level := 2
    n_proper := 1
    grids := fun lev =>
      if lev = 0 then [box1 0 7, box1 8 15] else if lev = 1 then [box1 8 23]
      else if lev = 2 then [box1 24 39] else [] }

/-- A one-dimensional mesh whose level-0 domain `[1,2]` has an even number of cells and an
odd low end, with `max_grid_size[0] = 1`. -/
def oddStartMesh : AmrMesh 1 :=
  { lineMesh with
    domain := fun lev => if lev = 0 then box1 1 2 else box1 2 5
    max_grid_size := fun _ _ => 1
    blocking_factor := fun _ _ => 1 }

end TagStages

/-! ## `FEIntegrator::evolve` -/

section FEIntegrator

variable {S : Type}

/-- The members of `FEIntegrator` that `evolve` reads: the current state and time, and
`time_step` and `max_steps` of `IntegratorBase`.  Times are exact numbers. -/
structure FEIntegrator (S : Type) where
  S_current : S
  time_current : ℚ
  time_step : ℚ
  max_steps : Int

/-- The variables of the loop of `evolve`: the members `S_current` and `time_current`, the
argument `S_out`, and the locals `dt` and `stop`. -/
structure EvolveState (S : Type) where
  S_current : S
  S_out : S
  time_current : ℚ
  dt : ℚ
  stop : Bool
  deriving DecidableEq

/-- The loop `for (step_number = 0; step_number < max_steps && !stop; ++step_number)` of
`evolve`, from the pass `step_number` on.  `advance S_old time dt` is the state `S_new`
that `advance(S_old, S_new, time, dt)` leaves (the right-hand side and the post-step hook are
the client's).  `Except.error` is a call of `amrex::Error`; `none` means that the loop has
not ended within `fuel` passes. -/
def evolveLoop (advance : S → ℚ → ℚ → S) (max_steps : Int) (time_out : ℚ) :
    Nat → Int → EvolveState S → Option (Except String (EvolveState S))
  | 0, _, _ => none
  | fuel + 1, step_number, st =>
    if step_number < max_steps ∧ st.stop = false then
      let adjust := decide (time_out - st.time_current < st.dt)
      let dt := if adjust then time_out - st.time_current else st.dt
      let stop := if adjust then true else st.stop
      let S_out := advance st.S_current st.time_current dt
      let st1 : EvolveState S :=
        { S_current := S_out, S_out := S_out, time_current := st.time_current + dt,
          dt := dt, stop := stop }
      if step_number = max_steps - 1 then
        some (Except.error "Did not reach output time in max steps.")
      else evolveLoop advance max_steps time_out fuel (step_number + 1) st1
    else some (Except.ok st)

/-- The function `FEIntegrator::evolve(S_out, time_out)`. -/
def FEIntegrator.evolve (advance : S → ℚ → ℚ → S) (it : FEIntegrator S) (S_out : S)
    (time_out : ℚ) (fuel : Nat) : Option (Except String (EvolveState S)) :=
  evolveLoop advance it.max_steps time_out fuel 0
    { S_current := it.S_current, S_out := S_out, time_current := it.time_current,
      dt := it.time_step, stop := false }

/-- An integrator at time 0 with time step 2, whose state is the list of the steps
`(time, dt)` taken so far, latest first. -/
def stepper (max_steps : Int) : FEIntegrator (List (ℚ × ℚ)) :=
  { S_current := [], time_current := 0, time_step := 2, max_steps := max_steps }

/-- The `advance` of `stepper`: it records the step. -/
def recordStep : List (ℚ × ℚ) → ℚ → ℚ → List (ℚ × ℚ) := fun s time dt => (time, dt) :: s

end FEIntegrator

/-! ## `amrex::getEnumNameValuePairs` and `amrex::getEnum` -/

section Enum

/-- The string routines of `AMReX_String.H` that the enum functions call. -/
structure StringOps where
  /-- The routine `amrex::split(s, sep)`. -/
  split : String → String → List String
  /-- The routine `amrex::trim(s)`. -/
  trim : String → String

/-- The body of the loop `for (auto const& item : tmp)` of `getEnumNameValuePairs`, on the
vector `r` and the counter `next_value`.  `Except.error` is the `std::runtime_error`
thrown; `none` stands for the undefined behaviour of reading `it->second` when `find_if`
has found nothing. -/
def enumItem (ops : StringOps) (class_name enum_names : String)
    (acc : Option (Except String (List (String × Int) × Int))) (item : String) :
    Option (Except String (List (String × Int) × Int)) :=
  match acc with
  | some (Except.ok (r, next_value)) =>
    match ops.split item "=" with
    | [k] => some (Except.ok (r ++ [(ops.trim k, next_value)], next_value + 1))
    | [k, v] =>
      match r.find? (fun x => x.1 == ops.trim v) with
      | some x => some (Except.ok (r ++ [(ops.trim k, x.2)], x.2 + 1))
      | none => none
    | _ => some (Except.error
        ("amrex::getEnumNameIntPairs: AMREX_ENUM(" ++ class_name ++ ", " ++ enum_names ++ ")."))
  | other => other

/-- The function `amrex::getEnumNameValuePairs<T>()` for the enum class `class_name` with
the enumerator list `enum_names` (the text of the macro arguments). -/
def getEnumNameValuePairs (ops : StringOps) (class_name enum_names : String) :
    Option (Except String (List (String × Int))) :=
  match (ops.split enum_names ",").foldl (enumItem ops class_name enum_names)
      (some (Except.ok ([], 0))) with
  | some (Except.ok (r, _)) => some (Except.ok r)
  | some (Except.error e) => some (Except.error e)
  | none => none

/-- The function `amrex::getEnum<T>(s)`. -/
def getEnum (ops : StringOps) (class_name enum_names : String) (s : String) :
    Option (Except String Int) :=
  match getEnumNameValuePairs ops class_name enum_names with
  | some (Except.ok kv) =>
    match kv.find? (fun x => x.1 == s) with
    | some x => some (Except.ok x.2)
    | none => some (Except.error
        ("amrex::getEnum: Unknown enum: " ++ s ++ " in AMREX_ENUM(" ++ class_name ++ ", "
          ++ enum_names ++ ")."))
  | some (Except.error e) => some (Except.error e)
  | none => none

/-- An enumerator of an `AMREX_ENUM` list: `NAME`, or `NAME = EARLIER_NAME`. -/
structure Enumerator where
  name : String
  init : Option String

/-- What the two levels of `split` and the `trim` make of an enumerator. -/
def Enumerator.fields (e : Enumerator) : List String :=
  match e.init with
  | none => [e.name]
  | some a => [e.name, a]

/-- The value that the C++ enum definition gives to the enumerator `e` that follows the
enumerators `before`, whose values are known: an enumerator without initializer gets 0 if
it is the first and otherwise one more than the value of the enumerator before it; an
enumerator `NAME = EARLIER_NAME` gets the value of `EARLIER_NAME` (0 stands in for a name
that is not declared, which C++ rejects). -/
def declaredValue (before : List (String × Int)) (e : Enumerator) : Int :=
  match e.init with
  | none =>
    match before.getLast? with
    | none => 0
    | some p => p.2 + 1
  | some a =>
    match before.find? (fun x => x.1 == a) with
    | some x => x.2
    | none => 0

/-- The enumerators of a list with the values that the C++ enum definition gives them, in
the order of declaration. -/
def declaredValues (es : List Enumerator) : List (String × Int) :=
  es.foldl (fun before e => before ++ [(e.name, declaredValue before e)]) []

/-- Every initializer of the list names an enumerator declared before it. -/
def initsDeclared : List String → List Enumerator → Prop
  | _, [] => True
  | seen, e :: rest =>
    (match e.init with
      | none => True
      | some a => a ∈ seen) ∧ initsDeclared (seen ++ [e.name]) rest

/-- A list of characters cut at every occurrence of the separator. -/
def splitList (sep : Char) : List Char → List (List Char)
  | [] => [[]]
  | c :: cs =>
    if c = sep then [] :: splitList sep cs
    else
      match splitList sep cs with
      | [] => [[c]]
      | w :: ws => (c :: w) :: ws

/-- String routines for the examples: the text is cut at every occurrence of the
separator (a single character), and the blanks at the two ends of a field are dropped. -/
def plainOps : StringOps :=
  { split := fun s sep => (splitList (sep.data.headD ',') s.data).map String.mk
    trim := fun s =>
      String.mk (((s.data.dropWhile (fun c => c = ' ')).reverse.dropWhile
        (fun c => c = ' ')).reverse) }

/-- The enumerators of `AMREX_ENUM(Color, red, green = red, blue)`. -/
def colorEnum : List Enumerator :=
  [{ name := "red", init := none }, { name := "green", init := some "red" },
   { name := "blue", init := none }]

end Enum

/-! ## The instruction `PARSER_EXE_POWI` of `parser_exe_eval` -/

section Parser

/-- The value of an `int` expression whose exact value is `z`: the value itself when it
is an `int` (32 bits), and none otherwise: the overflow of a signed integer is undefined
behaviour, no result is defined for it. -/
def intValue (z : Int) : Option Int :=
  if -(2 ^ 31) ≤ z ∧ z < 2 ^ 31 then some z else none

/-- What the execution of an instruction gives: a value; or `undefined`, when the execution
meets undefined behaviour; or `unfinished`, when a loop has not ended within the passes
allowed. -/
inductive Exec (α : Type) where
  | value (a : α)
  | undefined
  | unfinished

/-- The struct `Stack<double, N>`: the array `m_data` and the size `m_size`.  The entries
are exact numbers. -/
structure Stack where
  m_data : Int → ℚ
  m_size : Int

/-- The loop `while (n > 1)` of the instruction, on the top of the stack `d`, the local
`y` and the exponent `n`: the values of `d` and `y` when it ends, `none` when it has not
ended within `fuel` passes. -/
def powiLoop : Nat → ℚ → ℚ → Int → Option (ℚ × ℚ)
  | 0, _, _, _ => none
  | fuel + 1, d, y, n =>
    if n > 1 then
      if cmod n 2 = 0 then powiLoop fuel (d * d) y (cdiv n 2)
      else powiLoop fuel (d * d) (y * d) (cdiv (n - 1) 2)
    else some (d, y)

/-- The block `if (n < 0) { d = 1.0/d; n = -n; }` of the instruction: the values of `d`
and `n` after it, none when `-n` is not an `int`. -/
def powiSign (d : ℚ) (n : Int) : Option (ℚ × Int) :=
  if n < 0 then
    match intValue (-n) with
    | none => none
    | some n1 => some (1 / d, n1)
  else some (d, n)

/-- The case `PARSER_EXE_POWI` of `parser_exe_eval` with the exponent `n` of the
instruction: the stack it leaves.  `d` is a reference to the top of the stack, the entry
`m_size - 1` of `m_data`. -/
def exePOWI (fuel : Nat) (n : Int) (pstack : Stack) : Exec Stack :=
  let top := pstack.m_size - 1
  let d := pstack.m_data top
  if n ≠ 0 then
    match powiSign d n with
    | none => Exec.undefined
    | some (d1, n1) =>
      match powiLoop fuel d1 1 n1 with
      | none => Exec.unfinished
      | some (d2, y) =>
        Exec.value { pstack with m_data := Function.update pstack.m_data top (d2 * y) }
  else Exec.value { pstack with m_data := Function.update pstack.m_data top 1 }

/-- A stack holding the numbers of a list, the last one on top. -/
def stackOf (l : List ℚ) : Stack :=
  { m_data := fun i => if 0 ≤ i then l.getD i.toNat 0 else 0, m_size := l.length }

end Parser

end amrex

/-! # Theorems -/

namespace amrex
variable {D : Nat}

theorem Box.ext_iff' (a b : Box D) : a = b ↔ a.smallEnd = b.smallEnd ∧ a.bigEnd = b.bigEnd := by
  cases a; cases b; simp

theorem Box.shift_shift_neg (b : Box D) (d : Fin D) (n m : Int) (h : m = -n) :
    (b.shift d n).shift d m = b := by
  subst h
  rw [Box.ext_iff']
  constructor <;> (funext e; by_cases he : e = d <;> simp [Box.shift, he])

theorem BoxList.shift_shift_back (bl : BoxList D) (d : Fin D) (n m : Int) (h : m = -n) :
    (bl.shift d n).shift d m = bl := by
  induction bl with
  | nil => rfl
  | cons b t ih =>
    simp only [BoxList.shift, List.map_cons, List.map_map] at ih ⊢
    rw [ih]
    simp [Box.shift_shift_neg b d n m h]

theorem shiftDir_shiftDir_neg (bl : BoxList D) (d : Nat) (n m : Int) (h : m = -n) :
    shiftDir (shiftDir bl d n) d m = bl := by
  unfold shiftDir
  split
  · exact BoxList.shift_shift_back bl _ n m h
  · rfl

theorem Box.contains_shift (b : Box D) (d : Fin D) (n : Int) (c : IntVect D) :
    (b.shift d n).contains c ↔ b.contains (Function.update c d (c d - n)) := by
  unfold Box.contains Box.shift
  constructor
  · intro h e
    have := h e
    by_cases he : e = d
    · subst he; simp at this ⊢; omega
    · simpa [he] using this
  · intro h e
    have := h e
    by_cases he : e = d
    · subst he; simp at this ⊢; omega
    · simpa [he] using this

theorem BoxList.covers_shift (bl : BoxList D) (d : Fin D) (n : Int) (c : IntVect D) :
    (bl.shift d n).covers c ↔ bl.covers (Function.update c d (c d - n)) := by
  simp [BoxList.covers, BoxList.shift, Box.contains_shift]

theorem Box.contains_intersect (a b : Box D) (c : IntVect D) :
    (a.intersect b).contains c ↔ a.contains c ∧ b.contains c := by
  unfold Box.contains Box.intersect
  constructor
  · intro h
    exact ⟨fun d => by have := h d; simp at this; omega, fun d => by have := h d; simp at this; omega⟩
  · rintro ⟨h1, h2⟩ d
    have := h1 d; have := h2 d; simp; omega

theorem Box.contains_ok (a : Box D) (c : IntVect D) (h : a.contains c) : a.ok := by
  intro d; have := h d; omega

theorem BoxList.covers_intersect (bl : BoxList D) (b : Box D) (c : IntVect D) :
    (bl.intersect b).covers c ↔ bl.covers c ∧ b.contains c := by
  unfold BoxList.covers BoxList.intersect
  constructor
  · rintro ⟨x, hx, hc⟩
    simp only [List.mem_filter, List.mem_map] at hx
    obtain ⟨⟨y, hy, rfl⟩, _⟩ := hx
    rw [Box.contains_intersect] at hc
    exact ⟨⟨y, hy, hc.1⟩, hc.2⟩
  · rintro ⟨⟨y, hy, hyc⟩, hb⟩
    have hc : (y.intersect b).contains c := (Box.contains_intersect y b c).2 ⟨hyc, hb⟩
    refine ⟨y.intersect b, ?_, hc⟩
    simp only [List.mem_filter, List.mem_map, decide_eq_true_eq]
    exact ⟨⟨y, hy, rfl⟩, Box.contains_ok _ c hc⟩

theorem BoxList.covers_append (a b : BoxList D) (c : IntVect D) :
    BoxList.covers (a ++ b) c ↔ a.covers c ∨ b.covers c := by
  simp [BoxList.covers, List.mem_append, or_and_right, exists_or]

theorem BoxList.covers_flatMap {α : Type} (l : List α) (f : α → BoxList D) (c : IntVect D) :
    BoxList.covers (l.flatMap f) c ↔ ∃ a ∈ l, (f a).covers c := by
  simp only [BoxList.covers, List.mem_flatMap]
  constructor
  · rintro ⟨b, ⟨a, ha, hb⟩, hc⟩; exact ⟨a, ha, b, hb, hc⟩
  · rintro ⟨a, ha, b, hb, hc⟩; exact ⟨b, ⟨a, ha, hb⟩, hc⟩

end amrex

namespace amrex
variable {D : Nat} {T C : Type}

/-! ### The tagging part of the loop body and its record -/

/-- The tagging part of the loop body, written out without the record of events. -/
theorem tagLevel_eq (x : Collab D T C) (m : AmrMesh D) (lbase : Int) (time : ℚ)
    (new_finest : Int) (levc : Int) (ba_proj : BoxList D) (ngt : IntVect D) :
    tagLevel x m lbase time new_finest levc ba_proj ngt =
      (let levf := levc + 1
       let tags := x.tagInit (m.grids levc) ngt
       let tags := if notFixed m levc then x.ErrorEst levc tags time 0 else tags
       let tags := x.buffer (m.n_error_buf levc) tags
       let tags :=
         if m.use_fixed_coarse_grids ∧ levc ≥ m.use_fixed_upto_level
         then x.setVal (x.GetAreaNotToTag levc) TagVal.CLEAR tags else tags
       let new_finest :=
         if m.use_fixed_coarse_grids ∧ ¬ levc ≥ m.use_fixed_upto_level
         then max new_finest levf else new_finest
       if bl_max m levc ≥ 1 then
         let tags := x.tagCoarsen (bf_lev m levc) tags
         let tags := x.ManualTagsPlacement levc tags (bf_lev m)
         let tags :=
           if levf < new_finest
           then x.setVal (ba_proj.coarsen (bf_lev m levc)) TagVal.SET tags else tags
         let tags := x.mapPeriodicRemoveDuplicates (pc_domain m levc) (m.is_periodic levc) tags
         let tags := x.setVal (p_n_comp_ba x m lbase levc) TagVal.CLEAR tags
         Except.ok (new_finest, x.collate tags)
       else Except.error "blocking factor is too small relative to ref_ratio") := by
  unfold tagLevel tagLevelTraced callErrorEst
  by_cases hb : bl_max m levc ≥ 1
  · by_cases hn : notFixed m levc = true
    · simp only [hb, hn, if_true]
    · simp only [hb, hn, if_true, if_false, Bool.false_eq_true]
  · by_cases hn : notFixed m levc = true
    · simp only [hb, hn, if_true, if_false]
    · simp only [hb, hn, if_false, Bool.false_eq_true]

/-- The record that the tagging part of the loop body leaves: the event of the call of the
estimator is put in front exactly when the level is not held fixed, and the rest of the
result is that of `tagLevel`. -/
theorem tagLevelTraced_eq (x : Collab D T C) (m : AmrMesh D) (lbase : Int) (time : ℚ)
    (new_finest : Int) (levc : Int) (ba_proj : BoxList D) (ngt : IntVect D)
    (trace : List Event) :
    tagLevelTraced x m lbase time new_finest levc ba_proj ngt trace =
      match tagLevel x m lbase time new_finest levc ba_proj ngt with
      | Except.error e => Except.error e
      | Except.ok (new_finest, tagvec) =>
        Except.ok (new_finest, tagvec,
          if notFixed m levc then Event.errorEst levc :: trace else trace) := by
  unfold tagLevel tagLevelTraced callErrorEst
  by_cases hb : bl_max m levc ≥ 1
  · by_cases hn : notFixed m levc = true
    · simp only [hb, hn, if_true]
    · simp only [hb, hn, if_true, if_false, Bool.false_eq_true]
  · by_cases hn : notFixed m levc = true
    · simp only [hb, hn, if_true, if_false]
    · simp only [hb, hn, if_false, Bool.false_eq_true]

/-- One pass of the level loop, written out with `tagLevel`. -/
theorem levelStep_eq (x : Collab D T C) (m : AmrMesh D) (lbase : Int) (time : ℚ) (fuel : Nat)
    (st : GridState D) (levc : Int) :
    levelStep x m lbase time fuel st levc =
      match projectDown x m fuel st levc with
      | none => none
      | some (ba_proj, ngt) =>
        match tagLevel x m lbase time st.new_finest levc ba_proj ngt with
        | Except.error e => some (Except.error e)
        | Except.ok (new_finest, tagvec) =>
          let st1 : GridState D :=
            { new_finest := new_finest
              new_grids := st.new_grids
              trace := if notFixed m levc then Event.errorEst levc :: st.trace else st.trace }
          some (Except.ok (clusterLevel x m lbase levc st1 tagvec)) := by
  unfold levelStep
  cases hp : projectDown x m fuel st levc with
  | none => rfl
  | some r =>
    obtain ⟨ba_proj, ngt⟩ := r
    simp only []
    rw [tagLevelTraced_eq]
    cases tagLevel x m lbase time st.new_finest levc ba_proj ngt with
    | error e => rfl
    | ok r =>
      obtain ⟨nf, tagvec⟩ := r
      rfl

end amrex

namespace amrex
variable {D : Nat}

theorem shiftIf_back (is_per : Fin D → Int) (domain : Box D) (d : Nat) (r : Int)
    (B : BoxList D) :
    (if r ≠ 0 ∧ isPer is_per d = true
      then shiftDir (shiftIf is_per domain d r B) d (-r * domLength domain d)
      else shiftIf is_per domain d r B) = B := by
  unfold shiftIf
  split
  · exact shiftDir_shiftDir_neg B d _ _ (by ring)
  · rfl

theorem projPeriodicK_eq (domain : Box D) (is_per : Fin D → Int) (B out : BoxList D)
    (rk : Int) :
    projPeriodicK domain is_per (B, out) rk = (B, out ++ addK is_per domain B rk) := by
  unfold projPeriodicK addK
  split
  · simp
  · have hb := shiftIf_back is_per domain 2 rk B
    simp only [shiftIf, BoxList.catenate] at hb ⊢
    rw [hb]

theorem foldl_projPeriodicK (domain : Box D) (is_per : Fin D → Int) (B : BoxList D)
    (rs : List Int) (out : BoxList D) :
    rs.foldl (projPeriodicK domain is_per) (B, out)
      = (B, out ++ rs.flatMap (addK is_per domain B)) := by
  induction rs generalizing out with
  | nil => simp
  | cons r t ih => simp [List.foldl_cons, projPeriodicK_eq, ih, List.flatMap_cons]

theorem projPeriodicJ_eq (domain : Box D) (is_per : Fin D → Int) (B out : BoxList D)
    (rj : Int) :
    projPeriodicJ domain is_per (B, out) rj = (B, out ++ addJ is_per domain B rj) := by
  unfold projPeriodicJ addJ
  split
  · simp
  · have hb := shiftIf_back is_per domain 1 rj B
    have hf := foldl_projPeriodicK domain is_per (shiftIf is_per domain 1 rj B)
      (shiftRange D 2) out
    simp only [shiftIf] at hb hf ⊢
    rw [hf]
    simp only []
    rw [hb]

theorem foldl_projPeriodicJ (domain : Box D) (is_per : Fin D → Int) (B : BoxList D)
    (rs : List Int) (out : BoxList D) :
    rs.foldl (projPeriodicJ domain is_per) (B, out)
      = (B, out ++ rs.flatMap (addJ is_per domain B)) := by
  induction rs generalizing out with
  | nil => simp
  | cons r t ih => simp [List.foldl_cons, projPeriodicJ_eq, ih, List.flatMap_cons]

theorem projPeriodicI_eq (domain : Box D) (is_per : Fin D → Int) (B out : BoxList D)
    (ri : Int) :
    projPeriodicI domain is_per (B, out) ri = (B, out ++ addI is_per domain B ri) := by
  unfold projPeriodicI addI
  split
  · simp
  · have hb := shiftIf_back is_per domain 0 ri B
    have hf := foldl_projPeriodicJ domain is_per (shiftIf is_per domain 0 ri B)
      (shiftRange D 1) out
    simp only [shiftIf] at hb hf ⊢
    rw [hf]
    simp only []
    rw [hb]

theorem foldl_projPeriodicI (domain : Box D) (is_per : Fin D → Int) (B : BoxList D)
    (rs : List Int) (out : BoxList D) :
    rs.foldl (projPeriodicI domain is_per) (B, out)
      = (B, out ++ rs.flatMap (addI is_per domain B)) := by
  induction rs generalizing out with
  | nil => simp
  | cons r t ih => simp [List.foldl_cons, projPeriodicI_eq, ih, List.flatMap_cons]

theorem ProjPeriodic_eq (bl : BoxList D) (domain : Box D) (is_per : Fin D → Int) :
    ProjPeriodic bl domain is_per
      = bl ++ (shiftRange D 0).flatMap (addI is_per domain bl) := by
  unfold ProjPeriodic
  rw [foldl_projPeriodicI]

end amrex

namespace amrex
variable {D : Nat}

theorem covers_shiftIf (is_per : Fin D → Int) (domain : Box D) (d : Nat) (h : d < D) (r : Int)
    (B : BoxList D) (c : IntVect D) (hr : ¬ (r ≠ 0 ∧ isPer is_per d = false)) :
    (shiftIf is_per domain d r B).covers c
      ↔ B.covers (Function.update c ⟨d, h⟩ (c ⟨d, h⟩ - r * domain.length ⟨d, h⟩)) := by
  unfold shiftIf
  split
  · simp only [shiftDir, domLength, h, dite_true]
    exact BoxList.covers_shift B _ _ c
  · rename_i h2
    have hr0 : r = 0 := by
      by_contra hne
      cases hp : isPer is_per d
      · exact hr ⟨hne, hp⟩
      · exact h2 ⟨hne, hp⟩
    subst hr0
    simp

/-- C8: after `ProjPeriodic(bl, domain, is_per)` (three space dimensions) a cell `c` is
covered by `bl` if and only if it was covered by the list passed in, or it lies in
`domain` and the cell `c - (s_0*L_0, s_1*L_1, s_2*L_2)` was covered by the list passed in
for a shift vector `s` with entries in `{-1, 0, 1}` that is 0 in every non-periodic
direction, `L_d` being `domain.length(d)`. -/
theorem ProjPeriodic_covers3 (bl : BoxList 3) (domain : Box 3) (is_per : Fin 3 → Int)
    (c : IntVect 3) :
    (ProjPeriodic bl domain is_per).covers c ↔
      (bl.covers c ∨ (domain.contains c ∧ ∃ s : Fin 3 → Int,
        (∀ d, s d = -1 ∨ s d = 0 ∨ s d = 1) ∧ (∀ d, is_per d = 0 → s d = 0) ∧
        bl.covers (fun d => c d - s d * domain.length d))) := by
  rw [ProjPeriodic_eq, BoxList.covers_append, BoxList.covers_flatMap]
  have key : ∀ ri rj rk : Int, ¬ (ri ≠ 0 ∧ isPer is_per 0 = false) →
      ¬ (rj ≠ 0 ∧ isPer is_per 1 = false) → ¬ (rk ≠ 0 ∧ isPer is_per 2 = false) →
      ((shiftIf is_per domain 2 rk (shiftIf is_per domain 1 rj
          (shiftIf is_per domain 0 ri bl))).covers c
        ↔ bl.covers (fun d => c d - ![ri, rj, rk] d * domain.length d)) := by
    intro ri rj rk hi hj hk
    rw [covers_shiftIf is_per domain 2 (by decide) rk _ c hk,
      covers_shiftIf is_per domain 1 (by decide) rj _ _ hj,
      covers_shiftIf is_per domain 0 (by decide) ri _ _ hi]
    have : (Function.update (Function.update (Function.update c ⟨2, by decide⟩
        (c ⟨2, by decide⟩ - rk * domain.length ⟨2, by decide⟩)) ⟨1, by decide⟩
        (Function.update c ⟨2, by decide⟩
          (c ⟨2, by decide⟩ - rk * domain.length ⟨2, by decide⟩) ⟨1, by decide⟩
          - rj * domain.length ⟨1, by decide⟩)) ⟨0, by decide⟩
        (Function.update (Function.update c ⟨2, by decide⟩
          (c ⟨2, by decide⟩ - rk * domain.length ⟨2, by decide⟩)) ⟨1, by decide⟩
          (Function.update c ⟨2, by decide⟩
            (c ⟨2, by decide⟩ - rk * domain.length ⟨2, by decide⟩) ⟨1, by decide⟩
            - rj * domain.length ⟨1, by decide⟩) ⟨0, by decide⟩
          - ri * domain.length ⟨0, by decide⟩))
        = (fun d => c d - ![ri, rj, rk] d * domain.length d) := by
      funext d
      fin_cases d <;> simp [Function.update]
    rw [this]
  have hper : ∀ (d : Nat) (h : d < 3) (r : Int),
      ¬ (r ≠ 0 ∧ isPer is_per d = false) ↔ (is_per ⟨d, h⟩ = 0 → r = 0) := by
    intro d h r
    simp only [isPer, h, dite_true]
    by_cases h0 : is_per ⟨d, h⟩ = 0 <;> simp [h0]
  constructor
  · rintro (h | ⟨ri, hri, h⟩)
    · exact Or.inl h
    · right
      unfold addI at h
      split at h
      · simp [BoxList.covers] at h
      rename_i hi
      rw [BoxList.covers_flatMap] at h
      obtain ⟨rj, hrj, h⟩ := h
      unfold addJ at h
      split at h
      · simp [BoxList.covers] at h
      rename_i hj
      rw [BoxList.covers_flatMap] at h
      obtain ⟨rk, hrk, h⟩ := h
      unfold addK at h
      split at h
      · simp [BoxList.covers] at h
      rename_i hk
      rw [BoxList.covers_intersect, key ri rj rk hi hj hk] at h
      refine ⟨h.2, ![ri, rj, rk], ?_, ?_, h.1⟩
      · simp only [shiftRange] at hri hrj hrk
        simp at hri hrj hrk
        intro d; fin_cases d <;> simp <;> assumption
      · intro d hd
        fin_cases d
        · exact (hper 0 (by decide) ri).1 hi hd
        · exact (hper 1 (by decide) rj).1 hj hd
        · exact (hper 2 (by decide) rk).1 hk hd
  · rintro (h | ⟨hdom, s, hs, hp, h⟩)
    · exact Or.inl h
    · right
      have hi := (hper 0 (by decide) (s 0)).2 (hp 0)
      have hj := (hper 1 (by decide) (s 1)).2 (hp 1)
      have hk := (hper 2 (by decide) (s 2)).2 (hp 2)
      have hmem : ∀ d, s d ∈ ([-1, 0, 1] : List Int) := by
        intro d; have := hs d; simp; exact this
      refine ⟨s 0, by simpa [shiftRange] using hs 0, ?_⟩
      unfold addI
      rw [if_neg hi, BoxList.covers_flatMap]
      refine ⟨s 1, by simpa [shiftRange] using hs 1, ?_⟩
      unfold addJ
      rw [if_neg hj, BoxList.covers_flatMap]
      refine ⟨s 2, by simpa [shiftRange] using hs 2, ?_⟩
      unfold addK
      rw [if_neg hk, BoxList.covers_intersect, key (s 0) (s 1) (s 2) hi hj hk]
      refine ⟨?_, hdom⟩
      have : (fun d => c d - ![s 0, s 1, s 2] d * domain.length d)
          = (fun d => c d - s d * domain.length d) := by
        funext d; fin_cases d <;> simp
      rw [this]; exact h

end amrex

namespace amrex
variable {D : Nat}

theorem mem_chunkOrder (chunk : IntVect D) (d : Fin D) : d ∈ chunkOrder chunk := by
  unfold chunkOrder
  rw [List.mem_reverse, (List.perm_insertionSort _ _).mem_iff]
  exact List.mem_finRange d

theorem sum_map_lt {α : Type} (l : List α) (f g : α → Nat) (hle : ∀ a ∈ l, g a ≤ f a)
    (hlt : ∃ a ∈ l, g a < f a) : (l.map g).sum < (l.map f).sum := by
  induction l with
  | nil => obtain ⟨a, ha, _⟩ := hlt; simp at ha
  | cons x t ih =>
    simp only [List.map_cons, List.sum_cons]
    obtain ⟨a, ha, hlt⟩ := hlt
    have hx := hle x (List.mem_cons_self _ _)
    have hle' : ∀ a ∈ t, g a ≤ f a := fun a h => hle a (List.mem_cons_of_mem _ h)
    rcases List.mem_cons.1 ha with rfl | hat
    · have : (t.map g).sum ≤ (t.map f).sum := by
        apply List.sum_le_sum
        intro i hi; exact hle' i hi
      omega
    · have := ih hle' ⟨a, hat, hlt⟩
      omega

theorem natAbs_cdiv_two_lt (x : Int) (h : cdiv x 2 ≠ 0) : (cdiv x 2).natAbs < x.natAbs := by
  unfold cdiv at *
  rcases Int.le_total 0 x with hx | hx
  · rw [Int.tdiv_eq_ediv hx (by decide)] at h ⊢
    omega
  · have h1 : Int.tdiv x 2 = -((-x) / 2) := by
      have := Int.tdiv_eq_ediv (a := -x) (b := 2) (by omega) (by decide)
      rw [Int.neg_tdiv] at this
      omega
    rw [h1] at h ⊢
    omega

/-- What one pass does: either nothing can be halved and the state is unchanged, or one
direction that passes the test is halved and `maxSize` is applied with the new cap. -/
theorem chopPass_cases (maxSize : IntVect D → BoxList D → BoxList D) (m : AmrMesh D)
    (lev : Int) (st : ChopState D) :
    (chopPass maxSize m lev st = st ∧ ∀ d, canHalve m lev st.chunk d = false) ∨
    (∃ idim, canHalve m lev st.chunk idim = true ∧
      chopPass maxSize m lev st =
        { chunk := Function.update st.chunk idim (cdiv (st.chunk idim) 2)
          ba := maxSize (Function.update st.chunk idim (cdiv (st.chunk idim) 2)) st.ba
          applied := Function.update st.chunk idim (cdiv (st.chunk idim) 2) :: st.applied }) := by
  unfold chopPass
  cases hf : (chunkOrder st.chunk).find? (canHalve m lev st.chunk) with
  | none =>
    left
    refine ⟨rfl, fun d => ?_⟩
    have := List.find?_eq_none.1 hf d (mem_chunkOrder st.chunk d)
    simpa using this
  | some idim =>
    right
    exact ⟨idim, List.find?_some hf, rfl⟩

theorem canHalve_true (m : AmrMesh D) (lev : Int) (chunk : IntVect D) (d : Fin D)
    (h : canHalve m lev chunk d = true) :
    m.refine_grid_layout_dims d ≠ 0 ∧ cdiv (chunk d) 2 ≠ 0 ∧
      cmod (cdiv (chunk d) 2) (m.blocking_factor lev d) = 0 := by
  simpa [canHalve] using h

theorem canHalve_false (m : AmrMesh D) (lev : Int) (chunk : IntVect D) (d : Fin D)
    (h : canHalve m lev chunk d = false) (hd : m.refine_grid_layout_dims d ≠ 0) :
    cdiv (chunk d) 2 = 0 ∨ cmod (cdiv (chunk d) 2) (m.blocking_factor lev d) ≠ 0 := by
  simp only [canHalve, Bool.and_eq_false_iff, bne_eq_false_iff_eq, beq_eq_false_iff_ne] at h
  rcases h with h | h | h
  · exact absurd h hd
  · exact Or.inl h
  · exact Or.inr h

theorem update_halve_ne (chunk : IntVect D) (idim : Fin D) (h : cdiv (chunk idim) 2 ≠ 0) :
    Function.update chunk idim (cdiv (chunk idim) 2) ≠ chunk := by
  intro heq
  have := congrFun heq idim
  simp only [Function.update_same] at this
  have hlt := natAbs_cdiv_two_lt (chunk idim) h
  rw [this] at hlt
  exact Nat.lt_irrefl _ hlt

theorem chopFuel_update_lt (chunk : IntVect D) (idim : Fin D) (h : cdiv (chunk idim) 2 ≠ 0) :
    chopFuel (Function.update chunk idim (cdiv (chunk idim) 2)) < chopFuel chunk := by
  unfold chopFuel
  have := sum_map_lt (List.finRange D)
    (fun d => (chunk d).natAbs)
    (fun d => (Function.update chunk idim (cdiv (chunk idim) 2) d).natAbs)
    (by
      intro a _
      by_cases ha : a = idim
      · subst ha; simp only [Function.update_same]
        exact Nat.le_of_lt (natAbs_cdiv_two_lt _ h)
      · simp [Function.update_noteq ha])
    ⟨idim, List.mem_finRange idim, by
      simp only [Function.update_same]; exact natAbs_cdiv_two_lt _ h⟩
  omega

/-- An invariant of the cap that one pass preserves holds of the final state, and the loop
ends, with enough boxes or with nothing left to halve. -/
theorem chopLoop_spec (maxSize : IntVect D → BoxList D → BoxList D) (m : AmrMesh D)
    (lev : Int) (target_size : Int) (P : IntVect D → Prop)
    (hP : ∀ ch idim, P ch → canHalve m lev ch idim = true →
      P (Function.update ch idim (cdiv (ch idim) 2)))
    (fuel : Nat) (st : ChopState D) (hfuel : chopFuel st.chunk ≤ fuel)
    (h0 : P st.chunk) (happ : ∀ ch ∈ st.applied, P ch) :
    ∃ st1, chopLoop maxSize m lev target_size fuel st = some st1 ∧
      (target_size ≤ (st1.ba.length : Int) ∨ ∀ d, canHalve m lev st1.chunk d = false) ∧
      P st1.chunk ∧ ∀ ch ∈ st1.applied, P ch := by
  induction fuel generalizing st with
  | zero => unfold chopFuel at hfuel; omega
  | succ n ih =>
    unfold chopLoop
    by_cases hsz : (st.ba.length : Int) < target_size
    · rw [if_pos hsz]
      rcases chopPass_cases maxSize m lev st with ⟨heq, hnone⟩ | ⟨idim, hcan, heq⟩
      · simp only [heq, if_true]
        exact ⟨st, rfl, Or.inr hnone, h0, happ⟩
      · have hne := (canHalve_true m lev st.chunk idim hcan).2.1
        simp only [heq]
        rw [if_neg (update_halve_ne st.chunk idim hne)]
        have hP1 := hP st.chunk idim h0 hcan
        apply ih
        · have := chopFuel_update_lt st.chunk idim hne
          simp only; omega
        · exact hP1
        · intro ch hch
          rcases List.mem_cons.1 hch with rfl | hch
          · exact hP1
          · exact happ ch hch
    · rw [if_neg hsz]
      exact ⟨st, rfl, Or.inl (by omega), h0, happ⟩

end amrex

namespace amrex
variable {D : Nat}

/-- C9: when `ChopGrids(lev, ba, target_size)` is run with some direction enabled in
`refine_grid_layout_dims` and positive blocking factors, it returns, and at the return
either `ba.size() >= target_size` or no legal halving remains: in every enabled direction
`d` the cap `c_d` has `c_d / 2 = 0` or `(c_d / 2) % blocking_factor[lev][d] != 0`. -/
theorem ChopGrids_target_or_no_halving (maxSize : IntVect D → BoxList D → BoxList D)
    (m : AmrMesh D) (lev : Int) (ba : BoxList D) (target_size : Int)
    (hdim : ∃ d, m.refine_grid_layout_dims d ≠ 0)
    (hbf : ∀ d, 0 < m.blocking_factor lev d) :
    ∃ st, chopRun maxSize m lev ba target_size = some st ∧
      ChopGrids maxSize m lev ba target_size = some st.ba ∧
      (target_size ≤ (st.ba.length : Int) ∨
        ∀ d, m.refine_grid_layout_dims d ≠ 0 →
          (cdiv (st.chunk d) 2 = 0 ∨
            cmod (cdiv (st.chunk d) 2) (m.blocking_factor lev d) ≠ 0)) := by
  have _ := hbf
  obtain ⟨st, hst, hor, -, -⟩ := chopLoop_spec maxSize m lev target_size (fun _ => True)
    (fun _ _ _ _ => trivial) (chopFuel (chunkInit m lev))
    { chunk := chunkInit m lev, ba := ba, applied := [] } (le_refl _) trivial
    (fun _ _ => trivial)
  refine ⟨st, hst, ?_, ?_⟩
  · unfold ChopGrids
    rw [if_neg (by push_neg; exact hdim)]
    unfold chopRun
    rw [hst]; rfl
  · rcases hor with h | h
    · exact Or.inl h
    · exact Or.inr (fun d hd => canHalve_false m lev st.chunk d (h d) hd)

theorem ediv_pow_two_succ (a : Int) (ha : 0 ≤ a) (k : Nat) :
    a / 2 ^ k / 2 = a / 2 ^ (k + 1) := by
  obtain ⟨n, rfl⟩ := Int.eq_ofNat_of_zero_le ha
  rw [pow_succ]
  norm_cast
  exact Nat.div_div_eq_div_mul n (2 ^ k) 2

theorem chunkInv_step (m : AmrMesh D) (lev : Int) (ch0 : IntVect D)
    (h0 : ∀ d, 0 < ch0 d) (ch : IntVect D) (idim : Fin D)
    (hinv : ChunkInv m lev ch0 ch ∧ ∀ d, 0 < ch d ∧ ∃ k : Nat, ch d = ch0 d / 2 ^ k)
    (hcan : canHalve m lev ch idim = true) :
    ChunkInv m lev ch0 (Function.update ch idim (cdiv (ch idim) 2)) ∧
      ∀ d, 0 < Function.update ch idim (cdiv (ch idim) 2) d ∧
        ∃ k : Nat, Function.update ch idim (cdiv (ch idim) 2) d = ch0 d / 2 ^ k := by
  have _ := h0
  obtain ⟨hdim, hne, hmod⟩ := canHalve_true m lev ch idim hcan
  obtain ⟨hpos, k, hk⟩ := hinv.2 idim
  have hdiv : cdiv (ch idim) 2 = ch idim / 2 := Int.tdiv_eq_ediv (le_of_lt hpos) (by decide)
  have hhalf_pos : 0 < ch idim / 2 := by
    rw [hdiv] at hne
    have : 0 ≤ ch idim / 2 := Int.ediv_nonneg (le_of_lt hpos) (by decide)
    omega
  have hdvd : m.blocking_factor lev idim ∣ ch idim / 2 := by
    rw [hdiv] at hmod
    unfold cmod at hmod
    exact Int.dvd_of_tmod_eq_zero hmod
  have hpow : ch idim / 2 = ch0 idim / 2 ^ (k + 1) := by
    rw [hk]; exact ediv_pow_two_succ _ (le_of_lt (h0 idim)) k
  constructor
  · intro d
    by_cases hd : d = idim
    · subst hd
      simp only [Function.update_same, hdiv]
      exact ⟨Or.inr ⟨hhalf_pos, hdvd, k + 1, hpow⟩, fun h => absurd h hdim⟩
    · simp only [Function.update_noteq hd]
      exact hinv.1 d
  · intro d
    by_cases hd : d = idim
    · subst hd
      simp only [Function.update_same, hdiv]
      exact ⟨hhalf_pos, k + 1, hpow⟩
    · simp only [Function.update_noteq hd]
      exact hinv.2 d

/-- C10: with a positive initial cap and positive blocking factors `ChopGrids` returns, and
every cap `chunk` it hands to `ba.maxSize`, like the cap at the return, is in each
direction `d` either the initial value `min(max_grid_size[lev][d], domain length)` or a
positive multiple of `blocking_factor[lev][d]` reached by repeated halving, and is the
initial value where the flag `refine_grid_layout_dims[d]` is 0. -/
theorem ChopGrids_chunk_invariant (maxSize : IntVect D → BoxList D → BoxList D)
    (m : AmrMesh D) (lev : Int) (ba : BoxList D) (target_size : Int)
    (hpos : ∀ d, 0 < chunkInit m lev d)
    (hbf : ∀ d, 0 < m.blocking_factor lev d) :
    ∃ st, chopRun maxSize m lev ba target_size = some st ∧
      ∀ ch ∈ st.chunk :: st.applied, ChunkInv m lev (chunkInit m lev) ch := by
  have _ := hbf
  have hinit : ChunkInv m lev (chunkInit m lev) (chunkInit m lev) ∧
      ∀ d, 0 < chunkInit m lev d ∧ ∃ k : Nat, chunkInit m lev d = chunkInit m lev d / 2 ^ k :=
    ⟨fun d => ⟨Or.inl rfl, fun _ => rfl⟩, fun d => ⟨hpos d, 0, by simp⟩⟩
  obtain ⟨st, hst, -, hfin, happ⟩ := chopLoop_spec maxSize m lev target_size
    (fun ch => ChunkInv m lev (chunkInit m lev) ch ∧
      ∀ d, 0 < ch d ∧ ∃ k : Nat, ch d = chunkInit m lev d / 2 ^ k)
    (fun ch idim h hc => chunkInv_step m lev (chunkInit m lev) hpos ch idim h hc)
    (chopFuel (chunkInit m lev))
    { chunk := chunkInit m lev, ba := ba, applied := [] } (le_refl _) hinit
    (fun _ h => by simp at h)
  refine ⟨st, hst, ?_⟩
  intro ch hch
  rcases List.mem_cons.1 hch with rfl | hch
  · exact hfin.1
  · exact (happ ch hch).1

end amrex

namespace amrex
variable {D : Nat} {T C : Type}

theorem mem_levelsDown (hi lo l : Int) : l ∈ levelsDown hi lo ↔ lo ≤ l ∧ l ≤ hi := by
  unfold levelsDown
  simp only [List.mem_map, List.mem_range]
  constructor
  · rintro ⟨k, hk, rfl⟩
    rw [Int.lt_toNat] at hk
    have : (0 : Int) ≤ k := Int.ofNat_nonneg k
    omega
  · rintro ⟨h1, h2⟩
    refine ⟨(hi - l).toNat, ?_, ?_⟩
    · rw [Int.lt_toNat, Int.toNat_of_nonneg (by omega)]; omega
    · rw [Int.toNat_of_nonneg (by omega)]; omega

theorem mem_intRange (lo hi l : Int) : l ∈ intRange lo hi ↔ lo ≤ l ∧ l < hi := by
  unfold intRange
  simp only [List.mem_map, List.mem_range]
  constructor
  · rintro ⟨k, hk, rfl⟩
    rw [Int.lt_toNat] at hk
    have : (0 : Int) ≤ k := Int.ofNat_nonneg k
    omega
  · rintro ⟨h1, h2⟩
    refine ⟨(l - lo).toNat, ?_, ?_⟩
    · rw [Int.lt_toNat, Int.toNat_of_nonneg (by omega)]; omega
    · rw [Int.toNat_of_nonneg (by omega)]; omega

theorem mem_levelsUp (lo hi l : Int) : l ∈ levelsUp lo hi ↔ lo ≤ l ∧ l < hi :=
  mem_intRange lo hi l

theorem tagLevel_new_finest (x : Collab D T C) (m : AmrMesh D) (lbase : Int) (time : ℚ)
    (nf levc : Int) (ba_proj : BoxList D) (ngt : IntVect D) (nf1 : Int)
    (tagvec : List (IntVect D))
    (h : tagLevel x m lbase time nf levc ba_proj ngt = Except.ok (nf1, tagvec)) :
    nf1 = nf ∨ nf1 = max nf (levc + 1) := by
  rw [tagLevel_eq] at h
  simp only [] at h
  split at h
  · simp only [Except.ok.injEq, Prod.mk.injEq] at h
    rw [← h.1]
    split
    · exact Or.inr rfl
    · exact Or.inl rfl
  · cases h

theorem clusterLevel_new_finest (x : Collab D T C) (m : AmrMesh D) (lbase levc : Int)
    (st : GridState D) (tagvec : List (IntVect D)) :
    (clusterLevel x m lbase levc st tagvec).new_finest = st.new_finest ∨
    (clusterLevel x m lbase levc st tagvec).new_finest = max st.new_finest (levc + 1) := by
  unfold clusterLevel
  simp only []
  split
  · exact Or.inl rfl
  · split <;> (simp only []; split <;> simp)

theorem levelStep_new_finest (x : Collab D T C) (m : AmrMesh D) (lbase : Int) (time : ℚ)
    (fuel : Nat) (st st1 : GridState D) (levc : Int)
    (h : levelStep x m lbase time fuel st levc = some (Except.ok st1)) :
    st.new_finest ≤ st1.new_finest ∧ st1.new_finest ≤ max st.new_finest (levc + 1) := by
  rw [levelStep_eq] at h
  cases hp : projectDown x m fuel st levc with
  | none => rw [hp] at h; cases h
  | some p =>
    obtain ⟨ba_proj, ngt⟩ := p
    rw [hp] at h
    simp only [] at h
    cases ht : tagLevel x m lbase time st.new_finest levc ba_proj ngt with
    | error e => rw [ht] at h; cases h
    | ok r =>
      obtain ⟨nf1, tagvec⟩ := r
      rw [ht] at h
      simp only [Option.some.injEq, Except.ok.injEq] at h
      have h1 := tagLevel_new_finest x m lbase time _ _ _ _ _ _ ht
      have h2 := clusterLevel_new_finest x m lbase levc
        { new_finest := nf1, new_grids := st.new_grids,
          trace := if notFixed m levc then Event.errorEst levc :: st.trace else st.trace }
        tagvec
      rw [h] at h2
      simp only [] at h2
      omega

theorem levelLoop_new_finest (x : Collab D T C) (m : AmrMesh D) (lbase : Int) (time : ℚ)
    (fuel : Nat) (hi : Int) (levs : List Int) (hlevs : ∀ l ∈ levs, l ≤ hi)
    (st st1 : GridState D)
    (h : levelLoop x m lbase time fuel levs st = some (Except.ok st1)) :
    st.new_finest ≤ st1.new_finest ∧ st1.new_finest ≤ max st.new_finest (hi + 1) := by
  induction levs generalizing st with
  | nil =>
    simp only [levelLoop, Option.some.injEq, Except.ok.injEq] at h
    subst h; omega
  | cons levc rest ih =>
    unfold levelLoop at h
    cases hs : levelStep x m lbase time fuel st levc with
    | none => rw [hs] at h; cases h
    | some r =>
      cases r with
      | error e => rw [hs] at h; cases h
      | ok st2 =>
        rw [hs] at h
        simp only [] at h
        have h1 := levelStep_new_finest x m lbase time fuel st st2 levc hs
        have h2 := ih (fun l hl => hlevs l (List.mem_cons_of_mem _ hl)) st2 h
        have h3 := hlevs levc (List.mem_cons_self _ _)
        omega

theorem finalStep_new_finest (x : Collab D T C) (m : AmrMesh D) (st st1 : GridState D)
    (lev : Int) (h : finalStep x m st lev = some (Except.ok st1)) :
    st1.new_finest = st.new_finest ∧ st1.trace = st.trace := by
  unfold finalStep at h
  split at h
  · split at h
    · cases h
    · simp only [Option.some.injEq, Except.ok.injEq] at h; subst h; exact ⟨rfl, rfl⟩
  · split at h
    · split at h
      · cases h
      · simp only [Option.some.injEq, Except.ok.injEq] at h; subst h; exact ⟨rfl, rfl⟩
    · simp only [Option.some.injEq, Except.ok.injEq] at h; subst h; exact ⟨rfl, rfl⟩

theorem finalLoop_new_finest (x : Collab D T C) (m : AmrMesh D) (levs : List Int)
    (st st1 : GridState D) (h : finalLoop x m levs st = some (Except.ok st1)) :
    st1.new_finest = st.new_finest ∧ st1.trace = st.trace := by
  induction levs generalizing st with
  | nil =>
    simp only [finalLoop, Option.some.injEq, Except.ok.injEq] at h
    subst h; exact ⟨rfl, rfl⟩
  | cons lev rest ih =>
    unfold finalLoop at h
    cases hs : finalStep x m st lev with
    | none => rw [hs] at h; cases h
    | some r =>
      cases r with
      | error e => rw [hs] at h; cases h
      | ok st2 =>
        rw [hs] at h
        simp only [] at h
        have h1 := finalStep_new_finest x m st st2 lev hs
        have h2 := ih st2 h
        exact ⟨h2.1.trans h1.1, h2.2.trans h1.2⟩

/-- The result of `MakeNewGrids` is the result of the final loop run on the state after the
level loop. -/
theorem MakeNewGrids_ok (x : Collab D T C) (m : AmrMesh D) (lbase : Int) (time : ℚ)
    (new_grids : Int → BoxList D) (fuel : Nat) (st : GridState D)
    (h : MakeNewGrids x m lbase time new_grids fuel = some (Except.ok st)) :
    ∃ st0, afterLevels x m lbase time new_grids fuel = some (Except.ok st0) ∧
      finalLoop x m (levelsUp (lbase + 1) (st0.new_finest + 1)) st0 = some (Except.ok st) := by
  unfold MakeNewGrids at h
  cases ha : afterLevels x m lbase time new_grids fuel with
  | none => rw [ha] at h; cases h
  | some r =>
    cases r with
    | error e => rw [ha] at h; cases h
    | ok st0 => rw [ha] at h; exact ⟨st0, rfl, h⟩

/-- C4: for a call of `MakeNewGrids(lbase, time, new_finest, new_grids)` (bittree off) with
`0 <= lbase <= finest_level` and `lbase < max_level`, the `new_finest` it returns lies
between `lbase` and `min(finest_level + 1, max_level)`: at most one level is added and
`max_level` is never exceeded. -/
theorem MakeNewGrids_new_finest_bounds (x : Collab D T C) (m : AmrMesh D) (lbase : Int)
    (time : ℚ) (new_grids : Int → BoxList D) (fuel : Nat) (st : GridState D)
    (h0 : 0 ≤ lbase) (h1 : lbase ≤ m.finest_level) (h2 : lbase < m.max_level)
    (h : MakeNewGrids x m lbase time new_grids fuel = some (Except.ok st)) :
    lbase ≤ st.new_finest ∧ st.new_finest ≤ min (m.finest_level + 1) m.max_level := by
  have _ := h0
  obtain ⟨st0, ha, hf⟩ := MakeNewGrids_ok x m lbase time new_grids fuel st h
  have hl := levelLoop_new_finest x m lbase time fuel (max_crse m)
    (levelsDown (max_crse m) lbase) (fun l hl => ((mem_levelsDown _ _ l).1 hl).2) _ st0 ha
  have hfin := (finalLoop_new_finest x m _ st0 st hf).1
  simp only [max_crse] at hl
  rw [hfin]
  omega

end amrex

namespace amrex
variable {D : Nat}

/-! ### Boxes cut in one direction -/

@[simp] theorem Box.setBig_smallEnd (b : Box D) (i : Fin D) (v : Int) :
    (b.setBig i v).smallEnd = b.smallEnd := rfl

@[simp] theorem Box.setSmall_bigEnd (b : Box D) (i : Fin D) (v : Int) :
    (b.setSmall i v).bigEnd = b.bigEnd := rfl

@[simp] theorem Box.setBig_bigEnd_same (b : Box D) (i : Fin D) (v : Int) :
    (b.setBig i v).bigEnd i = v := by simp [Box.setBig]

@[simp] theorem Box.setSmall_smallEnd_same (b : Box D) (i : Fin D) (v : Int) :
    (b.setSmall i v).smallEnd i = v := by simp [Box.setSmall]

theorem Box.setBig_bigEnd_ne (b : Box D) (i d : Fin D) (v : Int) (h : d ≠ i) :
    (b.setBig i v).bigEnd d = b.bigEnd d := by simp [Box.setBig, Function.update_noteq h]

theorem Box.setSmall_smallEnd_ne (b : Box D) (i d : Fin D) (v : Int) (h : d ≠ i) :
    (b.setSmall i v).smallEnd d = b.smallEnd d := by
  simp [Box.setSmall, Function.update_noteq h]

/-- Membership in a box, split into one direction and the others. -/
theorem Box.contains_iff_dir (b : Box D) (c : IntVect D) (i : Fin D) :
    b.contains c ↔ (b.smallEnd i ≤ c i ∧ c i ≤ b.bigEnd i) ∧
      ∀ d, d ≠ i → (b.smallEnd d ≤ c d ∧ c d ≤ b.bigEnd d) := by
  unfold Box.contains
  constructor
  · intro h; exact ⟨h i, fun d _ => h d⟩
  · rintro ⟨hi, ho⟩ d
    by_cases hd : d = i
    · subst hd; exact hi
    · exact ho d hd

/-- A box that agrees with `b` outside direction `i` and has the bounds `lo`, `hi` there. -/
theorem Box.contains_of_dir (b b' : Box D) (c : IntVect D) (i : Fin D)
    (hs : ∀ d, d ≠ i → b'.smallEnd d = b.smallEnd d)
    (hb : ∀ d, d ≠ i → b'.bigEnd d = b.bigEnd d) :
    b'.contains c ↔ (b'.smallEnd i ≤ c i ∧ c i ≤ b'.bigEnd i) ∧
      ∀ d, d ≠ i → (b.smallEnd d ≤ c d ∧ c d ≤ b.bigEnd d) := by
  rw [Box.contains_iff_dir b' c i]
  constructor
  · rintro ⟨h1, h2⟩
    exact ⟨h1, fun d hd => by have := h2 d hd; rw [hs d hd, hb d hd] at this; exact this⟩
  · rintro ⟨h1, h2⟩
    exact ⟨h1, fun d hd => by rw [hs d hd, hb d hd]; exact h2 d hd⟩

theorem BoxList.covers_nil (c : IntVect D) : ¬ BoxList.covers ([] : BoxList D) c := by
  simp [BoxList.covers]

theorem BoxList.covers_singleton (b : Box D) (c : IntVect D) :
    BoxList.covers [b] c ↔ b.contains c := by
  simp [BoxList.covers]

theorem BoxList.covers_cons (b : Box D) (t : BoxList D) (c : IntVect D) :
    BoxList.covers (b :: t) c ↔ b.contains c ∨ BoxList.covers t c := by
  simp [BoxList.covers]

/-- The state of the sweep of `boxDiff` after direction `i`: what was cut off and what
remains, in terms of the coordinate `c i`. -/
theorem boxDiffAux_step (b2 b1 : Box D) (i : Fin D) (c : IntVect D)
    (hint : max (b1.smallEnd i) (b2.smallEnd i) ≤ min (b1.bigEnd i) (b2.bigEnd i)) :
    let b1a : Box D :=
      if b1.smallEnd i < b2.smallEnd i ∧ b2.smallEnd i ≤ b1.bigEnd i
      then b1.setSmall i (b2.smallEnd i) else b1
    let b1b : Box D :=
      if b1a.smallEnd i ≤ b2.bigEnd i ∧ b2.bigEnd i < b1a.bigEnd i
      then b1a.setBig i (b2.bigEnd i) else b1a
    let out1 : BoxList D :=
      if b1.smallEnd i < b2.smallEnd i ∧ b2.smallEnd i ≤ b1.bigEnd i
      then [b1.setBig i (b2.smallEnd i - 1)] else []
    let out2 : BoxList D :=
      if b1a.smallEnd i ≤ b2.bigEnd i ∧ b2.bigEnd i < b1a.bigEnd i
      then [b1a.setSmall i (b2.bigEnd i + 1)] else []
    (∀ d, d ≠ i → b1b.smallEnd d = b1.smallEnd d ∧ b1b.bigEnd d = b1.bigEnd d) ∧
    b1b.smallEnd i = max (b1.smallEnd i) (b2.smallEnd i) ∧
    b1b.bigEnd i = min (b1.bigEnd i) (b2.bigEnd i) ∧
    (out1.covers c ↔ b1.contains c ∧ c i < b2.smallEnd i) ∧
    (out2.covers c ↔ b1.contains c ∧ b2.bigEnd i < c i) := by
  intro b1a b1b out1 out2
  have ha_ne : ∀ d, d ≠ i → b1a.smallEnd d = b1.smallEnd d ∧ b1a.bigEnd d = b1.bigEnd d := by
    intro d hd
    simp only [b1a]
    split
    · exact ⟨Box.setSmall_smallEnd_ne _ _ _ _ hd, rfl⟩
    · exact ⟨rfl, rfl⟩
  have ha_lo : b1a.smallEnd i = max (b1.smallEnd i) (b2.smallEnd i) := by
    simp only [b1a]
    split
    · rw [Box.setSmall_smallEnd_same]; omega
    · omega
  have ha_hi : b1a.bigEnd i = b1.bigEnd i := by
    simp only [b1a]
    split <;> rfl
  refine ⟨?_, ?_, ?_, ?_, ?_⟩
  · intro d hd
    simp only [b1b]
    split
    · exact ⟨(ha_ne d hd).1, (Box.setBig_bigEnd_ne _ _ _ _ hd).trans (ha_ne d hd).2⟩
    · exact ha_ne d hd
  · simp only [b1b]
    split
    · rw [Box.setBig_smallEnd]; exact ha_lo
    · exact ha_lo
  · simp only [b1b]
    split
    · rename_i h; rw [Box.setBig_bigEnd_same]; rw [ha_hi] at h; omega
    · rename_i h; rw [ha_hi] at h ⊢; rw [ha_lo] at h; omega
  · simp only [out1]
    split
    · rename_i h
      rw [BoxList.covers_singleton,
        Box.contains_of_dir b1 (b1.setBig i (b2.smallEnd i - 1)) c i (fun d _ => rfl)
          (fun d hd => Box.setBig_bigEnd_ne _ _ _ _ hd),
        Box.contains_iff_dir b1 c i, Box.setBig_bigEnd_same, Box.setBig_smallEnd]
      constructor
      · rintro ⟨h1, h2⟩; exact ⟨⟨by omega, h2⟩, by omega⟩
      · rintro ⟨⟨h1, h2⟩, h3⟩; exact ⟨by omega, h2⟩
    · rename_i h
      constructor
      · intro hc; exact absurd hc (BoxList.covers_nil c)
      · rintro ⟨hc, h3⟩
        have := (Box.contains_iff_dir b1 c i).1 hc
        omega
  · simp only [out2]
    split
    · rename_i h
      rw [BoxList.covers_singleton,
        Box.contains_of_dir b1 (b1a.setSmall i (b2.bigEnd i + 1)) c i
          (fun d hd => (Box.setSmall_smallEnd_ne _ _ _ _ hd).trans (ha_ne d hd).1)
          (fun d hd => (ha_ne d hd).2),
        Box.contains_iff_dir b1 c i, Box.setSmall_smallEnd_same, Box.setSmall_bigEnd, ha_hi]
      rw [ha_lo, ha_hi] at h
      constructor
      · rintro ⟨h1, h2⟩; exact ⟨⟨by omega, h2⟩, by omega⟩
      · rintro ⟨⟨h1, h2⟩, h3⟩; exact ⟨by omega, h2⟩
    · rename_i h
      rw [ha_lo, ha_hi] at h
      constructor
      · intro hc; exact absurd hc (BoxList.covers_nil c)
      · rintro ⟨hc, h3⟩
        have := (Box.contains_iff_dir b1 c i).1 hc
        omega

end amrex

namespace amrex
variable {D : Nat}

theorem pairwise_ite_single {α : Type} (R : α → α → Prop) (P : Prop) [Decidable P] (a : α) :
    List.Pairwise R (if P then [a] else []) := by
  split <;> simp

theorem Box.intersects_iff (a b : Box D) :
    a.intersects b ↔ ∃ c, a.contains c ∧ b.contains c := by
  unfold Box.intersects
  constructor
  · intro h
    refine ⟨(a.intersect b).smallEnd, ?_⟩
    have hc : (a.intersect b).contains (a.intersect b).smallEnd :=
      fun d => ⟨le_refl _, h d⟩
    exact (Box.contains_intersect a b _).1 hc
  · rintro ⟨c, hc⟩
    exact Box.contains_ok _ c ((Box.contains_intersect a b c).2 hc)

theorem boxDiffAux_ok_step (b2 b1 : Box D) (i : Fin D) (hok : b1.ok)
    (hint : max (b1.smallEnd i) (b2.smallEnd i) ≤ min (b1.bigEnd i) (b2.bigEnd i)) :
    let b1a : Box D :=
      if b1.smallEnd i < b2.smallEnd i ∧ b2.smallEnd i ≤ b1.bigEnd i
      then b1.setSmall i (b2.smallEnd i) else b1
    let b1b : Box D :=
      if b1a.smallEnd i ≤ b2.bigEnd i ∧ b2.bigEnd i < b1a.bigEnd i
      then b1a.setBig i (b2.bigEnd i) else b1a
    let out1 : BoxList D :=
      if b1.smallEnd i < b2.smallEnd i ∧ b2.smallEnd i ≤ b1.bigEnd i
      then [b1.setBig i (b2.smallEnd i - 1)] else []
    let out2 : BoxList D :=
      if b1a.smallEnd i ≤ b2.bigEnd i ∧ b2.bigEnd i < b1a.bigEnd i
      then [b1a.setSmall i (b2.bigEnd i + 1)] else []
    b1b.ok ∧ (∀ p ∈ out1, p.ok) ∧ (∀ p ∈ out2, p.ok) := by
  intro b1a b1b out1 out2
  have hstep := boxDiffAux_step b2 b1 i b1.smallEnd hint
  simp only [] at hstep
  obtain ⟨hne, hlo, hhi, -, -⟩ := hstep
  have okdir : ∀ (b : Box D), (∀ d, d ≠ i → b.smallEnd d = b1.smallEnd d ∧
      b.bigEnd d = b1.bigEnd d) → b.smallEnd i ≤ b.bigEnd i → b.ok := by
    intro b hb hbi d
    by_cases hd : d = i
    · subst hd; exact hbi
    · rw [(hb d hd).1, (hb d hd).2]; exact hok d
  have ha_ne : ∀ d, d ≠ i → b1a.smallEnd d = b1.smallEnd d ∧ b1a.bigEnd d = b1.bigEnd d := by
    intro d hd
    simp only [b1a]
    split
    · exact ⟨Box.setSmall_smallEnd_ne _ _ _ _ hd, rfl⟩
    · exact ⟨rfl, rfl⟩
  have ha_hi : b1a.bigEnd i = b1.bigEnd i := by
    simp only [b1a]
    split <;> rfl
  refine ⟨?_, ?_, ?_⟩
  · exact okdir b1b hne (by rw [hlo, hhi]; exact hint)
  · intro p hp
    simp only [out1] at hp
    split at hp
    · rename_i h
      rw [List.mem_singleton] at hp; subst hp
      exact okdir _ (fun d hd => ⟨rfl, Box.setBig_bigEnd_ne _ _ _ _ hd⟩)
        (by rw [Box.setBig_bigEnd_same, Box.setBig_smallEnd]; omega)
    · simp at hp
  · intro p hp
    simp only [out2] at hp
    split at hp
    · rename_i h
      rw [List.mem_singleton] at hp; subst hp
      exact okdir _ (fun d hd => ⟨(Box.setSmall_smallEnd_ne _ _ _ _ hd).trans (ha_ne d hd).1,
        (ha_ne d hd).2⟩)
        (by rw [Box.setSmall_smallEnd_same, Box.setSmall_bigEnd]; omega)
    · simp at hp

/-- The sweep of `boxDiff` over the directions `ds`: it yields the cells of `b1` that leave
the range of `b2` in one of these directions, in non-empty pairwise disjoint boxes. -/
theorem boxDiffAux_spec (b2 : Box D) (ds : List (Fin D)) (b1 : Box D) (hok : b1.ok)
    (hint : ∀ d ∈ ds, max (b1.smallEnd d) (b2.smallEnd d) ≤ min (b1.bigEnd d) (b2.bigEnd d)) :
    (∀ c, (boxDiffAux b2 ds b1).covers c ↔
      b1.contains c ∧ ∃ d ∈ ds, (c d < b2.smallEnd d ∨ b2.bigEnd d < c d)) ∧
    (∀ p ∈ boxDiffAux b2 ds b1, p.ok) ∧
    BoxList.isDisjoint (boxDiffAux b2 ds b1) := by
  induction ds generalizing b1 with
  | nil =>
    refine ⟨fun c => ?_, ?_, ?_⟩
    · simp [boxDiffAux, BoxList.covers]
    · simp [boxDiffAux]
    · simp [boxDiffAux, BoxList.isDisjoint]
  | cons i ds ih =>
    have hi := hint i (List.mem_cons_self _ _)
    have hokstep := boxDiffAux_ok_step b2 b1 i hok hi
    simp only [] at hokstep
    obtain ⟨hbok, hok1, hok2⟩ := hokstep
    have hne := (boxDiffAux_step b2 b1 i b1.smallEnd hi).1
    have hlo := (boxDiffAux_step b2 b1 i b1.smallEnd hi).2.1
    have hhi := (boxDiffAux_step b2 b1 i b1.smallEnd hi).2.2.1
    simp only [] at hne hlo hhi
    have hcov1 := fun c => (boxDiffAux_step b2 b1 i c hi).2.2.2.1
    have hcov2 := fun c => (boxDiffAux_step b2 b1 i c hi).2.2.2.2
    simp only [] at hcov1 hcov2
    have hint' : ∀ d ∈ ds, max
        ((if (if b1.smallEnd i < b2.smallEnd i ∧ b2.smallEnd i ≤ b1.bigEnd i
              then b1.setSmall i (b2.smallEnd i) else b1).smallEnd i ≤ b2.bigEnd i ∧
            b2.bigEnd i < (if b1.smallEnd i < b2.smallEnd i ∧ b2.smallEnd i ≤ b1.bigEnd i
              then b1.setSmall i (b2.smallEnd i) else b1).bigEnd i
          then (if b1.smallEnd i < b2.smallEnd i ∧ b2.smallEnd i ≤ b1.bigEnd i
              then b1.setSmall i (b2.smallEnd i) else b1).setBig i (b2.bigEnd i)
          else (if b1.smallEnd i < b2.smallEnd i ∧ b2.smallEnd i ≤ b1.bigEnd i
              then b1.setSmall i (b2.smallEnd i) else b1)).smallEnd d) (b2.smallEnd d) ≤ min
        ((if (if b1.smallEnd i < b2.smallEnd i ∧ b2.smallEnd i ≤ b1.bigEnd i
              then b1.setSmall i (b2.smallEnd i) else b1).smallEnd i ≤ b2.bigEnd i ∧
            b2.bigEnd i < (if b1.smallEnd i < b2.smallEnd i ∧ b2.smallEnd i ≤ b1.bigEnd i
              then b1.setSmall i (b2.smallEnd i) else b1).bigEnd i
          then (if b1.smallEnd i < b2.smallEnd i ∧ b2.smallEnd i ≤ b1.bigEnd i
              then b1.setSmall i (b2.smallEnd i) else b1).setBig i (b2.bigEnd i)
          else (if b1.smallEnd i < b2.smallEnd i ∧ b2.smallEnd i ≤ b1.bigEnd i
              then b1.setSmall i (b2.smallEnd i) else b1)).bigEnd d) (b2.bigEnd d) := by
      intro d hd
      by_cases hdi : d = i
      · subst hdi; rw [hlo, hhi]; omega
      · rw [(hne d hdi).1, (hne d hdi).2]; exact hint d (List.mem_cons_of_mem _ hd)
    obtain ⟨ihc, ihok, ihd⟩ := ih _ hbok hint'
    have hbcont : ∀ c, Box.contains _ c ↔
        ((max (b1.smallEnd i) (b2.smallEnd i) ≤ c i ∧ c i ≤ min (b1.bigEnd i) (b2.bigEnd i)) ∧
          ∀ d, d ≠ i → (b1.smallEnd d ≤ c d ∧ c d ≤ b1.bigEnd d)) := fun c => by
      have := Box.contains_of_dir b1 _ c i (fun d hd => (hne d hd).1) (fun d hd => (hne d hd).2)
      rw [hlo, hhi] at this
      exact this
    have hrec : ∀ c, (boxDiffAux b2 ds _).covers c →
        b1.contains c ∧ b2.smallEnd i ≤ c i ∧ c i ≤ b2.bigEnd i := fun c hc => by
      have h1 := ((ihc c).1 hc).1
      rw [hbcont c] at h1
      refine ⟨(Box.contains_iff_dir b1 c i).2 ⟨by omega, h1.2⟩, by omega, by omega⟩
    refine ⟨fun c => ?_, ?_, ?_⟩
    · simp only [boxDiffAux]
      rw [BoxList.covers_append, BoxList.covers_append, hcov1 c, hcov2 c, ihc c, hbcont c]
      constructor
      · rintro ((⟨h1, h2⟩ | ⟨h1, h2⟩) | ⟨h1, d, hd, h2⟩)
        · exact ⟨h1, i, List.mem_cons_self _ _, Or.inl h2⟩
        · exact ⟨h1, i, List.mem_cons_self _ _, Or.inr h2⟩
        · exact ⟨(Box.contains_iff_dir b1 c i).2 ⟨by omega, h1.2⟩, d,
            List.mem_cons_of_mem _ hd, h2⟩
      · rintro ⟨h1, d, hd, h2⟩
        have h1' := (Box.contains_iff_dir b1 c i).1 h1
        by_cases hlt : c i < b2.smallEnd i
        · exact Or.inl (Or.inl ⟨h1, hlt⟩)
        by_cases hgt : b2.bigEnd i < c i
        · exact Or.inl (Or.inr ⟨h1, hgt⟩)
        rcases List.mem_cons.1 hd with rfl | hd'
        · omega
        · exact Or.inr ⟨⟨by omega, h1'.2⟩, d, hd', h2⟩
    · intro p hp
      simp only [boxDiffAux, List.mem_append] at hp
      rcases hp with (hp | hp) | hp
      · exact hok1 p hp
      · exact hok2 p hp
      · exact ihok p hp
    · simp only [boxDiffAux, BoxList.isDisjoint]
      rw [List.pairwise_append, List.pairwise_append]
      refine ⟨⟨?_, ?_, ?_⟩, ihd, ?_⟩
      · exact pairwise_ite_single _ _ _
      · exact pairwise_ite_single _ _ _
      · intro a ha b hb hab
        obtain ⟨c, hca, hcb⟩ := (Box.intersects_iff a b).1 hab
        have h1 := (hcov1 c).1 ⟨a, ha, hca⟩
        have h2 := (hcov2 c).1 ⟨b, hb, hcb⟩
        have := (Box.contains_iff_dir b1 c i).1 h1.1
        omega
      · intro a ha b hb hab
        obtain ⟨c, hca, hcb⟩ := (Box.intersects_iff a b).1 hab
        have h3 := hrec c ⟨b, hb, hcb⟩
        rcases List.mem_append.1 ha with ha | ha
        · have h1 := (hcov1 c).1 ⟨a, ha, hca⟩; omega
        · have h2 := (hcov2 c).1 ⟨a, ha, hca⟩; omega

end amrex

namespace amrex
variable {D : Nat}

/-- The difference of two boxes: the cells of `b1` outside `b2`, in non-empty pairwise
disjoint boxes. -/
theorem boxDiff_spec (b1 b2 : Box D) (hok : b1.ok) :
    (∀ c, (boxDiff b1 b2).covers c ↔ b1.contains c ∧ ¬ b2.contains c) ∧
    (∀ p ∈ boxDiff b1 b2, p.ok) ∧ BoxList.isDisjoint (boxDiff b1 b2) := by
  unfold boxDiff
  split
  · rename_i hcon
    refine ⟨fun c => ?_, by simp, by simp [BoxList.isDisjoint]⟩
    constructor
    · intro h; exact absurd h (BoxList.covers_nil c)
    · rintro ⟨h1, h2⟩
      exact absurd (fun d => ⟨le_trans (hcon d).1 (h1 d).1, le_trans (h1 d).2 (hcon d).2⟩) h2
  · split
    · rename_i hni
      refine ⟨fun c => ?_, ?_, by simp [BoxList.isDisjoint]⟩
      · rw [BoxList.covers_singleton]
        constructor
        · intro h
          exact ⟨h, fun h2 => hni ((Box.intersects_iff b1 b2).2 ⟨c, h, h2⟩)⟩
        · exact fun h => h.1
      · intro p hp; rw [List.mem_singleton] at hp; subst hp; exact hok
    · rename_i hi
      have hi' : b1.intersects b2 := not_not.1 hi
      have hint : ∀ d ∈ (List.finRange D).reverse,
          max (b1.smallEnd d) (b2.smallEnd d) ≤ min (b1.bigEnd d) (b2.bigEnd d) :=
        fun d _ => hi' d
      obtain ⟨hc, hk, hd⟩ := boxDiffAux_spec b2 _ b1 hok hint
      refine ⟨fun c => ?_, hk, hd⟩
      rw [hc c]
      constructor
      · rintro ⟨h1, d, -, h2⟩
        exact ⟨h1, fun h3 => by have := h3 d; omega⟩
      · rintro ⟨h1, h2⟩
        unfold Box.contains at h2
        push_neg at h2
        obtain ⟨d, hd2⟩ := h2
        refine ⟨h1, d, by simp, ?_⟩
        by_cases hlt : c d < b2.smallEnd d
        · exact Or.inl hlt
        · exact Or.inr (hd2 (by omega))

/-- Pieces cut out of pairwise disjoint boxes are pairwise disjoint. -/
theorem isDisjoint_flatMap (bl : BoxList D) (f : Box D → BoxList D) (hd : bl.isDisjoint)
    (hin : ∀ b ∈ bl, ∀ c, (f b).covers c → b.contains c)
    (hf : ∀ b ∈ bl, (f b).isDisjoint) : BoxList.isDisjoint (bl.flatMap f) := by
  unfold BoxList.isDisjoint at *
  rw [List.pairwise_flatMap]
  refine ⟨hf, ?_⟩
  refine List.Pairwise.imp_of_mem ?_ hd
  intro a b ha hb hab x hx y hy hxy
  obtain ⟨c, hcx, hcy⟩ := (Box.intersects_iff x y).1 hxy
  exact hab ((Box.intersects_iff a b).2
    ⟨c, hin a ha c ⟨x, hx, hcx⟩, hin b hb c ⟨y, hy, hcy⟩⟩)

theorem complementIn_foldl_spec (bl : BoxList D) (acc : BoxList D)
    (hok : ∀ p ∈ acc, p.ok) (hd : acc.isDisjoint) :
    (∀ c, (bl.foldl (fun acc x => acc.flatMap (fun p => boxDiff p x)) acc).covers c ↔
      acc.covers c ∧ ¬ bl.covers c) ∧
    (∀ p ∈ bl.foldl (fun acc x => acc.flatMap (fun p => boxDiff p x)) acc, p.ok) ∧
    BoxList.isDisjoint (bl.foldl (fun acc x => acc.flatMap (fun p => boxDiff p x)) acc) := by
  induction bl generalizing acc with
  | nil =>
    refine ⟨fun c => ?_, hok, hd⟩
    simp [BoxList.covers_nil]
  | cons x t ih =>
    simp only [List.foldl_cons]
    have hok' : ∀ p ∈ acc.flatMap (fun p => boxDiff p x), p.ok := by
      intro p hp
      obtain ⟨a, ha, hpa⟩ := List.mem_flatMap.1 hp
      exact (boxDiff_spec a x (hok a ha)).2.1 p hpa
    have hd' : BoxList.isDisjoint (acc.flatMap (fun p => boxDiff p x)) :=
      isDisjoint_flatMap acc _ hd
        (fun b hb c hc => (((boxDiff_spec b x (hok b hb)).1 c).1 hc).1)
        (fun b hb => (boxDiff_spec b x (hok b hb)).2.2)
    obtain ⟨ihc, ihk, ihd⟩ := ih _ hok' hd'
    refine ⟨fun c => ?_, ihk, ihd⟩
    rw [ihc c, BoxList.covers_flatMap, BoxList.covers_cons]
    constructor
    · rintro ⟨⟨a, ha, hac⟩, hnt⟩
      have := ((boxDiff_spec a x (hok a ha)).1 c).1 hac
      exact ⟨⟨a, ha, this.1⟩, fun h => h.elim this.2 hnt⟩
    · rintro ⟨⟨a, ha, hac⟩, hn⟩
      push_neg at hn
      exact ⟨⟨a, ha, ((boxDiff_spec a x (hok a ha)).1 c).2 ⟨hac, hn.1⟩⟩, hn.2⟩

/-- The complement of a box list in a non-empty box: the cells of the box that the list
does not cover, in non-empty pairwise disjoint boxes. -/
theorem complementIn_spec (b : Box D) (bl : BoxList D) (hok : b.ok) :
    (∀ c, (BoxList.complementIn b bl).covers c ↔ b.contains c ∧ ¬ bl.covers c) ∧
    (∀ p ∈ BoxList.complementIn b bl, p.ok) ∧
    BoxList.isDisjoint (BoxList.complementIn b bl) := by
  unfold BoxList.complementIn
  obtain ⟨hc, hk, hd⟩ := complementIn_foldl_spec bl [b]
    (fun p hp => by rw [List.mem_singleton] at hp; subst hp; exact hok)
    (by simp [BoxList.isDisjoint])
  refine ⟨fun c => ?_, hk, hd⟩
  rw [hc c, BoxList.covers_singleton]

end amrex

namespace amrex
variable {D : Nat} {T C : Type}

/-! ### Regions of grown, coarsened and refined box lists -/

theorem covers_accrete (bl : BoxList D) (n : Int) (hn : 0 ≤ n) (hok : ∀ b ∈ bl, b.ok)
    (c : IntVect D) :
    (bl.accrete n).covers c ↔ ∃ c', (∀ d, |c' d - c d| ≤ n) ∧ bl.covers c' := by
  unfold BoxList.accrete BoxList.covers
  constructor
  · rintro ⟨g, hg, hc⟩
    obtain ⟨b, hb, rfl⟩ := List.mem_map.1 hg
    refine ⟨fun d => max (b.smallEnd d) (min (c d) (b.bigEnd d)), ?_, b, hb, ?_⟩
    · intro d
      have := hc d; have := hok b hb d
      simp only [Box.grow] at *
      rw [abs_le]; omega
    · intro d
      have := hok b hb d
      dsimp only
      omega
  · rintro ⟨c', hclose, b, hb, hc'⟩
    refine ⟨b.grow n, List.mem_map.2 ⟨b, hb, rfl⟩, ?_⟩
    intro d
    have := hc' d; have := abs_le.1 (hclose d)
    simp only [Box.grow]; omega

theorem covers_accrete_of_covers (bl : BoxList D) (n : Int) (hn : 0 ≤ n) (c : IntVect D)
    (h : bl.covers c) : (bl.accrete n).covers c := by
  obtain ⟨b, hb, hc⟩ := h
  refine ⟨b.grow n, List.mem_map.2 ⟨b, hb, rfl⟩, ?_⟩
  intro d
  have := hc d
  simp only [Box.grow]; omega

theorem Box.contains_refine (b : Box D) (r : IntVect D) (hr : ∀ d, 0 < r d) (f : IntVect D) :
    (b.refine r).contains f ↔ b.contains (fun d => f d / r d) := by
  unfold Box.contains Box.refine
  refine forall_congr' (fun d => ?_)
  simp only []
  rw [Int.le_ediv_iff_mul_le (hr d)]
  have h2 : f d ≤ (b.bigEnd d + 1) * r d - 1 ↔ f d / r d ≤ b.bigEnd d := by
    rw [← Int.lt_add_one_iff, ← Int.lt_add_one_iff (b := b.bigEnd d),
      Int.ediv_lt_iff_lt_mul (hr d)]
    constructor <;> intro h <;> omega
  rw [h2]

theorem covers_refine (bl : BoxList D) (r : IntVect D) (hr : ∀ d, 0 < r d) (f : IntVect D) :
    (bl.refine r).covers f ↔ bl.covers (fun d => f d / r d) := by
  unfold BoxList.refine BoxList.covers
  constructor
  · rintro ⟨g, hg, hf⟩
    obtain ⟨b, hb, rfl⟩ := List.mem_map.1 hg
    exact ⟨b, hb, (Box.contains_refine b r hr f).1 hf⟩
  · rintro ⟨b, hb, hf⟩
    exact ⟨b.refine r, List.mem_map.2 ⟨b, hb, rfl⟩, (Box.contains_refine b r hr f).2 hf⟩

theorem Box.contains_coarsen (b : Box D) (r : IntVect D) (hr : ∀ d, 0 < r d) (hok : b.ok)
    (c : IntVect D) :
    (b.coarsen r).contains c ↔ ∃ f, b.contains f ∧ ∀ d, f d / r d = c d := by
  unfold Box.contains Box.coarsen
  simp only []
  constructor
  · intro h
    refine ⟨fun d => max (b.smallEnd d) (c d * r d), fun d => ?_, fun d => ?_⟩
    · have h1 := h d
      have h2 := hok d
      have h3 : c d * r d ≤ b.bigEnd d := (Int.le_ediv_iff_mul_le (hr d)).1 h1.2
      dsimp only
      omega
    · have h1 := h d
      dsimp only
      rcases le_total (b.smallEnd d) (c d * r d) with hle | hle
      · rw [max_eq_right hle]
        exact Int.mul_ediv_cancel _ (ne_of_gt (hr d))
      · rw [max_eq_left hle]
        have : c d ≤ b.smallEnd d / r d := (Int.le_ediv_iff_mul_le (hr d)).2 hle
        omega
  · rintro ⟨f, hf, hfc⟩ d
    have := hf d
    rw [← hfc d]
    exact ⟨Int.ediv_le_ediv (hr d) this.1, Int.ediv_le_ediv (hr d) this.2⟩

theorem covers_coarsen (bl : BoxList D) (r : IntVect D) (hr : ∀ d, 0 < r d)
    (hok : ∀ b ∈ bl, b.ok) (c : IntVect D) :
    (bl.coarsen r).covers c ↔ ∃ f, bl.covers f ∧ ∀ d, f d / r d = c d := by
  unfold BoxList.coarsen BoxList.covers
  constructor
  · rintro ⟨g, hg, hc⟩
    obtain ⟨b, hb, rfl⟩ := List.mem_map.1 hg
    obtain ⟨f, hf, hfc⟩ := (Box.contains_coarsen b r hr (hok b hb) c).1 hc
    exact ⟨f, ⟨b, hb, hf⟩, hfc⟩
  · rintro ⟨f, ⟨b, hb, hf⟩, hfc⟩
    exact ⟨b.coarsen r, List.mem_map.2 ⟨b, hb, rfl⟩,
      (Box.contains_coarsen b r hr (hok b hb) c).2 ⟨f, hf, hfc⟩⟩

theorem covers_ProjPeriodic_of_covers (bl : BoxList D) (domain : Box D)
    (is_per : Fin D → Int) (c : IntVect D) (h : bl.covers c) :
    (ProjPeriodic bl domain is_per).covers c := by
  rw [ProjPeriodic_eq, BoxList.covers_append]
  exact Or.inl h

/-- The vector `bf_lev` holds positive entries at the levels the loops set. -/
theorem bf_lev_pos (m : AmrMesh D) (i : Int) (h0 : 0 ≤ i) (h1 : i ≤ max_crse m) (d : Fin D) :
    0 < bf_lev m i d := by
  unfold bf_lev
  rw [if_pos ⟨h0, h1⟩]
  exact lt_of_lt_of_le (by decide) (le_max_left _ _)

theorem isAnyPeriodic_false (m : AmrMesh D) (lev : Int) (h : ∀ d, m.is_periodic lev d = 0) :
    isAnyPeriodic m lev = false := by
  unfold isAnyPeriodic
  simp [h]

theorem p_n_comp_ba_base (x : Collab D T C) (m : AmrMesh D) (lbase : Int) :
    p_n_comp_ba x m lbase lbase =
      (if isAnyPeriodic m lbase
       then ProjPeriodic ((x.simplify (BoxList.complementIn (pc_domain m lbase)
          ((x.simplify (m.grids lbase)).coarsen (bf_lev m lbase)))).accrete m.n_proper)
          (pc_domain m lbase) (m.is_periodic lbase)
       else (x.simplify (BoxList.complementIn (pc_domain m lbase)
          ((x.simplify (m.grids lbase)).coarsen (bf_lev m lbase)))).accrete m.n_proper) := by
  unfold p_n_comp_ba
  rw [sub_self]
  rfl

theorem p_n_comp_ba_succ (x : Collab D T C) (m : AmrMesh D) (lbase i : Int) (hi : lbase < i) :
    p_n_comp_ba x m lbase i =
      (if isAnyPeriodic m i
       then ProjPeriodic (((x.simplify (p_n_comp_ba x m lbase (i - 1))).refine
          (rr_lev m (i - 1))).accrete m.n_proper) (pc_domain m i) (m.is_periodic i)
       else ((x.simplify (p_n_comp_ba x m lbase (i - 1))).refine
          (rr_lev m (i - 1))).accrete m.n_proper) := by
  unfold p_n_comp_ba
  have hk : (i - lbase).toNat = (i - 1 - lbase).toNat + 1 := by omega
  have hi' : lbase + ((i - 1 - lbase).toNat : Int) + 1 = i := by omega
  rw [hk]
  simp only [pnCompAbove]
  rw [hi']

end amrex

namespace amrex
variable {D : Nat} {T C : Type}

/-- The grids coarsened after simplification cover the same cells as the grids coarsened. -/
theorem covers_coarsen_simplify (simplify : BoxList D → BoxList D)
    (hs : SimplifySpec simplify) (bl : BoxList D) (hok : ∀ b ∈ bl, b.ok) (r : IntVect D)
    (hr : ∀ d, 0 < r d) (c : IntVect D) :
    ((simplify bl).coarsen r).covers c ↔ (bl.coarsen r).covers c := by
  rw [covers_coarsen _ r hr ((hs bl).2 hok) c, covers_coarsen _ r hr hok c]
  constructor
  · rintro ⟨f, hf, hfc⟩; exact ⟨f, ((hs bl).1 f).1 hf, hfc⟩
  · rintro ⟨f, hf, hfc⟩; exact ⟨f, ((hs bl).1 f).2 hf, hfc⟩

/-- The proper nesting domain of a level is the part of the coarsened domain outside the
complement list. -/
theorem covers_p_n_ba (x : Collab D T C) (m : AmrMesh D) (lbase i : Int)
    (hs : SimplifySpec x.simplify) (hok : (pc_domain m i).ok) (c : IntVect D) :
    (p_n_ba x m lbase i).covers c ↔
      (pc_domain m i).contains c ∧ ¬ (p_n_comp_ba x m lbase i).covers c := by
  unfold p_n_ba
  rw [(hs _).1 c, (complementIn_spec _ _ hok).1 c]

/-- C5: on a domain that is not periodic at level `lbase`, with `n_proper >= 0`, a cell `c`
of the coarsened domain `pc_domain[lbase]` lies in the proper nesting domain
`p_n_ba[lbase]` if and only if every cell of `pc_domain[lbase]` within `n_proper` cells
of `c` in every direction is covered by the level-`lbase` grids coarsened by
`bf_lev[lbase]`.  (The call is at a level `0 <= lbase <= max_crse`, the grids hold
non-empty boxes, and `simplify` meets its contract.) -/
theorem nesting_domain_base_iff (x : Collab D T C) (m : AmrMesh D) (lbase : Int)
    (hs : SimplifySpec x.simplify)
    (hl0 : 0 ≤ lbase) (hl1 : lbase ≤ max_crse m)
    (hgrids : ∀ b ∈ m.grids lbase, b.ok)
    (hper : ∀ d, m.is_periodic lbase d = 0)
    (hn : 0 ≤ m.n_proper)
    (c : IntVect D) (hc : (pc_domain m lbase).contains c) :
    (p_n_ba x m lbase lbase).covers c ↔
      ∀ c', (∀ d, |c' d - c d| ≤ m.n_proper) → (pc_domain m lbase).contains c' →
        ((m.grids lbase).coarsen (bf_lev m lbase)).covers c' := by
  have hdok : (pc_domain m lbase).ok := Box.contains_ok _ c hc
  have hbf := bf_lev_pos m lbase hl0 hl1
  rw [covers_p_n_ba x m lbase lbase hs hdok c, p_n_comp_ba_base,
    isAnyPeriodic_false m lbase hper]
  simp only [Bool.false_eq_true, if_false]
  have hcompok : ∀ b ∈ x.simplify (BoxList.complementIn (pc_domain m lbase)
      ((x.simplify (m.grids lbase)).coarsen (bf_lev m lbase))), b.ok :=
    (hs _).2 (complementIn_spec _ _ hdok).2.1
  rw [covers_accrete _ _ hn hcompok c]
  constructor
  · rintro ⟨-, hno⟩ c' hclose hdom
    by_contra hcov
    apply hno
    refine ⟨c', hclose, ?_⟩
    rw [(hs _).1 c', (complementIn_spec _ _ hdok).1 c']
    exact ⟨hdom, fun h => hcov
      ((covers_coarsen_simplify x.simplify hs _ hgrids _ hbf c').1 h)⟩
  · intro hall
    refine ⟨hc, ?_⟩
    rintro ⟨c', hclose, hcov⟩
    rw [(hs _).1 c', (complementIn_spec _ _ hdok).1 c'] at hcov
    exact hcov.2 ((covers_coarsen_simplify x.simplify hs _ hgrids _ hbf c').2
      (hall c' hclose hcov.1))

/-- C6: for `n_proper >= 0` and a level `i > lbase` (with a positive ratio `rr_lev[i-1]`),
the complement `p_n_comp_ba[i]` covers the refinement by `rr_lev[i-1]` of the complement
`p_n_comp_ba[i-1]`; and when `pc_domain[i]` is `pc_domain[i-1]` refined by `rr_lev[i-1]`,
the nesting domain `p_n_ba[i]` coarsened by `rr_lev[i-1]` lies in `p_n_ba[i-1]`. -/
theorem nesting_domains_transitive (x : Collab D T C) (m : AmrMesh D) (lbase i : Int)
    (hs : SimplifySpec x.simplify)
    (hn : 0 ≤ m.n_proper) (hi : lbase < i)
    (hr : ∀ d, 0 < rr_lev m (i - 1) d) :
    (∀ c, ((p_n_comp_ba x m lbase (i - 1)).refine (rr_lev m (i - 1))).covers c →
      (p_n_comp_ba x m lbase i).covers c) ∧
    (pc_domain m i = (pc_domain m (i - 1)).refine (rr_lev m (i - 1)) →
      (pc_domain m i).ok →
      ∀ c, ((p_n_ba x m lbase i).coarsen (rr_lev m (i - 1))).covers c →
        (p_n_ba x m lbase (i - 1)).covers c) := by
  have part1 : ∀ c, ((p_n_comp_ba x m lbase (i - 1)).refine (rr_lev m (i - 1))).covers c →
      (p_n_comp_ba x m lbase i).covers c := by
    intro c hc
    rw [p_n_comp_ba_succ x m lbase i hi]
    have h1 : (((x.simplify (p_n_comp_ba x m lbase (i - 1))).refine
        (rr_lev m (i - 1))).accrete m.n_proper).covers c := by
      apply covers_accrete_of_covers _ _ hn
      rw [covers_refine _ _ hr c] at hc ⊢
      exact ((hs _).1 _).2 hc
    split
    · exact covers_ProjPeriodic_of_covers _ _ _ c h1
    · exact h1
  refine ⟨part1, ?_⟩
  intro hdom hok c hc
  have hpiok : ∀ b ∈ p_n_ba x m lbase i, b.ok := by
    unfold p_n_ba
    exact (hs _).2 (complementIn_spec _ _ hok).2.1
  obtain ⟨f, hf, hfc⟩ := (covers_coarsen _ _ hr hpiok c).1 hc
  rw [covers_p_n_ba x m lbase i hs hok f] at hf
  have hfc' : (fun d => f d / rr_lev m (i - 1) d) = c := funext hfc
  have hcdom : (pc_domain m (i - 1)).contains c := by
    have h1 := hf.1
    rw [hdom, Box.contains_refine _ _ hr f, hfc'] at h1
    exact h1
  have hok' : (pc_domain m (i - 1)).ok := Box.contains_ok _ c hcdom
  rw [covers_p_n_ba x m lbase (i - 1) hs hok' c]
  refine ⟨hcdom, fun hcomp => hf.2 (part1 f ?_)⟩
  rw [covers_refine _ _ hr f, hfc']
  exact hcomp

end amrex

namespace amrex
variable {D : Nat} {T C : Type}

/-! ### The reference simplification -/

theorem Box.diffDirs_nil (a b : Box D) (h : a.diffDirs b = []) (d : Fin D) :
    a.smallEnd d = b.smallEnd d ∧ a.bigEnd d = b.bigEnd d := by
  unfold Box.diffDirs at h
  have := List.filter_eq_nil_iff.1 h d (List.mem_finRange d)
  simpa using this

theorem Box.diffDirs_single (a b : Box D) (i : Fin D) (h : a.diffDirs b = [i]) (d : Fin D)
    (hd : d ≠ i) : a.smallEnd d = b.smallEnd d ∧ a.bigEnd d = b.bigEnd d := by
  unfold Box.diffDirs at h
  by_contra hne
  have hm : d ∈ (List.finRange D).filter
      (fun d => !(decide (a.smallEnd d = b.smallEnd d) && decide (a.bigEnd d = b.bigEnd d))) := by
    rw [List.mem_filter]
    refine ⟨List.mem_finRange d, ?_⟩
    simp only [Bool.not_eq_true', Bool.and_eq_false_iff, decide_eq_false_iff_not]
    by_contra hcon
    push_neg at hcon
    exact hne hcon
  rw [h, List.mem_singleton] at hm
  exact hd hm

/-- A joined box holds the cells of the two boxes, and is non-empty when they are. -/
theorem Box.tryJoin_spec (a b j : Box D) (h : a.tryJoin b = some j) :
    (∀ c, j.contains c ↔ a.contains c ∨ b.contains c) ∧ (a.ok → b.ok → j.ok) := by
  unfold Box.tryJoin at h
  split at h
  · rename_i hnil
    simp only [Option.some.injEq] at h
    subst h
    refine ⟨fun c => ?_, fun ha _ => ha⟩
    constructor
    · exact Or.inl
    · rintro (h | h)
      · exact h
      · intro d
        have := Box.diffDirs_nil a b hnil d
        have := h d
        omega
  · rename_i i hsingle
    split at h
    · rename_i hcond
      simp only [Option.some.injEq] at h
      subst h
      have hne := Box.diffDirs_single a b i hsingle
      refine ⟨fun c => ?_, fun ha hb d => ?_⟩
      · rw [Box.contains_of_dir a _ c i
          (fun d hd => by simp [Function.update_noteq hd])
          (fun d hd => by simp [Function.update_noteq hd]),
          Box.contains_iff_dir a c i, Box.contains_iff_dir b c i]
        simp only [Function.update_same]
        constructor
        · rintro ⟨h1, h2⟩
          by_cases hin : a.smallEnd i ≤ c i ∧ c i ≤ a.bigEnd i
          · exact Or.inl ⟨hin, h2⟩
          · right
            refine ⟨by omega, fun d hd => ?_⟩
            have := hne d hd; have := h2 d hd
            omega
        · rintro (⟨h1, h2⟩ | ⟨h1, h2⟩)
          · exact ⟨by omega, h2⟩
          · refine ⟨by omega, fun d hd => ?_⟩
            have := hne d hd; have := h2 d hd
            omega
      · by_cases hd : d = i
        · subst hd
          simp only [Function.update_same]
          have := ha d; have := hb d
          omega
        · simp only [Function.update_noteq hd]
          exact ha d
    · cases h
  · cases h

theorem mergeInto_spec (b : Box D) (acc : BoxList D) :
    (∀ c, (mergeInto b acc).covers c ↔ b.contains c ∨ acc.covers c) ∧
    (b.ok → (∀ a ∈ acc, a.ok) → ∀ a ∈ mergeInto b acc, a.ok) := by
  induction acc with
  | nil =>
    refine ⟨fun c => ?_, fun hb _ a ha => ?_⟩
    · simp [mergeInto, BoxList.covers]
    · simp only [mergeInto, List.mem_singleton] at ha; subst ha; exact hb
  | cons a rest ih =>
    unfold mergeInto
    cases hj : a.tryJoin b with
    | none =>
      simp only []
      refine ⟨fun c => ?_, fun hb hacc p hp => ?_⟩
      · rw [BoxList.covers_cons, ih.1 c, BoxList.covers_cons]
        tauto
      · rcases List.mem_cons.1 hp with rfl | hp
        · exact hacc _ (List.mem_cons_self _ _)
        · exact ih.2 hb (fun q hq => hacc q (List.mem_cons_of_mem _ hq)) p hp
    | some j =>
      simp only []
      have hspec := Box.tryJoin_spec a b j hj
      refine ⟨fun c => ?_, fun hb hacc p hp => ?_⟩
      · rw [BoxList.covers_cons, hspec.1 c, BoxList.covers_cons]
        tauto
      · rcases List.mem_cons.1 hp with rfl | hp
        · exact hspec.2 (hacc _ (List.mem_cons_self _ _)) hb
        · exact hacc p (List.mem_cons_of_mem _ hp)

theorem refSimplify_foldl_spec (bl acc : BoxList D) :
    (∀ c, (bl.foldl (fun acc b => mergeInto b acc) acc).covers c ↔
      acc.covers c ∨ bl.covers c) ∧
    ((∀ a ∈ acc, a.ok) → (∀ b ∈ bl, b.ok) →
      ∀ p ∈ bl.foldl (fun acc b => mergeInto b acc) acc, p.ok) := by
  induction bl generalizing acc with
  | nil =>
    refine ⟨fun c => ?_, fun hacc _ => hacc⟩
    simp [BoxList.covers_nil]
  | cons b t ih =>
    simp only [List.foldl_cons]
    refine ⟨fun c => ?_, fun hacc hbl => ?_⟩
    · rw [(ih _).1 c, (mergeInto_spec b acc).1 c, BoxList.covers_cons]
      tauto
    · exact (ih _).2
        ((mergeInto_spec b acc).2 (hbl b (List.mem_cons_self _ _)) hacc)
        (fun q hq => hbl q (List.mem_cons_of_mem _ hq))

/-- The reference simplification meets the contract of `BoxList::simplify`. -/
theorem refSimplify_spec : SimplifySpec (refSimplify : BoxList D → BoxList D) := by
  intro bl
  unfold refSimplify
  refine ⟨fun c => ?_, fun hok => ?_⟩
  · rw [(refSimplify_foldl_spec bl []).1 c]
    simp [BoxList.covers_nil]
  · exact (refSimplify_foldl_spec bl []).2 (by simp) hok

end amrex

namespace amrex

theorem exists_of_ranOk {α : Type} (o : Option (Except String α)) (h : ranOk o = true) :
    ∃ a, o = some (Except.ok a) := by
  match o, h with
  | some (Except.ok a), _ => exact ⟨a, rfl⟩

set_option maxRecDepth 100000 in
/-- Witness of C4: a regrid of `lineMesh` from level 0 ends normally, and the bounds hold
of its result. -/
theorem MakeNewGrids_new_finest_bounds_witness :
    ∃ st, MakeNewGrids (refCollab lineEst 1) lineMesh 0 0 (fun _ => []) 10
        = some (Except.ok st) ∧
      (0 : Int) ≤ 0 ∧ 0 ≤ lineMesh.finest_level ∧ 0 < lineMesh.max_level ∧
      0 ≤ st.new_finest ∧
      st.new_finest ≤ min (lineMesh.finest_level + 1) lineMesh.max_level := by
  obtain ⟨st, h⟩ := exists_of_ranOk
    (MakeNewGrids (refCollab lineEst 1) lineMesh 0 0 (fun _ => []) 10) (by decide)
  exact ⟨st, h, by decide, by decide, by decide,
    MakeNewGrids_new_finest_bounds (refCollab lineEst 1) lineMesh 0 0 (fun _ => []) 10 st
      (by decide) (by decide) (by decide) h⟩

/-- Witness of C5: level 1 of `lineMesh` and the cell 10 of its coarsened domain. -/
theorem nesting_domain_base_iff_witness :
    SimplifySpec (refCollab lineEst 1).simplify ∧
    (0 : Int) ≤ 1 ∧ 1 ≤ max_crse lineMesh ∧
    (∀ b ∈ lineMesh.grids 1, b.ok) ∧
    (∀ d, lineMesh.is_periodic 1 d = 0) ∧
    0 ≤ lineMesh.n_proper ∧
    (pc_domain lineMesh 1).contains (fun _ => 10) ∧
    ((p_n_ba (refCollab lineEst 1) lineMesh 1 1).covers (fun _ => 10) ↔
      ∀ c', (∀ d, |c' d - (fun _ => (10 : Int)) d| ≤ lineMesh.n_proper) →
        (pc_domain lineMesh 1).contains c' →
        ((lineMesh.grids 1).coarsen (bf_lev lineMesh 1)).covers c') :=
  ⟨refSimplify_spec, by decide, by decide, by decide, by decide, by decide, by decide,
    nesting_domain_base_iff (refCollab lineEst 1) lineMesh 1 refSimplify_spec
      (by decide) (by decide) (by decide) (by decide) (by decide) (fun _ => 10) (by decide)⟩

/-- Witness of C9: one box on level 0 of `lineMesh`, four boxes asked for. -/
theorem ChopGrids_target_or_no_halving_witness :
    (∃ d, lineMesh.refine_grid_layout_dims d ≠ 0) ∧
    (∀ d, 0 < lineMesh.blocking_factor 0 d) ∧
    ∃ st, chopRun refMaxSize lineMesh 0 [box1 0 15] 4 = some st ∧
      ChopGrids refMaxSize lineMesh 0 [box1 0 15] 4 = some st.ba ∧
      ((4 : Int) ≤ (st.ba.length : Int) ∨
        ∀ d, lineMesh.refine_grid_layout_dims d ≠ 0 →
          (cdiv (st.chunk d) 2 = 0 ∨
            cmod (cdiv (st.chunk d) 2) (lineMesh.blocking_factor 0 d) ≠ 0)) :=
  ⟨by decide, by decide,
    ChopGrids_target_or_no_halving refMaxSize lineMesh 0 [box1 0 15] 4 (by decide) (by decide)⟩

/-- Witness of C10: one box on level 0 of `lineMesh`, four boxes asked for. -/
theorem ChopGrids_chunk_invariant_witness :
    (∀ d, 0 < chunkInit lineMesh 0 d) ∧
    (∀ d, 0 < lineMesh.blocking_factor 0 d) ∧
    ∃ st, chopRun refMaxSize lineMesh 0 [box1 0 15] 4 = some st ∧
      ∀ ch ∈ st.chunk :: st.applied, ChunkInv lineMesh 0 (chunkInit lineMesh 0) ch :=
  ⟨by decide, by decide,
    ChopGrids_chunk_invariant refMaxSize lineMesh 0 [box1 0 15] 4 (by decide) (by decide)⟩

end amrex

namespace amrex
variable {D : Nat} {T C : Type}

/-! ### Pairwise disjoint box lists -/

theorem Box.not_intersects_of_not_ok_left (a b : Box D) (h : ¬ a.ok) : ¬ a.intersects b := by
  intro hi
  obtain ⟨c, hc, -⟩ := (Box.intersects_iff a b).1 hi
  exact h (Box.contains_ok a c hc)

theorem isDisjoint_of_not_ok (bl : BoxList D) (h : ∀ b ∈ bl, ¬ b.ok) : BoxList.isDisjoint bl := by
  unfold BoxList.isDisjoint
  induction bl with
  | nil => exact List.Pairwise.nil
  | cons a t ih =>
    refine List.Pairwise.cons (fun b _ => ?_) (ih (fun b hb => h b (List.mem_cons_of_mem _ hb)))
    exact Box.not_intersects_of_not_ok_left a b (h a (List.mem_cons_self _ _))

theorem isDisjoint_map (bl : BoxList D) (f : Box D → Box D)
    (hf : ∀ a ∈ bl, ∀ b ∈ bl, (f a).intersects (f b) → a.intersects b)
    (h : BoxList.isDisjoint bl) : BoxList.isDisjoint (bl.map f) := by
  unfold BoxList.isDisjoint at *
  rw [List.pairwise_map]
  exact List.Pairwise.imp_of_mem (fun ha hb hab hi => hab (hf _ ha _ hb hi)) h

theorem isDisjoint_refine_pos (bl : BoxList D) (r : IntVect D) (hr : ∀ d, 0 < r d)
    (h : BoxList.isDisjoint bl) : BoxList.isDisjoint (bl.refine r) := by
  apply isDisjoint_map bl _ _ h
  intro a _ b _ hi
  obtain ⟨c, hca, hcb⟩ := (Box.intersects_iff _ _).1 hi
  exact (Box.intersects_iff a b).2
    ⟨_, (Box.contains_refine a r hr c).1 hca, (Box.contains_refine b r hr c).1 hcb⟩

/-- Refinement of non-empty boxes by any ratio keeps a list pairwise disjoint: a ratio
that is not positive in some direction leaves only empty boxes. -/
theorem isDisjoint_refine_of_ok (bl : BoxList D) (r : IntVect D) (hok : ∀ b ∈ bl, b.ok)
    (h : BoxList.isDisjoint bl) : BoxList.isDisjoint (bl.refine r) := by
  by_cases hr : ∀ d, 0 < r d
  · exact isDisjoint_refine_pos bl r hr h
  · push_neg at hr
    obtain ⟨d, hd⟩ := hr
    apply isDisjoint_of_not_ok
    intro b hb hbok
    obtain ⟨a, ha, rfl⟩ := List.mem_map.1 hb
    have h1 := hbok d
    have h2 := hok a ha d
    simp only [Box.refine] at h1
    have : (a.bigEnd d + 1 - a.smallEnd d) * r d ≤ 0 :=
      Int.mul_nonpos_of_nonneg_of_nonpos (by omega) hd
    have h3 : (a.bigEnd d + 1 - a.smallEnd d) * r d
        = (a.bigEnd d + 1) * r d - a.smallEnd d * r d := by ring
    omega

/-- Refinement by a ratio that is positive, or zero, keeps a list pairwise disjoint. -/
theorem isDisjoint_refine_of_nonneg (bl : BoxList D) (r : IntVect D) (hr : ∀ d, 0 ≤ r d)
    (h : BoxList.isDisjoint bl) : BoxList.isDisjoint (bl.refine r) := by
  by_cases hpos : ∀ d, 0 < r d
  · exact isDisjoint_refine_pos bl r hpos h
  · push_neg at hpos
    obtain ⟨d, hd⟩ := hpos
    have hz : r d = 0 := le_antisymm hd (hr d)
    apply isDisjoint_of_not_ok
    intro b hb hbok
    obtain ⟨a, ha, rfl⟩ := List.mem_map.1 hb
    have h1 := hbok d
    simp only [Box.refine, hz, mul_zero] at h1
    omega

theorem mem_intersect_ok (bl : BoxList D) (dom b : Box D) (h : b ∈ bl.intersect dom) : b.ok := by
  unfold BoxList.intersect at h
  simpa using (List.mem_filter.1 h).2

theorem isDisjoint_intersect (bl : BoxList D) (dom : Box D) (h : BoxList.isDisjoint bl) :
    BoxList.isDisjoint (bl.intersect dom) := by
  unfold BoxList.intersect BoxList.isDisjoint
  apply List.Pairwise.filter
  exact isDisjoint_map bl _
    (fun a _ b _ hi => by
      obtain ⟨c, hca, hcb⟩ := (Box.intersects_iff _ _).1 hi
      exact (Box.intersects_iff a b).2
        ⟨c, ((Box.contains_intersect a dom c).1 hca).1, ((Box.contains_intersect b dom c).1 hcb).1⟩)
    h

/-- The pieces of `boxDiff` lie in the first box and are pairwise disjoint. -/
theorem boxDiff_disjoint (b1 b2 : Box D) :
    (∀ c, (boxDiff b1 b2).covers c → b1.contains c) ∧ BoxList.isDisjoint (boxDiff b1 b2) := by
  by_cases hok : b1.ok
  · obtain ⟨hc, -, hd⟩ := boxDiff_spec b1 b2 hok
    exact ⟨fun c h => ((hc c).1 h).1, hd⟩
  · unfold boxDiff
    split
    · exact ⟨fun c h => absurd h (BoxList.covers_nil c), by simp [BoxList.isDisjoint]⟩
    · split
      · exact ⟨fun c h => (BoxList.covers_singleton b1 c).1 h, by simp [BoxList.isDisjoint]⟩
      · rename_i hi
        have hi' : b1.intersects b2 := not_not.1 hi
        obtain ⟨c, hc, -⟩ := (Box.intersects_iff b1 b2).1 hi'
        exact absurd (Box.contains_ok b1 c hc) hok

theorem complementIn_foldl_disjoint (bl acc : BoxList D) (hd : BoxList.isDisjoint acc) :
    BoxList.isDisjoint (bl.foldl (fun acc x => acc.flatMap (fun p => boxDiff p x)) acc) := by
  induction bl generalizing acc with
  | nil => exact hd
  | cons x t ih =>
    simp only [List.foldl_cons]
    apply ih
    exact isDisjoint_flatMap acc _ hd (fun b _ c hc => (boxDiff_disjoint b x).1 c hc)
      (fun b _ => (boxDiff_disjoint b x).2)

/-- The complement of a box list in a box is a pairwise disjoint list. -/
theorem complementIn_disjoint (b : Box D) (bl : BoxList D) :
    BoxList.isDisjoint (BoxList.complementIn b bl) := by
  unfold BoxList.complementIn
  exact complementIn_foldl_disjoint bl [b] (by simp [BoxList.isDisjoint])

theorem bf_lev_nonneg (m : AmrMesh D) (i : Int) (d : Fin D) : 0 ≤ bf_lev m i d := by
  unfold bf_lev
  split
  · exact le_trans (by decide) (le_max_left _ _)
  · exact le_refl _

/-- The list `new_bx` is pairwise disjoint after the refinement to the fine level. -/
theorem makeNewBoxes_disjoint (x : Collab D T C) (m : AmrMesh D) (lbase levc : Int)
    (hcl : ClusterDisjoint x) (hsd : SimplifyDisjoint x.simplify)
    (tagvec : List (IntVect D)) (hnd : tagvec.Nodup) :
    BoxList.isDisjoint (makeNewBoxes x m lbase levc tagvec) := by
  unfold makeNewBoxes
  have hpn : BoxList.isDisjoint (p_n_ba x m lbase levc) := by
    unfold p_n_ba
    exact hsd _ (complementIn_disjoint _ _)
  have h1 := hcl m.use_new_chop m.grid_eff _ tagvec hnd hpn
  have h2 := hsd _ (isDisjoint_refine_of_nonneg _ (bf_lev m levc) (bf_lev_nonneg m levc) h1)
  simp only []
  split
  · exact isDisjoint_refine_of_ok _ _ (fun b hb => mem_intersect_ok _ _ b hb)
      (isDisjoint_intersect _ _ h2)
  · rename_i hlen
    have hnil : x.simplify ((clusterBoxes x m.use_new_chop m.grid_eff (p_n_ba x m lbase levc)
        tagvec).refine (bf_lev m levc)) = [] := by
      apply List.eq_nil_of_length_eq_zero
      omega
    rw [hnil]
    simp [BoxList.refine, BoxList.isDisjoint]

end amrex

namespace amrex
variable {D : Nat} {T C : Type}

/-! ### The loops of `MakeNewGrids`, step by step -/

/-- The collated tags of a level are the result of `collate`. -/
theorem tagLevel_ok_collate (x : Collab D T C) (m : AmrMesh D) (lbase : Int) (time : ℚ)
    (nf levc : Int) (ba_proj : BoxList D) (ngt : IntVect D) (nf1 : Int)
    (tagvec : List (IntVect D))
    (h : tagLevel x m lbase time nf levc ba_proj ngt = Except.ok (nf1, tagvec)) :
    ∃ t, tagvec = x.collate t := by
  rw [tagLevel_eq] at h
  simp only [] at h
  split at h
  · simp only [Except.ok.injEq, Prod.mk.injEq] at h
    exact ⟨_, h.2.symm⟩
  · cases h

/-- What a pass of the level loop that ends normally has done. -/
theorem levelStep_ok (x : Collab D T C) (m : AmrMesh D) (lbase : Int) (time : ℚ)
    (fuel : Nat) (st st1 : GridState D) (levc : Int)
    (h : levelStep x m lbase time fuel st levc = some (Except.ok st1)) :
    ∃ ba_proj ngt nf1 tagvec,
      projectDown x m fuel st levc = some (ba_proj, ngt) ∧
      tagLevel x m lbase time st.new_finest levc ba_proj ngt = Except.ok (nf1, tagvec) ∧
      st1 = clusterLevel x m lbase levc
        { new_finest := nf1, new_grids := st.new_grids,
          trace := if notFixed m levc then Event.errorEst levc :: st.trace else st.trace }
        tagvec := by
  rw [levelStep_eq] at h
  cases hp : projectDown x m fuel st levc with
  | none => rw [hp] at h; cases h
  | some p =>
    obtain ⟨ba_proj, ngt⟩ := p
    rw [hp] at h
    simp only [] at h
    cases ht : tagLevel x m lbase time st.new_finest levc ba_proj ngt with
    | error e => rw [ht] at h; cases h
    | ok r =>
      obtain ⟨nf1, tagvec⟩ := r
      rw [ht] at h
      simp only [Option.some.injEq, Except.ok.injEq] at h
      exact ⟨ba_proj, ngt, nf1, tagvec, rfl, ht, h.symm⟩

/-- The two outcomes of the clustering part of a pass: nothing is generated, or the boxes
of level `levc + 1` are generated from non-empty tags. -/
theorem clusterLevel_cases (x : Collab D T C) (m : AmrMesh D) (lbase levc : Int)
    (st : GridState D) (tagvec : List (IntVect D)) :
    ((clusterLevel x m lbase levc st tagvec).new_grids = st.new_grids ∧
      (clusterLevel x m lbase levc st tagvec).trace = st.trace ∧
      (tagvec = [] ∨ ¬ levc + 1 > m.use_fixed_upto_level)) ∨
    (tagvec ≠ [] ∧ levc + 1 > m.use_fixed_upto_level ∧
      (clusterLevel x m lbase levc st tagvec).new_grids =
        Function.update st.new_grids (levc + 1)
          (x.maxSize (m.max_grid_size (levc + 1)) (makeNewBoxes x m lbase levc tagvec)) ∧
      (clusterLevel x m lbase levc st tagvec).trace = Event.cluster (levc + 1) :: st.trace) := by
  unfold clusterLevel
  simp only []
  split
  · rename_i he
    left
    exact ⟨rfl, rfl, Or.inl (List.isEmpty_iff.1 he)⟩
  · rename_i he
    split
    · rename_i hu
      right
      exact ⟨fun h => he (by rw [h]; rfl), hu, rfl, rfl⟩
    · rename_i hu
      left
      exact ⟨rfl, rfl, Or.inr hu⟩

theorem mem_trace_errorEst (m : AmrMesh D) (levc lev : Int) (tr : List Event) :
    Event.cluster lev ∈ (if notFixed m levc then Event.errorEst levc :: tr else tr) ↔
      Event.cluster lev ∈ tr := by
  split <;> simp

/-- A property of the boxes generated for a level, established at generation, holds of
every level generated so far at the end of the level loop. -/
theorem levelLoop_generated (x : Collab D T C) (m : AmrMesh D) (lbase : Int) (time : ℚ)
    (fuel : Nat) (Q : Int → BoxList D → Prop) (L : Int → Prop)
    (hgen : ∀ levc tagvec, L levc →
      (∃ nf ba_proj ngt nf1,
        tagLevel x m lbase time nf levc ba_proj ngt = Except.ok (nf1, tagvec)) →
      Q (levc + 1)
        (x.maxSize (m.max_grid_size (levc + 1)) (makeNewBoxes x m lbase levc tagvec)))
    (levs : List Int) (hL : ∀ l ∈ levs, L l) (st st1 : GridState D)
    (h : levelLoop x m lbase time fuel levs st = some (Except.ok st1))
    (h0 : ∀ lev, Event.cluster lev ∈ st.trace → Q lev (st.new_grids lev)) :
    ∀ lev, Event.cluster lev ∈ st1.trace → Q lev (st1.new_grids lev) := by
  induction levs generalizing st with
  | nil =>
    simp only [levelLoop, Option.some.injEq, Except.ok.injEq] at h
    subst h; exact h0
  | cons levc rest ih =>
    unfold levelLoop at h
    cases hs : levelStep x m lbase time fuel st levc with
    | none => rw [hs] at h; cases h
    | some r =>
      cases r with
      | error e => rw [hs] at h; cases h
      | ok st2 =>
        rw [hs] at h
        simp only [] at h
        refine ih (fun l hl => hL l (List.mem_cons_of_mem _ hl)) st2 h ?_
        obtain ⟨ba_proj, ngt, nf1, tagvec, -, htag, hst2⟩ :=
          levelStep_ok x m lbase time fuel st st2 levc hs
        intro lev hlev
        rcases clusterLevel_cases x m lbase levc
          { new_finest := nf1, new_grids := st.new_grids,
            trace := if notFixed m levc then Event.errorEst levc :: st.trace else st.trace }
          tagvec with ⟨hg, htr, -⟩ | ⟨-, -, hg, htr⟩
        · rw [hst2, htr] at hlev
          rw [hst2, hg]
          exact h0 lev ((mem_trace_errorEst m levc lev st.trace).1 hlev)
        · rw [hst2, htr] at hlev
          rw [hst2, hg]
          by_cases hl : lev = levc + 1
          · subst hl
            rw [Function.update_same]
            exact hgen levc tagvec (hL levc (List.mem_cons_self _ _)) ⟨_, _, _, _, htag⟩
          · rw [Function.update_noteq hl]
            rcases List.mem_cons.1 hlev with heq | hmem
            · cases heq; exact absurd rfl hl
            · exact h0 lev ((mem_trace_errorEst m levc lev st.trace).1 hmem)

theorem chopLoop_state_inv (maxSize : IntVect D → BoxList D → BoxList D) (m : AmrMesh D)
    (lev : Int) (target_size : Int) (R : IntVect D → BoxList D → Prop)
    (hR : ∀ ch ba idim, R ch ba → canHalve m lev ch idim = true →
      R (Function.update ch idim (cdiv (ch idim) 2))
        (maxSize (Function.update ch idim (cdiv (ch idim) 2)) ba))
    (fuel : Nat) (st st1 : ChopState D)
    (h : chopLoop maxSize m lev target_size fuel st = some st1) (h0 : R st.chunk st.ba) :
    R st1.chunk st1.ba := by
  induction fuel generalizing st with
  | zero => simp [chopLoop] at h
  | succ n ih =>
    unfold chopLoop at h
    split at h
    · rcases chopPass_cases maxSize m lev st with ⟨heq, -⟩ | ⟨idim, hcan, heq⟩
      · simp only [heq, if_true, Option.some.injEq] at h
        subst h; exact h0
      · have hne := (canHalve_true m lev st.chunk idim hcan).2.1
        simp only [heq] at h
        rw [if_neg (update_halve_ne st.chunk idim hne)] at h
        exact ih _ h (hR _ _ idim h0 hcan)
    · simp only [Option.some.injEq] at h
      subst h; exact h0

/-- A property of the box array that every `maxSize` of `ChopGrids` preserves holds of the
result; `R` may constrain the cap as long as the halving preserves it. -/
theorem ChopGrids_preserves (maxSize : IntVect D → BoxList D → BoxList D) (m : AmrMesh D)
    (lev : Int) (target_size : Int) (R : IntVect D → BoxList D → Prop)
    (hR : ∀ ch ba idim, R ch ba → canHalve m lev ch idim = true →
      R (Function.update ch idim (cdiv (ch idim) 2))
        (maxSize (Function.update ch idim (cdiv (ch idim) 2)) ba))
    (Q : BoxList D → Prop) (hRQ : ∀ ch ba, R ch ba → Q ba)
    (ba ba1 : BoxList D) (h0 : Q ba) (h0R : R (chunkInit m lev) ba)
    (h : ChopGrids maxSize m lev ba target_size = some ba1) : Q ba1 := by
  unfold ChopGrids at h
  split at h
  · simp only [Option.some.injEq] at h; subst h; exact h0
  · unfold chopRun at h
    cases hc : chopLoop maxSize m lev target_size (chopFuel (chunkInit m lev))
        { chunk := chunkInit m lev, ba := ba, applied := [] } with
    | none => rw [hc] at h; cases h
    | some st1 =>
      rw [hc] at h
      simp only [Option.map_some', Option.some.injEq] at h
      subst h
      exact hRQ _ _ (chopLoop_state_inv maxSize m lev target_size R hR _ _ st1 hc h0R)

/-- What a pass of the final loop that ends normally has done. -/
theorem finalStep_ok (x : Collab D T C) (m : AmrMesh D) (st st1 : GridState D) (lev : Int)
    (h : finalStep x m st lev = some (Except.ok st1)) :
    st1.new_finest = st.new_finest ∧ st1.trace = st.trace ∧
    (st1.new_grids = st.new_grids ∨
      (st.new_grids lev ≠ [] ∧ ∃ ba, ChopGrids x.maxSize m lev (st.new_grids lev) x.NProcs = some ba ∧
        st1.new_grids = Function.update st.new_grids lev ba)) := by
  unfold finalStep at h
  split at h
  · split at h
    · cases h
    · simp only [Option.some.injEq, Except.ok.injEq] at h; subst h
      exact ⟨rfl, rfl, Or.inl rfl⟩
  · rename_i hne
    split at h
    · cases hc : ChopGrids x.maxSize m lev (st.new_grids lev) x.NProcs with
      | none => rw [hc] at h; cases h
      | some ba =>
        rw [hc] at h
        simp only [Option.some.injEq, Except.ok.injEq] at h; subst h
        exact ⟨rfl, rfl, Or.inr ⟨fun hnil => hne (by rw [hnil]; rfl), ba, rfl, rfl⟩⟩
    · simp only [Option.some.injEq, Except.ok.injEq] at h; subst h
      exact ⟨rfl, rfl, Or.inl rfl⟩

/-- A property of the boxes of a level that `ChopGrids` preserves at the levels of the
final loop holds after the final loop when it held before. -/
theorem finalLoop_preserves (x : Collab D T C) (m : AmrMesh D) (Q : Int → BoxList D → Prop)
    (L : Int → Prop)
    (hchop : ∀ lev ba ba1, L lev → Q lev ba →
      ChopGrids x.maxSize m lev ba x.NProcs = some ba1 → Q lev ba1)
    (levs : List Int) (hL : ∀ l ∈ levs, L l) (st st1 : GridState D)
    (h : finalLoop x m levs st = some (Except.ok st1)) (lev : Int)
    (h0 : Q lev (st.new_grids lev)) : Q lev (st1.new_grids lev) := by
  induction levs generalizing st with
  | nil =>
    simp only [finalLoop, Option.some.injEq, Except.ok.injEq] at h
    subst h; exact h0
  | cons l rest ih =>
    unfold finalLoop at h
    cases hs : finalStep x m st l with
    | none => rw [hs] at h; cases h
    | some r =>
      cases r with
      | error e => rw [hs] at h; cases h
      | ok st2 =>
        rw [hs] at h
        simp only [] at h
        refine ih (fun l hl => hL l (List.mem_cons_of_mem _ hl)) st2 h ?_
        obtain ⟨-, -, hg | ⟨-, ba, hc, hg⟩⟩ := finalStep_ok x m st st2 l hs
        · rw [hg]; exact h0
        · rw [hg]
          by_cases hl : lev = l
          · subst hl
            rw [Function.update_same]
            exact hchop lev _ ba (hL lev (List.mem_cons_self _ _)) h0 hc
          · rw [Function.update_noteq hl]; exact h0

end amrex

namespace amrex
variable {D : Nat} {T C : Type}

/-- C3: for every level `levf` for which `MakeNewGrids(lbase, ...)` generates boxes, the
list `new_bx` obtained after refining to level `levf` is pairwise disjoint, so that
`BL_ASSERT(new_bx.isDisjoint())` holds, and the `new_grids[levf]` returned is pairwise
disjoint.  (The clustering, `simplify` and `maxSize` meet their contracts, and the
collated tags hold no cell twice.) -/
theorem MakeNewGrids_new_boxes_disjoint (x : Collab D T C) (m : AmrMesh D) (lbase : Int)
    (time : ℚ) (new_grids : Int → BoxList D) (fuel : Nat)
    (htn : TagsNodup x m lbase time) (hcl : ClusterDisjoint x)
    (hsd : SimplifyDisjoint x.simplify) (hmd : MaxSizeDisjoint x.maxSize) :
    (∀ nf levc ba_proj ngt nf1 tagvec,
      tagLevel x m lbase time nf levc ba_proj ngt = Except.ok (nf1, tagvec) →
      BoxList.isDisjoint (makeNewBoxes x m lbase levc tagvec)) ∧
    (∀ st, MakeNewGrids x m lbase time new_grids fuel = some (Except.ok st) →
      ∀ levf, Event.cluster levf ∈ st.trace → BoxList.isDisjoint (st.new_grids levf)) := by
  have hbx : ∀ nf levc ba_proj ngt nf1 tagvec,
      tagLevel x m lbase time nf levc ba_proj ngt = Except.ok (nf1, tagvec) →
      BoxList.isDisjoint (makeNewBoxes x m lbase levc tagvec) :=
    fun nf levc ba_proj ngt nf1 tagvec h =>
      makeNewBoxes_disjoint x m lbase levc hcl hsd tagvec (htn _ _ _ _ _ _ h)
  refine ⟨hbx, ?_⟩
  intro st hst levf hlev
  obtain ⟨st0, ha, hf⟩ := MakeNewGrids_ok x m lbase time new_grids fuel st hst
  have h1 := levelLoop_generated x m lbase time fuel (fun _ bl => BoxList.isDisjoint bl)
    (fun _ => True)
    (fun levc tagvec _ ⟨nf, ba_proj, ngt, nf1, h⟩ => hmd _ _ (hbx nf levc ba_proj ngt nf1 tagvec h))
    _ (fun _ _ => trivial) _ st0 ha (fun lev h => by simp at h)
  have htr := (finalLoop_new_finest x m _ st0 st hf).2
  rw [htr] at hlev
  exact finalLoop_preserves x m (fun _ bl => BoxList.isDisjoint bl) (fun _ => True)
    (fun lev ba ba1 _ hq hc =>
      ChopGrids_preserves x.maxSize m lev x.NProcs (fun _ bl => BoxList.isDisjoint bl)
        (fun ch ba idim h _ => hmd _ _ h) _ (fun _ _ h => h) ba ba1 hq hq hc)
    _ (fun _ _ => trivial) st0 st hf levf (h1 levf hlev)

end amrex

namespace amrex
variable {D : Nat} {T C : Type}

/-! ### The reference simplification: disjointness and alignment -/

theorem mergeInto_disjoint (b : Box D) (acc : BoxList D) (hd : BoxList.isDisjoint acc)
    (hb : ∀ a ∈ acc, ¬ a.intersects b) : BoxList.isDisjoint (mergeInto b acc) := by
  induction acc with
  | nil => simp [mergeInto, BoxList.isDisjoint]
  | cons a rest ih =>
    unfold BoxList.isDisjoint at hd
    rw [List.pairwise_cons] at hd
    unfold mergeInto
    cases hj : a.tryJoin b with
    | none =>
      simp only []
      unfold BoxList.isDisjoint
      rw [List.pairwise_cons]
      refine ⟨fun p hp hi => ?_, ih hd.2 (fun q hq => hb q (List.mem_cons_of_mem _ hq))⟩
      obtain ⟨c, hca, hcp⟩ := (Box.intersects_iff a p).1 hi
      rcases ((mergeInto_spec b rest).1 c).1 ⟨p, hp, hcp⟩ with hcb | ⟨q, hq, hcq⟩
      · exact hb a (List.mem_cons_self _ _) ((Box.intersects_iff a b).2 ⟨c, hca, hcb⟩)
      · exact hd.1 q hq ((Box.intersects_iff a q).2 ⟨c, hca, hcq⟩)
    | some j =>
      simp only []
      have hspec := (Box.tryJoin_spec a b j hj).1
      unfold BoxList.isDisjoint
      rw [List.pairwise_cons]
      refine ⟨fun p hp hi => ?_, hd.2⟩
      obtain ⟨c, hcj, hcp⟩ := (Box.intersects_iff j p).1 hi
      rcases (hspec c).1 hcj with hca | hcb
      · exact hd.1 p hp ((Box.intersects_iff a p).2 ⟨c, hca, hcp⟩)
      · exact hb p (List.mem_cons_of_mem _ hp) ((Box.intersects_iff p b).2 ⟨c, hcp, hcb⟩)

theorem refSimplify_foldl_disjoint (bl acc : BoxList D) (hacc : BoxList.isDisjoint acc)
    (hbl : BoxList.isDisjoint bl) (hx : ∀ a ∈ acc, ∀ b ∈ bl, ¬ a.intersects b) :
    BoxList.isDisjoint (bl.foldl (fun acc b => mergeInto b acc) acc) := by
  induction bl generalizing acc with
  | nil => exact hacc
  | cons b t ih =>
    simp only [List.foldl_cons]
    unfold BoxList.isDisjoint at hbl
    rw [List.pairwise_cons] at hbl
    apply ih
    · exact mergeInto_disjoint b acc hacc (fun a ha => hx a ha b (List.mem_cons_self _ _))
    · exact hbl.2
    · intro p hp q hq hi
      obtain ⟨c, hcp, hcq⟩ := (Box.intersects_iff p q).1 hi
      rcases ((mergeInto_spec b acc).1 c).1 ⟨p, hp, hcp⟩ with hcb | ⟨a, ha, hca⟩
      · exact hbl.1 q hq ((Box.intersects_iff b q).2 ⟨c, hcb, hcq⟩)
      · exact hx a ha q (List.mem_cons_of_mem _ hq) ((Box.intersects_iff a q).2 ⟨c, hca, hcq⟩)

/-- The reference simplification keeps a list pairwise disjoint. -/
theorem refSimplify_disjoint : SimplifyDisjoint (refSimplify : BoxList D → BoxList D) := by
  intro bl h
  unfold refSimplify
  exact refSimplify_foldl_disjoint bl [] (by simp [BoxList.isDisjoint]) h (by simp)

theorem Box.aligned_iff (k : IntVect D) (b : Box D) :
    b.aligned k ↔ ∀ d, k d ∣ b.smallEnd d ∧ k d ∣ b.bigEnd d + 1 := by
  unfold Box.aligned Box.length
  refine forall_congr' (fun d => and_congr_right (fun h => ?_))
  have e : b.bigEnd d - b.smallEnd d + 1 = (b.bigEnd d + 1) - b.smallEnd d := by ring
  rw [e]
  exact ⟨fun h2 => by simpa using dvd_add h2 h, fun h2 => dvd_sub h2 h⟩

theorem Box.tryJoin_aligned (k : IntVect D) (a b j : Box D) (h : a.tryJoin b = some j)
    (ha : a.aligned k) (hb : b.aligned k) : j.aligned k := by
  rw [Box.aligned_iff] at *
  unfold Box.tryJoin at h
  split at h
  · simp only [Option.some.injEq] at h; subst h; exact ha
  · rename_i i hsingle
    split at h
    · simp only [Option.some.injEq] at h
      subst h
      intro d
      by_cases hd : d = i
      · subst hd
        simp only [Function.update_same]
        constructor
        · rcases min_choice (a.smallEnd d) (b.smallEnd d) with h1 | h1 <;> rw [h1]
          · exact (ha d).1
          · exact (hb d).1
        · rcases max_choice (a.bigEnd d) (b.bigEnd d) with h1 | h1 <;> rw [h1]
          · exact (ha d).2
          · exact (hb d).2
      · simp only [Function.update_noteq hd]
        exact ha d
    · cases h
  · cases h

theorem mergeInto_aligned (k : IntVect D) (b : Box D) (acc : BoxList D) (hb : b.aligned k)
    (hacc : ∀ a ∈ acc, Box.aligned k a) : ∀ a ∈ mergeInto b acc, Box.aligned k a := by
  induction acc with
  | nil =>
    intro a ha
    simp only [mergeInto, List.mem_singleton] at ha; subst ha; exact hb
  | cons a rest ih =>
    unfold mergeInto
    cases hj : a.tryJoin b with
    | none =>
      simp only []
      intro p hp
      rcases List.mem_cons.1 hp with rfl | hp
      · exact hacc _ (List.mem_cons_self _ _)
      · exact ih (fun q hq => hacc q (List.mem_cons_of_mem _ hq)) p hp
    | some j =>
      simp only []
      intro p hp
      rcases List.mem_cons.1 hp with rfl | hp
      · exact Box.tryJoin_aligned k a b _ hj (hacc _ (List.mem_cons_self _ _)) hb
      · exact hacc p (List.mem_cons_of_mem _ hp)

/-- The reference simplification keeps the boxes aligned. -/
theorem refSimplify_aligned : SimplifyAligned (refSimplify : BoxList D → BoxList D) := by
  intro k bl h
  unfold refSimplify
  suffices hs : ∀ (l acc : BoxList D), (∀ a ∈ acc, Box.aligned k a) →
      (∀ b ∈ l, Box.aligned k b) →
      ∀ p ∈ l.foldl (fun acc b => mergeInto b acc) acc, Box.aligned k p from
    hs bl [] (by simp) h
  intro l
  induction l with
  | nil => intro acc hacc _; exact hacc
  | cons b t ih =>
    intro acc hacc hl
    simp only [List.foldl_cons]
    exact ih _ (mergeInto_aligned k b acc (hl b (List.mem_cons_self _ _)) hacc)
      (fun q hq => hl q (List.mem_cons_of_mem _ hq))

end amrex

namespace amrex
variable {D : Nat} {T C : Type}

/-! ### The reference `maxSize` -/

theorem chop_count (len chunk : Int) (hc : 0 < chunk) (k : Nat) :
    k < ((len + chunk - 1) / chunk).toNat ↔ (k : Int) * chunk < len := by
  rw [Int.lt_toNat]
  have h1 : (k : Int) < (len + chunk - 1) / chunk ↔ (k : Int) + 1 ≤ (len + chunk - 1) / chunk :=
    Iff.rfl
  rw [h1, Int.le_ediv_iff_mul_le hc]
  have h2 : ((k : Int) + 1) * chunk = (k : Int) * chunk + chunk := by ring
  rw [h2]
  constructor <;> intro h <;> omega

/-- The piece number `k` of a box chopped in direction `d`. -/
theorem chopDim_mem (b : Box D) (d : Fin D) (chunk : Int) (hc : 0 < chunk)
    (hlen : chunk < b.length d) (p : Box D) :
    p ∈ b.chopDim d chunk ↔ ∃ k : Nat, (k : Int) * chunk < b.length d ∧
      p = { smallEnd := Function.update b.smallEnd d (b.smallEnd d + (k : Int) * chunk)
            bigEnd := Function.update b.bigEnd d
              (min (b.bigEnd d) (b.smallEnd d + ((k : Int) + 1) * chunk - 1)) } := by
  unfold Box.chopDim
  rw [if_pos ⟨hc, hlen⟩, List.mem_map]
  constructor
  · rintro ⟨k, hk, rfl⟩
    exact ⟨k, (chop_count _ _ hc k).1 (List.mem_range.1 hk), rfl⟩
  · rintro ⟨k, hk, rfl⟩
    exact ⟨k, List.mem_range.2 ((chop_count _ _ hc k).2 hk), rfl⟩

theorem chopDim_piece_contains (b : Box D) (d : Fin D) (chunk : Int) (k : Nat)
    (c : IntVect D) :
    Box.contains { smallEnd := Function.update b.smallEnd d (b.smallEnd d + (k : Int) * chunk)
                   bigEnd := Function.update b.bigEnd d
                     (min (b.bigEnd d) (b.smallEnd d + ((k : Int) + 1) * chunk - 1)) } c ↔
      (b.smallEnd d + (k : Int) * chunk ≤ c d ∧
        c d ≤ min (b.bigEnd d) (b.smallEnd d + ((k : Int) + 1) * chunk - 1)) ∧
      ∀ e, e ≠ d → (b.smallEnd e ≤ c e ∧ c e ≤ b.bigEnd e) := by
  rw [Box.contains_of_dir b _ c d (fun e he => by simp [Function.update_noteq he])
    (fun e he => by simp [Function.update_noteq he])]
  simp only [Function.update_same]

theorem chopDim_covers (b : Box D) (d : Fin D) (chunk : Int) (c : IntVect D) :
    (b.chopDim d chunk).covers c ↔ b.contains c := by
  by_cases hcond : 0 < chunk ∧ chunk < b.length d
  · obtain ⟨hc, hlen⟩ := hcond
    unfold BoxList.covers
    constructor
    · rintro ⟨p, hp, hpc⟩
      obtain ⟨k, hk, rfl⟩ := (chopDim_mem b d chunk hc hlen p).1 hp
      rw [chopDim_piece_contains] at hpc
      rw [Box.contains_iff_dir b c d]
      have hk0 : 0 ≤ (k : Int) * chunk := Int.mul_nonneg (Int.ofNat_nonneg k) (le_of_lt hc)
      exact ⟨⟨by omega, by omega⟩, hpc.2⟩
    · intro hbc
      have hd := ((Box.contains_iff_dir b c d).1 hbc)
      have hq0 : 0 ≤ (c d - b.smallEnd d) / chunk := Int.ediv_nonneg (by omega) (le_of_lt hc)
      have hq1 : (c d - b.smallEnd d) / chunk * chunk ≤ c d - b.smallEnd d :=
        Int.ediv_mul_le _ (ne_of_gt hc)
      have hq2 : c d - b.smallEnd d < ((c d - b.smallEnd d) / chunk + 1) * chunk :=
        Int.lt_ediv_add_one_mul_self _ hc
      have hcast : (((c d - b.smallEnd d) / chunk).toNat : Int) = (c d - b.smallEnd d) / chunk :=
        Int.toNat_of_nonneg hq0
      refine ⟨_, (chopDim_mem b d chunk hc hlen _).2
        ⟨((c d - b.smallEnd d) / chunk).toNat, ?_, rfl⟩, ?_⟩
      · rw [hcast]; unfold Box.length; omega
      · rw [chopDim_piece_contains, hcast]
        exact ⟨⟨by omega, by omega⟩, hd.2⟩
  · unfold Box.chopDim
    rw [if_neg hcond, BoxList.covers_singleton]

theorem chopDim_ok (b : Box D) (d : Fin D) (chunk : Int) (hok : b.ok) :
    ∀ p ∈ b.chopDim d chunk, p.ok := by
  intro p hp
  by_cases hcond : 0 < chunk ∧ chunk < b.length d
  · obtain ⟨hc, hlen⟩ := hcond
    obtain ⟨k, hk, rfl⟩ := (chopDim_mem b d chunk hc hlen p).1 hp
    intro e
    by_cases he : e = d
    · subst he
      simp only [Function.update_same]
      have h2 : ((k : Int) + 1) * chunk = (k : Int) * chunk + chunk := by ring
      unfold Box.length at hk
      omega
    · simp only [Function.update_noteq he]
      exact hok e
  · unfold Box.chopDim at hp
    rw [if_neg hcond, List.mem_singleton] at hp
    subst hp; exact hok

theorem chopDim_ne_nil (b : Box D) (d : Fin D) (chunk : Int) : b.chopDim d chunk ≠ [] := by
  by_cases hcond : 0 < chunk ∧ chunk < b.length d
  · obtain ⟨hc, hlen⟩ := hcond
    intro hnil
    have : (_ : Box D) ∈ b.chopDim d chunk :=
      (chopDim_mem b d chunk hc hlen _).2 ⟨0, by simp; omega, rfl⟩
    rw [hnil] at this
    simp at this
  · unfold Box.chopDim
    rw [if_neg hcond]
    simp

theorem chopDim_disjoint (b : Box D) (d : Fin D) (chunk : Int) :
    BoxList.isDisjoint (b.chopDim d chunk) := by
  by_cases hcond : 0 < chunk ∧ chunk < b.length d
  · obtain ⟨hc, hlen⟩ := hcond
    unfold Box.chopDim BoxList.isDisjoint
    rw [if_pos ⟨hc, hlen⟩, List.pairwise_map]
    refine List.Pairwise.imp ?_ (List.pairwise_lt_range _)
    intro k k' hlt hi
    obtain ⟨c, hck, hck'⟩ := (Box.intersects_iff _ _).1 hi
    rw [chopDim_piece_contains] at hck hck'
    have h1 : ((k : Int) + 1) * chunk ≤ (k' : Int) * chunk :=
      Int.mul_le_mul_of_nonneg_right (by omega) (le_of_lt hc)
    omega
  · unfold Box.chopDim
    rw [if_neg hcond]
    simp [BoxList.isDisjoint]

theorem chopDim_aligned (k : IntVect D) (b : Box D) (d : Fin D) (chunk : Int)
    (hk : k d ∣ chunk) (hb : b.aligned k) : ∀ p ∈ b.chopDim d chunk, Box.aligned k p := by
  intro p hp
  by_cases hcond : 0 < chunk ∧ chunk < b.length d
  · obtain ⟨hc, hlen⟩ := hcond
    obtain ⟨n, hn, rfl⟩ := (chopDim_mem b d chunk hc hlen p).1 hp
    rw [Box.aligned_iff] at hb ⊢
    intro e
    by_cases he : e = d
    · subst he
      simp only [Function.update_same]
      constructor
      · exact dvd_add (hb e).1 (Dvd.dvd.mul_left hk _)
      · rcases min_choice (b.bigEnd e) (b.smallEnd e + ((n : Int) + 1) * chunk - 1)
          with h1 | h1 <;> rw [h1]
        · exact (hb e).2
        · have : b.smallEnd e + ((n : Int) + 1) * chunk - 1 + 1
              = b.smallEnd e + ((n : Int) + 1) * chunk := by ring
          rw [this]
          exact dvd_add (hb e).1 (Dvd.dvd.mul_left hk _)
    · simp only [Function.update_noteq he]
      exact hb e
  · unfold Box.chopDim at hp
    rw [if_neg hcond, List.mem_singleton] at hp
    subst hp; exact hb

/-- The reference `maxSize`, direction by direction: a property of box lists that the chop
of every box in one direction preserves. -/
theorem refMaxSize_foldl (chunk : IntVect D) (P : BoxList D → Prop)
    (hP : ∀ bl d, P bl → P (bl.flatMap (fun b => b.chopDim d (chunk d))))
    (ds : List (Fin D)) (bl : BoxList D) (h : P bl) :
    P (ds.foldl (fun acc d => acc.flatMap (fun b => b.chopDim d (chunk d))) bl) := by
  induction ds generalizing bl with
  | nil => exact h
  | cons d t ih =>
    simp only [List.foldl_cons]
    exact ih _ (hP bl d h)

/-- The reference `maxSize` meets the region contract of `BoxArray::maxSize`. -/
theorem refMaxSize_region : MaxSizeRegion (refMaxSize : IntVect D → BoxList D → BoxList D) := by
  intro chunk bl
  unfold refMaxSize
  refine ⟨fun c => ?_, fun hok => ?_, ?_⟩
  · exact refMaxSize_foldl chunk (fun l => l.covers c ↔ bl.covers c)
      (fun l d h => by
        dsimp only at h ⊢
        rw [BoxList.covers_flatMap, ← h]
        unfold BoxList.covers
        exact exists_congr (fun a => and_congr_right (fun _ => chopDim_covers a d (chunk d) c)))
      _ bl Iff.rfl
  · exact refMaxSize_foldl chunk (fun l => ∀ b ∈ l, b.ok)
      (fun l d h p hp => by
        dsimp only at h
        obtain ⟨a, ha, hpa⟩ := List.mem_flatMap.1 hp
        exact chopDim_ok a d (chunk d) (h a ha) p hpa)
      _ bl hok
  · intro hnil
    by_contra hne
    exact refMaxSize_foldl chunk (fun l => l ≠ [])
      (fun l d h hl => by
        cases l with
        | nil => exact h rfl
        | cons a t =>
          rw [List.flatMap_cons] at hl
          exact chopDim_ne_nil a d (chunk d) (List.append_eq_nil.1 hl).1)
      _ bl hne hnil

/-- The reference `maxSize` keeps a list pairwise disjoint. -/
theorem refMaxSize_disjoint : MaxSizeDisjoint (refMaxSize : IntVect D → BoxList D → BoxList D) := by
  intro chunk bl h
  unfold refMaxSize
  exact refMaxSize_foldl chunk BoxList.isDisjoint
    (fun l d hl => isDisjoint_flatMap l _ hl
      (fun b _ c hc => (chopDim_covers b d (chunk d) c).1 hc)
      (fun b _ => chopDim_disjoint b d (chunk d)))
    _ bl h

/-- The reference `maxSize` keeps the boxes aligned when the cap is a multiple. -/
theorem refMaxSize_aligned : MaxSizeAligned (refMaxSize : IntVect D → BoxList D → BoxList D) := by
  intro k chunk bl _ hk hbl
  unfold refMaxSize
  exact refMaxSize_foldl chunk (fun l => ∀ b ∈ l, Box.aligned k b)
    (fun l d h p hp => by
      obtain ⟨a, ha, hpa⟩ := List.mem_flatMap.1 hp
      exact chopDim_aligned k a d (chunk d) (hk d) (h a ha) p hpa)
    _ bl hbl

end amrex

namespace amrex
variable {D : Nat} {T C : Type}

/-! ### The reference clustering -/

theorem foldl_min_le {α : Type} (f : α → Int) (l : List α) (init : Int) :
    l.foldl (fun a q => min a (f q)) init ≤ init ∧
      ∀ q ∈ l, l.foldl (fun a q => min a (f q)) init ≤ f q := by
  induction l generalizing init with
  | nil => simp
  | cons x t ih =>
    simp only [List.foldl_cons]
    have h := ih (min init (f x))
    refine ⟨le_trans h.1 (min_le_left _ _), fun q hq => ?_⟩
    rcases List.mem_cons.1 hq with rfl | hq
    · exact le_trans h.1 (min_le_right _ _)
    · exact h.2 q hq

theorem le_foldl_min {α : Type} (f : α → Int) (l : List α) (init L : Int) (h0 : L ≤ init)
    (hl : ∀ q ∈ l, L ≤ f q) : L ≤ l.foldl (fun a q => min a (f q)) init := by
  induction l generalizing init with
  | nil => simpa using h0
  | cons x t ih =>
    simp only [List.foldl_cons]
    exact ih _ (le_min h0 (hl x (List.mem_cons_self _ _)))
      (fun q hq => hl q (List.mem_cons_of_mem _ hq))

theorem le_foldl_max {α : Type} (f : α → Int) (l : List α) (init : Int) :
    init ≤ l.foldl (fun a q => max a (f q)) init ∧
      ∀ q ∈ l, f q ≤ l.foldl (fun a q => max a (f q)) init := by
  induction l generalizing init with
  | nil => simp
  | cons x t ih =>
    simp only [List.foldl_cons]
    have h := ih (max init (f x))
    refine ⟨le_trans (le_max_left _ _) h.1, fun q hq => ?_⟩
    rcases List.mem_cons.1 hq with rfl | hq
    · exact le_trans (le_max_right _ _) h.1
    · exact h.2 q hq

theorem foldl_max_le {α : Type} (f : α → Int) (l : List α) (init U : Int) (h0 : init ≤ U)
    (hl : ∀ q ∈ l, f q ≤ U) : l.foldl (fun a q => max a (f q)) init ≤ U := by
  induction l generalizing init with
  | nil => simpa using h0
  | cons x t ih =>
    simp only [List.foldl_cons]
    exact ih _ (max_le h0 (hl x (List.mem_cons_self _ _)))
      (fun q hq => hl q (List.mem_cons_of_mem _ hq))

/-- The bounding box holds every cell of the cluster. -/
theorem minimalBox_contains (pts : List (IntVect D)) (p : IntVect D) (hp : p ∈ pts) :
    (minimalBox pts).contains p := by
  cases pts with
  | nil => simp at hp
  | cons q ps =>
    intro d
    simp only [minimalBox]
    have h1 := foldl_min_le (fun r : IntVect D => r d) ps (q d)
    have h2 := le_foldl_max (fun r : IntVect D => r d) ps (q d)
    rcases List.mem_cons.1 hp with rfl | hp
    · exact ⟨h1.1, h2.1⟩
    · exact ⟨h1.2 p hp, h2.2 p hp⟩

/-- The bounding box of cells of a box lies in that box. -/
theorem minimalBox_within (pts : List (IntVect D)) (b : Box D) (hne : pts ≠ [])
    (hb : ∀ p ∈ pts, b.contains p) (c : IntVect D) (hc : (minimalBox pts).contains c) :
    b.contains c := by
  cases pts with
  | nil => exact absurd rfl hne
  | cons q ps =>
    intro d
    have hcd := hc d
    simp only [minimalBox] at hcd
    have h1 := le_foldl_min (fun r : IntVect D => r d) ps (q d) (b.smallEnd d)
      (hb q (List.mem_cons_self _ _) d).1 (fun r hr => (hb r (List.mem_cons_of_mem _ hr) d).1)
    have h2 := foldl_max_le (fun r : IntVect D => r d) ps (q d) (b.bigEnd d)
      (hb q (List.mem_cons_self _ _) d).2 (fun r hr => (hb r (List.mem_cons_of_mem _ hr) d).2)
    exact ⟨le_trans h1 hcd.1, le_trans hcd.2 h2⟩

theorem minimalBox_ok (pts : List (IntVect D)) (hne : pts ≠ []) : (minimalBox pts).ok := by
  cases pts with
  | nil => exact absurd rfl hne
  | cons q ps => exact Box.contains_ok _ q (minimalBox_contains _ q (List.mem_cons_self _ _))

theorem minimalBox_single (p c : IntVect D) : (minimalBox [p]).contains c ↔ c = p := by
  simp only [minimalBox, List.foldl_nil, Box.contains]
  constructor
  · intro h; funext d; have := h d; omega
  · rintro rfl d; omega

/-- The clusters after the chop: non-empty, made of the tags, holding every tag, with
pairwise disjoint bounding boxes when no tag is repeated. -/
theorem refChop_spec (eff : ℚ) (tagvec : List (IntVect D)) :
    (∀ c ∈ refChop eff (refClusterList tagvec), c ≠ [] ∧ ∀ p ∈ c, p ∈ tagvec) ∧
    (∀ p ∈ tagvec, ∃ c ∈ refChop eff (refClusterList tagvec), p ∈ c) ∧
    (tagvec.Nodup → (refChop eff (refClusterList tagvec)).Pairwise
      (fun c c' => ¬ (minimalBox c).intersects (minimalBox c'))) := by
  unfold refClusterList refChop
  cases tagvec with
  | nil => simp
  | cons q ps =>
    simp only [List.isEmpty_cons, Bool.false_eq_true, if_false, List.flatMap_cons,
      List.flatMap_nil, List.append_nil]
    split
    · refine ⟨fun c hc => ?_, fun p hp => ⟨_, List.mem_singleton.2 rfl, hp⟩, fun _ => by simp⟩
      rw [List.mem_singleton] at hc; subst hc
      exact ⟨by simp, fun p hp => hp⟩
    · refine ⟨fun c hc => ?_, fun p hp => ⟨[p], List.mem_map.2 ⟨p, hp, rfl⟩, by simp⟩,
        fun hnd => ?_⟩
      · obtain ⟨p, hp, rfl⟩ := List.mem_map.1 hc
        exact ⟨by simp, fun r hr => by rw [List.mem_singleton] at hr; subst hr; exact hp⟩
      · rw [List.pairwise_map]
        refine List.Pairwise.imp ?_ hnd
        intro a b hab hi
        obtain ⟨c, hca, hcb⟩ := (Box.intersects_iff _ _).1 hi
        rw [minimalBox_single] at hca hcb
        exact hab (hca.symm.trans hcb)

/-- A list that `BoxArray::contains` accepts covers the box. -/
theorem containsBox_covers (pn : BoxList D) (b : Box D) (hok : b.ok)
    (h : pn.containsBox b = true) (c : IntVect D) (hc : b.contains c) : pn.covers c := by
  unfold BoxList.containsBox at h
  have hnil : BoxList.complementIn b pn = [] := List.isEmpty_iff.1 h
  by_contra hn
  have := ((complementIn_spec b pn hok).1 c).2 ⟨hc, hn⟩
  rw [hnil] at this
  exact BoxList.covers_nil c this

end amrex

namespace amrex
variable {D : Nat} {T C : Type}

/-- The clusters that replace one cluster in the intersection with the nesting domain. -/
theorem refSplit_spec (pn : BoxList D) (c : List (IntVect D)) (hne : c ≠ []) :
    (∀ s ∈ refSplit pn c, s ≠ [] ∧ ∀ p ∈ s, p ∈ c) ∧
    (∀ y, BoxList.covers ((refSplit pn c).map minimalBox) y →
      pn.covers y ∧ (minimalBox c).contains y) ∧
    (∀ p ∈ c, pn.covers p → BoxList.covers ((refSplit pn c).map minimalBox) p) ∧
    (BoxList.isDisjoint pn → BoxList.isDisjoint ((refSplit pn c).map minimalBox)) := by
  unfold refSplit
  split
  · rename_i hcon
    refine ⟨fun s hs => ?_, fun y hy => ?_, fun p hp _ => ?_, fun _ => by simp [BoxList.isDisjoint]⟩
    · rw [List.mem_singleton] at hs; subst hs; exact ⟨hne, fun p hp => hp⟩
    · rw [List.map_cons, List.map_nil, BoxList.covers_singleton] at hy
      exact ⟨containsBox_covers pn _ (minimalBox_ok c hne) hcon y hy, hy⟩
    · rw [List.map_cons, List.map_nil, BoxList.covers_singleton]
      exact minimalBox_contains c p hp
  · have hmem : ∀ s, s ∈ pn.filterMap (fun b =>
          let pts := c.filter (fun p => decide (b.contains p))
          if pts.isEmpty then none else some pts) ↔
        ∃ b ∈ pn, s = c.filter (fun p => decide (b.contains p)) ∧ s ≠ [] := by
      intro s
      rw [List.mem_filterMap]
      constructor
      · rintro ⟨b, hb, hs⟩
        simp only [] at hs
        split at hs
        · cases hs
        · rename_i hemp
          simp only [Option.some.injEq] at hs
          exact ⟨b, hb, hs.symm, by rw [← hs]; exact fun h => hemp (by rw [h]; rfl)⟩
      · rintro ⟨b, hb, rfl, hs⟩
        refine ⟨b, hb, ?_⟩
        simp only []
        rw [if_neg (fun h => hs (List.isEmpty_iff.1 h))]
    have hin : ∀ b : Box D, ∀ p ∈ c.filter (fun p => decide (b.contains p)), b.contains p := by
      intro b p hp
      simpa using (List.mem_filter.1 hp).2
    refine ⟨fun s hs => ?_, fun y hy => ?_, fun p hp hcov => ?_, fun hd => ?_⟩
    · obtain ⟨b, -, rfl, hs'⟩ := (hmem s).1 hs
      exact ⟨hs', fun p hp => (List.mem_filter.1 hp).1⟩
    · obtain ⟨g, hg, hgy⟩ := hy
      obtain ⟨s, hs, rfl⟩ := List.mem_map.1 hg
      obtain ⟨b, hb, rfl, hs'⟩ := (hmem s).1 hs
      refine ⟨⟨b, hb, minimalBox_within _ b hs' (hin b) y hgy⟩, ?_⟩
      exact minimalBox_within _ (minimalBox c) hs'
        (fun p hp => minimalBox_contains c p (List.mem_filter.1 hp).1) y hgy
    · obtain ⟨b, hb, hbp⟩ := hcov
      have hpm : p ∈ c.filter (fun p => decide (b.contains p)) :=
        List.mem_filter.2 ⟨hp, by simpa using hbp⟩
      refine ⟨minimalBox (c.filter (fun p => decide (b.contains p))),
        List.mem_map.2 ⟨_, (hmem _).2 ⟨b, hb, rfl, List.ne_nil_of_mem hpm⟩, rfl⟩,
        minimalBox_contains _ p hpm⟩
    · unfold BoxList.isDisjoint at hd ⊢
      rw [List.pairwise_map, List.pairwise_filterMap]
      refine List.Pairwise.imp ?_ hd
      intro a b hab s hs s' hs' hi
      simp only [] at hs hs'
      split at hs
      · cases hs
      · rename_i hne1
        split at hs'
        · cases hs'
        · rename_i hne2
          simp only [Option.mem_def, Option.some.injEq] at hs hs'
          subst hs; subst hs'
          obtain ⟨y, hy1, hy2⟩ := (Box.intersects_iff _ _).1 hi
          have h1 := minimalBox_within _ a (fun h => hne1 (by rw [h]; rfl)) (hin a) y hy1
          have h2 := minimalBox_within _ b (fun h => hne2 (by rw [h]; rfl)) (hin b) y hy2
          exact hab ((Box.intersects_iff a b).2 ⟨y, h1, h2⟩)

/-- Pieces made from items with pairwise disjoint boxes, each piece inside the box of its
item, are pairwise disjoint. -/
theorem isDisjoint_flatMap_of {α : Type} (l : List α) (box : α → Box D) (f : α → BoxList D)
    (hd : l.Pairwise (fun a b => ¬ (box a).intersects (box b)))
    (hin : ∀ a ∈ l, ∀ c, (f a).covers c → (box a).contains c)
    (hf : ∀ a ∈ l, BoxList.isDisjoint (f a)) : BoxList.isDisjoint (l.flatMap f) := by
  unfold BoxList.isDisjoint at *
  rw [List.pairwise_flatMap]
  refine ⟨hf, ?_⟩
  refine List.Pairwise.imp_of_mem ?_ hd
  intro a b ha hb hab x hx y hy hxy
  obtain ⟨c, hcx, hcy⟩ := (Box.intersects_iff x y).1 hxy
  exact hab ((Box.intersects_iff _ _).2
    ⟨c, hin a ha c ⟨x, hx, hcx⟩, hin b hb c ⟨y, hy, hcy⟩⟩)

theorem clusterBoxes_ref (est : Int → ℚ → List (IntVect D)) (nprocs : Int) (new : Bool)
    (eff : ℚ) (pn : BoxList D) (tagvec : List (IntVect D)) :
    clusterBoxes (refCollab est nprocs) new eff pn tagvec =
      (refChop eff (refClusterList tagvec)).flatMap (fun c => (refSplit pn c).map minimalBox) := by
  unfold clusterBoxes refCollab
  simp only [ite_self, refBoxList, refClusterIntersect, List.map_flatMap]

/-- The reference clustering meets the region contract. -/
theorem refCollab_clusterRegion (est : Int → ℚ → List (IntVect D)) (nprocs : Int) :
    ClusterRegion (refCollab est nprocs) := by
  intro new eff pn tagvec
  rw [clusterBoxes_ref]
  obtain ⟨h1, h2, -⟩ := refChop_spec eff tagvec
  refine ⟨fun b hb => ?_, fun y hy => ?_, fun p hp hcov => ?_⟩
  · obtain ⟨c, hc, hbc⟩ := List.mem_flatMap.1 hb
    obtain ⟨s, hs, rfl⟩ := List.mem_map.1 hbc
    exact minimalBox_ok s ((refSplit_spec pn c (h1 c hc).1).1 s hs).1
  · obtain ⟨c, hc, hcy⟩ := (BoxList.covers_flatMap _ _ y).1 hy
    exact ((refSplit_spec pn c (h1 c hc).1).2.1 y hcy).1
  · obtain ⟨c, hc, hpc⟩ := h2 p hp
    exact (BoxList.covers_flatMap _ _ p).2
      ⟨c, hc, (refSplit_spec pn c (h1 c hc).1).2.2.1 p hpc hcov⟩

/-- The reference clustering yields pairwise disjoint boxes. -/
theorem refCollab_clusterDisjoint (est : Int → ℚ → List (IntVect D)) (nprocs : Int) :
    ClusterDisjoint (refCollab est nprocs) := by
  intro new eff pn tagvec hnd hpn
  rw [clusterBoxes_ref]
  obtain ⟨h1, -, h3⟩ := refChop_spec eff tagvec
  exact isDisjoint_flatMap_of _ minimalBox _ (h3 hnd)
    (fun c hc y hy => ((refSplit_spec pn c (h1 c hc).1).2.1 y hy).2)
    (fun c hc => (refSplit_spec pn c (h1 c hc).1).2.2.2 hpn)

/-- The reference tag pipeline lists no cell twice. -/
theorem refCollab_tagsNodup (est : Int → ℚ → List (IntVect D)) (nprocs : Int)
    (m : AmrMesh D) (lbase : Int) (time : ℚ) :
    TagsNodup (refCollab est nprocs) m lbase time := by
  intro nf levc ba_proj ngt nf1 tagvec h
  rw [tagLevel_eq] at h
  simp only [] at h
  split at h
  · simp only [Except.ok.injEq, Prod.mk.injEq] at h
    rw [← h.2]
    simp only [refCollab, refSetVal, refMapPeriodic]
    exact List.Nodup.filter _ (List.nodup_dedup _)
  · cases h

end amrex

namespace amrex
variable {D : Nat} {T C : Type}

/-! ### What `checkInput` accepts -/

/-- The conditions a configuration accepted by `checkInput` meets. -/
theorem checkInput_ok (m : AmrMesh D) (h : checkInput m = Except.ok ()) :
    0 ≤ m.max_level ∧
    (∀ i ∈ levelsUp 0 m.max_level, 2 ≤ MaxRefRatio m i) ∧
    (m.domain 0).ok ∧
    (∀ idim, m.blocking_factor 0 idim ≤ m.max_grid_size 0 idim →
      cmod ((m.domain 0).length idim) (m.blocking_factor 0 idim) = 0) ∧
    (∀ i ∈ levelsUp 0 (m.max_level + 1), ∀ idim, oddPart (m.blocking_factor i idim) = 1) ∧
    (∀ i ∈ levelsUp 0 m.max_level, ∀ idim,
      m.blocking_factor i idim * m.ref_ratio i idim ≥ m.blocking_factor (i + 1) idim) ∧
    (∀ i ∈ levelsUp 0 m.max_level, ∀ idim,
      m.blocking_factor i idim ≤ m.max_grid_size i idim →
      cmod (m.max_grid_size i idim) (m.blocking_factor i idim) = 0) ∧
    (∀ i ∈ levelsUp 0 m.max_level, ∀ idim,
      cmod (min (m.blocking_factor i idim) (m.max_grid_size i idim))
        (max 1 (cdiv (m.blocking_factor (i + 1) idim) (m.ref_ratio i idim))) = 0) ∧
    m.prob_volume_pos = true := by
  unfold checkInput at h
  split_ifs at h with h1 h2 h3 h4 h5 h6 h7 h8 h9
  push_neg at h1 h2 h3 h4 h5 h6 h7 h8 h9
  exact ⟨h1, fun i hi => h2 i hi, h3, h4, h5, h6, h7, h8, by simpa using h9⟩

theorem stripTwos_eq_one (fuel : Nat) (k : Int) (h : stripTwos fuel k = 1) :
    ∃ e : Nat, k = 2 ^ e := by
  induction fuel generalizing k with
  | zero =>
    simp only [stripTwos] at h
    exact ⟨0, by simpa using h⟩
  | succ n ih =>
    unfold stripTwos at h
    split at h
    · rename_i hk
      obtain ⟨e, he⟩ := ih _ h
      refine ⟨e + 1, ?_⟩
      unfold cdiv cmod at *
      have h1 : Int.tdiv k 2 = k / 2 := Int.tdiv_eq_ediv (le_of_lt hk.1) (by decide)
      have h2 : Int.tmod k 2 = k % 2 := Int.tmod_eq_emod (le_of_lt hk.1) (by decide)
      rw [h1] at he
      rw [h2] at hk
      rw [pow_succ, ← he]
      omega
    · exact ⟨0, by simpa using h⟩

/-- A blocking factor that passes the power-of-two check is a power of two. -/
theorem oddPart_eq_one (k : Int) (h : oddPart k = 1) : ∃ e : Nat, k = 2 ^ e :=
  stripTwos_eq_one _ k h

/-! ### Alignment to the blocking factor -/

theorem Box.refine_aligned (b : Box D) (r : IntVect D) : (b.refine r).aligned r := by
  rw [Box.aligned_iff]
  intro d
  simp only [Box.refine]
  refine ⟨Dvd.intro_left _ rfl, ?_⟩
  have : (b.bigEnd d + 1) * r d - 1 + 1 = (b.bigEnd d + 1) * r d := by ring
  rw [this]
  exact Dvd.intro_left _ rfl

theorem Box.refine_aligned_mul (k r kf : IntVect D) (b : Box D) (hb : b.aligned k)
    (hk : ∀ d, kf d ∣ k d * r d) : (b.refine r).aligned kf := by
  rw [Box.aligned_iff] at hb ⊢
  intro d
  simp only [Box.refine]
  have h2 : (b.bigEnd d + 1) * r d - 1 + 1 = (b.bigEnd d + 1) * r d := by ring
  rw [h2]
  exact ⟨dvd_trans (hk d) (mul_dvd_mul_right (hb d).1 _),
    dvd_trans (hk d) (mul_dvd_mul_right (hb d).2 _)⟩

theorem Box.intersect_aligned (k : IntVect D) (a b : Box D) (ha : a.aligned k)
    (hb : b.aligned k) : (a.intersect b).aligned k := by
  rw [Box.aligned_iff] at *
  intro d
  simp only [Box.intersect]
  constructor
  · rcases max_choice (a.smallEnd d) (b.smallEnd d) with h | h <;> rw [h]
    · exact (ha d).1
    · exact (hb d).1
  · rcases min_choice (a.bigEnd d) (b.bigEnd d) with h | h <;> rw [h]
    · exact (ha d).2
    · exact (hb d).2

/-- The boxes of `new_bx` are aligned to the blocking factor of the fine level when that
factor divides `bf_lev * ref_ratio` and the coarse domain is aligned to `bf_lev`. -/
theorem makeNewBoxes_aligned (x : Collab D T C) (m : AmrMesh D) (lbase levc : Int)
    (hsa : SimplifyAligned x.simplify)
    (hdiv : ∀ d, m.blocking_factor (levc + 1) d ∣ bf_lev m levc d * m.ref_ratio levc d)
    (hdom : Box.aligned (bf_lev m levc) (m.domain levc))
    (tagvec : List (IntVect D)) :
    ∀ b ∈ makeNewBoxes x m lbase levc tagvec, Box.aligned (m.blocking_factor (levc + 1)) b := by
  unfold makeNewBoxes
  simp only []
  have h1 : ∀ b ∈ x.simplify ((clusterBoxes x m.use_new_chop m.grid_eff
      (p_n_ba x m lbase levc) tagvec).refine (bf_lev m levc)), Box.aligned (bf_lev m levc) b := by
    apply hsa
    intro b hb
    obtain ⟨a, -, rfl⟩ := List.mem_map.1 hb
    exact Box.refine_aligned a _
  intro b hb
  obtain ⟨a, ha, rfl⟩ := List.mem_map.1 hb
  apply Box.refine_aligned_mul (bf_lev m levc) _ _ a _ hdiv
  split at ha
  · unfold BoxList.intersect at ha
    obtain ⟨a', ha', rfl⟩ := List.mem_map.1 (List.mem_filter.1 ha).1
    exact Box.intersect_aligned _ _ _ (h1 a' ha') hdom
  · exact h1 a ha

end amrex

namespace amrex
variable {D : Nat} {T C : Type}

theorem exists_of_resultHas {α : Type} (r : Option (Except String α)) (P : α → Bool)
    (h : resultHas r P = true) : ∃ a, r = some (Except.ok a) ∧ P a = true := by
  match r, h with
  | some (Except.ok a), h => exact ⟨a, rfl, h⟩

/-- `ChopGrids` keeps the boxes aligned to the blocking factor of its level when the
initial cap is a multiple of it. -/
theorem ChopGrids_aligned (maxSize : IntVect D → BoxList D → BoxList D) (m : AmrMesh D)
    (lev : Int) (target_size : Int) (hma : MaxSizeAligned maxSize)
    (hpow : ∀ d, ∃ e : Nat, m.blocking_factor lev d = 2 ^ e)
    (hinit : ∀ d, m.blocking_factor lev d ∣ chunkInit m lev d)
    (ba ba1 : BoxList D) (h0 : ∀ b ∈ ba, Box.aligned (m.blocking_factor lev) b)
    (h : ChopGrids maxSize m lev ba target_size = some ba1) :
    ∀ b ∈ ba1, Box.aligned (m.blocking_factor lev) b := by
  refine ChopGrids_preserves maxSize m lev target_size
    (fun ch bl => (∀ d, m.blocking_factor lev d ∣ ch d) ∧
      ∀ b ∈ bl, Box.aligned (m.blocking_factor lev) b)
    ?_ (fun bl => ∀ b ∈ bl, Box.aligned (m.blocking_factor lev) b)
    (fun _ _ hR => hR.2) ba ba1 h0 ⟨hinit, h0⟩ h
  intro ch bl idim hR hcan
  have hmod := (canHalve_true m lev ch idim hcan).2.2
  have hdvd : m.blocking_factor lev idim ∣ cdiv (ch idim) 2 := by
    unfold cmod at hmod
    exact Int.dvd_of_tmod_eq_zero hmod
  have hch : ∀ d, m.blocking_factor lev d ∣ Function.update ch idim (cdiv (ch idim) 2) d := by
    intro d
    by_cases hd : d = idim
    · subst hd; rw [Function.update_same]; exact hdvd
    · rw [Function.update_noteq hd]; exact hR.1 d
  exact ⟨hch, hma _ _ _ hpow hch hR.2⟩

/-- C2, amended: for a configuration accepted by `checkInput` in which, at every level
`lev = levc + 1` with `lbase <= levc <= max_crse`, the blocking factor of level `lev`
divides `max_grid_size[lev]`, the length of the level-`lev` domain and
`bf_lev[levc] * ref_ratio[levc]`, and the domain of level `levc` is aligned to
`bf_lev[levc]`, every box of a `new_grids[lev]` that `MakeNewGrids(lbase, ...)` generates
has in every dimension a low index and a length that are multiples of
`blocking_factor[lev]`.  (`simplify` and `maxSize` keep boxes aligned.) -/
theorem MakeNewGrids_generated_boxes_aligned (x : Collab D T C) (m : AmrMesh D)
    (lbase : Int) (time : ℚ) (new_grids : Int → BoxList D) (fuel : Nat)
    (hci : checkInput m = Except.ok ()) (hl0 : 0 ≤ lbase)
    (hsa : SimplifyAligned x.simplify) (hma : MaxSizeAligned x.maxSize)
    (hdiv : ∀ levc, lbase ≤ levc → levc ≤ max_crse m → ∀ d,
      m.blocking_factor (levc + 1) d ∣ bf_lev m levc d * m.ref_ratio levc d)
    (hdom : ∀ levc, lbase ≤ levc → levc ≤ max_crse m →
      Box.aligned (bf_lev m levc) (m.domain levc))
    (hcap : ∀ levc, lbase ≤ levc → levc ≤ max_crse m → ∀ d,
      m.blocking_factor (levc + 1) d ∣ m.max_grid_size (levc + 1) d ∧
      m.blocking_factor (levc + 1) d ∣ (m.domain (levc + 1)).length d)
    (st : GridState D)
    (hst : MakeNewGrids x m lbase time new_grids fuel = some (Except.ok st)) :
    ∀ lev, Event.cluster lev ∈ st.trace →
      ∀ b ∈ st.new_grids lev, Box.aligned (m.blocking_factor lev) b := by
  obtain ⟨-, -, -, -, hpow2, -⟩ := checkInput_ok m hci
  have hpow : ∀ levc, lbase ≤ levc → levc ≤ max_crse m → ∀ d,
      ∃ e : Nat, m.blocking_factor (levc + 1) d = 2 ^ e := by
    intro levc h1 h2 d
    apply oddPart_eq_one
    apply hpow2
    rw [mem_levelsUp]
    unfold max_crse at h2
    omega
  obtain ⟨st0, ha, hf⟩ := MakeNewGrids_ok x m lbase time new_grids fuel st hst
  have h1 := levelLoop_generated x m lbase time fuel
    (fun lev bl => ∀ b ∈ bl, Box.aligned (m.blocking_factor lev) b)
    (fun levc => lbase ≤ levc ∧ levc ≤ max_crse m)
    (fun levc tagvec hL _ => hma _ _ _ (hpow levc hL.1 hL.2)
      (fun d => (hcap levc hL.1 hL.2 d).1)
      (makeNewBoxes_aligned x m lbase levc hsa (hdiv levc hL.1 hL.2) (hdom levc hL.1 hL.2)
        tagvec))
    _ (fun l hl => (mem_levelsDown _ _ l).1 hl) _ st0 ha (fun lev h => by simp at h)
  have hnf := levelLoop_new_finest x m lbase time fuel (max_crse m)
    (levelsDown (max_crse m) lbase) (fun l hl => ((mem_levelsDown _ _ l).1 hl).2) _ st0 ha
  have htr := (finalLoop_new_finest x m _ st0 st hf).2
  intro lev hlev
  rw [htr] at hlev
  refine finalLoop_preserves x m
    (fun lev bl => ∀ b ∈ bl, Box.aligned (m.blocking_factor lev) b)
    (fun lev => lbase ≤ lev - 1 ∧ lev - 1 ≤ max_crse m) ?_
    _ ?_ st0 st hf lev (h1 lev hlev)
  · intro l ba ba1 hL hq hc
    have e : l - 1 + 1 = l := by ring
    have hp := hpow (l - 1) hL.1 hL.2
    have hcp := hcap (l - 1) hL.1 hL.2
    rw [e] at hp hcp
    refine ChopGrids_aligned x.maxSize m l x.NProcs hma hp ?_ ba ba1 hq hc
    intro d
    unfold chunkInit
    rcases min_choice (m.max_grid_size l d) ((m.domain l).length d) with h | h <;> rw [h]
    · exact (hcp d).1
    · exact (hcp d).2
  · intro l hl
    rw [mem_levelsUp] at hl
    simp only [] at hnf
    omega

set_option maxRecDepth 100000 in
/-- C2 fails as stated: `smallCapMesh` is accepted by `checkInput` (a `max_grid_size`
below the blocking factor is not checked), and `MakeNewGrids(0, ...)` returns
`new_finest = 1` with a level-1 box whose low index or length is not a multiple of the
blocking factor 8 (the boxes are `[16,19]` and `[20,23]`). -/
theorem new_grids_not_aligned :
    checkInput smallCapMesh = Except.ok () ∧
    ∃ st, MakeNewGrids (refCollab smallCapEst 1) smallCapMesh 0 0 (fun _ => []) 10
        = some (Except.ok st) ∧
      (0 : Int) < 1 ∧ 1 ≤ st.new_finest ∧
      corners (st.new_grids 1) = [([16], [19]), ([20], [23])] ∧
      ¬ ∀ b ∈ st.new_grids 1, ∀ d, smallCapMesh.blocking_factor 1 d ∣ b.smallEnd d ∧
        smallCapMesh.blocking_factor 1 d ∣ b.length d := by
  refine ⟨by decide, ?_⟩
  obtain ⟨st, hst, hP⟩ := exists_of_resultHas
    (MakeNewGrids (refCollab smallCapEst 1) smallCapMesh 0 0 (fun _ => []) 10)
    (fun st => decide ((0 : Int) < 1 ∧ 1 ≤ st.new_finest ∧
      corners (st.new_grids 1) = [([16], [19]), ([20], [23])] ∧
      ¬ ∀ b ∈ st.new_grids 1, ∀ d, smallCapMesh.blocking_factor 1 d ∣ b.smallEnd d ∧
        smallCapMesh.blocking_factor 1 d ∣ b.length d)) (by decide)
  exact ⟨st, hst, of_decide_eq_true hP⟩

set_option maxRecDepth 100000 in
/-- Witness of the amended C2: a regrid of `lineMesh` from level 0, in which boxes are
generated for the levels 1 and 2. -/
theorem MakeNewGrids_generated_boxes_aligned_witness :
    checkInput lineMesh = Except.ok () ∧ (0 : Int) ≤ 0 ∧
    SimplifyAligned (refCollab lineEst 1).simplify ∧
    MaxSizeAligned (refCollab lineEst 1).maxSize ∧
    (∀ levc, 0 ≤ levc → levc ≤ max_crse lineMesh → ∀ d,
      lineMesh.blocking_factor (levc + 1) d ∣ bf_lev lineMesh levc d * lineMesh.ref_ratio levc d) ∧
    (∀ levc, 0 ≤ levc → levc ≤ max_crse lineMesh →
      Box.aligned (bf_lev lineMesh levc) (lineMesh.domain levc)) ∧
    (∀ levc, 0 ≤ levc → levc ≤ max_crse lineMesh → ∀ d,
      lineMesh.blocking_factor (levc + 1) d ∣ lineMesh.max_grid_size (levc + 1) d ∧
      lineMesh.blocking_factor (levc + 1) d ∣ (lineMesh.domain (levc + 1)).length d) ∧
    ∃ st, MakeNewGrids (refCollab lineEst 1) lineMesh 0 0 (fun _ => []) 10
        = some (Except.ok st) ∧
      Event.cluster 2 ∈ st.trace ∧
      ∀ lev, Event.cluster lev ∈ st.trace →
        ∀ b ∈ st.new_grids lev, Box.aligned (lineMesh.blocking_factor lev) b := by
  have hmc : max_crse lineMesh = 1 := by decide
  have hdiv : ∀ levc, 0 ≤ levc → levc ≤ max_crse lineMesh → ∀ d,
      lineMesh.blocking_factor (levc + 1) d ∣
        bf_lev lineMesh levc d * lineMesh.ref_ratio levc d := by
    intro levc h0 h1
    rw [hmc] at h1
    interval_cases levc <;> decide
  have hdom : ∀ levc, 0 ≤ levc → levc ≤ max_crse lineMesh →
      Box.aligned (bf_lev lineMesh levc) (lineMesh.domain levc) := by
    intro levc h0 h1
    rw [hmc] at h1
    interval_cases levc <;> decide
  have hcap : ∀ levc, 0 ≤ levc → levc ≤ max_crse lineMesh → ∀ d,
      lineMesh.blocking_factor (levc + 1) d ∣ lineMesh.max_grid_size (levc + 1) d ∧
      lineMesh.blocking_factor (levc + 1) d ∣ (lineMesh.domain (levc + 1)).length d := by
    intro levc h0 h1
    rw [hmc] at h1
    interval_cases levc <;> decide
  obtain ⟨st, hst, hP⟩ := exists_of_resultHas
    (MakeNewGrids (refCollab lineEst 1) lineMesh 0 0 (fun _ => []) 10)
    (fun st => decide (Event.cluster 2 ∈ st.trace)) (by decide)
  exact ⟨by decide, by decide, refSimplify_aligned, refMaxSize_aligned, hdiv, hdom, hcap,
    st, hst, of_decide_eq_true hP,
    MakeNewGrids_generated_boxes_aligned (refCollab lineEst 1) lineMesh 0 0 (fun _ => []) 10
      (by decide) (by decide) refSimplify_aligned refMaxSize_aligned hdiv hdom hcap st hst⟩

end amrex

namespace amrex

set_option maxRecDepth 100000 in
/-- Witness of C3: a regrid of `lineMesh` from level 0 with the reference collaborators,
which meet the contracts; boxes are generated for the levels 1 and 2. -/
theorem MakeNewGrids_new_boxes_disjoint_witness :
    TagsNodup (refCollab lineEst 1) lineMesh 0 0 ∧
    ClusterDisjoint (refCollab lineEst 1) ∧
    SimplifyDisjoint (refCollab lineEst 1).simplify ∧
    MaxSizeDisjoint (refCollab lineEst 1).maxSize ∧
    ∃ st, MakeNewGrids (refCollab lineEst 1) lineMesh 0 0 (fun _ => []) 10
        = some (Except.ok st) ∧
      Event.cluster 1 ∈ st.trace ∧ Event.cluster 2 ∈ st.trace ∧
      BoxList.isDisjoint (st.new_grids 1) ∧ BoxList.isDisjoint (st.new_grids 2) := by
  obtain ⟨st, hst, hP⟩ := exists_of_resultHas
    (MakeNewGrids (refCollab lineEst 1) lineMesh 0 0 (fun _ => []) 10)
    (fun st => decide (Event.cluster 1 ∈ st.trace ∧ Event.cluster 2 ∈ st.trace)) (by decide)
  have hP' := of_decide_eq_true hP
  have h := (MakeNewGrids_new_boxes_disjoint (refCollab lineEst 1) lineMesh 0 0 (fun _ => [])
    10 (refCollab_tagsNodup lineEst 1 lineMesh 0 0) (refCollab_clusterDisjoint lineEst 1)
    refSimplify_disjoint refMaxSize_disjoint).2 st hst
  exact ⟨refCollab_tagsNodup lineEst 1 lineMesh 0 0, refCollab_clusterDisjoint lineEst 1,
    refSimplify_disjoint, refMaxSize_disjoint, st, hst, hP'.1, hP'.2, h 1 hP'.1, h 2 hP'.2⟩

end amrex

namespace amrex
variable {D : Nat} {T C : Type}

/-! ### One full block of tags -/

theorem rat_num_le_den (q : ℚ) (h : q ≤ 1) : q.num ≤ (q.den : Int) := by
  have h1 := Rat.num_div_den q
  rw [← h1, div_le_one (by exact_mod_cast q.den_pos)] at h
  exact_mod_cast h

theorem rat_le_one_of_num_le_den (q : ℚ) (h : q.num ≤ (q.den : Int)) : q ≤ 1 := by
  rw [← Rat.num_div_den q, div_le_one (by exact_mod_cast q.den_pos)]
  exact_mod_cast h

/-- The tags that fill a box have that box as bounding box. -/
theorem minimalBox_of_block (B : Box D) (tagvec : List (IntVect D)) (hok : B.ok)
    (hmem : ∀ c, c ∈ tagvec ↔ B.contains c) : minimalBox tagvec = B := by
  have hlo : B.smallEnd ∈ tagvec := (hmem _).2 (fun d => ⟨le_refl _, hok d⟩)
  have hhi : B.bigEnd ∈ tagvec := (hmem _).2 (fun d => ⟨hok d, le_refl _⟩)
  have h1 := minimalBox_contains tagvec _ hlo
  have h2 := minimalBox_contains tagvec _ hhi
  have hin : ∀ c, (minimalBox tagvec).contains c → B.contains c :=
    minimalBox_within tagvec B (List.ne_nil_of_mem hlo) (fun p hp => (hmem p).1 hp)
  have hmok : (minimalBox tagvec).ok := minimalBox_ok tagvec (List.ne_nil_of_mem hlo)
  have h3 := hin (minimalBox tagvec).smallEnd (fun d => ⟨le_refl _, hmok d⟩)
  have h4 := hin (minimalBox tagvec).bigEnd (fun d => ⟨hmok d, le_refl _⟩)
  rw [Box.ext_iff']
  constructor
  · funext d; have := (h1 d).1; have := (h3 d).1; omega
  · funext d; have := (h2 d).2; have := (h4 d).2; omega

theorem numPts_eq_prod (B : Box D) : B.numPts = ∏ d : Fin D, B.length d := by
  unfold Box.numPts
  rw [← List.prod_ofFn, List.ofFn_eq_map, List.prod_eq_foldl, List.foldl_map]

/-- The tags that fill a box, each listed once, are as many as the cells of the box. -/
theorem length_of_block (B : Box D) (tagvec : List (IntVect D)) (hok : B.ok)
    (hnd : tagvec.Nodup) (hmem : ∀ c, c ∈ tagvec ↔ B.contains c) :
    (tagvec.length : Int) = B.numPts := by
  have hfin : tagvec.toFinset = Fintype.piFinset (fun d => Finset.Icc (B.smallEnd d) (B.bigEnd d)) := by
    ext c
    rw [List.mem_toFinset, hmem c, Fintype.mem_piFinset]
    exact forall_congr' (fun d => by rw [Finset.mem_Icc])
  have hcard := List.toFinset_card_of_nodup hnd
  rw [hfin, Fintype.card_piFinset] at hcard
  rw [numPts_eq_prod, ← hcard]
  push_cast
  refine Finset.prod_congr rfl (fun d _ => ?_)
  rw [Int.card_Icc, Int.toNat_of_nonneg (by have := hok d; omega)]
  unfold Box.length
  ring

theorem refSimplify_single (b : Box D) : refSimplify [b] = [b] := by
  simp [refSimplify, mergeInto]

theorem intersect_single_of_containsBox (b dom : Box D) (hok : b.ok)
    (h : dom.containsBox b) : BoxList.intersect [b] dom = [b] := by
  have e : b.intersect dom = b := by
    rw [Box.ext_iff']
    constructor
    · funext d; have := (h d).1; simp only [Box.intersect]; omega
    · funext d; have := (h d).2; simp only [Box.intersect]; omega
  unfold BoxList.intersect
  simp only [List.map_cons, List.map_nil, e]
  rw [List.filter_cons_of_pos (by simpa using hok)]
  rfl

theorem refMaxSize_single_of_fits (chunk : IntVect D) (b : Box D)
    (h : ∀ d, b.length d ≤ chunk d) : refMaxSize chunk [b] = [b] := by
  unfold refMaxSize
  apply refMaxSize_foldl chunk (fun l => l = [b]) _ _ _ rfl
  intro l d hl
  dsimp only at hl ⊢
  subst hl
  simp only [List.flatMap_cons, List.flatMap_nil, List.append_nil]
  unfold Box.chopDim
  rw [if_neg (by have := h d; omega)]

theorem Box.refine_ok (b : Box D) (r : IntVect D) (hr : ∀ d, 0 < r d) (hok : b.ok) :
    (b.refine r).ok := by
  intro d
  simp only [Box.refine]
  have h1 : b.smallEnd d * r d + r d ≤ (b.bigEnd d + 1) * r d := by
    have : (b.smallEnd d + 1) * r d ≤ (b.bigEnd d + 1) * r d :=
      Int.mul_le_mul_of_nonneg_right (by have := hok d; omega) (le_of_lt (hr d))
    have e : (b.smallEnd d + 1) * r d = b.smallEnd d * r d + r d := by ring
    omega
  have := hr d
  omega

theorem Box.refine_length (b : Box D) (r : IntVect D) (d : Fin D) :
    (b.refine r).length d = b.length d * r d := by
  simp only [Box.refine, Box.length]
  ring

/-- When the collated tags are exactly the cells of one box `B` inside the nesting domain
(and the target efficiency is at most 1), the reference clustering yields this one box,
and `new_bx` is `B` refined by `bf_lev` and by the refinement ratio, with no padding;
it is also the new grid when it fits in `max_grid_size`. -/
theorem makeNewBoxes_of_block (est : Int → ℚ → List (IntVect D)) (nprocs : Int)
    (m : AmrMesh D) (lbase levc : Int) (B : Box D) (tagvec : List (IntVect D))
    (hok : B.ok) (hnd : tagvec.Nodup) (hmem : ∀ c, c ∈ tagvec ↔ B.contains c)
    (heff : m.grid_eff ≤ 1)
    (hpn : (p_n_ba (refCollab est nprocs) m lbase levc).containsBox B = true)
    (hdom : (m.domain levc).containsBox (B.refine (bf_lev m levc)))
    (hbf : ∀ d, 0 < bf_lev m levc d) :
    makeNewBoxes (refCollab est nprocs) m lbase levc tagvec
      = [(B.refine (bf_lev m levc)).refine (m.ref_ratio levc)] := by
  have hmb := minimalBox_of_block B tagvec hok hmem
  have hlen := length_of_block B tagvec hok hnd hmem
  have hne : tagvec ≠ [] := List.ne_nil_of_mem ((hmem _).2 (fun d => ⟨le_refl _, hok d⟩))
  have hcl : clusterBoxes (refCollab est nprocs) m.use_new_chop m.grid_eff
      (p_n_ba (refCollab est nprocs) m lbase levc) tagvec = [B] := by
    rw [clusterBoxes_ref]
    have h1 : refClusterList tagvec = [tagvec] := by
      unfold refClusterList
      rw [if_neg (by simpa using hne)]
    have h2 : refChop m.grid_eff [tagvec] = [tagvec] := by
      unfold refChop
      simp only [List.flatMap_cons, List.flatMap_nil, List.append_nil]
      rw [if_pos]
      unfold effReached
      rw [hmb, hlen]
      have hN : 0 ≤ B.numPts := by rw [← hlen]; exact Int.ofNat_nonneg _
      rw [mul_comm B.numPts]
      exact Int.mul_le_mul_of_nonneg_right (rat_num_le_den _ heff) hN
    rw [h1, h2]
    simp only [List.flatMap_cons, List.flatMap_nil, List.append_nil]
    unfold refSplit
    rw [hmb, if_pos hpn]
    simp [hmb]
  unfold makeNewBoxes
  simp only [hcl]
  have h3 : (refCollab est nprocs).simplify (BoxList.refine [B] (bf_lev m levc))
      = [B.refine (bf_lev m levc)] := refSimplify_single _
  rw [h3]
  simp only [List.length_singleton, gt_iff_lt, zero_lt_one, if_true]
  rw [intersect_single_of_containsBox _ _ (Box.refine_ok B _ hbf hok) hdom]
  rfl

/-- A block that fits in `max_grid_size` is not chopped. -/
theorem maxSize_of_block (m : AmrMesh D) (levc : Int) (B : Box D)
    (hfit : ∀ d, B.length d * bf_lev m levc d * m.ref_ratio levc d
      ≤ m.max_grid_size (levc + 1) d) :
    refMaxSize (m.max_grid_size (levc + 1))
        [(B.refine (bf_lev m levc)).refine (m.ref_ratio levc)]
      = [(B.refine (bf_lev m levc)).refine (m.ref_ratio levc)] := by
  apply refMaxSize_single_of_fits
  intro d
  rw [Box.refine_length, Box.refine_length]
  exact hfit d

end amrex

namespace amrex
variable {D : Nat} {T C : Type}

theorem cells_foldl (b : Box D) (ds : List (Fin D)) (hnd : ds.Nodup)
    (acc : List (IntVect D)) (c : IntVect D) :
    c ∈ ds.foldl (fun acc d => acc.flatMap (fun c =>
        (intRange (b.smallEnd d) (b.bigEnd d + 1)).map (fun v => Function.update c d v))) acc ↔
      ∃ a ∈ acc, (∀ d ∈ ds, b.smallEnd d ≤ c d ∧ c d ≤ b.bigEnd d) ∧
        ∀ d, d ∉ ds → c d = a d := by
  induction ds generalizing acc with
  | nil =>
    simp only [List.foldl_nil, List.not_mem_nil, false_imp_iff, implies_true, true_and,
      not_false_eq_true, true_implies]
    constructor
    · intro h; exact ⟨c, h, fun _ => rfl⟩
    · rintro ⟨a, ha, h⟩
      have : c = a := funext h
      rw [this]; exact ha
  | cons d t ih =>
    rw [List.nodup_cons] at hnd
    simp only [List.foldl_cons]
    rw [ih hnd.2]
    constructor
    · rintro ⟨a', ha', hr, he⟩
      obtain ⟨a, ha, hmap⟩ := List.mem_flatMap.1 ha'
      obtain ⟨v, hv, rfl⟩ := List.mem_map.1 hmap
      rw [mem_intRange] at hv
      refine ⟨a, ha, ?_, ?_⟩
      · intro e hemem
        rcases List.mem_cons.1 hemem with rfl | het
        · have := he e hnd.1
          rw [Function.update_same] at this
          omega
        · exact hr e het
      · intro e hne
        have h1 : e ∉ t := fun h => hne (List.mem_cons_of_mem _ h)
        have h2 : e ≠ d := fun h => hne (by rw [h]; exact List.mem_cons_self _ _)
        rw [he e h1, Function.update_noteq h2]
    · rintro ⟨a, ha, hr, he⟩
      refine ⟨Function.update a d (c d), ?_, fun e het => hr e (List.mem_cons_of_mem _ het), ?_⟩
      · refine List.mem_flatMap.2 ⟨a, ha, List.mem_map.2 ⟨c d, ?_, rfl⟩⟩
        rw [mem_intRange]
        have := hr d (List.mem_cons_self _ _)
        omega
      · intro e het
        by_cases hed : e = d
        · subst hed; rw [Function.update_same]
        · rw [Function.update_noteq hed]
          exact he e (fun h => (List.mem_cons.1 h).elim hed het)

/-- The list of the cells of a box holds exactly the cells of the box. -/
theorem Box.mem_cells (b : Box D) (c : IntVect D) : c ∈ b.cells ↔ b.contains c := by
  unfold Box.cells
  rw [cells_foldl b _ (List.nodup_finRange D)]
  constructor
  · rintro ⟨a, -, hr, -⟩ d
    exact hr d (List.mem_finRange d)
  · intro h
    exact ⟨b.smallEnd, List.mem_singleton.2 rfl, fun d _ => h d,
      fun d hd => absurd (List.mem_finRange d) hd⟩

end amrex

namespace amrex
variable {D : Nat} {T C : Type}

/-! ### Helpers for the nesting of the new grids -/

theorem ediv_ediv_pos (x a b : Int) (ha : 0 < a) (hb : 0 < b) : x / a / b = x / (a * b) := by
  have hab : 0 < a * b := Int.mul_pos ha hb
  apply le_antisymm
  · rw [Int.le_ediv_iff_mul_le hab]
    have h1 : x / a / b * b ≤ x / a := Int.ediv_mul_le _ (ne_of_gt hb)
    have h2 : x / a * a ≤ x := Int.ediv_mul_le _ (ne_of_gt ha)
    calc x / a / b * (a * b) = (x / a / b * b) * a := by ring
      _ ≤ (x / a) * a := Int.mul_le_mul_of_nonneg_right h1 (le_of_lt ha)
      _ ≤ x := h2
  · rw [Int.le_ediv_iff_mul_le hb, Int.le_ediv_iff_mul_le ha]
    calc x / (a * b) * b * a = x / (a * b) * (a * b) := by ring
      _ ≤ x := Int.ediv_mul_le _ (ne_of_gt hab)

theorem Box.grow_grow (b : Box D) (n k : Int) : (b.grow n).grow k = b.grow (n + k) := by
  rw [Box.ext_iff']
  constructor <;> (funext d; simp only [Box.grow]; ring)

theorem BoxList.grow_twice (bl : BoxList D) (n k : Int) :
    (bl.grow n).grow k = bl.grow (n + k) := by
  unfold BoxList.grow
  rw [List.map_map]
  exact List.map_congr_left (fun b _ => Box.grow_grow b n k)

/-- The `while` loop that grows `levcBA` ends with a count `ngrow` for which the grids grown
by `ngrow` hold the projected grids. -/
theorem growUntilContains_spec (fuel : Nat) (bl ba : BoxList D) (n0 n : Int)
    (h : growUntilContains fuel bl ba n0 = some n) :
    n0 ≤ n ∧ (bl.grow (n - n0)).containsList ba = true := by
  induction fuel generalizing bl n0 with
  | zero => simp [growUntilContains] at h
  | succ k ih =>
    unfold growUntilContains at h
    split at h
    · rename_i hc
      simp only [Option.some.injEq] at h
      subst h
      refine ⟨le_refl _, ?_⟩
      rw [sub_self]
      have e : bl.grow 0 = bl := by
        unfold BoxList.grow
        have : (fun b : Box D => b.grow 0) = id := by
          funext b; rw [id, Box.ext_iff']
          constructor <;> (funext d; simp [Box.grow])
        rw [this, List.map_id]
      rw [e]; exact hc
    · obtain ⟨h1, h2⟩ := ih _ _ h
      refine ⟨by omega, ?_⟩
      rw [BoxList.grow_twice] at h2
      have e : 1 + (n - (n0 + 1)) = n - n0 := by ring
      rw [e] at h2
      exact h2

theorem containsList_covers (bl ba : BoxList D) (h : bl.containsList ba = true)
    (hok : ∀ b ∈ ba, b.ok) (c : IntVect D) (hc : ba.covers c) : bl.covers c := by
  unfold BoxList.containsList at h
  simp only [Bool.and_eq_true, List.all_eq_true] at h
  obtain ⟨b, hb, hbc⟩ := hc
  exact containsBox_covers bl b (hok b hb) (h.2 b hb) c hbc

theorem Box.coarsen_ok (b : Box D) (r : IntVect D) (hr : ∀ d, 0 < r d) (hok : b.ok) :
    (b.coarsen r).ok := fun d => Int.ediv_le_ediv (hr d) (hok d)

theorem Box.grow_ok (b : Box D) (n : Int) (hn : 0 ≤ n) (hok : b.ok) : (b.grow n).ok := by
  intro d
  have := hok d
  simp only [Box.grow]
  omega

/-- The grids grown by `n` cells lie in the grids grown by a vector that is at least `n`
in each direction. -/
theorem covers_growVect_of_grow (simplify : BoxList D → BoxList D)
    (hs : SimplifySpec simplify) (grids : BoxList D) (hok : ∀ b ∈ grids, b.ok)
    (n : Int) (hn : 0 ≤ n) (ngt : IntVect D) (hngt : ∀ d, n ≤ ngt d) (c : IntVect D)
    (h : ((simplify grids).grow n).covers c) :
    BoxList.covers (grids.map (fun b => b.growVect ngt)) c := by
  have h' : ((simplify grids).accrete n).covers c := h
  rw [covers_accrete _ n hn ((hs grids).2 hok) c] at h'
  obtain ⟨c', hclose, hc'⟩ := h'
  obtain ⟨g, hg, hgc⟩ := ((hs grids).1 c').1 hc'
  refine ⟨g.growVect ngt, List.mem_map.2 ⟨g, hg, rfl⟩, ?_⟩
  intro d
  have := hgc d; have := abs_le.1 (hclose d); have := hngt d
  simp only [Box.growVect]
  omega

/-- The complement of the nesting domain of a level holds the refined complement of the
level below. -/
theorem p_n_comp_ba_refine (x : Collab D T C) (m : AmrMesh D) (lbase i : Int)
    (hs : SimplifySpec x.simplify) (hn : 0 ≤ m.n_proper) (hi : lbase < i)
    (hr : ∀ d, 0 < rr_lev m (i - 1) d) (c : IntVect D)
    (hc : (p_n_comp_ba x m lbase (i - 1)).covers (fun d => c d / rr_lev m (i - 1) d)) :
    (p_n_comp_ba x m lbase i).covers c := by
  rw [p_n_comp_ba_succ x m lbase i hi]
  have h1 : (((x.simplify (p_n_comp_ba x m lbase (i - 1))).refine
      (rr_lev m (i - 1))).accrete m.n_proper).covers c := by
    apply covers_accrete_of_covers _ _ hn
    rw [covers_refine _ _ hr c]
    exact ((hs _).1 _).2 hc
  split
  · exact covers_ProjPeriodic_of_covers _ _ _ c h1
  · exact h1

/-- A cell covered by the complement of a list in a box lies in the box and not in the
list, also when the box is empty. -/
theorem covers_complementIn_imp (b : Box D) (bl : BoxList D) (c : IntVect D)
    (h : (BoxList.complementIn b bl).covers c) : b.contains c ∧ ¬ bl.covers c := by
  by_cases hok : b.ok
  · exact ((complementIn_spec b bl hok).1 c).1 h
  · exfalso
    obtain ⟨p, hp, hpc⟩ := h
    have hsub : ∀ (l acc : BoxList D), (∀ q ∈ acc, ¬ q.ok) →
        ∀ q ∈ l.foldl (fun acc y => acc.flatMap (fun p => boxDiff p y)) acc, ¬ q.ok := by
      intro l
      induction l with
      | nil => intro acc hacc; exact hacc
      | cons y t ih =>
        intro acc hacc
        simp only [List.foldl_cons]
        apply ih
        intro q hq
        obtain ⟨a, ha, hqa⟩ := List.mem_flatMap.1 hq
        intro hqok
        have hcov := (boxDiff_disjoint a y).1 q.smallEnd
          ⟨q, hqa, fun d => ⟨le_refl _, hqok d⟩⟩
        exact hacc a ha (Box.contains_ok a _ hcov)
    exact hsub bl [b] (fun q hq => by
      rw [List.mem_singleton] at hq; subst hq; exact hok) p hp (Box.contains_ok p c hpc)

/-- A cell of the nesting domain of a level lies in the coarsened domain and not in the
complement list of the level. -/
theorem covers_p_n_ba_imp (x : Collab D T C) (m : AmrMesh D) (lbase i : Int)
    (hs : SimplifySpec x.simplify) (c : IntVect D) (h : (p_n_ba x m lbase i).covers c) :
    (pc_domain m i).contains c ∧ ¬ (p_n_comp_ba x m lbase i).covers c := by
  unfold p_n_ba at h
  rw [(hs _).1 c] at h
  exact covers_complementIn_imp _ _ c h

/-- The nesting domain of the base level lies in the coarsened grids of that level. -/
theorem p_n_ba_base_subset (x : Collab D T C) (m : AmrMesh D) (lbase : Int)
    (hs : SimplifySpec x.simplify) (hn : 0 ≤ m.n_proper) (c : IntVect D)
    (hc : (p_n_ba x m lbase lbase).covers c) :
    ((x.simplify (m.grids lbase)).coarsen (bf_lev m lbase)).covers c := by
  obtain ⟨hdom, hnot⟩ := covers_p_n_ba_imp x m lbase lbase hs c hc
  by_contra hno
  apply hnot
  rw [p_n_comp_ba_base]
  have h1 : ((x.simplify (BoxList.complementIn (pc_domain m lbase)
      ((x.simplify (m.grids lbase)).coarsen (bf_lev m lbase)))).accrete m.n_proper).covers c := by
    apply covers_accrete_of_covers _ _ hn
    rw [(hs _).1 c, (complementIn_spec _ _ (Box.contains_ok _ _ hdom)).1 c]
    exact ⟨hdom, hno⟩
  split
  · exact covers_ProjPeriodic_of_covers _ _ _ c h1
  · exact h1

/-- A list of boxes aligned to `k` covers a cell as soon as it covers a cell of the same
block of `k` cells. -/
theorem covers_of_same_block (bl : BoxList D) (k : IntVect D) (hk : ∀ d, 0 < k d)
    (hal : ∀ b ∈ bl, b.aligned k) (c f : IntVect D) (hf : bl.covers f)
    (hcf : ∀ d, f d / k d = c d / k d) : bl.covers c := by
  obtain ⟨b, hb, hbf⟩ := hf
  refine ⟨b, hb, fun d => ?_⟩
  obtain ⟨⟨lo, hlo⟩, ⟨hi, hhi⟩⟩ := (Box.aligned_iff k b).1 (hal b hb) d
  have h1 := hbf d
  have hkd := hk d
  have e := hcf d
  have hq1 : lo ≤ f d / k d := by
    rw [Int.le_ediv_iff_mul_le hkd]
    rw [hlo] at h1
    calc lo * k d = k d * lo := by ring
      _ ≤ f d := h1.1
  have hq2 : f d / k d < hi := by
    rw [Int.ediv_lt_iff_lt_mul hkd]
    have : f d < k d * hi := by omega
    calc f d < k d * hi := this
      _ = hi * k d := by ring
  rw [e] at hq1 hq2
  rw [Int.le_ediv_iff_mul_le hkd] at hq1
  rw [Int.ediv_lt_iff_lt_mul hkd] at hq2
  constructor
  · rw [hlo]
    calc k d * lo = lo * k d := by ring
      _ ≤ c d := hq1
  · have : c d < b.bigEnd d + 1 := by
      rw [hhi]
      calc c d < hi * k d := hq2
        _ = k d * hi := by ring
    omega

end amrex

namespace amrex
variable {D : Nat} {T C : Type}

/-- The cells of the list `new_bx` of a level: their coarse cells lie in a cluster box and
in the domain. -/
theorem covers_makeNewBoxes (x : Collab D T C) (m : AmrMesh D) (lbase levc : Int)
    (tagvec : List (IntVect D)) (hs : SimplifySpec x.simplify)
    (hbf : ∀ d, 0 < bf_lev m levc d) (hrr : ∀ d, 0 < m.ref_ratio levc d) (f : IntVect D) :
    (makeNewBoxes x m lbase levc tagvec).covers f ↔
      (clusterBoxes x m.use_new_chop m.grid_eff (p_n_ba x m lbase levc) tagvec).covers
        (fun d => f d / m.ref_ratio levc d / bf_lev m levc d) ∧
      (m.domain levc).contains (fun d => f d / m.ref_ratio levc d) := by
  unfold makeNewBoxes
  simp only []
  rw [covers_refine _ _ hrr]
  have hsimp : ∀ e : IntVect D,
      (x.simplify ((clusterBoxes x m.use_new_chop m.grid_eff (p_n_ba x m lbase levc)
        tagvec).refine (bf_lev m levc))).covers e ↔
      (clusterBoxes x m.use_new_chop m.grid_eff (p_n_ba x m lbase levc) tagvec).covers
        (fun d => e d / bf_lev m levc d) := by
    intro e; rw [(hs _).1 e, covers_refine _ _ hbf]
  split
  · constructor
    · intro h
      obtain ⟨h1, h2⟩ := (BoxList.covers_intersect _ _ _).1 h
      exact ⟨(hsimp (fun d => f d / m.ref_ratio levc d)).1 h1, h2⟩
    · rintro ⟨h1, h2⟩
      exact (BoxList.covers_intersect _ _ _).2
        ⟨(hsimp (fun d => f d / m.ref_ratio levc d)).2 h1, h2⟩
  · rename_i hlen
    have hnil : x.simplify ((clusterBoxes x m.use_new_chop m.grid_eff (p_n_ba x m lbase levc)
        tagvec).refine (bf_lev m levc)) = [] := by
      apply List.eq_nil_of_length_eq_zero
      omega
    constructor
    · intro h; rw [hnil] at h; exact absurd h (BoxList.covers_nil _)
    · rintro ⟨h, -⟩
      have h2 := (hsimp (fun d => f d / m.ref_ratio levc d)).2 h
      rw [hnil] at h2
      exact absurd h2 (BoxList.covers_nil _)

theorem makeNewBoxes_ok (x : Collab D T C) (m : AmrMesh D) (lbase levc : Int)
    (tagvec : List (IntVect D)) (hrr : ∀ d, 0 < m.ref_ratio levc d) :
    ∀ b ∈ makeNewBoxes x m lbase levc tagvec, b.ok := by
  intro b hb
  unfold makeNewBoxes at hb
  simp only [] at hb
  split at hb
  · unfold BoxList.refine at hb
    obtain ⟨b1, hb1, rfl⟩ := List.mem_map.1 hb
    exact Box.refine_ok b1 _ hrr (mem_intersect_ok _ _ b1 hb1)
  · rename_i hlen
    have hnil : x.simplify ((clusterBoxes x m.use_new_chop m.grid_eff (p_n_ba x m lbase levc)
        tagvec).refine (bf_lev m levc)) = [] := by
      apply List.eq_nil_of_length_eq_zero
      omega
    rw [hnil] at hb
    simp [BoxList.refine] at hb

/-- The boxes generated for a level are well placed. -/
theorem maxSize_makeNewBoxes_wellPlaced (x : Collab D T C) (m : AmrMesh D) (lbase levc : Int)
    (tagvec : List (IntVect D)) (chunk : IntVect D)
    (hs : SimplifySpec x.simplify) (hm : MaxSizeRegion x.maxSize) (hc : ClusterRegion x)
    (hbf : ∀ d, 0 < bf_lev m levc d) (hrr : ∀ d, 0 < m.ref_ratio levc d) :
    WellPlaced x m lbase (levc + 1)
      (x.maxSize chunk (makeNewBoxes x m lbase levc tagvec)) := by
  unfold WellPlaced
  rw [add_sub_cancel_right]
  refine ⟨(hm chunk _).2.1 (makeNewBoxes_ok x m lbase levc tagvec hrr), fun f hf => ?_⟩
  have h1 := ((hm chunk _).1 f).1 hf
  obtain ⟨h2, h3⟩ := (covers_makeNewBoxes x m lbase levc tagvec hs hbf hrr f).1 h1
  exact ⟨(hc _ _ _ _).2.1 _ h2, h3⟩

/-- A tagged coarse cell of the nesting domain whose level-`levc` cell lies in the domain
is covered by the boxes generated for level `levc + 1`. -/
theorem covers_generated_of_tag (x : Collab D T C) (m : AmrMesh D) (lbase levc : Int)
    (tagvec : List (IntVect D)) (chunk : IntVect D)
    (hs : SimplifySpec x.simplify) (hm : MaxSizeRegion x.maxSize) (hc : ClusterRegion x)
    (hbf : ∀ d, 0 < bf_lev m levc d) (hrr : ∀ d, 0 < m.ref_ratio levc d) (c : IntVect D)
    (ht : (fun d => c d / m.ref_ratio levc d / bf_lev m levc d) ∈ tagvec)
    (hp : (p_n_ba x m lbase levc).covers (fun d => c d / m.ref_ratio levc d / bf_lev m levc d))
    (hd : (m.domain levc).contains (fun d => c d / m.ref_ratio levc d)) :
    (x.maxSize chunk (makeNewBoxes x m lbase levc tagvec)).covers c := by
  rw [(hm chunk _).1 c, covers_makeNewBoxes x m lbase levc tagvec hs hbf hrr c]
  exact ⟨(hc _ _ _ _).2.2 _ ht hp, hd⟩

/-- What `projectDown` returns when a finer new level exists. -/
theorem projectDown_spec (x : Collab D T C) (m : AmrMesh D) (fuel : Nat) (st : GridState D)
    (levc : Int) (ba_proj : BoxList D) (ngt : IntVect D)
    (h : projectDown x m fuel st levc = some (ba_proj, ngt))
    (hlt : levc + 1 < st.new_finest) :
    ba_proj = ((x.simplify (st.new_grids (levc + 1 + 1))).coarsen
        (m.ref_ratio (levc + 1))).growcoarsen m.n_proper (m.ref_ratio levc) ∧
    ∃ ngrow : Int, 0 ≤ ngrow ∧ (∀ d, ngrow ≤ ngt d) ∧
      ((x.simplify (m.grids levc)).grow ngrow).containsList ba_proj = true := by
  unfold projectDown at h
  simp only [] at h
  rw [if_pos hlt] at h
  split at h
  · cases h
  · rename_i ngrow hg
    simp only [Option.some.injEq, Prod.mk.injEq] at h
    obtain ⟨h1, h2⟩ := h
    obtain ⟨g1, g2⟩ := growUntilContains_spec _ _ _ _ _ hg
    rw [sub_zero] at g2
    subst h1
    refine ⟨rfl, ngrow, g1, ?_, g2⟩
    intro d; rw [← h2]; exact le_max_right _ _

/-- The projection step: a cell under the new grids of level `levc + 2` gives a tag of
level `levc` that lies in the nesting domain. -/
theorem projection_tagged (x : Collab D T C) (m : AmrMesh D) (lbase : Int) (time : ℚ)
    (fuel : Nat) (st : GridState D) (levc : Int) (ba_proj : BoxList D) (ngt : IntVect D)
    (tagvec : List (IntVect D))
    (hs : SimplifySpec x.simplify) (hk : TagsKeepProjection x m lbase time)
    (hn : 0 ≤ m.n_proper)
    (hproj : projectDown x m fuel st levc = some (ba_proj, ngt))
    (htag : tagLevel x m lbase time st.new_finest levc ba_proj ngt
      = Except.ok (st.new_finest, tagvec))
    (hlt : levc + 1 < st.new_finest) (hl0 : lbase ≤ levc)
    (hgok : ∀ b ∈ m.grids levc, b.ok)
    (hbf : ∀ d, 0 < bf_lev m levc d) (hbff : ∀ d, 0 < bf_lev m (levc + 1) d)
    (hrr : ∀ d, 0 < m.ref_ratio levc d) (hrrf : ∀ d, 0 < m.ref_ratio (levc + 1) d)
    (hex : ∀ d, m.ref_ratio levc d * bf_lev m levc d
      = rr_lev m levc d * bf_lev m (levc + 1) d)
    (hdom : m.domain (levc + 1) = (m.domain levc).refine (m.ref_ratio levc))
    (hwok : ∀ b ∈ st.new_grids (levc + 1 + 1), b.ok)
    (hwcov : ∀ f, (st.new_grids (levc + 1 + 1)).covers f →
      (p_n_ba x m lbase (levc + 1)).covers
        (fun d => f d / m.ref_ratio (levc + 1) d / bf_lev m (levc + 1) d) ∧
      (m.domain (levc + 1)).contains (fun d => f d / m.ref_ratio (levc + 1) d))
    (c : IntVect D)
    (hcov : ((st.new_grids (levc + 1 + 1)).coarsen (m.ref_ratio (levc + 1))).covers c) :
    (fun d => c d / m.ref_ratio levc d / bf_lev m levc d) ∈ tagvec ∧
    (p_n_ba x m lbase levc).covers (fun d => c d / m.ref_ratio levc d / bf_lev m levc d) ∧
    (m.domain levc).contains (fun d => c d / m.ref_ratio levc d) := by
  obtain ⟨f, hf, hfc⟩ := (covers_coarsen _ _ hrrf hwok c).1 hcov
  have hfe : (fun d => f d / m.ref_ratio (levc + 1) d) = c := funext hfc
  obtain ⟨hpu, hdc⟩ := hwcov f hf
  rw [hfe] at hdc
  have hpu' : (p_n_ba x m lbase (levc + 1)).covers
      (fun d => c d / bf_lev m (levc + 1) d) := by
    have e : (fun d => f d / m.ref_ratio (levc + 1) d / bf_lev m (levc + 1) d)
        = (fun d => c d / bf_lev m (levc + 1) d) := by
      funext d; rw [hfc d]
    rw [e] at hpu; exact hpu
  have hde : (m.domain levc).contains (fun d => c d / m.ref_ratio levc d) := by
    rw [hdom] at hdc
    exact (Box.contains_refine _ _ hrr c).1 hdc
  have hpt : (pc_domain m levc).contains
      (fun d => c d / m.ref_ratio levc d / bf_lev m levc d) := by
    unfold pc_domain
    exact (Box.contains_coarsen _ _ hbf (Box.contains_ok _ _ hde) _).2
      ⟨_, hde, fun d => rfl⟩
  have hrl : ∀ d, 0 < rr_lev m levc d := by
    intro d
    have h1 : 0 < rr_lev m levc d * bf_lev m (levc + 1) d := by
      rw [← hex d]; exact Int.mul_pos (hrr d) (hbf d)
    exact (mul_pos_iff_of_pos_right (hbff d)).1 h1
  have hnc : ¬ (p_n_comp_ba x m lbase levc).covers
      (fun d => c d / m.ref_ratio levc d / bf_lev m levc d) := by
    intro hcomp
    have hi : lbase < levc + 1 := by omega
    have e1 : levc + 1 - 1 = levc := by ring
    have e2 : (fun d => c d / bf_lev m (levc + 1) d / rr_lev m levc d)
        = (fun d => c d / m.ref_ratio levc d / bf_lev m levc d) := by
      funext d
      rw [ediv_ediv_pos _ _ _ (hbff d) (hrl d), ediv_ediv_pos _ _ _ (hrr d) (hbf d), hex d,
        mul_comm]
    have h2 := p_n_comp_ba_refine x m lbase (levc + 1) hs hn hi (by rw [e1]; exact hrl)
      (fun d => c d / bf_lev m (levc + 1) d) (by
        rw [e1]
        show (p_n_comp_ba x m lbase levc).covers
          (fun d => c d / bf_lev m (levc + 1) d / rr_lev m levc d)
        rw [e2]; exact hcomp)
    exact (covers_p_n_ba_imp x m lbase (levc + 1) hs _ hpu').2 h2
  have hpn := (covers_p_n_ba x m lbase levc hs (Box.contains_ok _ _ hpt) _).2 ⟨hpt, hnc⟩
  obtain ⟨hba, ngrow, hg0, hgn, hcont⟩ := projectDown_spec x m fuel st levc ba_proj ngt hproj hlt
  have hsok : ∀ b ∈ x.simplify (st.new_grids (levc + 1 + 1)), b.ok := (hs _).2 hwok
  have hbaok : ∀ b ∈ ba_proj, b.ok := by
    intro b hb
    rw [hba] at hb
    unfold BoxList.growcoarsen BoxList.coarsen at hb
    obtain ⟨b1, hb1, rfl⟩ := List.mem_map.1 hb
    obtain ⟨b2, hb2, rfl⟩ := List.mem_map.1 hb1
    exact Box.coarsen_ok _ _ hrr (Box.grow_ok _ _ hn (Box.coarsen_ok _ _ hrrf (hsok b2 hb2)))
  have hsub : ∀ c', ba_proj.covers c' →
      BoxList.covers ((m.grids levc).map (fun b => b.growVect ngt)) c' := by
    intro c' hc'
    exact covers_growVect_of_grow x.simplify hs _ hgok ngrow hg0 ngt hgn c'
      (containsList_covers _ _ hcont hbaok c' hc')
  have hct : (ba_proj.coarsen (bf_lev m levc)).covers
      (fun d => c d / m.ref_ratio levc d / bf_lev m levc d) := by
    obtain ⟨b1, hb1, hb1c⟩ := (covers_coarsen_simplify x.simplify hs _ hwok _ hrrf c).2 hcov
    have hg : (b1.grow m.n_proper).contains c := by
      intro d; have := hb1c d; simp only [Box.grow]; omega
    have he : ((b1.grow m.n_proper).coarsen (m.ref_ratio levc)).contains
        (fun d => c d / m.ref_ratio levc d) :=
      (Box.contains_coarsen _ _ hrr (Box.contains_ok _ _ hg) _).2 ⟨c, hg, fun d => rfl⟩
    refine ⟨((b1.grow m.n_proper).coarsen (m.ref_ratio levc)).coarsen (bf_lev m levc), ?_, ?_⟩
    · rw [hba]
      exact List.mem_map.2 ⟨_, List.mem_map.2 ⟨b1, hb1, rfl⟩, rfl⟩
    · exact (Box.contains_coarsen _ _ hbf (Box.contains_ok _ _ he) _).2 ⟨_, he, fun d => rfl⟩
  exact ⟨hk st.new_finest levc ba_proj ngt st.new_finest tagvec htag hlt hbaok hsub _ hct
    hpt hnc, hpn, hde⟩

end amrex

namespace amrex
variable {D : Nat} {T C : Type}

/-- With the fixed-grid mode off the tagging part of a pass leaves `new_finest` alone. -/
theorem tagLevel_off (x : Collab D T C) (m : AmrMesh D) (lbase : Int) (time : ℚ)
    (nf levc : Int) (ba_proj : BoxList D) (ngt : IntVect D) (nf1 : Int)
    (tagvec : List (IntVect D)) (hfix : m.use_fixed_coarse_grids = false)
    (h : tagLevel x m lbase time nf levc ba_proj ngt = Except.ok (nf1, tagvec)) :
    nf1 = nf := by
  rw [tagLevel_eq] at h
  simp only [hfix] at h
  split at h
  · simp only [Except.ok.injEq, Prod.mk.injEq] at h
    rw [← h.1]
    simp
  · cases h

/-- With the fixed-grid mode off and `use_fixed_upto_level` below the fine level, the
clustering part of a pass generates boxes whenever there are tags. -/
theorem clusterLevel_off (x : Collab D T C) (m : AmrMesh D) (lbase levc : Int)
    (st : GridState D) (tagvec : List (IntVect D))
    (hfix : m.use_fixed_coarse_grids = false) (hup : m.use_fixed_upto_level < levc + 1) :
    clusterLevel x m lbase levc st tagvec =
      if tagvec.isEmpty then st else
        { new_finest := max st.new_finest (levc + 1)
          new_grids := Function.update st.new_grids (levc + 1)
            (x.maxSize (m.max_grid_size (levc + 1)) (makeNewBoxes x m lbase levc tagvec))
          trace := Event.cluster (levc + 1) :: st.trace } := by
  unfold clusterLevel notFixed
  simp only [hfix, Bool.false_and, Bool.not_false, if_true, gt_iff_lt, hup]

/-- One pass of the level loop keeps the nesting invariant. -/
theorem levelStep_nestInv (x : Collab D T C) (m : AmrMesh D) (lbase : Int) (time : ℚ)
    (hs : SimplifySpec x.simplify) (hm : MaxSizeRegion x.maxSize) (hc : ClusterRegion x)
    (hk : TagsKeepProjection x m lbase time)
    (hn : 0 ≤ m.n_proper) (hfix : m.use_fixed_coarse_grids = false)
    (hup : m.use_fixed_upto_level ≤ lbase) (h0 : 0 ≤ lbase)
    (hgok : ∀ l, lbase ≤ l → l ≤ max_crse m → ∀ b ∈ m.grids l, b.ok)
    (hrr : ∀ l, lbase ≤ l → l ≤ max_crse m → ∀ d, 0 < m.ref_ratio l d)
    (hex : ∀ l, lbase ≤ l → l + 1 ≤ max_crse m → ∀ d,
      m.ref_ratio l d * bf_lev m l d = rr_lev m l d * bf_lev m (l + 1) d)
    (hdom : ∀ l, lbase ≤ l → l + 1 ≤ max_crse m →
      m.domain (l + 1) = (m.domain l).refine (m.ref_ratio l))
    (fuel : Nat) (st st1 : GridState D) (levc : Int)
    (hl0 : lbase ≤ levc) (hl1 : levc ≤ max_crse m)
    (hinv : NestInv x m lbase (levc + 1) st)
    (h : levelStep x m lbase time fuel st levc = some (Except.ok st1)) :
    NestInv x m lbase levc st1 := by
  obtain ⟨ba_proj, ngt, nf1, tagvec, hproj, htag, rfl⟩ :=
    levelStep_ok x m lbase time fuel st st1 levc h
  have hnf := tagLevel_off x m lbase time _ levc ba_proj ngt nf1 tagvec hfix htag
  subst hnf
  obtain ⟨⟨hA1, hA2⟩, hB, hC, hDD⟩ := hinv
  have hbf := bf_lev_pos m levc (by omega) hl1
  have hrrc := hrr levc hl0 hl1
  have key : Event.cluster (levc + 1 + 1) ∈ st.trace → ∀ c,
      ((st.new_grids (levc + 1 + 1)).coarsen (m.ref_ratio (levc + 1))).covers c →
      (fun d => c d / m.ref_ratio levc d / bf_lev m levc d) ∈ tagvec ∧
      (p_n_ba x m lbase levc).covers (fun d => c d / m.ref_ratio levc d / bf_lev m levc d) ∧
      (m.domain levc).contains (fun d => c d / m.ref_ratio levc d) := by
    intro hgen c hcov
    obtain ⟨hb1, hb2, hb3⟩ := hB _ hgen
    have hwp := hC _ hgen
    unfold WellPlaced at hwp
    rw [add_sub_cancel_right] at hwp
    exact projection_tagged x m lbase time fuel st levc ba_proj ngt tagvec hs hk hn hproj htag
      (by omega) hl0 (hgok levc hl0 hl1) hbf (bf_lev_pos m (levc + 1) (by omega) (by omega))
      hrrc (hrr (levc + 1) (by omega) (by omega)) (hex levc hl0 (by omega))
      (hdom levc hl0 (by omega)) hwp.1 hwp.2 c hcov
  have hne : Event.cluster (levc + 1 + 1) ∈ st.trace → st.new_grids (levc + 1 + 1) ≠ [] →
      tagvec ≠ [] := by
    intro hgen hnil htv
    obtain ⟨hb1, hb2, hb3⟩ := hB _ hgen
    obtain ⟨b, hb⟩ := List.exists_mem_of_ne_nil _ hnil
    have hbok := (hC _ hgen).1 b hb
    have hcov : ((st.new_grids (levc + 1 + 1)).coarsen (m.ref_ratio (levc + 1))).covers
        (fun d => b.smallEnd d / m.ref_ratio (levc + 1) d) :=
      (covers_coarsen _ _ (hrr (levc + 1) (by omega) (by omega)) (hC _ hgen).1 _).2
        ⟨b.smallEnd, ⟨b, hb, fun d => ⟨le_refl _, hbok d⟩⟩, fun d => rfl⟩
    have := (key hgen _ hcov).1
    rw [htv] at this
    exact List.not_mem_nil _ this
  have hmem := fun lev => mem_trace_errorEst m levc lev st.trace
  rw [clusterLevel_off x m lbase levc _ tagvec hfix (by omega)]
  by_cases hemp : tagvec = []
  · rw [if_pos (by rw [hemp]; rfl)]
    unfold NestInv
    dsimp only
    refine ⟨⟨hA1, ?_⟩, ?_, ?_, ?_⟩
    · rcases hA2 with h1 | h1
      · exact Or.inl h1
      · exact Or.inr ((hmem _).2 h1)
    · intro lev hl
      obtain ⟨g1, g2, g3⟩ := hB lev ((hmem lev).1 hl)
      exact ⟨by omega, g2, g3⟩
    · intro lev hl
      exact hC lev ((hmem lev).1 hl)
    · intro lev hlev hl hnil
      by_cases hlv : lev = levc + 1
      · subst hlv
        exact absurd hemp (hne ((hmem _).1 hl) hnil)
      · obtain ⟨g1, g2⟩ := hDD lev (by omega) ((hmem _).1 hl) hnil
        exact ⟨(hmem _).2 g1, g2⟩
  · rw [if_neg (by intro he; exact hemp (List.isEmpty_iff.1 he))]
    unfold NestInv
    dsimp only
    refine ⟨⟨le_trans hA1 (le_max_left _ _), ?_⟩, ?_, ?_, ?_⟩
    · right
      rcases hA2 with h1 | h1
      · have e : max st.new_finest (levc + 1) = levc + 1 := max_eq_right (by omega)
        rw [e]; exact List.mem_cons_self _ _
      · obtain ⟨g1, g2, g3⟩ := hB _ h1
        have e : max st.new_finest (levc + 1) = st.new_finest := max_eq_left (by omega)
        rw [e]; exact List.mem_cons_of_mem _ ((hmem _).2 h1)
    · intro lev hl
      rcases List.mem_cons.1 hl with h1 | h1
      · have e : lev = levc + 1 := by injection h1
        subst e
        exact ⟨by omega, le_max_right _ _, by omega⟩
      · obtain ⟨g1, g2, g3⟩ := hB lev ((hmem lev).1 h1)
        exact ⟨by omega, le_trans g2 (le_max_left _ _), g3⟩
    · intro lev hl
      rcases List.mem_cons.1 hl with h1 | h1
      · have e : lev = levc + 1 := by injection h1
        subst e
        rw [Function.update_same]
        exact maxSize_makeNewBoxes_wellPlaced x m lbase levc tagvec _ hs hm hc hbf hrrc
      · obtain ⟨g1, g2, g3⟩ := hB lev ((hmem lev).1 h1)
        rw [Function.update_noteq (by omega)]
        exact hC lev ((hmem lev).1 h1)
    · intro lev hlev hl hnil
      have hl' : Event.cluster (lev + 1) ∈ st.trace := by
        rcases List.mem_cons.1 hl with h1 | h1
        · have e : lev + 1 = levc + 1 := by injection h1
          omega
        · exact (hmem _).1 h1
      rw [Function.update_noteq (by omega)] at hnil ⊢
      by_cases hlv : lev = levc + 1
      · subst hlv
        refine ⟨List.mem_cons_self _ _, fun c hcov => ?_⟩
        rw [Function.update_same]
        obtain ⟨k1, k2, k3⟩ := key hl' c hcov
        exact covers_generated_of_tag x m lbase levc tagvec _ hs hm hc hbf hrrc c k1 k2 k3
      · obtain ⟨g1, g2⟩ := hDD lev (by omega) hl' hnil
        refine ⟨List.mem_cons_of_mem _ ((hmem _).2 g1), fun c hcov => ?_⟩
        rw [Function.update_noteq hlv]
        exact g2 c hcov

theorem levelsDown_cons (hi lo : Int) (h : lo ≤ hi) :
    levelsDown hi lo = hi :: levelsDown (hi - 1) lo := by
  unfold levelsDown
  have e : (hi + 1 - lo).toNat = (hi - 1 + 1 - lo).toNat + 1 := by omega
  rw [e, List.range_succ_eq_map, List.map_cons, List.map_map]
  congr 1
  · simp
  · apply List.map_congr_left
    intro k _
    simp only [Function.comp, Nat.cast_succ]
    ring

/-- The level loop establishes the nesting invariant for all levels above `lbase`. -/
theorem levelLoop_nestInv (x : Collab D T C) (m : AmrMesh D) (lbase : Int) (time : ℚ)
    (hs : SimplifySpec x.simplify) (hm : MaxSizeRegion x.maxSize) (hc : ClusterRegion x)
    (hk : TagsKeepProjection x m lbase time)
    (hn : 0 ≤ m.n_proper) (hfix : m.use_fixed_coarse_grids = false)
    (hup : m.use_fixed_upto_level ≤ lbase) (h0 : 0 ≤ lbase)
    (hgok : ∀ l, lbase ≤ l → l ≤ max_crse m → ∀ b ∈ m.grids l, b.ok)
    (hrr : ∀ l, lbase ≤ l → l ≤ max_crse m → ∀ d, 0 < m.ref_ratio l d)
    (hex : ∀ l, lbase ≤ l → l + 1 ≤ max_crse m → ∀ d,
      m.ref_ratio l d * bf_lev m l d = rr_lev m l d * bf_lev m (l + 1) d)
    (hdom : ∀ l, lbase ≤ l → l + 1 ≤ max_crse m →
      m.domain (l + 1) = (m.domain l).refine (m.ref_ratio l))
    (fuel : Nat) (n : Nat) :
    ∀ (hi : Int) (st st1 : GridState D), hi + 1 = lbase + (n : Int) → hi ≤ max_crse m →
      NestInv x m lbase (hi + 1) st →
      levelLoop x m lbase time fuel (levelsDown hi lbase) st = some (Except.ok st1) →
      NestInv x m lbase lbase st1 := by
  induction n with
  | zero =>
    intro hi st st1 hhn hhi hinv h
    have e0 : levelsDown hi lbase = [] := by
      unfold levelsDown
      have : (hi + 1 - lbase).toNat = 0 := by simp at hhn; omega
      rw [this]; rfl
    rw [e0] at h
    simp only [levelLoop, Option.some.injEq, Except.ok.injEq] at h
    subst h
    have e : hi + 1 = lbase := by simp at hhn; omega
    rw [e] at hinv
    exact hinv
  | succ k ih =>
    intro hi st st1 hhn hhi hinv h
    have hle : lbase ≤ hi := by push_cast at hhn; omega
    rw [levelsDown_cons hi lbase hle] at h
    unfold levelLoop at h
    cases hstep : levelStep x m lbase time fuel st hi with
    | none => rw [hstep] at h; cases h
    | some r =>
      cases r with
      | error e => rw [hstep] at h; cases h
      | ok st2 =>
        rw [hstep] at h
        simp only [] at h
        refine ih (hi - 1) st2 st1 (by push_cast at hhn; omega) (by omega) ?_ h
        rw [sub_add_cancel]
        exact levelStep_nestInv x m lbase time hs hm hc hk hn hfix hup h0 hgok hrr hex hdom
          fuel st st2 hi hle hhi hinv hstep

end amrex

namespace amrex
variable {D : Nat} {T C : Type}

/-- With the fixed-grid mode off, a final loop that ends normally has met no empty box
list. -/
theorem finalLoop_nonempty (x : Collab D T C) (m : AmrMesh D)
    (hfix : m.use_fixed_coarse_grids = false) (levs : List Int) (st st1 : GridState D)
    (h : finalLoop x m levs st = some (Except.ok st1)) :
    ∀ l ∈ levs, st.new_grids l ≠ [] := by
  induction levs generalizing st with
  | nil => intro l hl; cases hl
  | cons l0 rest ih =>
    unfold finalLoop at h
    cases hs : finalStep x m st l0 with
    | none => rw [hs] at h; cases h
    | some r =>
      cases r with
      | error e => rw [hs] at h; cases h
      | ok st2 =>
        rw [hs] at h
        simp only [] at h
        have hl0 : st.new_grids l0 ≠ [] := by
          intro hnil
          unfold finalStep at hs
          rw [hnil] at hs
          simp [notFixed, hfix] at hs
        intro l hl
        rcases List.mem_cons.1 hl with e | hr
        · subst e; exact hl0
        · have h2 := ih st2 h l hr
          obtain ⟨-, -, hg | ⟨-, ba, -, hg⟩⟩ := finalStep_ok x m st st2 l0 hs
          · rw [hg] at h2; exact h2
          · rw [hg] at h2
            by_cases e : l = l0
            · subst e; exact hl0
            · rw [Function.update_noteq e] at h2; exact h2

/-- The function `ChopGrids` keeps the region of the box list and its boxes non-empty. -/
theorem ChopGrids_region (maxSize : IntVect D → BoxList D → BoxList D) (m : AmrMesh D)
    (lev : Int) (target_size : Int) (hm : MaxSizeRegion maxSize) (ba0 ba ba1 : BoxList D)
    (h0 : (∀ b ∈ ba, b.ok) ∧ ∀ c, ba.covers c ↔ ba0.covers c)
    (h : ChopGrids maxSize m lev ba target_size = some ba1) :
    (∀ b ∈ ba1, b.ok) ∧ ∀ c, ba1.covers c ↔ ba0.covers c := by
  refine ChopGrids_preserves maxSize m lev target_size
    (fun _ bl => (∀ b ∈ bl, b.ok) ∧ ∀ c, bl.covers c ↔ ba0.covers c) ?_
    (fun bl => (∀ b ∈ bl, b.ok) ∧ ∀ c, bl.covers c ↔ ba0.covers c)
    (fun _ _ hR => hR) ba ba1 h0 h0 h
  intro ch bl idim hR _
  exact ⟨(hm _ _).2.1 hR.1, fun c => ((hm _ _).1 c).trans (hR.2 c)⟩

/-- C1, amended: take a call of the non-bittree `MakeNewGrids(lbase, time, new_finest,
new_grids)` that returns, with the fixed-grid mode off and `use_fixed_upto_level <= lbase`,
`n_proper >= 0` and `lbase >= 0`, on a mesh in which, for the levels `l` from `lbase` to
`max_crse`, the boxes of `grids[l]` are non-empty, the refinement ratios are positive,
`ref_ratio[l] * bf_lev[l] = rr_lev[l] * bf_lev[l+1]` holds exactly and the domain of level
`l+1` is the refined domain of level `l` (both for `l < max_crse`), and the boxes of
`grids[lbase]` are aligned to `bf_lev[lbase]`; the library operations meet their
contracts (`simplify` and `maxSize` keep the region, the cluster boxes lie in the nesting
domain and hold the tags in it, the tag pipeline keeps the projected tags).  Then for
every level `lev` with `lbase < lev <= new_finest`, every cell of `new_grids[lev]`
coarsened by `ref_ratio[lev-1]` lies in the level `lev-1` grids: `grids[lbase]` when
`lev = lbase+1`, `new_grids[lev-1]` otherwise.  Periodic domains are included. -/
theorem MakeNewGrids_new_grids_nested (x : Collab D T C) (m : AmrMesh D) (lbase : Int)
    (time : ℚ) (new_grids : Int → BoxList D) (fuel : Nat)
    (hs : SimplifySpec x.simplify) (hm : MaxSizeRegion x.maxSize) (hc : ClusterRegion x)
    (hk : TagsKeepProjection x m lbase time)
    (hn : 0 ≤ m.n_proper) (hfix : m.use_fixed_coarse_grids = false)
    (hup : m.use_fixed_upto_level ≤ lbase) (h0 : 0 ≤ lbase)
    (hgok : ∀ l, lbase ≤ l → l ≤ max_crse m → ∀ b ∈ m.grids l, b.ok)
    (hrr : ∀ l, lbase ≤ l → l ≤ max_crse m → ∀ d, 0 < m.ref_ratio l d)
    (hex : ∀ l, lbase ≤ l → l + 1 ≤ max_crse m → ∀ d,
      m.ref_ratio l d * bf_lev m l d = rr_lev m l d * bf_lev m (l + 1) d)
    (hdom : ∀ l, lbase ≤ l → l + 1 ≤ max_crse m →
      m.domain (l + 1) = (m.domain l).refine (m.ref_ratio l))
    (hal : ∀ b ∈ m.grids lbase, b.aligned (bf_lev m lbase))
    (st : GridState D)
    (h : MakeNewGrids x m lbase time new_grids fuel = some (Except.ok st))
    (lev : Int) (hl : lbase < lev) (hle : lev ≤ st.new_finest) (c : IntVect D)
    (hcv : ((st.new_grids lev).coarsen (m.ref_ratio (lev - 1))).covers c) :
    (if lev = lbase + 1 then m.grids lbase else st.new_grids (lev - 1)).covers c := by
  obtain ⟨st0, ha, hf⟩ := MakeNewGrids_ok x m lbase time new_grids fuel st h
  have hinit : ∀ cur, NestInv x m lbase cur
      { new_finest := lbase, new_grids := new_grids, trace := [] } := by
    intro cur
    refine ⟨⟨le_refl _, Or.inl rfl⟩, ?_, ?_, ?_⟩
    · intro l hl; cases hl
    · intro l hl; cases hl
    · intro l _ hl; cases hl
  have hinv : NestInv x m lbase lbase st0 := by
    unfold afterLevels at ha
    by_cases hcase : lbase ≤ max_crse m + 1
    · exact levelLoop_nestInv x m lbase time hs hm hc hk hn hfix hup h0 hgok hrr hex hdom fuel
        (max_crse m + 1 - lbase).toNat (max_crse m) _ st0 (by omega) (le_refl _)
        (hinit _) ha
    · have e0 : levelsDown (max_crse m) lbase = [] := by
        unfold levelsDown
        have : (max_crse m + 1 - lbase).toNat = 0 := by omega
        rw [this]; rfl
      rw [e0] at ha
      simp only [levelLoop, Option.some.injEq, Except.ok.injEq] at ha
      rw [← ha]
      exact hinit _
  obtain ⟨hnf, -⟩ := finalLoop_new_finest x m _ st0 st hf
  have hne := finalLoop_nonempty x m hfix _ st0 st hf
  obtain ⟨⟨hA1, hA2⟩, hB, hC, hDD⟩ := hinv
  have hall : ∀ k : Nat, ∀ l, l = st0.new_finest - (k : Int) → lbase < l →
      Event.cluster l ∈ st0.trace := by
    intro k
    induction k with
    | zero =>
      intro l hl hlt
      simp only [Nat.cast_zero, sub_zero] at hl
      subst hl
      rcases hA2 with h1 | h1
      · omega
      · exact h1
    | succ k ih =>
      intro l hl hlt
      push_cast at hl
      have h1 := ih (l + 1) (by omega) (by omega)
      exact (hDD l hlt h1 (hne (l + 1) ((mem_levelsUp _ _ _).2 ⟨by omega, by omega⟩))).1
  have hgen : ∀ l, lbase < l → l ≤ st0.new_finest → Event.cluster l ∈ st0.trace :=
    fun l h1 h2 => hall (st0.new_finest - l).toNat l (by omega) h1
  have hQ : ∀ l, lbase < l → l ≤ st0.new_finest →
      (∀ b ∈ st.new_grids l, b.ok) ∧
      ∀ c, (st.new_grids l).covers c ↔ (st0.new_grids l).covers c := by
    intro l h1 h2
    exact finalLoop_preserves x m
      (fun l bl => (∀ b ∈ bl, b.ok) ∧ ∀ c, bl.covers c ↔ (st0.new_grids l).covers c)
      (fun _ => True)
      (fun lev ba ba1 _ hq hch =>
        ChopGrids_region x.maxSize m lev x.NProcs hm (st0.new_grids lev) ba ba1 hq hch)
      _ (fun _ _ => trivial) st0 st hf l ⟨(hC l (hgen l h1 h2)).1, fun c => Iff.rfl⟩
  rw [hnf] at hle
  obtain ⟨hok, hcov⟩ := hQ lev hl hle
  have hwp := hC lev (hgen lev hl hle)
  obtain ⟨g1, g2, g3⟩ := hB lev (hgen lev hl hle)
  have hrrl := hrr (lev - 1) (by omega) (by omega)
  obtain ⟨f, hf1, hf2⟩ := (covers_coarsen _ _ hrrl hok c).1 hcv
  have hf0 := (hcov f).1 hf1
  split
  · rename_i e
    subst e
    obtain ⟨p1, -⟩ := hwp.2 f hf0
    rw [add_sub_cancel_right] at p1 hf2
    have q := p_n_ba_base_subset x m lbase hs hn _ p1
    have hbf := bf_lev_pos m lbase h0 (by omega)
    have hg := hgok lbase (le_refl _) (by omega)
    obtain ⟨f', hf', hff⟩ := (covers_coarsen _ _ hbf ((hs _).2 hg) _).1 q
    have hf'' := ((hs _).1 f').1 hf'
    refine covers_of_same_block (m.grids lbase) (bf_lev m lbase) hbf hal c f' hf''
      (fun d => ?_)
    rw [hff d, hf2 d]
  · rename_i e
    have h1 : lbase < lev - 1 := by omega
    have hs1 : lev - 1 + 1 = lev := sub_add_cancel lev 1
    have hD1 := hDD (lev - 1) h1
    rw [hs1] at hD1
    obtain ⟨-, hnest⟩ := hD1 (hgen lev hl hle)
      (hne lev ((mem_levelsUp _ _ _).2 ⟨by omega, by omega⟩))
    have hc1 := hnest c ((covers_coarsen _ _ hrrl hwp.1 c).2 ⟨f, hf0, hf2⟩)
    exact ((hQ (lev - 1) h1 (by omega)).2 c).2 hc1

end amrex

namespace amrex
variable {D : Nat}

theorem TagCells.mem_mark (t : TagCells D) (cs : List (IntVect D)) (c : IntVect D) :
    c ∈ (t.mark cs).set ↔ c ∈ t.set ∨ (c ∈ cs ∧ t.region.covers c) := by
  simp [TagCells.mark, List.mem_dedup, List.mem_append, List.mem_filter]

theorem wrapCell_of_contains (domain : Box D) (is_per : Fin D → Int) (c : IntVect D)
    (h : domain.contains c) : wrapCell domain is_per c = c := by
  funext d
  unfold wrapCell
  split
  · have h1 := h d
    have : (c d - domain.smallEnd d) % domain.length d = c d - domain.smallEnd d := by
      apply Int.emod_eq_of_lt
      · omega
      · unfold Box.length; omega
    rw [this]; ring
  · rfl

/-- In the reference tag pipeline a cell of the tag field that the projected boxes cover
stays tagged when it lies in the domain and outside the list that is cleared. -/
theorem ref_projection_kept (t0 : TagCells D) (bl : BoxList D) (dom : Box D)
    (is_per : Fin D → Int) (pncomp : BoxList D) (c : IntVect D)
    (hc : bl.covers c) (hreg : t0.region.covers c) (hdom : dom.contains c)
    (hnc : ¬ pncomp.covers c) :
    c ∈ (refSetVal pncomp TagVal.CLEAR
      (refMapPeriodic dom is_per (refSetVal bl TagVal.SET t0))).set := by
  simp only [refSetVal, refMapPeriodic]
  rw [List.mem_filter]
  refine ⟨?_, by simpa using hnc⟩
  rw [List.mem_dedup, List.mem_map]
  refine ⟨c, ?_, wrapCell_of_contains dom is_per c hdom⟩
  rw [TagCells.mem_mark]
  right
  refine ⟨?_, hreg⟩
  obtain ⟨b, hb, hbc⟩ := hc
  exact List.mem_flatMap.2 ⟨b, hb, (Box.mem_cells b c).2 hbc⟩

theorem foldl_max_zero (l : List (Fin D)) :
    l.foldl (fun (acc : Int) _ => max acc 0) 0 = 0 := by
  induction l with
  | nil => rfl
  | cons a t ih => simp only [List.foldl_cons, max_self]; exact ih

/-- When `bl_max` is at least 1 the vector `bf_lev[levc]` is positive. -/
theorem bf_lev_pos_of_bl_max (m : AmrMesh D) (levc : Int) (h : bl_max m levc ≥ 1) :
    ∀ d, 0 < bf_lev m levc d := by
  by_cases hr : 0 ≤ levc ∧ levc ≤ max_crse m
  · exact bf_lev_pos m levc hr.1 hr.2
  · exfalso
    unfold bl_max bf_lev at h
    rw [if_neg hr] at h
    rw [foldl_max_zero] at h
    omega

/-- The reference tag pipeline keeps the projected tags. -/
theorem refCollab_tagsKeepProjection (est : Int → ℚ → List (IntVect D)) (nprocs : Int)
    (m : AmrMesh D) (lbase : Int) (time : ℚ) :
    TagsKeepProjection (refCollab est nprocs) m lbase time := by
  intro nf levc ba_proj ngt nf1 tagvec h hlt hbok hsub c hc hdom hnc
  rw [tagLevel_eq] at h
  simp only [] at h
  split at h
  · rename_i hbl
    have hbf := bf_lev_pos_of_bl_max m levc hbl
    simp only [Except.ok.injEq, Prod.mk.injEq] at h
    obtain ⟨h1, h2⟩ := h
    rw [← h2, h1, if_pos hlt]
    refine ref_projection_kept (refTagCoarsen (bf_lev m levc) _) _ _ _ _ c hc ?_ hdom hnc
    show BoxList.covers (BoxList.coarsen _ (bf_lev m levc)) c
    obtain ⟨b1, hb1, hb1c⟩ := hc
    unfold BoxList.coarsen at hb1
    obtain ⟨b, hb, rfl⟩ := List.mem_map.1 hb1
    obtain ⟨e, he, hec⟩ := (Box.contains_coarsen b _ hbf (hbok b hb) c).1 hb1c
    obtain ⟨g, hg, hge⟩ := hsub e ⟨b, hb, he⟩
    have hce : c = fun d => e d / bf_lev m levc d := (funext hec).symm
    have hreg : ∀ (t : TagCells D), t.region = (m.grids levc).map (fun b => b.growVect ngt) →
        BoxList.covers (BoxList.coarsen t.region (bf_lev m levc)) c := by
      intro t ht
      rw [ht]
      refine ⟨g.coarsen (bf_lev m levc), List.mem_map.2 ⟨g, hg, rfl⟩, ?_⟩
      exact (Box.contains_coarsen g _ hbf (Box.contains_ok _ _ hge) c).2 ⟨e, hge, hec⟩
    apply hreg
    simp only [refCollab, apply_ite TagCells.region, refBuffer, TagCells.mark, refSetVal,
      refTagInit, ite_self]
  · cases h

end amrex

namespace amrex

set_option maxRecDepth 100000 in
/-- C1 fails as stated: `shrunkMesh` is accepted by `checkInput` and has the fixed-grid
mode off, `n_proper` is -1 and the error buffer is one cell.  A regrid from level 1 with
the tag on cell 8, the first cell of the level-1 grid `[8,23]`, returns `new_finest = 2`
and `new_grids[2] = [14,19]`; coarsened by `ref_ratio[1] = 2` it covers the cell 7, which
`grids[1]` does not cover. -/
theorem new_grids_not_nested :
    checkInput shrunkMesh = Except.ok () ∧ shrunkMesh.use_fixed_coarse_grids = false ∧
    ∃ st, MakeNewGrids (refCollab shrunkEst 1) shrunkMesh 1 0 (fun _ => []) 10
        = some (Except.ok st) ∧
      (1 : Int) < 2 ∧ 2 ≤ st.new_finest ∧
      corners (st.new_grids 2) = [([14], [19])] ∧
      ¬ ∀ c, ((st.new_grids 2).coarsen (shrunkMesh.ref_ratio (2 - 1))).covers c →
        (if (2 : Int) = 1 + 1 then shrunkMesh.grids 1 else st.new_grids (2 - 1)).covers c := by
  refine ⟨by decide, by decide, ?_⟩
  obtain ⟨st, hst, hP⟩ := exists_of_resultHas
    (MakeNewGrids (refCollab shrunkEst 1) shrunkMesh 1 0 (fun _ => []) 10)
    (fun st => decide ((1 : Int) < 2 ∧ 2 ≤ st.new_finest ∧
      corners (st.new_grids 2) = [([14], [19])] ∧
      ((st.new_grids 2).coarsen (shrunkMesh.ref_ratio (2 - 1))).covers (fun _ => 7) ∧
      ¬ (if (2 : Int) = 1 + 1 then shrunkMesh.grids 1 else st.new_grids (2 - 1)).covers
        (fun _ => 7))) (by decide)
  obtain ⟨h1, h2, h3, h4, h5⟩ := of_decide_eq_true hP
  exact ⟨st, hst, h1, h2, h3, fun hall => h5 (hall _ h4)⟩

set_option maxRecDepth 100000 in
/-- Witness of the amended C1: a regrid of `lineMesh` from level 0 with the reference
collaborators, which meet the contracts; it returns `new_finest = 2`, and the new levels 1
and 2 are nested. -/
theorem MakeNewGrids_new_grids_nested_witness :
    SimplifySpec (refCollab lineEst 1).simplify ∧
    MaxSizeRegion (refCollab lineEst 1).maxSize ∧
    ClusterRegion (refCollab lineEst 1) ∧
    TagsKeepProjection (refCollab lineEst 1) lineMesh 0 0 ∧
    0 ≤ lineMesh.n_proper ∧ lineMesh.use_fixed_coarse_grids = false ∧
    lineMesh.use_fixed_upto_level ≤ 0 ∧
    (∀ b ∈ lineMesh.grids 0, b.aligned (bf_lev lineMesh 0)) ∧
    ∃ st, MakeNewGrids (refCollab lineEst 1) lineMesh 0 0 (fun _ => []) 10
        = some (Except.ok st) ∧
      st.new_finest = 2 ∧
      (∀ c, ((st.new_grids 1).coarsen (lineMesh.ref_ratio (1 - 1))).covers c →
        (if (1 : Int) = 0 + 1 then lineMesh.grids 0 else st.new_grids (1 - 1)).covers c) ∧
      (∀ c, ((st.new_grids 2).coarsen (lineMesh.ref_ratio (2 - 1))).covers c →
        (if (2 : Int) = 0 + 1 then lineMesh.grids 0 else st.new_grids (2 - 1)).covers c) := by
  have hmc : max_crse lineMesh = 1 := by decide
  have hgok : ∀ l, (0 : Int) ≤ l → l ≤ max_crse lineMesh → ∀ b ∈ lineMesh.grids l, b.ok := by
    intro l h0 h1
    rw [hmc] at h1
    interval_cases l <;> decide
  have hrr : ∀ l, (0 : Int) ≤ l → l ≤ max_crse lineMesh → ∀ d, 0 < lineMesh.ref_ratio l d :=
by
    intro l _ _ d
    show (0 : Int) < 2
    decide
  have hex : ∀ l, (0 : Int) ≤ l → l + 1 ≤ max_crse lineMesh → ∀ d,
      lineMesh.ref_ratio l d * bf_lev lineMesh l d
        = rr_lev lineMesh l d * bf_lev lineMesh (l + 1) d := by
    intro l h0 h1
    rw [hmc] at h1
    have e : l = 0 := by omega
    subst e
    decide
  have hdom : ∀ l, (0 : Int) ≤ l → l + 1 ≤ max_crse lineMesh →
      lineMesh.domain (l + 1) = (lineMesh.domain l).refine (lineMesh.ref_ratio l) := by
    intro l h0 h1
    rw [hmc] at h1
    have e : l = 0 := by omega
    subst e
    rw [Box.ext_iff']
    constructor <;> (funext d; fin_cases d; decide)
  obtain ⟨st, hst, hP⟩ := exists_of_resultHas
    (MakeNewGrids (refCollab lineEst 1) lineMesh 0 0 (fun _ => []) 10)
    (fun st => decide (st.new_finest = 2)) (by decide)
  have hnf : st.new_finest = 2 := of_decide_eq_true hP
  exact ⟨refSimplify_spec, refMaxSize_region, refCollab_clusterRegion lineEst 1,
    refCollab_tagsKeepProjection lineEst 1 lineMesh 0 0, by decide, by decide, by decide,
    by decide, st, hst, hnf,
    fun c hc => MakeNewGrids_new_grids_nested (refCollab lineEst 1) lineMesh 0 0 (fun _ => [])
      10 refSimplify_spec refMaxSize_region (refCollab_clusterRegion lineEst 1)
      (refCollab_tagsKeepProjection lineEst 1 lineMesh 0 0) (by decide) (by decide)
      (by decide) (by decide) hgok hrr hex hdom (by decide) st hst 1 (by decide)
      (by rw [hnf]; decide) c hc,
    fun c hc => MakeNewGrids_new_grids_nested (refCollab lineEst 1) lineMesh 0 0 (fun _ => [])
      10 refSimplify_spec refMaxSize_region (refCollab_clusterRegion lineEst 1)
      (refCollab_tagsKeepProjection lineEst 1 lineMesh 0 0) (by decide) (by decide)
      (by decide) (by decide) hgok hrr hex hdom (by decide) st hst 2 (by decide)
      (by rw [hnf]) c hc⟩

end amrex

namespace amrex
variable {D : Nat}

/-- A buffer of zero cells around a cell holds that cell only. -/
theorem mem_cells_zero_buffer (nbuf : IntVect D) (h : ∀ d, nbuf d = 0) (c e : IntVect D) :
    e ∈ (Box.growVect ⟨c, c⟩ nbuf).cells ↔ e = c := by
  rw [Box.mem_cells]
  constructor
  · intro hc
    funext d
    have := hc d
    simp only [Box.growVect, h d] at this
    omega
  · intro he
    subst he
    intro d
    simp only [Box.growVect, h d]
    omega

/-- The reference tag pipeline on one block: when the estimator tags exactly the cells of
the box `B` refined by `bf_lev[levc]`, these lie in the grids of the level, there is no
error buffer, no finer new level and the fixed-grid mode is off, and `B` lies in the
nesting domain, then the collated tags are the cells of `B`, each once. -/
theorem refCollab_tags_of_block (est : Int → ℚ → List (IntVect D)) (nprocs : Int)
    (m : AmrMesh D) (lbase : Int) (time : ℚ) (nf levc : Int) (ba_proj : BoxList D)
    (B : Box D) (hbl : bl_max m levc ≥ 1)
    (hest : ∀ c, c ∈ est levc time ↔ (B.refine (bf_lev m levc)).contains c)
    (hin : ∀ c, (B.refine (bf_lev m levc)).contains c → (m.grids levc).covers c)
    (hfix : m.use_fixed_coarse_grids = false) (hbuf : ∀ d, m.n_error_buf levc d = 0)
    (hnf : ¬ levc + 1 < nf)
    (hpn : (p_n_ba (refCollab est nprocs) m lbase levc).containsBox B = true)
    (hok : B.ok) :
    ∃ tagvec, tagLevel (refCollab est nprocs) m lbase time nf levc ba_proj
        (m.n_error_buf levc) = Except.ok (nf, tagvec) ∧
      tagvec.Nodup ∧ ∀ c, c ∈ tagvec ↔ B.contains c := by
  have hbf := bf_lev_pos_of_bl_max m levc hbl
  cases h : tagLevel (refCollab est nprocs) m lbase time nf levc ba_proj
      (m.n_error_buf levc) with
  | error e =>
    exfalso
    rw [tagLevel_eq] at h
    simp only [] at h
    rw [if_pos hbl] at h
    cases h
  | ok r =>
    obtain ⟨nf1, tagvec⟩ := r
    have e1 := tagLevel_off _ m lbase time nf levc ba_proj _ nf1 tagvec hfix h
    subst e1
    refine ⟨tagvec, rfl, refCollab_tagsNodup est nprocs m lbase time _ _ _ _ _ _ h, ?_⟩
    rw [tagLevel_eq] at h
    simp only [] at h
    rw [if_pos hbl] at h
    simp only [Except.ok.injEq, Prod.mk.injEq, hfix, Bool.false_eq_true, false_and,
      if_false, true_and] at h
    rw [if_neg hnf] at h
    subst h
    have hnotfix : notFixed m levc = true := by simp [notFixed, hfix]
    have hcovR : ∀ e, (m.grids levc).covers e →
        BoxList.covers ((m.grids levc).map (fun b => b.growVect (m.n_error_buf levc))) e := by
      rintro e ⟨g, hg, hge⟩
      refine ⟨_, List.mem_map.2 ⟨g, hg, rfl⟩, fun d => ?_⟩
      have := hge d
      simp only [Box.growVect, hbuf d]
      omega
    have hpc : ∀ c, B.contains c → (pc_domain m levc).contains c ∧
        ¬ (p_n_comp_ba (refCollab est nprocs) m lbase levc).covers c := by
      intro c hc
      exact covers_p_n_ba_imp _ m lbase levc refSimplify_spec c
        (containsBox_covers _ B hok hpn c hc)
    have hfine : ∀ e : IntVect D,
        e ∈ (refBuffer (m.n_error_buf levc)
          ((refTagInit (m.grids levc) (m.n_error_buf levc)).mark (est levc time))).set ↔
        (B.refine (bf_lev m levc)).contains e := by
      intro e
      have h1 : ∀ a : IntVect D,
          a ∈ ((refTagInit (m.grids levc) (m.n_error_buf levc)).mark (est levc time)).set ↔
          (B.refine (bf_lev m levc)).contains a := by
        intro a
        rw [TagCells.mem_mark]
        constructor
        · rintro (h0 | ⟨h1, -⟩)
          · simp [refTagInit] at h0
          · exact (hest a).1 h1
        · intro ha
          exact Or.inr ⟨(hest a).2 ha, hcovR a (hin a ha)⟩
      unfold refBuffer
      rw [TagCells.mem_mark, h1]
      constructor
      · rintro (h0 | ⟨h2, -⟩)
        · exact h0
        · obtain ⟨a, ha, hea⟩ := List.mem_flatMap.1 h2
          rw [mem_cells_zero_buffer _ hbuf] at hea
          subst hea
          exact (h1 e).1 ha
      · intro he; exact Or.inl he
    intro c
    simp only [refCollab, hnotfix, if_true, refSetVal, refMapPeriodic, refTagCoarsen,
      List.mem_filter, List.mem_dedup, List.mem_map, Bool.not_eq_true', decide_eq_false_iff_not]
    constructor
    · rintro ⟨⟨s, ⟨e, he, rfl⟩, rfl⟩, -⟩
      have heT := (hfine e).1 he
      have hsB : B.contains (fun d => e d / bf_lev m levc d) :=
        (Box.contains_refine B _ hbf e).1 heT
      rw [wrapCell_of_contains _ _ _ (hpc _ hsB).1]
      exact hsB
    · intro hc
      have heT : (B.refine (bf_lev m levc)).contains (fun d => c d * bf_lev m levc d) := by
        rw [Box.contains_refine B _ hbf]
        have : (fun d => c d * bf_lev m levc d / bf_lev m levc d) = c := by
          funext d
          exact Int.mul_ediv_cancel _ (ne_of_gt (hbf d))
        rw [this]; exact hc
      refine ⟨⟨c, ⟨_, (hfine _).2 heT, ?_⟩, wrapCell_of_contains _ _ _ (hpc c hc).1⟩,
        (hpc c hc).2⟩
      funext d
      exact Int.mul_ediv_cancel _ (ne_of_gt (hbf d))

end amrex

namespace amrex

set_option maxRecDepth 100000 in
/-- C7: for the two-dimensional scenario (a non-periodic 64x64 level-0 domain covered by
the level-0 grids, `max_level = 1`, `ref_ratio = 2`, `blocking_factor = 8`, no error
buffer, `n_proper = 0`, one process, an estimator that tags exactly the level-0 cells
`[24,31] x [24,31]`), `MakeNewGrids(0, ...)` returns `new_finest = 1` and a
`new_grids[1]` made of the single box `[48,63] x [48,63]`.  And in general: when the
estimator tags exactly the cells of one block, the box `B` of coarsened cells refined by
the coarsening factor `bf_lev[levc]`, that lies in the grids and the domain of the level
and whose `B` lies in the nesting domain (no error buffer, no finer new level, fixed-grid
mode off, target efficiency at most 1), the pass of level `levc` collates tags from which
`new_bx` is the one box `B` refined by `bf_lev[levc]` and by `ref_ratio[levc]`; the new
level covers exactly the cells of this box, and it is this one box when the box is not
longer than `max_grid_size`.  (The box, tag and cluster operations are the reference
ones.) -/
theorem single_block_regrid :
    (∃ st, MakeNewGrids (refCollab blockEst 1) blockMesh 0 0 (fun _ => []) 10
        = some (Except.ok st) ∧
      st.new_finest = 1 ∧ corners (st.new_grids 1) = [([48, 48], [63, 63])]) ∧
    (∀ (D : Nat) (est : Int → ℚ → List (IntVect D)) (nprocs : Int) (m : AmrMesh D)
      (lbase : Int) (time : ℚ) (nf levc : Int) (ba_proj : BoxList D) (B : Box D),
      B.ok → bl_max m levc ≥ 1 →
      (∀ c, c ∈ est levc time ↔ (B.refine (bf_lev m levc)).contains c) →
      (∀ c, (B.refine (bf_lev m levc)).contains c → (m.grids levc).covers c) →
      m.use_fixed_coarse_grids = false → (∀ d, m.n_error_buf levc d = 0) →
      ¬ levc + 1 < nf →
      (p_n_ba (refCollab est nprocs) m lbase levc).containsBox B = true →
      (m.domain levc).containsBox (B.refine (bf_lev m levc)) →
      m.grid_eff ≤ 1 →
      ∃ tagvec,
        tagLevel (refCollab est nprocs) m lbase time nf levc ba_proj (m.n_error_buf levc)
          = Except.ok (nf, tagvec) ∧
        makeNewBoxes (refCollab est nprocs) m lbase levc tagvec
          = [(B.refine (bf_lev m levc)).refine (m.ref_ratio levc)] ∧
        (∀ c, ((refCollab est nprocs).maxSize (m.max_grid_size (levc + 1))
            (makeNewBoxes (refCollab est nprocs) m lbase levc tagvec)).covers c ↔
          ((B.refine (bf_lev m levc)).refine (m.ref_ratio levc)).contains c) ∧
        ((∀ d, B.length d * bf_lev m levc d * m.ref_ratio levc d
            ≤ m.max_grid_size (levc + 1) d) →
          (refCollab est nprocs).maxSize (m.max_grid_size (levc + 1))
              (makeNewBoxes (refCollab est nprocs) m lbase levc tagvec)
            = [(B.refine (bf_lev m levc)).refine (m.ref_ratio levc)])) := by
  constructor
  · obtain ⟨st, hst, hP⟩ := exists_of_resultHas
      (MakeNewGrids (refCollab blockEst 1) blockMesh 0 0 (fun _ => []) 10)
      (fun st => decide (st.new_finest = 1 ∧
        corners (st.new_grids 1) = [([48, 48], [63, 63])])) (by decide)
    exact ⟨st, hst, of_decide_eq_true hP⟩
  · intro D est nprocs m lbase time nf levc ba_proj B hok hbl hest hin hfix hbuf hnf hpn hdom
      heff
    obtain ⟨tagvec, htag, hnd, hmem⟩ := refCollab_tags_of_block est nprocs m lbase time nf
      levc ba_proj B hbl hest hin hfix hbuf hnf hpn hok
    have hbx := makeNewBoxes_of_block est nprocs m lbase levc B tagvec hok hnd hmem heff hpn
      hdom (bf_lev_pos_of_bl_max m levc hbl)
    refine ⟨tagvec, htag, hbx, fun c => ?_, fun hfit => ?_⟩
    · rw [hbx]
      exact ((refMaxSize_region _ _).1 c).trans (BoxList.covers_singleton _ c)
    · rw [hbx]
      exact maxSize_of_block m levc B hfit

set_option maxRecDepth 100000 in
/-- Witness of C7: the general part at the scenario itself, where the block is
`[24,31] x [24,31]` and `B` is `[6,7] x [6,7]`. -/
theorem single_block_regrid_witness :
    (box2 6 6 7 7).ok ∧ bl_max blockMesh 0 ≥ 1 ∧
    (∀ c, c ∈ blockEst 0 0 ↔ ((box2 6 6 7 7).refine (bf_lev blockMesh 0)).contains c) ∧
    blockMesh.use_fixed_coarse_grids = false ∧
    (p_n_ba (refCollab blockEst 1) blockMesh 0 0).containsBox (box2 6 6 7 7) = true ∧
    blockMesh.grid_eff ≤ 1 ∧
    ∃ tagvec,
      tagLevel (refCollab blockEst 1) blockMesh 0 0 0 0 [] (blockMesh.n_error_buf 0)
        = Except.ok (0, tagvec) ∧
      corners (makeNewBoxes (refCollab blockEst 1) blockMesh 0 0 tagvec)
        = [([48, 48], [63, 63])] := by
  have heff : blockMesh.grid_eff ≤ 1 := rat_le_one_of_num_le_den _ (by decide)
  have hT : (box2 6 6 7 7).refine (bf_lev blockMesh 0) = box2 24 24 31 31 := by
    rw [Box.ext_iff']
    constructor <;> (funext d; fin_cases d <;> decide)
  have hest : ∀ c, c ∈ blockEst 0 0 ↔
      ((box2 6 6 7 7).refine (bf_lev blockMesh 0)).contains c := by
    intro c
    rw [hT]
    exact Box.mem_cells _ c
  have hin : ∀ c, ((box2 6 6 7 7).refine (bf_lev blockMesh 0)).contains c →
      (blockMesh.grids 0).covers c := by
    intro c hc
    rw [hT] at hc
    refine ⟨box2 0 0 63 63, by simp [blockMesh], fun d => ?_⟩
    have h1 := hc d
    fin_cases d
    · simp only [box2] at h1 ⊢
      simp at h1 ⊢
      omega
    · simp only [box2] at h1 ⊢
      simp at h1 ⊢
      omega
  obtain ⟨tagvec, htag, hbx, -, -⟩ := single_block_regrid.2 2 blockEst 1 blockMesh 0 0 0 0 []
    (box2 6 6 7 7) (by decide) (by decide) hest hin (by decide) (by decide) (by decide)
    (by decide) (by decide) heff
  refine ⟨by decide, by decide, hest, by decide, by decide, heff, tagvec, htag, ?_⟩
  rw [hbx]
  decide

end amrex

namespace amrex
variable {D : Nat}

/-! ### The checks of `checkInput`, one by one -/

theorem foldl_max_lt_iff {α : Type} (f : α → Int) (l : List α) (a c : Int) :
    l.foldl (fun acc n => max acc (f n)) a < c ↔ a < c ∧ ∀ n ∈ l, f n < c := by
  induction l generalizing a with
  | nil => simp
  | cons x t ih =>
    simp only [List.foldl_cons, List.mem_cons, forall_eq_or_imp]
    rw [ih, max_lt_iff]
    tauto

/-- The largest refinement ratio of a level is below 2 exactly when every component is. -/
theorem MaxRefRatio_lt_two (m : AmrMesh D) (i : Int) :
    MaxRefRatio m i < 2 ↔ ∀ d, m.ref_ratio i d < 2 := by
  unfold MaxRefRatio
  rw [foldl_max_lt_iff]
  constructor
  · intro h d; exact h.2 d (List.mem_finRange d)
  · intro h; exact ⟨by decide, fun d _ => h d⟩

theorem stripTwos_pow (e fuel : Nat) (h : e ≤ fuel) : stripTwos fuel (2 ^ e) = 1 := by
  induction e generalizing fuel with
  | zero =>
    cases fuel with
    | zero => rfl
    | succ n =>
      unfold stripTwos
      rw [if_neg]
      · rfl
      · unfold cmod; decide
  | succ k ih =>
    cases fuel with
    | zero => omega
    | succ n =>
      unfold stripTwos
      have hpos : (0 : Int) < 2 ^ (k + 1) := by positivity
      have hmod : cmod (2 ^ (k + 1)) 2 = 0 := by
        unfold cmod
        rw [Int.tmod_eq_emod (le_of_lt hpos) (by decide), pow_succ]
        exact Int.mul_emod_left _ _
      have hdiv : cdiv (2 ^ (k + 1)) 2 = 2 ^ k := by
        unfold cdiv
        rw [Int.tdiv_eq_ediv (le_of_lt hpos) (by decide), pow_succ]
        exact Int.mul_ediv_cancel _ (by decide)
      rw [if_pos ⟨hpos, hmod⟩, hdiv]
      exact ih n (by omega)

/-- The power-of-two loop ends with 1 exactly on the positive powers of two. -/
theorem oddPart_eq_one_iff (k : Int) : oddPart k = 1 ↔ ∃ e : Nat, k = 2 ^ e := by
  constructor
  · exact oddPart_eq_one k
  · rintro ⟨e, rfl⟩
    unfold oddPart
    apply stripTwos_pow
    have h1 : ((2 : Int) ^ e).toNat = 2 ^ e := by
      have : ((2 : Int) ^ e) = ((2 ^ e : Nat) : Int) := by push_cast; rfl
      rw [this, Int.toNat_natCast]
    rw [h1]
    exact le_of_lt (Nat.lt_two_pow e)

/-- C12 fails as stated: `flatMesh`, whose `ref_ratio[0]` is `(2,1)`, is accepted by
`checkInput` although the second component of the ratio of level 0 is below 2. -/
theorem ref_ratio_component_below_two :
    checkInput flatMesh = Except.ok () ∧
    (0 : Int) ≤ 0 ∧ 0 < flatMesh.max_level ∧ flatMesh.ref_ratio 0 1 < 2 := by
  decide

/-- C12, amended: `checkInput` reports the fatal error `bad ref_ratios` exactly when, for
some level `i` with `0 <= i < max_level`, every component of `ref_ratio[i]` is less
than 2 (the test is on `MaxRefRatio(i)`, the largest component); a configuration that
passes has, at every level `i` with `0 <= i < max_level`, some component of `ref_ratio[i]`
that is at least 2. -/
theorem checkInput_bad_ref_ratios (m : AmrMesh D) :
    (checkInput m = Except.error "Amr::checkInput: bad ref_ratios" ↔
      ∃ i, 0 ≤ i ∧ i < m.max_level ∧ ∀ d, m.ref_ratio i d < 2) ∧
    (checkInput m = Except.ok () →
      ∀ i, 0 ≤ i → i < m.max_level → ∃ d, 2 ≤ m.ref_ratio i d) := by
  constructor
  · constructor
    · intro h
      unfold checkInput at h
      split_ifs at h with h1 h2 h3 h4 h5 h6 h7 h8 h9
      all_goals first
        | (obtain ⟨i, hi, hlt⟩ := h2
           rw [mem_levelsUp] at hi
           exact ⟨i, hi.1, hi.2, (MaxRefRatio_lt_two m i).1 hlt⟩)
        | (exfalso; revert h; decide)
    · rintro ⟨i, h0, h1, hall⟩
      unfold checkInput
      rw [if_neg (by omega), if_pos]
      exact ⟨i, (mem_levelsUp _ _ _).2 ⟨h0, h1⟩, (MaxRefRatio_lt_two m i).2 hall⟩
  · intro h i h0 h1
    have h2 := (checkInput_ok m h).2.1 i ((mem_levelsUp _ _ _).2 ⟨h0, h1⟩)
    by_contra hne
    push_neg at hne
    have := (MaxRefRatio_lt_two m i).2 hne
    omega

/-- Witness of the amended C12: `flatMesh` passes, and its level 0 has a component of the
refinement ratio that is at least 2. -/
theorem checkInput_bad_ref_ratios_witness :
    checkInput flatMesh = Except.ok () ∧ ∃ d, 2 ≤ flatMesh.ref_ratio 0 d :=
  ⟨by decide, (checkInput_bad_ref_ratios flatMesh).2 (by decide) 0 (by decide) (by decide)⟩

/-- C13 fails as stated: the blocking factor 3 of `oddMesh` is not a power of two, yet
`checkInput` does not report the power-of-two error: it stops at the earlier check of the
refinement ratios. -/
theorem blocking_factor_check_not_reached :
    (0 : Int) ≤ 0 ∧ 0 ≤ oddMesh.max_level ∧
    (¬ ∃ e : Nat, oddMesh.blocking_factor 0 0 = 2 ^ e) ∧
    checkInput oddMesh = Except.error "Amr::checkInput: bad ref_ratios" ∧
    checkInput oddMesh ≠ Except.error "Amr::checkInput: blocking_factor not power of 2. You can bypass this by setting ParmParse runtime parameter amr.check_input=0, although we do not recommend it." := by
  refine ⟨by decide, by decide, ?_, by decide, by decide⟩
  rintro ⟨e, he⟩
  have h3 : (3 : Int) = 2 ^ e := he
  cases e with
  | zero => simp at h3
  | succ k =>
    rw [pow_succ] at h3
    omega

/-- C13, amended: `checkInput` reports the fatal error `blocking_factor not power of 2`
if and only if the earlier checks pass (`max_level >= 0`, every level below `max_level`
has a refinement-ratio component of at least 2, the level-0 domain is non-empty and its
size passes the divisibility check) and, for some level `i` in `0..max_level` and some
dimension, `blocking_factor[i]` is not a positive power of two (1, 2, 4, ...); zero and
negative values are rejected. -/
theorem checkInput_blocking_factor_power (m : AmrMesh D) :
    checkInput m = Except.error "Amr::checkInput: blocking_factor not power of 2. You can bypass this by setting ParmParse runtime parameter amr.check_input=0, although we do not recommend it." ↔
      (0 ≤ m.max_level ∧
        (∀ i, 0 ≤ i → i < m.max_level → ∃ d, 2 ≤ m.ref_ratio i d) ∧
        (m.domain 0).ok ∧
        (∀ d, m.blocking_factor 0 d ≤ m.max_grid_size 0 d →
          cmod ((m.domain 0).length d) (m.blocking_factor 0 d) = 0)) ∧
      ∃ i, 0 ≤ i ∧ i ≤ m.max_level ∧ ∃ d, ¬ ∃ e : Nat, m.blocking_factor i d = 2 ^ e := by
  constructor
  · intro h
    unfold checkInput at h
    split_ifs at h with h1 h2 h3 h4 h5 h6 h7 h8 h9
    all_goals first
      | (push_neg at h1 h2 h3 h4
         obtain ⟨i, hi, d, hd⟩ := h5
         rw [mem_levelsUp] at hi
         refine ⟨⟨h1, fun j hj0 hj1 => ?_, h3, h4⟩, i, hi.1, by omega, d, ?_⟩
         · have := h2 j ((mem_levelsUp _ _ _).2 ⟨hj0, hj1⟩)
           by_contra hne
           push_neg at hne
           have := (MaxRefRatio_lt_two m j).2 hne
           omega
         · rw [← oddPart_eq_one_iff]; exact hd)
      | (exfalso; revert h; decide)
  · rintro ⟨⟨h1, h2, h3, h4⟩, i, hi0, hi1, d, hd⟩
    unfold checkInput
    rw [if_neg (by omega), if_neg, if_neg (by simpa using h3), if_neg, if_pos]
    · exact ⟨i, (mem_levelsUp _ _ _).2 ⟨hi0, by omega⟩, d,
        fun h => hd ((oddPart_eq_one_iff _).1 h)⟩
    · push_neg; exact h4
    · push_neg
      intro j hj
      rw [mem_levelsUp] at hj
      obtain ⟨d', hd'⟩ := h2 j hj.1 hj.2
      by_contra hlt
      push_neg at hlt
      have := (MaxRefRatio_lt_two m j).1 hlt d'
      omega

/-- C14 at a concrete input: `capMesh` has, on its finest level 1, a `max_grid_size` of
12 that is at least the blocking factor 8 and not a multiple of it, and `checkInput`
accepts it: the loop of the check runs over the levels below `max_level` only. -/
theorem checkInput_skips_finest_level :
    checkInput capMesh = Except.ok () ∧ capMesh.max_level = 1 ∧
    capMesh.blocking_factor 1 0 ≤ capMesh.max_grid_size 1 0 ∧
    cmod (capMesh.max_grid_size 1 0) (capMesh.blocking_factor 1 0) ≠ 0 := by
  decide

end amrex

namespace amrex
variable {D : Nat} {T C : Type}

/-! ### The two fatal errors of `MakeNewGrids` -/

/-- In at least one space dimension the local `bl_max` is at least 1 at the levels for which
`bf_lev` is set. -/
theorem bl_max_pos (m : AmrMesh D) (hD : 0 < D) (levc : Int) (h0 : 0 ≤ levc)
    (h1 : levc ≤ max_crse m) : 1 ≤ bl_max m levc := by
  by_contra hlt
  have hlt' : bl_max m levc < 1 := by omega
  unfold bl_max at hlt'
  rw [foldl_max_lt_iff] at hlt'
  have := hlt'.2 ⟨0, hD⟩ (List.mem_finRange _)
  have := bf_lev_pos m levc h0 h1 ⟨0, hD⟩
  omega

/-- The tagging part of a pass raises no error when `bl_max` is at least 1. -/
theorem tagLevel_ok_of_bl_max (x : Collab D T C) (m : AmrMesh D) (lbase : Int) (time : ℚ)
    (nf levc : Int) (ba_proj : BoxList D) (ngt : IntVect D) (h : 1 ≤ bl_max m levc) :
    ∃ r, tagLevel x m lbase time nf levc ba_proj ngt = Except.ok r := by
  rw [tagLevel_eq]
  simp only []
  rw [if_pos (by omega)]
  exact ⟨_, rfl⟩

/-- The only error of the tagging part of a pass. -/
theorem tagLevel_error_msg (x : Collab D T C) (m : AmrMesh D) (lbase : Int) (time : ℚ)
    (nf levc : Int) (ba_proj : BoxList D) (ngt : IntVect D) (e : String)
    (h : tagLevel x m lbase time nf levc ba_proj ngt = Except.error e) :
    e = "blocking factor is too small relative to ref_ratio" ∧ ¬ 1 ≤ bl_max m levc := by
  rw [tagLevel_eq] at h
  simp only [] at h
  split at h
  · cases h
  · rename_i hb
    simp only [Except.error.injEq] at h
    exact ⟨h.symm, by omega⟩

theorem levelStep_error (x : Collab D T C) (m : AmrMesh D) (lbase : Int) (time : ℚ)
    (fuel : Nat) (st : GridState D) (levc : Int) (e : String)
    (h : levelStep x m lbase time fuel st levc = some (Except.error e)) :
    e = "blocking factor is too small relative to ref_ratio" ∧ ¬ 1 ≤ bl_max m levc := by
  rw [levelStep_eq] at h
  cases hp : projectDown x m fuel st levc with
  | none => rw [hp] at h; cases h
  | some p =>
    obtain ⟨ba_proj, ngt⟩ := p
    rw [hp] at h
    simp only [] at h
    cases ht : tagLevel x m lbase time st.new_finest levc ba_proj ngt with
    | error e1 =>
      rw [ht] at h
      simp only [Option.some.injEq, Except.error.injEq] at h
      subst h
      exact tagLevel_error_msg x m lbase time _ levc ba_proj ngt e1 ht
    | ok r => rw [ht] at h; cases h

/-- The level loop aborts only with the message of the coarsening step, at a level whose
`bl_max` is below 1. -/
theorem levelLoop_error (x : Collab D T C) (m : AmrMesh D) (lbase : Int) (time : ℚ)
    (fuel : Nat) (levs : List Int) (st : GridState D) (e : String)
    (h : levelLoop x m lbase time fuel levs st = some (Except.error e)) :
    e = "blocking factor is too small relative to ref_ratio" ∧
    ∃ levc ∈ levs, ¬ 1 ≤ bl_max m levc := by
  induction levs generalizing st with
  | nil => simp [levelLoop] at h
  | cons levc rest ih =>
    unfold levelLoop at h
    cases hs : levelStep x m lbase time fuel st levc with
    | none => rw [hs] at h; cases h
    | some r =>
      cases r with
      | error e1 =>
        rw [hs] at h
        simp only [Option.some.injEq, Except.error.injEq] at h
        subst h
        obtain ⟨g1, g2⟩ := levelStep_error x m lbase time fuel st levc e1 hs
        exact ⟨g1, levc, List.mem_cons_self _ _, g2⟩
      | ok st2 =>
        rw [hs] at h
        simp only [] at h
        obtain ⟨g1, l, hl, g2⟩ := ih st2 h
        exact ⟨g1, l, List.mem_cons_of_mem _ hl, g2⟩

/-- The function `ChopGrids` always returns. -/
theorem ChopGrids_total (maxSize : IntVect D → BoxList D → BoxList D) (m : AmrMesh D)
    (lev : Int) (ba : BoxList D) (target_size : Int) :
    ∃ ba1, ChopGrids maxSize m lev ba target_size = some ba1 := by
  unfold ChopGrids
  split
  · exact ⟨ba, rfl⟩
  · obtain ⟨st, hst, -⟩ := chopLoop_spec maxSize m lev target_size (fun _ => True)
      (fun _ _ _ _ => trivial) (chopFuel (chunkInit m lev))
      { chunk := chunkInit m lev, ba := ba, applied := [] } (le_refl _) trivial
      (fun _ _ => trivial)
    unfold chopRun
    rw [hst]
    exact ⟨st.ba, rfl⟩

theorem notFixed_eq_true (m : AmrMesh D) (lev : Int) :
    notFixed m lev = true ↔ ¬ (m.use_fixed_coarse_grids = true ∧ lev < m.use_fixed_upto_level) := by
  unfold notFixed
  cases m.use_fixed_coarse_grids <;> simp

/-- The final loop over distinct levels: it always ends, and it aborts exactly when one of
the levels has an empty box list that the fixed-grid mode does not excuse. -/
theorem finalLoop_spec (x : Collab D T C) (m : AmrMesh D) (levs : List Int)
    (hnd : levs.Nodup) (st : GridState D) :
    (finalLoop x m levs st
        = some (Except.error "AmrMesh::MakeNewGrids: how did this happen?") ∧
      ∃ lev ∈ levs, st.new_grids lev = [] ∧ notFixed m lev = true) ∨
    ((∃ st1, finalLoop x m levs st = some (Except.ok st1)) ∧
      ¬ ∃ lev ∈ levs, st.new_grids lev = [] ∧ notFixed m lev = true) := by
  induction levs generalizing st with
  | nil =>
    right
    exact ⟨⟨st, rfl⟩, by simp⟩
  | cons l rest ih =>
    have hl : l ∉ rest := (List.nodup_cons.1 hnd).1
    have hr : rest.Nodup := (List.nodup_cons.1 hnd).2
    unfold finalLoop
    by_cases hemp : st.new_grids l = []
    · by_cases hnf : notFixed m l = true
      · left
        have hs : finalStep x m st l
            = some (Except.error "AmrMesh::MakeNewGrids: how did this happen?") := by
          unfold finalStep
          rw [hemp]
          simp [hnf]
        rw [hs]
        exact ⟨rfl, l, List.mem_cons_self _ _, hemp, hnf⟩
      · have hs : finalStep x m st l = some (Except.ok st) := by
          unfold finalStep
          rw [hemp]
          simp [hnf]
        rw [hs]
        simp only []
        rcases ih hr st with ⟨h1, lev, hlev, h2, h3⟩ | ⟨h1, h2⟩
        · left
          exact ⟨h1, lev, List.mem_cons_of_mem _ hlev, h2, h3⟩
        · right
          refine ⟨h1, ?_⟩
          rintro ⟨lev, hlev, g1, g2⟩
          rcases List.mem_cons.1 hlev with e | hin
          · subst e; exact hnf g2
          · exact h2 ⟨lev, hin, g1, g2⟩
    · have hne : (st.new_grids l).isEmpty = false := by
        cases hg : st.new_grids l with
        | nil => exact absurd hg hemp
        | cons a t => rfl
      have hstep : ∃ st1, finalStep x m st l = some (Except.ok st1) ∧
          ∀ lev, lev ≠ l → st1.new_grids lev = st.new_grids lev := by
        unfold finalStep
        rw [hne]
        simp only [Bool.false_eq_true, if_false]
        split
        · obtain ⟨ba1, hba⟩ := ChopGrids_total x.maxSize m l (st.new_grids l) x.NProcs
          rw [hba]
          exact ⟨_, rfl, fun lev hlev => Function.update_noteq hlev _ _⟩
        · exact ⟨st, rfl, fun _ _ => rfl⟩
      obtain ⟨st1, hs, hsame⟩ := hstep
      rw [hs]
      simp only []
      have hiff : (∃ lev ∈ rest, st1.new_grids lev = [] ∧ notFixed m lev = true) ↔
          ∃ lev ∈ l :: rest, st.new_grids lev = [] ∧ notFixed m lev = true := by
        constructor
        · rintro ⟨lev, hlev, g1, g2⟩
          have hne' : lev ≠ l := fun e => hl (e ▸ hlev)
          exact ⟨lev, List.mem_cons_of_mem _ hlev, by rw [← hsame lev hne']; exact g1, g2⟩
        · rintro ⟨lev, hlev, g1, g2⟩
          rcases List.mem_cons.1 hlev with e | hin
          · subst e; exact absurd g1 hemp
          · have hne' : lev ≠ l := fun e => hl (e ▸ hin)
            exact ⟨lev, hin, by rw [hsame lev hne']; exact g1, g2⟩
      rcases ih hr st1 with ⟨h1, h2⟩ | ⟨h1, h2⟩
      · left; exact ⟨h1, hiff.1 h2⟩
      · right; exact ⟨h1, fun h => h2 (hiff.2 h)⟩

theorem levelsUp_nodup (lo hi : Int) : (levelsUp lo hi).Nodup := by
  unfold levelsUp intRange
  apply List.Nodup.map _ (List.nodup_range _)
  intro a b h
  simp only at h
  omega

/-- C16: `MakeNewGrids(lbase, ...)` aborts with `AmrMesh::MakeNewGrids: how did this
happen?` if and only if the per-level loop has ended normally and, in the state it has
left, some level `lev` with `lbase < lev <= new_finest` has an empty `new_grids[lev]` while
it is not the case that the fixed-grid mode is on with `lev < useFixedUpToLevel()`. -/
theorem MakeNewGrids_abort_iff_empty_level (x : Collab D T C) (m : AmrMesh D) (lbase : Int)
    (time : ℚ) (new_grids : Int → BoxList D) (fuel : Nat) :
    MakeNewGrids x m lbase time new_grids fuel
        = some (Except.error "AmrMesh::MakeNewGrids: how did this happen?") ↔
      ∃ st0, afterLevels x m lbase time new_grids fuel = some (Except.ok st0) ∧
        ∃ lev, lbase < lev ∧ lev ≤ st0.new_finest ∧ st0.new_grids lev = [] ∧
          ¬ (m.use_fixed_coarse_grids = true ∧ lev < m.use_fixed_upto_level) := by
  unfold MakeNewGrids
  cases ha : afterLevels x m lbase time new_grids fuel with
  | none => simp
  | some r =>
    cases r with
    | error e =>
      simp only [Option.some.injEq, Except.error.injEq, reduceCtorEq, false_and, exists_false,
        iff_false]
      intro he
      unfold afterLevels at ha
      have := (levelLoop_error x m lbase time fuel _ _ e ha).1
      rw [he] at this
      revert this
      decide
    | ok st0 =>
      simp only [Option.some.injEq, Except.ok.injEq, exists_eq_left']
      have hspec := finalLoop_spec x m (levelsUp (lbase + 1) (st0.new_finest + 1))
        (levelsUp_nodup _ _) st0
      constructor
      · intro h
        rcases hspec with ⟨-, lev, hlev, g1, g2⟩ | ⟨⟨st1, h1⟩, -⟩
        · rw [mem_levelsUp] at hlev
          exact ⟨lev, by omega, by omega, g1, (notFixed_eq_true m lev).1 g2⟩
        · rw [h1] at h; cases h
      · rintro ⟨lev, h1, h2, g1, g2⟩
        rcases hspec with ⟨h, -⟩ | ⟨-, hno⟩
        · exact h
        · exact absurd ⟨lev, (mem_levelsUp _ _ _).2 ⟨by omega, by omega⟩, g1,
            (notFixed_eq_true m lev).2 g2⟩ hno

end amrex

namespace amrex
variable {D : Nat} {T C : Type}

/-- C15 fails as stated: on `unitMesh` the quotient `blocking_factor[1] / ref_ratio[0]` is
`1 / 2 = 0` in the one dimension there is, level 0 lies in `[lbase, max_crse]`, and
`MakeNewGrids(0, ...)` returns normally: the coarsening factor used is
`max(1, 0) = 1`. -/
theorem no_abort_when_factor_rounds_to_zero :
    (0 : Int) ≤ 0 ∧ 0 ≤ max_crse unitMesh ∧
    (∀ d, cdiv (unitMesh.blocking_factor (0 + 1) d) (unitMesh.ref_ratio 0 d) = 0) ∧
    (∀ d, bf_lev unitMesh 0 d = 1) ∧
    ∃ st, MakeNewGrids (refCollab lineEst 1) unitMesh 0 0 (fun _ => []) 10
      = some (Except.ok st) := by
  refine ⟨by decide, by decide, by decide, by decide, ?_⟩
  exact exists_of_ranOk _ (by decide)

/-- C15, amended: in `MakeNewGrids(lbase, ...)` with `lbase >= 0` (and at least one space
dimension), the coarsening factor of every level `levc` in `[lbase, max_crse]` is
`max(1, blocking_factor[levc+1][d] / ref_ratio[levc][d])`, which is at least 1 in every
dimension `d`, also when the quotient rounds to zero; so `bl_max >= 1` at these levels and
the call never aborts with `blocking factor is too small relative to ref_ratio`. -/
theorem MakeNewGrids_coarsening_factor_at_least_one (x : Collab D T C) (m : AmrMesh D)
    (lbase : Int) (time : ℚ) (hD : 0 < D) (h0 : 0 ≤ lbase) :
    (∀ levc, lbase ≤ levc → levc ≤ max_crse m → ∀ d,
      bf_lev m levc d
        = max 1 (cdiv (m.blocking_factor (levc + 1) d) (m.ref_ratio levc d)) ∧
      1 ≤ bf_lev m levc d) ∧
    (∀ levc, lbase ≤ levc → levc ≤ max_crse m → 1 ≤ bl_max m levc) ∧
    ∀ new_grids fuel, MakeNewGrids x m lbase time new_grids fuel
      ≠ some (Except.error "blocking factor is too small relative to ref_ratio") := by
  refine ⟨fun levc h1 h2 d => ?_, fun levc h1 h2 => bl_max_pos m hD levc (by omega) h2, ?_⟩
  · have hpos := bf_lev_pos m levc (by omega) h2 d
    refine ⟨?_, by omega⟩
    unfold bf_lev
    rw [if_pos ⟨by omega, h2⟩]
  · intro new_grids fuel h
    unfold MakeNewGrids at h
    cases ha : afterLevels x m lbase time new_grids fuel with
    | none => rw [ha] at h; cases h
    | some r =>
      cases r with
      | error e =>
        unfold afterLevels at ha
        obtain ⟨-, levc, hlev, hbl⟩ := levelLoop_error x m lbase time fuel _ _ e ha
        rw [mem_levelsDown] at hlev
        exact hbl (bl_max_pos m hD levc (by omega) hlev.2)
      | ok st0 =>
        rw [ha] at h
        simp only [] at h
        rcases finalLoop_spec x m (levelsUp (lbase + 1) (st0.new_finest + 1))
          (levelsUp_nodup _ _) st0 with ⟨h1, -⟩ | ⟨⟨st1, h1⟩, -⟩
        · rw [h1] at h
          simp only [Option.some.injEq, Except.error.injEq] at h
          revert h
          decide
        · rw [h1] at h; cases h

/-- Witness of the amended C15: `unitMesh`, regridding from level 0. -/
theorem MakeNewGrids_coarsening_factor_at_least_one_witness :
    0 < 1 ∧ (0 : Int) ≤ 0 ∧
    (1 ≤ bl_max unitMesh 0) ∧
    MakeNewGrids (refCollab lineEst 1) unitMesh 0 0 (fun _ => []) 10
      ≠ some (Except.error "blocking factor is too small relative to ref_ratio") :=
  have h := MakeNewGrids_coarsening_factor_at_least_one (refCollab lineEst 1) unitMesh 0 0
    (by decide) (by decide)
  ⟨by decide, by decide, h.2.1 0 (by decide) (by decide), h.2.2 (fun _ => []) 10⟩

/-! ### A regrid without tags -/

/-- When no tags are collated at any level and the fixed-grid mode is off, the level loop
leaves `new_finest` at `lbase` and `new_grids` as it is. -/
theorem levelLoop_no_tags (x : Collab D T C) (m : AmrMesh D) (lbase : Int) (time : ℚ)
    (fuel : Nat) (hD : 0 < D) (h0 : 0 ≤ lbase) (hfix : m.use_fixed_coarse_grids = false)
    (hempty : ∀ levc, lbase ≤ levc → levc ≤ max_crse m → ∀ nf1 tagvec,
      tagLevel x m lbase time lbase levc [] (m.n_error_buf levc) = Except.ok (nf1, tagvec) →
      tagvec = [])
    (levs : List Int) (hlevs : ∀ l ∈ levs, lbase ≤ l ∧ l ≤ max_crse m) (st : GridState D)
    (hst : st.new_finest = lbase) :
    ∃ st1, levelLoop x m lbase time fuel levs st = some (Except.ok st1) ∧
      st1.new_finest = lbase ∧ st1.new_grids = st.new_grids := by
  induction levs generalizing st with
  | nil => exact ⟨st, rfl, hst, rfl⟩
  | cons levc rest ih =>
    obtain ⟨hl0, hl1⟩ := hlevs levc (List.mem_cons_self _ _)
    have hp : projectDown x m fuel st levc = some ([], m.n_error_buf levc) := by
      unfold projectDown
      simp only []
      rw [if_neg (by omega)]
    obtain ⟨r, hr⟩ := tagLevel_ok_of_bl_max x m lbase time st.new_finest levc []
      (m.n_error_buf levc) (bl_max_pos m hD levc (by omega) hl1)
    obtain ⟨nf1, tagvec⟩ := r
    have hnf := tagLevel_off x m lbase time _ levc [] _ nf1 tagvec hfix hr
    have htv : tagvec = [] := by
      rw [hst] at hr
      exact hempty levc hl0 hl1 nf1 tagvec hr
    subst htv
    have hs : levelStep x m lbase time fuel st levc = some (Except.ok
        { new_finest := nf1, new_grids := st.new_grids,
          trace := if notFixed m levc then Event.errorEst levc :: st.trace else st.trace }) := by
      rw [levelStep_eq]
      rw [hp]
      simp only []
      rw [hr]
      simp only [clusterLevel, List.isEmpty_nil, if_true]
    unfold levelLoop
    rw [hs]
    simp only []
    obtain ⟨st1, g1, g2, g3⟩ := ih (fun l hl => hlevs l (List.mem_cons_of_mem _ hl))
      { new_finest := nf1, new_grids := st.new_grids,
        trace := if notFixed m levc then Event.errorEst levc :: st.trace else st.trace }
      (by rw [hnf]; exact hst)
    exact ⟨st1, g1, g2, g3⟩

/-- C17: with the fixed-grid mode off (`lbase >= 0`, at least one space dimension), if at
every level from `max_crse` down to `lbase` the collated tag list is empty, then
`MakeNewGrids(lbase, ...)` returns, with `new_finest = lbase` and every entry of
`new_grids` as it was passed in, and raises no error. -/
theorem MakeNewGrids_no_tags (x : Collab D T C) (m : AmrMesh D) (lbase : Int) (time : ℚ)
    (new_grids : Int → BoxList D) (fuel : Nat) (hD : 0 < D) (h0 : 0 ≤ lbase)
    (hfix : m.use_fixed_coarse_grids = false)
    (hempty : ∀ levc, lbase ≤ levc → levc ≤ max_crse m → ∀ nf1 tagvec,
      tagLevel x m lbase time lbase levc [] (m.n_error_buf levc) = Except.ok (nf1, tagvec) →
      tagvec = []) :
    ∃ st, MakeNewGrids x m lbase time new_grids fuel = some (Except.ok st) ∧
      st.new_finest = lbase ∧ st.new_grids = new_grids := by
  obtain ⟨st0, g1, g2, g3⟩ := levelLoop_no_tags x m lbase time fuel hD h0 hfix hempty
    (levelsDown (max_crse m) lbase) (fun l hl => (mem_levelsDown _ _ _).1 hl)
    { new_finest := lbase, new_grids := new_grids, trace := [] } rfl
  unfold MakeNewGrids afterLevels
  rw [g1]
  simp only []
  have hnil : levelsUp (lbase + 1) (st0.new_finest + 1) = [] := by
    unfold levelsUp intRange
    have : (st0.new_finest + 1 - (lbase + 1)).toNat = 0 := by omega
    rw [this]; rfl
  rw [hnil]
  exact ⟨st0, rfl, g2, g3⟩

set_option maxRecDepth 100000 in
/-- Witness of C17: `lineMesh` with an estimator that tags nothing, regridding from
level 0 with a vector `new_grids` that holds `[0,3]` at level 1. -/
theorem MakeNewGrids_no_tags_witness :
    0 < 1 ∧ (0 : Int) ≤ 0 ∧ lineMesh.use_fixed_coarse_grids = false ∧
    ∃ st, MakeNewGrids (refCollab noEst 1) lineMesh 0 0
        (fun lev => if lev = 1 then [box1 0 3] else []) 0 = some (Except.ok st) ∧
      st.new_finest = 0 ∧ st.new_grids = (fun lev => if lev = 1 then [box1 0 3] else []) := by
  have hmc : max_crse lineMesh = 1 := by decide
  have hempty : ∀ levc, (0 : Int) ≤ levc → levc ≤ max_crse lineMesh → ∀ nf1 tagvec,
      tagLevel (refCollab noEst 1) lineMesh 0 0 0 levc [] (lineMesh.n_error_buf levc)
        = Except.ok (nf1, tagvec) → tagvec = [] := by
    intro levc h0 h1 nf1 tagvec h
    rw [hmc] at h1
    have key : ∀ l : Int, (0 ≤ l ∧ l ≤ 1) →
        tagLevel (refCollab noEst 1) lineMesh 0 0 0 l [] (lineMesh.n_error_buf l)
          = Except.ok (0, []) := by
      intro l hl
      have hl' : l = 0 ∨ l = 1 := by omega
      rcases hl' with e | e <;> subst e <;> decide
    rw [key levc ⟨h0, h1⟩] at h
    simp only [Except.ok.injEq, Prod.mk.injEq] at h
    exact h.2.symm
  exact ⟨by decide, by decide, by decide,
    MakeNewGrids_no_tags (refCollab noEst 1) lineMesh 0 0
      (fun lev => if lev = 1 then [box1 0 3] else []) 0 (by decide) (by decide) (by decide)
      hempty⟩

end amrex

namespace amrex
variable {D : Nat}

/-! ### Set-up: the refinement-ratio parameters and the level domains -/

/-- No error of `checkInput` carries the message of the refinement-ratio conflict or of a
missing parameter. -/
theorem checkInput_error_msg (m : AmrMesh D) (e : String) (h : checkInput m = Except.error e) :
    e ≠ "Only input *either* ref_ratio or ref_ratio_vect" := by
  unfold checkInput at h
  split_ifs at h
  all_goals (simp only [Except.error.injEq] at h; rw [← h]; decide)

/-- C11 fails as stated: the parameter table `bothRatios` supplies both `ref_ratio` and
`ref_ratio_vect` with `max_level = 0`, and `InitAmrMesh` returns a mesh object: the
refinement-ratio parameters are read only `if (max_level > 0)`. -/
theorem both_ratios_accepted :
    bothRatios.ref_ratio.isSome = true ∧ bothRatios.ref_ratio_vect.isSome = true ∧
    ∃ m, InitAmrMesh amrInfo bothRatios (-1) [-1] [] (fun _ => 0) true true = Except.ok m ∧
      m.max_level = 0 := by
  refine ⟨by decide, by decide, ?_⟩
  obtain ⟨m, hm, hP⟩ := exists_of_resultHas
    (some (InitAmrMesh amrInfo bothRatios (-1) [-1] [] (fun _ => 0) true true))
    (fun m => decide (m.max_level = 0)) (by decide)
  exact ⟨m, Option.some.inj hm, of_decide_eq_true hP⟩

/-- C11, amended: `InitAmrMesh` aborts with `Only input *either* ref_ratio or
ref_ratio_vect`, and so constructs no hierarchy, exactly for the configurations whose
`max_level` (the argument, or the parameter `amr.max_level` when the argument is -1) is
greater than 0 and in which both `amr.ref_ratio` and `amr.ref_ratio_vect` are supplied. -/
theorem InitAmrMesh_ratio_conflict (m0 : AmrMesh D) (pp : AmrParams D) (max_level_in : Int)
    (n_cell_in : List Int) (a_refrat : List (IntVect D)) (is_per : Fin D → Int)
    (prob_volume_pos check_input0 : Bool) :
    InitAmrMesh m0 pp max_level_in n_cell_in a_refrat is_per prob_volume_pos check_input0
        = Except.error "Only input *either* ref_ratio or ref_ratio_vect" ↔
      ∃ max_level, (if max_level_in = -1 then pp.max_level else some max_level_in)
          = some max_level ∧
        0 < max_level ∧ pp.ref_ratio.isSome = true ∧ pp.ref_ratio_vect.isSome = true := by
  unfold InitAmrMesh
  cases hml : (if max_level_in = -1 then pp.max_level else some max_level_in) with
  | none =>
    simp only [reduceCtorEq, false_and, exists_false, iff_false]
    intro h
    simp only [Except.error.injEq] at h
    revert h
    decide
  | some max_level =>
    simp only [Option.some.injEq, exists_eq_left']
    by_cases hc : 0 < max_level ∧ pp.ref_ratio.isSome = true ∧ pp.ref_ratio_vect.isSome = true
    · rw [if_pos hc]
      exact ⟨fun _ => hc, fun _ => rfl⟩
    · rw [if_neg hc]
      refine ⟨fun h => ?_, fun h => absurd h hc⟩
      exfalso
      cases hn : (if n_cell_in.getD 0 0 = -1 then pp.n_cell else some n_cell_in) with
      | none =>
        rw [hn] at h
        simp only [Except.error.injEq] at h
        revert h
        decide
      | some n_cell =>
        rw [hn] at h
        simp only [] at h
        split at h
        · rename_i e he
          simp only [Except.error.injEq] at h
          split at he
          · exact checkInput_error_msg _ e he h
          · cases he
        · split at h
          · simp only [Except.error.injEq] at h
            revert h
            decide
          · cases h

/-! ### `GetLevel` -/

theorem intRange_cons (lo hi : Int) (h : lo < hi) :
    intRange lo hi = lo :: intRange (lo + 1) hi := by
  unfold intRange
  have e : (hi - lo).toNat = (hi - (lo + 1)).toNat + 1 := by omega
  rw [e, List.range_succ_eq_map, List.map_cons, List.map_map]
  congr 1
  · simp
  · apply List.map_congr_left
    intro k _
    simp only [Function.comp, Nat.cast_succ]
    ring

theorem intRange_nil (lo hi : Int) (h : hi ≤ lo) : intRange lo hi = [] := by
  unfold intRange
  have e : (hi - lo).toNat = 0 := by omega
  rw [e]; rfl

/-- The first integer of a range that passes a test. -/
theorem find_intRange (p : Int → Bool) (n : Nat) :
    ∀ lo hi : Int, (hi - lo).toNat = n →
      ((intRange lo hi).find? p = none ↔ ∀ x, lo ≤ x → x < hi → p x = false) ∧
      (∀ x, (intRange lo hi).find? p = some x ↔
        (lo ≤ x ∧ x < hi) ∧ p x = true ∧ ∀ y, lo ≤ y → y < x → p y = false) := by
  induction n with
  | zero =>
    intro lo hi hn
    rw [intRange_nil lo hi (by omega)]
    refine ⟨⟨fun _ x h1 h2 => by omega, fun _ => rfl⟩, fun x => ?_⟩
    simp only [List.find?_nil, reduceCtorEq, false_iff]
    rintro ⟨⟨h1, h2⟩, -⟩
    omega
  | succ k ih =>
    intro lo hi hn
    rw [intRange_cons lo hi (by omega)]
    obtain ⟨ih1, ih2⟩ := ih (lo + 1) hi (by omega)
    rw [List.find?_cons]
    cases hp : p lo with
    | true =>
      simp only [reduceCtorEq, false_iff, Option.some.injEq]
      refine ⟨fun h => ?_, fun x => ⟨fun h => ?_, fun h => ?_⟩⟩
      · have := h lo (le_refl _) (by omega)
        rw [hp] at this; cases this
      · subst h
        exact ⟨⟨le_refl _, by omega⟩, hp, fun y h1 h2 => by omega⟩
      · obtain ⟨⟨h1, h2⟩, h3, h4⟩ := h
        by_contra hne
        have := h4 lo (le_refl _) (by omega)
        rw [hp] at this; cases this
    | false =>
      simp only []
      rw [ih1]
      refine ⟨⟨fun h x h1 h2 => ?_, fun h x h1 h2 => h x (by omega) h2⟩, fun x => ?_⟩
      · by_cases e : x = lo
        · subst e; exact hp
        · exact h x (by omega) h2
      · rw [ih2]
        constructor
        · rintro ⟨⟨h1, h2⟩, h3, h4⟩
          refine ⟨⟨by omega, h2⟩, h3, fun y g1 g2 => ?_⟩
          by_cases e : y = lo
          · subst e; exact hp
          · exact h4 y (by omega) g2
        · rintro ⟨⟨h1, h2⟩, h3, h4⟩
          have hne : x ≠ lo := by
            intro e; subst e; rw [hp] at h3; cases h3
          exact ⟨⟨by omega, h2⟩, h3, fun y g1 g2 => h4 y (by omega) g2⟩

theorem enclosedCells_cellBox (b : Box D) : enclosedCells (cellBox b) = b := by
  cases b
  simp [enclosedCells, cellBox]

/-- Along a chain of refinements by ratios that are at least 1, the non-empty domain of
level `i` is no longer than the domain of a finer level. -/
theorem domain_length_mono (m : AmrMesh D) (r : Int → IntVect D)
    (href : ∀ i, 0 ≤ i → i < m.max_level →
      m.domain (i + 1) = (m.domain i).refine (r i) ∧ (∀ d, 1 ≤ r i d) ∧ ∃ d, 2 ≤ r i d)
    (i : Int) (h0 : 0 ≤ i) (hi : ∀ d, 1 ≤ (m.domain i).length d) (k : Nat) :
    i + k ≤ m.max_level →
      ∀ d, (m.domain i).length d ≤ (m.domain (i + k)).length d ∧
        1 ≤ (m.domain (i + k)).length d := by
  induction k with
  | zero =>
    intro _ d
    simp only [Nat.cast_zero, add_zero]
    exact ⟨le_refl _, hi d⟩
  | succ n ih =>
    intro hk d
    push_cast at hk ⊢
    obtain ⟨g1, g2⟩ := ih (by omega) d
    obtain ⟨e1, e2, -⟩ := href (i + n) (by omega) (by omega)
    have e3 : i + (↑n + 1) = i + ↑n + 1 := by ring
    rw [e3, e1, Box.refine_length]
    have hr := e2 d
    have hmul : (m.domain (i + ↑n)).length d * 1 ≤ (m.domain (i + ↑n)).length d * r (i + ↑n) d :=
      Int.mul_le_mul_of_nonneg_left hr (by omega)
    rw [mul_one] at hmul
    exact ⟨by omega, by omega⟩

/-- The domains of a chain of refinements of a non-empty level-0 domain, by ratios with
all components at least 1 and some component at least 2, are pairwise distinct. -/
theorem domains_distinct (m : AmrMesh D) (r : Int → IntVect D) (hok : (m.domain 0).ok)
    (href : ∀ i, 0 ≤ i → i < m.max_level →
      m.domain (i + 1) = (m.domain i).refine (r i) ∧ (∀ d, 1 ≤ r i d) ∧ ∃ d, 2 ≤ r i d) :
    ∀ i j, 0 ≤ i → i < j → j ≤ m.max_level → m.domain i ≠ m.domain j := by
  intro i j h0 hij hj heq
  have hlen0 : ∀ d, 1 ≤ (m.domain 0).length d := by
    intro d; have := hok d; unfold Box.length; omega
  have hleni : ∀ d, 1 ≤ (m.domain i).length d := by
    intro d
    have := (domain_length_mono m r href 0 (le_refl _) hlen0 i.toNat (by omega) d).2
    have e : (0 : Int) + (i.toNat : Int) = i := by omega
    rw [e] at this
    exact this
  obtain ⟨e1, e2, d0, hd0⟩ := href i h0 (by omega)
  have hlen1 : ∀ d, 1 ≤ (m.domain (i + 1)).length d := by
    intro d
    have := (domain_length_mono m r href i h0 hleni 1 (by push_cast; omega) d).2
    simpa using this
  have hstep : (m.domain i).length d0 < (m.domain (i + 1)).length d0 := by
    rw [e1, Box.refine_length]
    have h1 := hleni d0
    have hmul : (m.domain i).length d0 * 2 ≤ (m.domain i).length d0 * r i d0 :=
      Int.mul_le_mul_of_nonneg_left hd0 (by omega)
    omega
  have hmono := (domain_length_mono m r href (i + 1) (by omega) hlen1 (j - (i + 1)).toNat
    (by omega) d0).1
  have e : i + 1 + ((j - (i + 1)).toNat : Int) = j := by omega
  rw [e, ← heq] at hmono
  omega

/-- C20: `GetLevel(box)` returns -1 exactly when no level `0..max_level` has a domain equal
to the cell-centred form of `box`, and otherwise the smallest level whose domain equals
it; hence `GetLevel(Geom(lev).Domain()) = lev` for every level `lev` whenever the
per-level domains are pairwise distinct, which they are when the level-0 domain is
non-empty and each domain is the refinement of the previous one by a ratio with all
components at least 1 and some component at least 2. -/
theorem GetLevel_spec (m : AmrMesh D) (b : TypedBox D) :
    (GetLevel m b = -1 ↔
      ∀ lev, 0 ≤ lev → lev ≤ m.max_level → m.domain lev ≠ enclosedCells b) ∧
    (∀ lev, 0 ≤ lev → lev ≤ m.max_level →
      (GetLevel m b = lev ↔ m.domain lev = enclosedCells b ∧
        ∀ l, 0 ≤ l → l < lev → m.domain l ≠ enclosedCells b)) ∧
    ((∀ i j, 0 ≤ i → i < j → j ≤ m.max_level → m.domain i ≠ m.domain j) →
      ∀ lev, 0 ≤ lev → lev ≤ m.max_level → GetLevel m (cellBox (m.domain lev)) = lev) ∧
    (∀ r : Int → IntVect D, (m.domain 0).ok →
      (∀ i, 0 ≤ i → i < m.max_level →
        m.domain (i + 1) = (m.domain i).refine (r i) ∧ (∀ d, 1 ≤ r i d) ∧ ∃ d, 2 ≤ r i d) →
      ∀ lev, 0 ≤ lev → lev ≤ m.max_level → GetLevel m (cellBox (m.domain lev)) = lev) := by
  have key : ∀ (c : TypedBox D),
      (GetLevel m c = -1 ↔
        ∀ lev, 0 ≤ lev → lev ≤ m.max_level → m.domain lev ≠ enclosedCells c) ∧
      (∀ lev, 0 ≤ lev → lev ≤ m.max_level →
        (GetLevel m c = lev ↔ m.domain lev = enclosedCells c ∧
          ∀ l, 0 ≤ l → l < lev → m.domain l ≠ enclosedCells c)) := by
    intro c
    obtain ⟨f1, f2⟩ := find_intRange (fun lev => decide (m.domain lev = enclosedCells c))
      (m.max_level + 1 - 0).toNat 0 (m.max_level + 1) rfl
    unfold GetLevel levelsUp
    constructor
    · cases hf : (intRange 0 (m.max_level + 1)).find?
          (fun lev => decide (m.domain lev = enclosedCells c)) with
      | none =>
        simp only [true_iff]
        intro lev h0 h1
        have := f1.1 hf lev h0 (by omega)
        simpa using this
      | some x =>
        obtain ⟨⟨g1, g2⟩, g3, -⟩ := (f2 x).1 hf
        simp only []
        constructor
        · intro e; omega
        · intro h
          exact absurd (of_decide_eq_true g3) (h x g1 (by omega))
    · intro lev h0 h1
      cases hf : (intRange 0 (m.max_level + 1)).find?
          (fun lev => decide (m.domain lev = enclosedCells c)) with
      | none =>
        simp only []
        constructor
        · intro e; omega
        · rintro ⟨h, -⟩
          have := f1.1 hf lev h0 (by omega)
          simp only [decide_eq_false_iff_not] at this
          exact absurd h this
      | some x =>
        simp only []
        obtain ⟨⟨g1, g2⟩, g3, g4⟩ := (f2 x).1 hf
        constructor
        · intro e
          subst e
          refine ⟨of_decide_eq_true g3, fun l hl0 hl1 => ?_⟩
          have := g4 l hl0 hl1
          simpa using this
        · rintro ⟨h, hall⟩
          by_contra hne
          rcases lt_or_gt_of_ne hne with hlt | hgt
          · exact hall x g1 hlt (of_decide_eq_true g3)
          · have := g4 lev h0 hgt
            simp only [decide_eq_false_iff_not] at this
            exact this h
  have hC : (∀ i j, 0 ≤ i → i < j → j ≤ m.max_level → m.domain i ≠ m.domain j) →
      ∀ lev, 0 ≤ lev → lev ≤ m.max_level → GetLevel m (cellBox (m.domain lev)) = lev := by
    intro hdist lev h0 h1
    rw [(key (cellBox (m.domain lev))).2 lev h0 h1, enclosedCells_cellBox]
    exact ⟨rfl, fun l hl0 hl1 => hdist l lev hl0 hl1 h1⟩
  exact ⟨(key b).1, (key b).2, hC, fun r hok href => hC (domains_distinct m r hok href)⟩

/-- Witness of C20: the three domains of `lineMesh`, each the refinement of the previous
one by 2. -/
theorem GetLevel_spec_witness :
    (lineMesh.domain 0).ok ∧
    (∀ i, (0 : Int) ≤ i → i < lineMesh.max_level →
      lineMesh.domain (i + 1) = (lineMesh.domain i).refine (lineMesh.ref_ratio i) ∧
      (∀ d, 1 ≤ lineMesh.ref_ratio i d) ∧ ∃ d, 2 ≤ lineMesh.ref_ratio i d) ∧
    GetLevel lineMesh (cellBox (lineMesh.domain 1)) = 1 ∧
    GetLevel lineMesh (cellBox (lineMesh.domain 2)) = 2 := by
  have href : ∀ i, (0 : Int) ≤ i → i < lineMesh.max_level →
      lineMesh.domain (i + 1) = (lineMesh.domain i).refine (lineMesh.ref_ratio i) ∧
      (∀ d, 1 ≤ lineMesh.ref_ratio i d) ∧ ∃ d, 2 ≤ lineMesh.ref_ratio i d := by
    intro i h0 h1
    have hm : lineMesh.max_level = 2 := rfl
    rw [hm] at h1
    have hi : i = 0 ∨ i = 1 := by omega
    rcases hi with e | e <;> subst e <;> decide
  exact ⟨by decide, href,
    (GetLevel_spec lineMesh (cellBox (lineMesh.domain 1))).2.2.2 lineMesh.ref_ratio
      (by decide) href 1 (by decide) (by decide),
    (GetLevel_spec lineMesh (cellBox (lineMesh.domain 2))).2.2.2 lineMesh.ref_ratio
      (by decide) href 2 (by decide) (by decide)⟩

/-- The level domains that `InitAmrMesh` sets: `Box(0, n_cell - 1)` at level 0, and each
finer domain the refinement of the previous one by `ref_ratio`. -/
theorem InitAmrMesh_domains (m0 : AmrMesh D) (pp : AmrParams D) (max_level_in : Int)
    (n_cell_in : List Int) (a_refrat : List (IntVect D)) (is_per : Fin D → Int)
    (prob_volume_pos check_input0 : Bool) (m : AmrMesh D)
    (h : InitAmrMesh m0 pp max_level_in n_cell_in a_refrat is_per prob_volume_pos check_input0
      = Except.ok m) :
    (∀ d, (m.domain 0).smallEnd d = 0) ∧
    ∀ i, 0 ≤ i → m.domain (i + 1) = (m.domain i).refine (m.ref_ratio i) := by
  unfold InitAmrMesh at h
  split at h
  · cases h
  · simp only [] at h
    split at h
    · cases h
    · split at h
      · cases h
      · split at h
        · cases h
        · split at h
          · cases h
          · simp only [Except.ok.injEq] at h
            subst h
            refine ⟨fun d => rfl, fun i hi => ?_⟩
            simp only []
            have e : (i + 1).toNat = i.toNat + 1 := by omega
            rw [e]
            simp only [levelDomain]
            have e2 : ((i.toNat : Nat) : Int) = i := by omega
            rw [e2]

end amrex

namespace amrex
variable {D : Nat} {T C DM : Type}

/-! ### The setters and the commit of a level -/

theorem exists_of_outcomeHas {α : Type} (o : Outcome α) (P : α → Bool)
    (h : outcomeHas o P = true) : ∃ a, o = Outcome.done a ∧ P a = true := by
  match o, h with
  | Outcome.done a, h => exact ⟨a, rfl, h⟩

/-- What the setter calls of a callback do to the mesh object: the configuration is
untouched, the counters do not decrease, each counter grows when a call of its setter is
made, and every setter event that is added to the record is one of the callback. -/
theorem applyCalls_spec [DecidableEq DM] (calls : List (SetterCall D DM))
    (s : MeshState D DM) :
    (applyCalls s calls).mesh.max_level = s.mesh.max_level ∧
    (applyCalls s calls).mesh.finest_level = s.mesh.finest_level ∧
    s.num_setdm ≤ (applyCalls s calls).num_setdm ∧
    s.num_setba ≤ (applyCalls s calls).num_setba ∧
    ((∃ lev dm, SetterCall.distributionMap lev dm ∈ calls) →
      s.num_setdm < (applyCalls s calls).num_setdm) ∧
    ((∃ lev ba, SetterCall.boxArray lev ba ∈ calls) →
      s.num_setba < (applyCalls s calls).num_setba) ∧
    (∀ lev, DriverEvent.setDistributionMap true lev ∈ (applyCalls s calls).log →
      DriverEvent.setDistributionMap true lev ∈ s.log) ∧
    (∀ lev, DriverEvent.setBoxArray true lev ∈ (applyCalls s calls).log →
      DriverEvent.setBoxArray true lev ∈ s.log) := by
  induction calls generalizing s with
  | nil =>
    simp only [applyCalls, le_refl, List.not_mem_nil, exists_false, false_implies, exists_const,
      imp_self, implies_true, and_self]
  | cons c rest ih =>
    cases c with
    | boxArray l ba =>
      obtain ⟨h1, h2, h3, h4, h5, h6, h7, h8⟩ := ih (SetBoxArray s false l ba)
      simp only [applyCalls]
      have e1 : (SetBoxArray s false l ba).num_setba = s.num_setba + 1 := rfl
      have e2 : (SetBoxArray s false l ba).num_setdm = s.num_setdm := rfl
      have e3 : (SetBoxArray s false l ba).log = DriverEvent.setBoxArray false l :: s.log := rfl
      rw [e3] at h7 h8
      refine ⟨h1, h2, by omega, by omega, ?_, fun _ => by omega, ?_, ?_⟩
      · rintro ⟨lev, dm, hmem⟩
        have := h5 (by
          rcases List.mem_cons.1 hmem with e | e
          · cases e
          · exact ⟨lev, dm, e⟩)
        omega
      · intro lev hl
        have := h7 lev hl
        simpa using this
      · intro lev hl
        have := h8 lev hl
        simpa using this
    | distributionMap l dm =>
      obtain ⟨h1, h2, h3, h4, h5, h6, h7, h8⟩ := ih (SetDistributionMap s false l dm)
      simp only [applyCalls]
      have e1 : (SetDistributionMap s false l dm).num_setdm = s.num_setdm + 1 := rfl
      have e2 : (SetDistributionMap s false l dm).num_setba = s.num_setba := rfl
      have e3 : (SetDistributionMap s false l dm).log
          = DriverEvent.setDistributionMap false l :: s.log := rfl
      rw [e3] at h7 h8
      refine ⟨h1, h2, by omega, by omega, fun _ => by omega, ?_, ?_, ?_⟩
      · rintro ⟨lev, ba, hmem⟩
        have := h6 (by
          rcases List.mem_cons.1 hmem with e | e
          · cases e
          · exact ⟨lev, ba, e⟩)
        omega
      · intro lev hl
        have := h7 lev hl
        simpa using this
      · intro lev hl
        have := h8 lev hl
        simpa using this

theorem runFromScratch_spec [DecidableEq DM] (cb : Callbacks D DM) (s : MeshState D DM)
    (lev : Int) (time : ℚ) (ba : BoxList D) (dm : DM) :
    (runFromScratch cb s lev time ba dm).mesh.max_level = s.mesh.max_level ∧
    (runFromScratch cb s lev time ba dm).mesh.finest_level = s.mesh.finest_level := by
  unfold runFromScratch
  obtain ⟨h1, h2, -⟩ := applyCalls_spec (cb.MakeNewLevelFromScratch s lev time ba dm)
    { s with log := DriverEvent.fromScratch lev :: s.log }
  exact ⟨h1, h2⟩

/-- The commit of a level above 0 leaves `max_level` and `finest_level` alone and ends
with the driver's box array and distribution map at that level. -/
theorem commitLevel_spec [DecidableEq DM] (cb : Callbacks D DM) (s : MeshState D DM)
    (lev : Int) (time : ℚ) (ba : BoxList D) (dm : DM) :
    (commitLevel cb s lev time ba dm).mesh.max_level = s.mesh.max_level ∧
    (commitLevel cb s lev time ba dm).mesh.finest_level = s.mesh.finest_level ∧
    (commitLevel cb s lev time ba dm).mesh.grids lev = ba ∧
    (commitLevel cb s lev time ba dm).dmap lev = dm ∧
    DriverEvent.setBoxArray true lev ∈ (commitLevel cb s lev time ba dm).log ∧
    DriverEvent.setDistributionMap true lev ∈ (commitLevel cb s lev time ba dm).log := by
  obtain ⟨h1, h2⟩ := runFromScratch_spec cb s lev time ba dm
  unfold commitLevel SetDistributionMap SetBoxArray
  refine ⟨h1, h2, ?_, ?_, ?_, ?_⟩
  · simp only []
    split
    · rw [Function.update_same]
    · rename_i h; push_neg at h; exact h
  · simp only []
    split
    · rw [Function.update_same]
    · rename_i h; push_neg at h; exact h
  · simp
  · simp

set_option maxRecDepth 100000 in
/-- C19 fails as stated: on `lineMesh` the client `placingCallbacks 1 [7]` calls
`SetDistributionMap(1, [7])` when level 1 is made; the driver calls
`SetDistributionMap(1, ...)` again after the callback, and the run ends with its own map
`[0]` in `dmap[1]`, not with the placement `[7]` of the callback. -/
theorem callback_placement_overwritten :
    ∃ g, MakeNewGridsTime (refCollab lineEst 1) (placingCallbacks 1 [7]) true
        (freshState lineMesh) 0 10 5 = Outcome.done g ∧
      DriverEvent.setDistributionMap false 1 ∈ g.s.log ∧
      DriverEvent.setDistributionMap true 1 ∈ g.s.log ∧
      g.s.dmap 1 = [0] ∧ g.s.dmap 1 ≠ [7] := by
  obtain ⟨g, hg, hP⟩ := exists_of_outcomeHas
    (MakeNewGridsTime (refCollab lineEst 1) (placingCallbacks 1 [7]) true
      (freshState lineMesh) 0 10 5)
    (fun g => decide (DriverEvent.setDistributionMap false 1 ∈ g.s.log ∧
      DriverEvent.setDistributionMap true 1 ∈ g.s.log ∧
      g.s.dmap 1 = [0] ∧ g.s.dmap 1 ≠ [7])) (by decide!)
  exact ⟨g, hg, of_decide_eq_true hP⟩

/-- The two guarded setter calls that end the commit of level 0, on the object `s1` that
the callback has left: a setter that the callback has called (its counter has grown) is
not called again by the driver. -/
theorem guarded_setters [DecidableEq DM] (s s1 : MeshState D DM) (ba : BoxList D) (dm : DM)
    (hdm : s.num_setdm ≤ s1.num_setdm) (hba : s.num_setba ≤ s1.num_setba)
    (hld : ∀ lev, DriverEvent.setDistributionMap true lev ∈ s1.log →
      DriverEvent.setDistributionMap true lev ∈ s.log)
    (hlb : ∀ lev, DriverEvent.setBoxArray true lev ∈ s1.log →
      DriverEvent.setBoxArray true lev ∈ s.log)
    (s3 : MeshState D DM)
    (h3 : s3 = (if s.num_setdm =
        (if s.num_setba = s1.num_setba then SetBoxArray s1 true 0 ba else s1).num_setdm then
        SetDistributionMap (if s.num_setba = s1.num_setba then SetBoxArray s1 true 0 ba else s1)
          true 0 dm
      else (if s.num_setba = s1.num_setba then SetBoxArray s1 true 0 ba else s1))) :
    (s.num_setdm < s1.num_setdm → s3.dmap = s1.dmap ∧
      ∀ lev, DriverEvent.setDistributionMap true lev ∈ s3.log →
        DriverEvent.setDistributionMap true lev ∈ s.log) ∧
    (s.num_setba < s1.num_setba → s3.mesh.grids = s1.mesh.grids ∧
      ∀ lev, DriverEvent.setBoxArray true lev ∈ s3.log →
        DriverEvent.setBoxArray true lev ∈ s.log) := by
  have e1 : (SetBoxArray s1 true 0 ba).num_setdm = s1.num_setdm := rfl
  have e2 : (SetBoxArray s1 true 0 ba).dmap = s1.dmap := rfl
  have e3 : (SetBoxArray s1 true 0 ba).log = DriverEvent.setBoxArray true 0 :: s1.log := rfl
  have e4 : (SetDistributionMap s1 true 0 dm).mesh = s1.mesh := rfl
  have e5 : (SetDistributionMap s1 true 0 dm).log
      = DriverEvent.setDistributionMap true 0 :: s1.log := rfl
  constructor
  · intro hlt
    by_cases hb : s.num_setba = s1.num_setba
    · rw [if_pos hb, e1, if_neg (by omega)] at h3
      subst h3
      refine ⟨e2, fun lev hl => hld lev ?_⟩
      rw [e3] at hl
      simpa using hl
    · rw [if_neg hb, if_neg (by omega)] at h3
      subst h3
      exact ⟨rfl, hld⟩
  · intro hlt
    have hb : ¬ s.num_setba = s1.num_setba := by omega
    simp only [if_neg hb] at h3
    by_cases hd : s.num_setdm = s1.num_setdm
    · rw [if_pos hd] at h3
      subst h3
      refine ⟨by rw [e4], fun lev hl => hlb lev ?_⟩
      rw [e5] at hl
      simpa using hl
    · rw [if_neg hd] at h3
      subst h3
      exact ⟨rfl, hlb⟩

/-- C19, amended: in `MakeNewGrids(time)`, when level 0 is committed and the
`MakeNewLevelFromScratch` callback has itself invoked `SetDistributionMap` (respectively
`SetBoxArray`), the driver does not invoke that setter again, so that `dmap`
(respectively `grids`) stays as the callback left it; for a level above 0 (a newly added
finer level, or a level made again in the stabilization loop) the driver invokes
`SetBoxArray` and `SetDistributionMap` after the callback whatever the callback did, so
that `grids[lev]` and `dmap[lev]` end as the driver's `new_grids[lev]` and
`new_dmap[lev]`. -/
theorem commit_setters [DecidableEq DM] (x : Collab D T C) (cb : Callbacks D DM)
    (s0 : MeshState D DM) (time : ℚ) (s : MeshState D DM)
    (h : commitBase x cb s0 time = some s) :
    (∃ ba, MakeBaseGrids x cb { s0.mesh with finest_level := 0 } = some ba ∧
      ((∃ lev dm, SetterCall.distributionMap lev dm ∈ cb.MakeNewLevelFromScratch
          { s0 with mesh := { s0.mesh with finest_level := 0 } } 0 time ba (cb.makeDM ba)) →
        s.dmap = (runFromScratch cb { s0 with mesh := { s0.mesh with finest_level := 0 } }
          0 time ba (cb.makeDM ba)).dmap ∧
        ∀ lev, DriverEvent.setDistributionMap true lev ∈ s.log →
          DriverEvent.setDistributionMap true lev ∈ s0.log) ∧
      ((∃ lev b, SetterCall.boxArray lev b ∈ cb.MakeNewLevelFromScratch
          { s0 with mesh := { s0.mesh with finest_level := 0 } } 0 time ba (cb.makeDM ba)) →
        s.mesh.grids = (runFromScratch cb { s0 with mesh := { s0.mesh with finest_level := 0 } }
          0 time ba (cb.makeDM ba)).mesh.grids ∧
        ∀ lev, DriverEvent.setBoxArray true lev ∈ s.log →
          DriverEvent.setBoxArray true lev ∈ s0.log)) ∧
    (∀ (s' : MeshState D DM) (lev : Int) (ba : BoxList D) (dm : DM),
      (commitLevel cb s' lev time ba dm).mesh.grids lev = ba ∧
      (commitLevel cb s' lev time ba dm).dmap lev = dm ∧
      DriverEvent.setBoxArray true lev ∈ (commitLevel cb s' lev time ba dm).log ∧
      DriverEvent.setDistributionMap true lev ∈ (commitLevel cb s' lev time ba dm).log) := by
  refine ⟨?_, fun s' lev ba dm => (commitLevel_spec cb s' lev time ba dm).2.2⟩
  cases hb : MakeBaseGrids x cb { s0.mesh with finest_level := 0 } with
  | none =>
    have h' : (none : Option (MeshState D DM)) = some s := by
      rw [← h]; unfold commitBase; simp only []; rw [hb]
    cases h'
  | some ba =>
    obtain ⟨sb, hsb⟩ : ∃ sb : MeshState D DM,
        sb = { s0 with mesh := { s0.mesh with finest_level := 0 } } := ⟨_, rfl⟩
    obtain ⟨calls, hcalls⟩ : ∃ calls,
        calls = cb.MakeNewLevelFromScratch sb 0 time ba (cb.makeDM ba) := ⟨_, rfl⟩
    obtain ⟨-, -, g3, g4, g5, g6, g7, g8⟩ := applyCalls_spec calls
      { sb with log := DriverEvent.fromScratch 0 :: sb.log }
    have hr : runFromScratch cb sb 0 time ba (cb.makeDM ba)
        = applyCalls { sb with log := DriverEvent.fromScratch 0 :: sb.log } calls := by
      rw [hcalls]; rfl
    rw [← hr] at g3 g4 g5 g6 g7 g8
    have k1 : ({ sb with log := DriverEvent.fromScratch 0 :: sb.log } : MeshState D DM).num_setdm
        = sb.num_setdm := rfl
    have k2 : ({ sb with log := DriverEvent.fromScratch 0 :: sb.log } : MeshState D DM).num_setba
        = sb.num_setba := rfl
    have k3 : ({ sb with log := DriverEvent.fromScratch 0 :: sb.log } : MeshState D DM).log
        = DriverEvent.fromScratch 0 :: sb.log := rfl
    rw [k1] at g3 g5
    rw [k2] at g4 g6
    rw [k3] at g7 g8
    have hs : s = (if sb.num_setdm =
        (if sb.num_setba = (runFromScratch cb sb 0 time ba (cb.makeDM ba)).num_setba then
          SetBoxArray (runFromScratch cb sb 0 time ba (cb.makeDM ba)) true 0 ba
          else runFromScratch cb sb 0 time ba (cb.makeDM ba)).num_setdm then
        SetDistributionMap
          (if sb.num_setba = (runFromScratch cb sb 0 time ba (cb.makeDM ba)).num_setba then
            SetBoxArray (runFromScratch cb sb 0 time ba (cb.makeDM ba)) true 0 ba
            else runFromScratch cb sb 0 time ba (cb.makeDM ba)) true 0 (cb.makeDM ba)
      else (if sb.num_setba = (runFromScratch cb sb 0 time ba (cb.makeDM ba)).num_setba then
          SetBoxArray (runFromScratch cb sb 0 time ba (cb.makeDM ba)) true 0 ba
          else runFromScratch cb sb 0 time ba (cb.makeDM ba))) := by
      rw [hsb]
      apply Option.some.inj
      rw [← h]; unfold commitBase; simp only []; rw [hb]
    have hlog : sb.log = s0.log := by rw [hsb]
    obtain ⟨p1, p2⟩ := guarded_setters sb (runFromScratch cb sb 0 time ba (cb.makeDM ba)) ba
      (cb.makeDM ba) g3 g4
      (fun lev hl => by have := g7 lev hl; simpa using this)
      (fun lev hl => by have := g8 lev hl; simpa using this) s hs
    rw [hlog] at p1 p2
    subst hcalls
    subst hsb
    exact ⟨ba, rfl, fun hc => p1 (g5 hc), fun hc => p2 (g6 hc)⟩

set_option maxRecDepth 100000 in
theorem commit_setters_witness :
    ∃ s, commitBase (refCollab lineEst 1) (placingCallbacks 0 [7, 7]) (freshState unitMesh) 0
        = some s ∧
      s.dmap 0 = [7, 7] ∧ ∀ lev, DriverEvent.setDistributionMap true lev ∉ s.log := by
  obtain ⟨s, hs⟩ := Option.isSome_iff_exists.1
    (by decide! : (commitBase (refCollab lineEst 1) (placingCallbacks 0 [7, 7])
      (freshState unitMesh) 0).isSome = true)
  obtain ⟨⟨ba, -, p1, -⟩, -⟩ := commit_setters (refCollab lineEst 1)
    (placingCallbacks 0 [7, 7]) (freshState unitMesh) 0 s hs
  obtain ⟨q1, q2⟩ := p1 ⟨0, [7, 7], by simp [placingCallbacks]⟩
  refine ⟨s, hs, ?_, fun lev hl => ?_⟩
  · rw [q1]
    simp [runFromScratch, placingCallbacks, applyCalls, SetDistributionMap, freshState]
  · have := q2 lev hl
    simp [freshState] at this

end amrex

namespace amrex
variable {D : Nat} {T C DM : Type}

/-! ### The nested calls of the growth loop return -/

theorem levelsDown_self (l : Int) : levelsDown l l = [l] := by
  have h : (l + 1 - l).toNat = 1 := by
    have : l + 1 - l = 1 := by omega
    rw [this]; rfl
  simp [levelsDown, h, List.range_succ]

/-- A pass of the level loop that has no finer level to project does not depend on the
fuel, and it ends. -/
theorem levelStep_fuel (x : Collab D T C) (m : AmrMesh D) (lbase : Int) (time : ℚ)
    (fuel : Nat) (st : GridState D) (levc : Int) (h : ¬ levc + 1 < st.new_finest) :
    levelStep x m lbase time fuel st levc = levelStep x m lbase time 0 st levc ∧
    ∃ r, levelStep x m lbase time 0 st levc = some r := by
  have hp : ∀ f, projectDown x m f st levc = some ([], m.n_error_buf levc) := by
    intro f
    unfold projectDown
    simp only []
    rw [if_neg h]
  rw [levelStep_eq x m lbase time fuel, levelStep_eq x m lbase time 0]
  rw [hp fuel, hp 0]
  refine ⟨rfl, ?_⟩
  simp only []
  cases tagLevel x m lbase time st.new_finest levc [] (m.n_error_buf levc) with
  | error e => exact ⟨_, rfl⟩
  | ok r => exact ⟨_, rfl⟩

theorem growUntilContains_empty (fuel : Nat) (ba : BoxList D) (n : Int) :
    growUntilContains fuel ([] : BoxList D) ba n = none := by
  induction fuel generalizing n with
  | zero => rfl
  | succ k ih =>
    unfold growUntilContains
    have h1 : BoxList.containsList ([] : BoxList D) ba = false := rfl
    have h2 : BoxList.grow ([] : BoxList D) 1 = [] := rfl
    rw [h1, h2]
    simp only [Bool.false_eq_true, if_false]
    exact ih (n + 1)

/-- A pass of the level loop that has ended without fuel ends in the same way with any
fuel. -/
theorem levelStep_of_zero (x : Collab D T C) (m : AmrMesh D) (lbase : Int) (time : ℚ)
    (st : GridState D) (levc : Int) (r : Except String (GridState D))
    (h : levelStep x m lbase time 0 st levc = some r) (fuel : Nat) :
    levelStep x m lbase time fuel st levc = some r := by
  by_cases hc : levc + 1 < st.new_finest
  · exfalso
    rw [levelStep_eq] at h
    unfold projectDown at h
    simp only [] at h
    rw [if_pos hc] at h
    simp only [growUntilContains] at h
    cases h
  · rw [(levelStep_fuel x m lbase time fuel st levc hc).1]; exact h

/-- A call of `MakeNewGrids(lbase, ...)` with `lbase = max_crse` (as the calls of the growth
loop are) returns or aborts, in the same way whatever the fuel. -/
theorem MakeNewGrids_top_level (x : Collab D T C) (m : AmrMesh D) (lbase : Int) (time : ℚ)
    (new_grids : Int → BoxList D) (hl : max_crse m = lbase) :
    ∃ r, ∀ fuel, MakeNewGrids x m lbase time new_grids fuel = some r := by
  have hinit : ¬ lbase + 1 < ({ new_finest := lbase, new_grids := new_grids, trace := [] } :
      GridState D).new_finest := by
    simp only []; omega
  obtain ⟨r0, hr0⟩ := (levelStep_fuel x m lbase time 0
    { new_finest := lbase, new_grids := new_grids, trace := [] } lbase hinit).2
  have hstep : ∀ fuel, levelStep x m lbase time fuel
      { new_finest := lbase, new_grids := new_grids, trace := [] } lbase = some r0 :=
    fun fuel => levelStep_of_zero x m lbase time _ lbase r0 hr0 fuel
  have hafter : ∀ fuel, afterLevels x m lbase time new_grids fuel = some r0 := by
    intro fuel
    unfold afterLevels
    rw [hl, levelsDown_self]
    unfold levelLoop
    rw [hstep fuel]
    cases r0 with
    | error e => rfl
    | ok st1 => simp only [levelLoop]
  cases r0 with
  | error e =>
    refine ⟨Except.error e, fun fuel => ?_⟩
    unfold MakeNewGrids
    rw [hafter fuel]
  | ok st1 =>
    rcases finalLoop_spec x m (levelsUp (lbase + 1) (st1.new_finest + 1))
      (levelsUp_nodup _ _) st1 with ⟨h1, -⟩ | ⟨⟨st2, h1⟩, -⟩
    · refine ⟨Except.error "AmrMesh::MakeNewGrids: how did this happen?", fun fuel => ?_⟩
      unfold MakeNewGrids
      rw [hafter fuel]
      exact h1
    · refine ⟨Except.ok st2, fun fuel => ?_⟩
      unfold MakeNewGrids
      rw [hafter fuel]
      exact h1

/-- The `new_finest` that a call of `MakeNewGrids(lbase, ...)` returns. -/
theorem MakeNewGrids_new_finest_le (x : Collab D T C) (m : AmrMesh D) (lbase : Int)
    (time : ℚ) (new_grids : Int → BoxList D) (fuel : Nat) (st : GridState D)
    (h : MakeNewGrids x m lbase time new_grids fuel = some (Except.ok st)) :
    lbase ≤ st.new_finest ∧ st.new_finest ≤ max lbase (max_crse m + 1) := by
  obtain ⟨st0, ha, hf⟩ := MakeNewGrids_ok x m lbase time new_grids fuel st h
  unfold afterLevels at ha
  have h1 := levelLoop_new_finest x m lbase time fuel (max_crse m)
    (levelsDown (max_crse m) lbase) (fun l hl => ((mem_levelsDown _ _ _).1 hl).2) _ st0 ha
  have h2 := (finalLoop_new_finest x m _ st0 st hf).1
  simp only [] at h1
  omega

theorem MakeNewGridsDM_top_level (x : Collab D T C) (cb : Callbacks D DM) (m : AmrMesh D)
    (lbase : Int) (time : ℚ) (new_grids : Int → BoxList D) (new_dmap : Int → DM)
    (hl : max_crse m = lbase) :
    (∃ e, ∀ fuel, MakeNewGridsDM x cb m lbase time new_grids new_dmap fuel
        = some (Except.error e)) ∨
    (∃ r, (∀ fuel, MakeNewGridsDM x cb m lbase time new_grids new_dmap fuel
        = some (Except.ok r)) ∧ lbase ≤ r.1 ∧ r.1 ≤ lbase + 1) := by
  obtain ⟨r, hr⟩ := MakeNewGrids_top_level x m lbase time new_grids hl
  cases r with
  | error e =>
    left
    refine ⟨e, fun fuel => ?_⟩
    unfold MakeNewGridsDM
    rw [hr fuel]
  | ok st =>
    right
    have hb := MakeNewGrids_new_finest_le x m lbase time new_grids 0 st (hr 0)
    refine ⟨(st.new_finest, st.new_grids,
      (levelsUp (lbase + 1) (st.new_finest + 1)).foldl
        (fun nd lev => Function.update nd lev (cb.makeDM (st.new_grids lev))) new_dmap),
      fun fuel => ?_, ?_, ?_⟩
    · unfold MakeNewGridsDM
      rw [hr fuel]
    · exact hb.1
    · have := hb.2
      rw [hl] at this
      simp only []
      omega

/-! ### The growth loop -/

theorem growLoop_abort [DecidableEq DM] (x : Collab D T C) (cb : Callbacks D DM) (time : ℚ)
    (fuel k : Nat) (g : DriverState D DM) (e : String)
    (h : MakeNewGridsDM x cb g.s.mesh g.s.mesh.finest_level time g.new_grids g.new_dmap fuel
      = some (Except.error e)) :
    growLoop x cb time fuel (k + 1) g = Outcome.abort e := by
  conv_lhs => unfold growLoop
  rw [h]

theorem growLoop_ok [DecidableEq DM] (x : Collab D T C) (cb : Callbacks D DM) (time : ℚ)
    (fuel k : Nat) (g : DriverState D DM) (new_finest : Int) (new_grids : Int → BoxList D)
    (new_dmap : Int → DM)
    (h : MakeNewGridsDM x cb g.s.mesh g.s.mesh.finest_level time g.new_grids g.new_dmap fuel
      = some (Except.ok (new_finest, new_grids, new_dmap))) :
    growLoop x cb time fuel (k + 1) g =
      if new_finest ≤ g.s.mesh.finest_level then
        Outcome.done { g with new_grids := new_grids, new_dmap := new_dmap,
                              grow_passes := g.grow_passes + 1 }
      else if (commitLevel cb { g.s with mesh := { g.s.mesh with finest_level := new_finest } }
          new_finest time (new_grids new_finest) (new_dmap new_finest)).mesh.finest_level <
          (commitLevel cb { g.s with mesh := { g.s.mesh with finest_level := new_finest } }
          new_finest time (new_grids new_finest) (new_dmap new_finest)).mesh.max_level then
        growLoop x cb time fuel k
          { s := commitLevel cb
              { g.s with mesh := { g.s.mesh with finest_level := new_finest } } new_finest
              time (new_grids new_finest) (new_dmap new_finest)
            new_grids := new_grids
            new_dmap := new_dmap
            raised := (g.s.mesh.finest_level, new_finest) :: g.raised
            grow_passes := g.grow_passes + 1
            stab_passes := g.stab_passes }
      else Outcome.done
          { s := commitLevel cb
              { g.s with mesh := { g.s.mesh with finest_level := new_finest } } new_finest
              time (new_grids new_finest) (new_dmap new_finest)
            new_grids := new_grids
            new_dmap := new_dmap
            raised := (g.s.mesh.finest_level, new_finest) :: g.raised
            grow_passes := g.grow_passes + 1
            stab_passes := g.stab_passes } := by
  conv_lhs => unfold growLoop
  rw [h]

/-- The growth loop, entered with `finest_level < max_level` and allowed as many passes as
there are levels left: it ends, by a return or an abort, after at most that many passes,
each pass that has not ended it has raised `finest_level` by one, and its course does not
depend on the fuel of the nested calls. -/
theorem growLoop_spec [DecidableEq DM] (x : Collab D T C) (cb : Callbacks D DM) (time : ℚ) :
    ∀ (n : Nat) (g : DriverState D DM),
    g.s.mesh.finest_level < g.s.mesh.max_level →
    (∀ fuel, growLoop x cb time fuel n g = growLoop x cb time 0 n g) ∧
    ((g.s.mesh.max_level - g.s.mesh.finest_level).toNat ≤ n →
      (∃ e, growLoop x cb time 0 n g = Outcome.abort e) ∨
      (∃ g', growLoop x cb time 0 n g = Outcome.done g' ∧
        g'.grow_passes ≤ g.grow_passes + (g.s.mesh.max_level - g.s.mesh.finest_level).toNat ∧
        (∃ added, g'.raised = added ++ g.raised ∧ (∀ p ∈ added, p.2 = p.1 + 1) ∧
          g'.grow_passes ≤ g.grow_passes + added.length + 1) ∧
        g'.stab_passes = g.stab_passes ∧ g'.s.mesh.max_level = g.s.mesh.max_level)) := by
  intro n
  induction n with
  | zero =>
    intro g hlt
    refine ⟨fun fuel => rfl, fun hn => ?_⟩
    exfalso
    have : 0 < (g.s.mesh.max_level - g.s.mesh.finest_level).toNat := by
      rw [Int.lt_toNat]; simp only [Nat.cast_zero]; omega
    omega
  | succ k ih =>
    intro g hlt
    have hmc : max_crse g.s.mesh = g.s.mesh.finest_level := by
      unfold max_crse; omega
    have hpos : 0 < (g.s.mesh.max_level - g.s.mesh.finest_level).toNat := by
      rw [Int.lt_toNat]; simp only [Nat.cast_zero]; omega
    rcases MakeNewGridsDM_top_level x cb g.s.mesh g.s.mesh.finest_level time g.new_grids
      g.new_dmap hmc with ⟨e, he⟩ | ⟨r, hr, hb1, hb2⟩
    · refine ⟨fun fuel => ?_, fun _ => Or.inl ⟨e, ?_⟩⟩
      · rw [growLoop_abort x cb time fuel k g e (he fuel),
          growLoop_abort x cb time 0 k g e (he 0)]
      · exact growLoop_abort x cb time 0 k g e (he 0)
    · obtain ⟨new_finest, new_grids, new_dmap⟩ := r
      simp only [] at hb1 hb2
      have hstep := fun fuel => growLoop_ok x cb time fuel k g new_finest new_grids new_dmap
        (hr fuel)
      by_cases hle : new_finest ≤ g.s.mesh.finest_level
      · simp only [if_pos hle] at hstep
        refine ⟨fun fuel => ?_, fun _ => Or.inr ⟨_, hstep 0, ?_, ⟨[], rfl, ?_, ?_⟩, rfl, rfl⟩⟩
        · rw [hstep fuel, hstep 0]
        · simp only []
          omega
        · intro p hp; cases hp
        · simp only [List.length_nil]; omega
      · have hnf : new_finest = g.s.mesh.finest_level + 1 := by omega
        obtain ⟨c1, c2, -⟩ := commitLevel_spec cb
          { g.s with mesh := { g.s.mesh with finest_level := new_finest } } new_finest time
          (new_grids new_finest) (new_dmap new_finest)
        have c1' : (commitLevel cb
            { g.s with mesh := { g.s.mesh with finest_level := new_finest } } new_finest time
            (new_grids new_finest) (new_dmap new_finest)).mesh.max_level
              = g.s.mesh.max_level := c1
        have c2' : (commitLevel cb
            { g.s with mesh := { g.s.mesh with finest_level := new_finest } } new_finest time
            (new_grids new_finest) (new_dmap new_finest)).mesh.finest_level
              = new_finest := c2
        simp only [if_neg hle, c1', c2'] at hstep
        by_cases hcont : new_finest < g.s.mesh.max_level
        · simp only [if_pos hcont] at hstep
          obtain ⟨i1, i2⟩ := ih
            { s := commitLevel cb
                { g.s with mesh := { g.s.mesh with finest_level := new_finest } } new_finest
                time (new_grids new_finest) (new_dmap new_finest)
              new_grids := new_grids
              new_dmap := new_dmap
              raised := (g.s.mesh.finest_level, new_finest) :: g.raised
              grow_passes := g.grow_passes + 1
              stab_passes := g.stab_passes }
            (by show _ < _; rw [c1', c2']; exact hcont)
          have h1 : ((g.s.mesh.max_level - new_finest).toNat : Int)
              = g.s.mesh.max_level - new_finest := Int.toNat_of_nonneg (by omega)
          have h2 : ((g.s.mesh.max_level - g.s.mesh.finest_level).toNat : Int)
              = g.s.mesh.max_level - g.s.mesh.finest_level :=
            Int.toNat_of_nonneg (by omega)
          refine ⟨fun fuel => ?_, fun hn => ?_⟩
          · rw [hstep fuel, hstep 0]; exact i1 fuel
          · rw [hstep 0]
            have i2' := i2
            simp only [c1', c2'] at i2'
            rcases i2' (by omega) with ⟨e, he⟩ | ⟨g', hg', p1, ⟨added, a1, a2, a3⟩, p3, p4⟩
            · exact Or.inl ⟨e, he⟩
            · refine Or.inr ⟨g', hg', ?_, ⟨added ++ [(g.s.mesh.finest_level, new_finest)],
                ?_, ?_, ?_⟩, p3, p4⟩
              · omega
              · rw [a1]; simp
              · intro p hp
                rcases List.mem_append.1 hp with hp | hp
                · exact a2 p hp
                · simp only [List.mem_singleton] at hp
                  subst hp
                  exact hnf
              · simp only [List.length_append, List.length_singleton]
                omega
        · simp only [if_neg hcont] at hstep
          refine ⟨fun fuel => ?_, fun hn => Or.inr ⟨_, hstep 0, ?_,
            ⟨[(g.s.mesh.finest_level, new_finest)], rfl, ?_, ?_⟩, rfl, c1'⟩⟩
          · rw [hstep fuel, hstep 0]
          · simp only []
            omega
          · intro p hp
            simp only [List.mem_singleton] at hp
            subst hp
            exact hnf
          · simp only [List.length_singleton]; omega

end amrex

namespace amrex
variable {D : Nat} {T C DM : Type}

/-! ### The stabilization loop and the driver -/

/-- One pass of the stabilization loop: the nested call has not returned, or it has
aborted, or the pass has ended the loop, or the loop goes on with the next pass. -/
theorem stabLoop_cases [DecidableEq DM] (x : Collab D T C) (cb : Callbacks D DM) (time : ℚ)
    (fuel k : Nat) (g : DriverState D DM) :
    (stabLoop x cb time fuel (k + 1) g = Outcome.stuck ∧
      MakeNewGridsDM x cb g.s.mesh 0 time
        (fun i => if 1 ≤ i ∧ i ≤ g.s.mesh.finest_level then g.s.mesh.grids i
          else g.new_grids i)
        (fun i => if 1 ≤ i ∧ i ≤ g.s.mesh.finest_level then g.s.dmap i else g.new_dmap i)
        fuel = none) ∨
    (∃ e, stabLoop x cb time fuel (k + 1) g = Outcome.abort e) ∨
    (∃ g1, stabLoop x cb time fuel (k + 1) g = Outcome.done g1 ∧
      g1.stab_passes = g.stab_passes + 1 ∧ g1.grow_passes = g.grow_passes ∧
      g1.raised = g.raised) ∨
    (∃ g2, stabLoop x cb time fuel (k + 1) g = stabLoop x cb time fuel k g2 ∧
      g2.stab_passes = g.stab_passes + 1 ∧ g2.grow_passes = g.grow_passes ∧
      g2.raised = g.raised) := by
  have h : ∀ o, o = stabLoop x cb time fuel (k + 1) g →
      (o = Outcome.stuck ∧
        MakeNewGridsDM x cb g.s.mesh 0 time
          (fun i => if 1 ≤ i ∧ i ≤ g.s.mesh.finest_level then g.s.mesh.grids i
            else g.new_grids i)
          (fun i => if 1 ≤ i ∧ i ≤ g.s.mesh.finest_level then g.s.dmap i else g.new_dmap i)
          fuel = none) ∨
      (∃ e, o = Outcome.abort e) ∨
      (∃ g1, o = Outcome.done g1 ∧
        g1.stab_passes = g.stab_passes + 1 ∧ g1.grow_passes = g.grow_passes ∧
        g1.raised = g.raised) ∨
      (∃ g2, o = stabLoop x cb time fuel k g2 ∧
        g2.stab_passes = g.stab_passes + 1 ∧ g2.grow_passes = g.grow_passes ∧
        g2.raised = g.raised) := by
    intro o ho
    unfold stabLoop at ho
    simp only [] at ho
    split at ho
    · rename_i hnone
      exact Or.inl ⟨ho, hnone⟩
    · exact Or.inr (Or.inl ⟨_, ho⟩)
    · split at ho
      · exact Or.inr (Or.inr (Or.inl ⟨_, ho, rfl, rfl, rfl⟩))
      · split at ho
        · exact Or.inr (Or.inr (Or.inl ⟨_, ho, rfl, rfl, rfl⟩))
        · exact Or.inr (Or.inr (Or.inr ⟨_, ho, rfl, rfl, rfl⟩))
  exact h _ rfl

/-- The stabilization loop makes at most as many passes as it is allowed, and leaves the
record of the growth loop alone. -/
theorem stabLoop_spec [DecidableEq DM] (x : Collab D T C) (cb : Callbacks D DM) (time : ℚ)
    (fuel : Nat) : ∀ (left : Nat) (g : DriverState D DM),
    stabLoop x cb time fuel left g ≠ Outcome.unfinished ∧
    ∀ g', stabLoop x cb time fuel left g = Outcome.done g' →
      g'.stab_passes ≤ g.stab_passes + left ∧ g'.grow_passes = g.grow_passes ∧
      g'.raised = g.raised := by
  intro left
  induction left with
  | zero =>
    intro g
    refine ⟨by simp [stabLoop], fun g' h => ?_⟩
    simp only [stabLoop, Outcome.done.injEq] at h
    subst h
    exact ⟨by omega, rfl, rfl⟩
  | succ k ih =>
    intro g
    rcases stabLoop_cases x cb time fuel k g with ⟨h, -⟩ | ⟨e, h⟩ | ⟨g1, h, a1, a2, a3⟩ |
      ⟨g2, h, a1, a2, a3⟩
    · rw [h]
      exact ⟨by simp, fun g' hg => by cases hg⟩
    · rw [h]
      exact ⟨by simp, fun g' hg => by cases hg⟩
    · rw [h]
      refine ⟨by simp, fun g' hg => ?_⟩
      simp only [Outcome.done.injEq] at hg
      subst hg
      exact ⟨by omega, a2, a3⟩
    · rw [h]
      obtain ⟨i1, i2⟩ := ih g2
      refine ⟨i1, fun g' hg => ?_⟩
      obtain ⟨b1, b2, b3⟩ := i2 g' hg
      exact ⟨by omega, b2.trans a2, b3.trans a3⟩

theorem MakeBaseGrids_total (x : Collab D T C) (cb : Callbacks D DM) (m : AmrMesh D) :
    ∃ ba, MakeBaseGrids x cb m = some ba := by
  unfold MakeBaseGrids
  simp only []
  by_cases h : m.refine_grid_layout = true
  · obtain ⟨ba1, h1⟩ := ChopGrids_total x.maxSize m 0 (baseBoxes x m) x.NProcs
    rw [if_pos h, h1]
    exact ⟨_, rfl⟩
  · rw [if_neg h]
    exact ⟨_, rfl⟩

/-- The commit of level 0 always ends: it leaves `max_level` alone and sets
`finest_level` to 0. -/
theorem commitBase_spec [DecidableEq DM] (x : Collab D T C) (cb : Callbacks D DM)
    (s0 : MeshState D DM) (time : ℚ) :
    ∃ s, commitBase x cb s0 time = some s ∧ s.mesh.max_level = s0.mesh.max_level ∧
      s.mesh.finest_level = 0 := by
  have hb := MakeBaseGrids_total x cb { s0.mesh with finest_level := 0 }
  obtain ⟨ba, hba⟩ := hb
  obtain ⟨r1, r2⟩ := runFromScratch_spec cb
    { s0 with mesh := { s0.mesh with finest_level := 0 } } 0 time ba (cb.makeDM ba)
  unfold commitBase
  simp only []
  rw [hba]
  simp only []
  refine ⟨_, rfl, ?_, ?_⟩
  · split <;> split <;> exact r1
  · split <;> split <;> exact r2

theorem MakeNewGridsTime_eq [DecidableEq DM] (x : Collab D T C) (cb : Callbacks D DM)
    (iterate_on_new_grids : Bool) (s0 s : MeshState D DM) (time : ℚ) (fuel passes : Nat)
    (hs : commitBase x cb s0 time = some s) :
    MakeNewGridsTime x cb iterate_on_new_grids s0 time fuel passes =
      if s.mesh.max_level > 0 then
        match growLoop x cb time fuel passes (driverStart cb s) with
        | Outcome.done g => if iterate_on_new_grids then stabLoop x cb time fuel 4 g
            else Outcome.done g
        | other => other
      else Outcome.done (driverStart cb s) := by
  unfold MakeNewGridsTime
  rw [hs]
  all_goals rfl

/-- The run of the driver with the stabilization loop on, in terms of the run with the
loop off; the run with the loop off does not depend on the fuel. -/
theorem MakeNewGridsTime_iterate [DecidableEq DM] (x : Collab D T C) (cb : Callbacks D DM)
    (s0 : MeshState D DM) (time : ℚ) (fuel passes : Nat) :
    MakeNewGridsTime x cb true s0 time fuel passes =
      (match MakeNewGridsTime x cb false s0 time fuel passes with
      | Outcome.done g =>
        if s0.mesh.max_level > 0 then stabLoop x cb time fuel 4 g else Outcome.done g
      | other => other) ∧
    MakeNewGridsTime x cb false s0 time fuel passes
      = MakeNewGridsTime x cb false s0 time 0 passes := by
  obtain ⟨s, hs, hml, hfl⟩ := commitBase_spec x cb s0 time
  rw [MakeNewGridsTime_eq x cb true s0 s time fuel passes hs,
    MakeNewGridsTime_eq x cb false s0 s time fuel passes hs,
    MakeNewGridsTime_eq x cb false s0 s time 0 passes hs]
  by_cases hpos : s.mesh.max_level > 0
  · have hpos0 : s0.mesh.max_level > 0 := by rw [← hml]; exact hpos
    rw [if_pos hpos, if_pos hpos, if_pos hpos]
    have hlt : (driverStart cb s).s.mesh.finest_level < (driverStart cb s).s.mesh.max_level := by
      show s.mesh.finest_level < s.mesh.max_level
      omega
    obtain ⟨hf, -⟩ := growLoop_spec x cb time passes (driverStart cb s) hlt
    rw [hf fuel]
    refine ⟨?_, rfl⟩
    cases hg : growLoop x cb time 0 passes (driverStart cb s) with
    | done g => simp only [Bool.false_eq_true, if_true, if_false, if_pos hpos0]
    | abort e => rfl
    | stuck => rfl
    | unfinished => rfl
  · have hpos0 : ¬ s0.mesh.max_level > 0 := by rw [← hml]; exact hpos
    rw [if_neg hpos, if_neg hpos, if_neg hpos]
    simp only [if_neg hpos0, and_self]

/-- The course of the driver without the stabilization loop: allowed `max_level` passes,
the growth loop returns or aborts after at most `max_level` passes, each pass but the
last one at most having raised `finest_level` by one. -/
theorem MakeNewGridsTime_growth [DecidableEq DM] (x : Collab D T C) (cb : Callbacks D DM)
    (s0 : MeshState D DM) (time : ℚ) (fuel passes : Nat)
    (hp : s0.mesh.max_level.toNat ≤ passes) :
    (∃ e, MakeNewGridsTime x cb false s0 time fuel passes = Outcome.abort e) ∨
    (∃ g, MakeNewGridsTime x cb false s0 time fuel passes = Outcome.done g ∧
      g.grow_passes ≤ s0.mesh.max_level.toNat ∧ g.grow_passes ≤ g.raised.length + 1 ∧
      (∀ p ∈ g.raised, p.2 = p.1 + 1) ∧ g.stab_passes = 0) := by
  obtain ⟨s, hs, hml, hfl⟩ := commitBase_spec x cb s0 time
  rw [MakeNewGridsTime_eq x cb false s0 s time fuel passes hs]
  by_cases hpos : s.mesh.max_level > 0
  · rw [if_pos hpos]
    have hlt : (driverStart cb s).s.mesh.finest_level < (driverStart cb s).s.mesh.max_level := by
      show s.mesh.finest_level < s.mesh.max_level
      omega
    obtain ⟨hf, hb⟩ := growLoop_spec x cb time passes (driverStart cb s) hlt
    have e1 : (driverStart cb s).s.mesh.max_level = s0.mesh.max_level := hml
    have e2 : (driverStart cb s).s.mesh.finest_level = 0 := hfl
    have e3 : (driverStart cb s).grow_passes = 0 := rfl
    have e4 : (driverStart cb s).raised = [] := rfl
    have e5 : (driverStart cb s).stab_passes = 0 := rfl
    rw [e1, e2, e3, e4, e5] at hb
    simp only [sub_zero, zero_add, List.append_nil] at hb
    rw [hf fuel]
    rcases hb hp with ⟨e, he⟩ | ⟨g, hg, p1, ⟨added, a1, a2, a3⟩, p3, p4⟩
    · left
      rw [he]
      exact ⟨e, rfl⟩
    · right
      rw [hg]
      refine ⟨g, by simp, p1, ?_, ?_, p3⟩
      · rw [a1]; exact a3
      · rw [a1]; exact a2
  · rw [if_neg hpos]
    right
    refine ⟨_, rfl, Nat.zero_le _, Nat.zero_le _, fun p hp => ?_, rfl⟩
    have e4 : (driverStart cb s).raised = [] := rfl
    rw [e4] at hp
    cases hp

end amrex

namespace amrex
variable {D : Nat} {T C DM : Type}

/-! ### Termination of the driver -/

/-- A call of `MakeNewGrids(lbase, ...)` never returns when, after the pass for the level
`l2`, the next level `l1` has a finer level to project (`l1 + 1 < new_finest`) while
`grids[l1]` is empty: the loop `while (!levcBA.contains(ba_proj))` grows an empty box
array for ever. -/
theorem MakeNewGrids_stuck (x : Collab D T C) (m : AmrMesh D) (lbase : Int) (time : ℚ)
    (new_grids : Int → BoxList D) (l2 l1 : Int) (rest : List Int) (st2 : GridState D)
    (h1 : levelsDown (max_crse m) lbase = l2 :: l1 :: rest)
    (h2 : levelStep x m lbase time 0
      { new_finest := lbase, new_grids := new_grids, trace := [] } l2 = some (Except.ok st2))
    (h3 : l1 + 1 < st2.new_finest) (h4 : x.simplify (m.grids l1) = []) (fuel : Nat) :
    MakeNewGrids x m lbase time new_grids fuel = none := by
  have hs1 := levelStep_of_zero x m lbase time _ l2 _ h2 fuel
  have hs2 : levelStep x m lbase time fuel st2 l1 = none := by
    rw [levelStep_eq]
    unfold projectDown
    simp only []
    rw [if_pos h3, h4, growUntilContains_empty]
  have ha : afterLevels x m lbase time new_grids fuel = none := by
    unfold afterLevels
    rw [h1]
    unfold levelLoop
    rw [hs1]
    simp only []
    unfold levelLoop
    rw [hs2]
  unfold MakeNewGrids
  rw [ha]

theorem stabLoop_stuck [DecidableEq DM] (x : Collab D T C) (cb : Callbacks D DM) (time : ℚ)
    (fuel k : Nat) (g : DriverState D DM)
    (h : MakeNewGrids x g.s.mesh 0 time
      (fun i => if 1 ≤ i ∧ i ≤ g.s.mesh.finest_level then g.s.mesh.grids i
        else g.new_grids i) fuel = none) :
    stabLoop x cb time fuel (k + 1) g = Outcome.stuck := by
  conv_lhs => unfold stabLoop
  simp only []
  unfold MakeNewGridsDM
  rw [h]

set_option maxRecDepth 100000 in
/-- C18 fails as stated: on `fixedDeepMesh` (fixed-grid mode with `useFixedUpToLevel()`
above `max_level = 3`), with the stabilization loop on and a client whose callbacks do
nothing, the growth loop ends after three passes with empty box arrays on the levels 1 to
3, and the first nested call `MakeNewGrids(0, ...)` of the stabilization loop never
returns, whatever the fuel: the driver does not terminate. -/
theorem driver_stuck_on_empty_level :
    (∃ g, MakeNewGridsTime (refCollab deepEst 1) plainCallbacks false
        (freshState fixedDeepMesh) 0 0 3 = Outcome.done g ∧
      g.grow_passes = 3 ∧ g.s.mesh.finest_level = 3 ∧ g.s.mesh.grids 1 = [] ∧
      g.s.mesh.grids 2 = [] ∧ g.s.mesh.grids 3 = []) ∧
    ∀ fuel : Nat, MakeNewGridsTime (refCollab deepEst 1) plainCallbacks true
      (freshState fixedDeepMesh) 0 fuel 3 = Outcome.stuck := by
  constructor
  · obtain ⟨g, hg, hP⟩ := exists_of_outcomeHas
      (MakeNewGridsTime (refCollab deepEst 1) plainCallbacks false (freshState fixedDeepMesh)
        0 0 3)
      (fun g => decide (g.grow_passes = 3 ∧ g.s.mesh.finest_level = 3 ∧
        g.s.mesh.grids 1 = [] ∧ g.s.mesh.grids 2 = [] ∧ g.s.mesh.grids 3 = []))
      (by decide!)
    exact ⟨g, hg, of_decide_eq_true hP⟩
  intro fuel
  obtain ⟨g, hg, hP⟩ := exists_of_outcomeHas
    (MakeNewGridsTime (refCollab deepEst 1) plainCallbacks false (freshState fixedDeepMesh)
      0 0 3)
    (fun g => decide (levelsDown (max_crse g.s.mesh) 0 = [2, 1, 0]) &&
      (resultHas (levelStep (refCollab deepEst 1) g.s.mesh 0 0 0
          { new_finest := 0
            new_grids := fun i => if 1 ≤ i ∧ i ≤ g.s.mesh.finest_level then g.s.mesh.grids i
              else g.new_grids i
            trace := [] } 2)
        (fun st2 => decide (1 + 1 < st2.new_finest)) &&
      ((refCollab deepEst 1).simplify (g.s.mesh.grids 1)).isEmpty))
    (by decide!)
  simp only [Bool.and_eq_true, decide_eq_true_eq, List.isEmpty_iff] at hP
  obtain ⟨p1, p2, p3⟩ := hP
  obtain ⟨st2, q1, q2⟩ := exists_of_resultHas _ _ p2
  have q3 : 1 + 1 < st2.new_finest := of_decide_eq_true q2
  obtain ⟨e1, e2⟩ := MakeNewGridsTime_iterate (refCollab deepEst 1) plainCallbacks
    (freshState fixedDeepMesh) 0 fuel 3
  rw [e1, e2, hg]
  simp only []
  rw [if_pos (by show (3 : Int) > 0; decide)]
  exact stabLoop_stuck _ _ _ fuel 3 g
    (MakeNewGrids_stuck _ _ 0 0 _ 2 1 [0] st2 p1 q1 q3 p3 fuel)

/-- C18, amended: with the bittree backend off, the growth loop of `MakeNewGrids(time)`
always ends: it makes at most `max_level` passes, every pass but the one that stops it
raises `finest_level` by exactly one, and its nested calls return; the stabilization loop
makes at most 4 passes.  So `MakeNewGrids(time)` returns or aborts whenever the nested
calls `MakeNewGrids(0, ...)` of the stabilization loop return, and always when
`iterate_on_new_grids` is off; a run that does not end hangs in such a nested call, after
the growth loop has returned. -/
theorem MakeNewGridsTime_loops [DecidableEq DM] (x : Collab D T C) (cb : Callbacks D DM)
    (iterate_on_new_grids : Bool) (s0 : MeshState D DM) (time : ℚ) (fuel passes : Nat)
    (hp : s0.mesh.max_level.toNat ≤ passes) :
    MakeNewGridsTime x cb iterate_on_new_grids s0 time fuel passes ≠ Outcome.unfinished ∧
    (iterate_on_new_grids = false →
      MakeNewGridsTime x cb iterate_on_new_grids s0 time fuel passes ≠ Outcome.stuck) ∧
    (MakeNewGridsTime x cb iterate_on_new_grids s0 time fuel passes = Outcome.stuck →
      ∃ g, MakeNewGridsTime x cb false s0 time fuel passes = Outcome.done g ∧
        stabLoop x cb time fuel 4 g = Outcome.stuck) ∧
    (∀ g, MakeNewGridsTime x cb iterate_on_new_grids s0 time fuel passes = Outcome.done g →
      g.grow_passes ≤ s0.mesh.max_level.toNat ∧ g.grow_passes ≤ g.raised.length + 1 ∧
      (∀ p ∈ g.raised, p.2 = p.1 + 1) ∧ g.stab_passes ≤ 4) := by
  have hgrow := MakeNewGridsTime_growth x cb s0 time fuel passes hp
  cases iterate_on_new_grids with
  | false =>
    rcases hgrow with ⟨e, he⟩ | ⟨g, hg, a1, a2, a3, a4⟩
    · rw [he]
      refine ⟨?_, ?_, ?_, ?_⟩
      · simp
      · intro _; simp
      · intro h; cases h
      · intro g h; cases h
    · rw [hg]
      refine ⟨?_, ?_, ?_, ?_⟩
      · simp
      · intro _; simp
      · intro h; cases h
      · intro g' h
        simp only [Outcome.done.injEq] at h
        subst h
        exact ⟨a1, a2, a3, by omega⟩
  | true =>
    rw [(MakeNewGridsTime_iterate x cb s0 time fuel passes).1]
    rcases hgrow with ⟨e, he⟩ | ⟨g, hg, a1, a2, a3, a4⟩
    · rw [he]
      refine ⟨?_, ?_, ?_, ?_⟩
      · simp
      · intro h; cases h
      · intro h; cases h
      · intro g h; cases h
    · rw [hg]
      simp only []
      by_cases hpos : s0.mesh.max_level > 0
      · rw [if_pos hpos]
        obtain ⟨b1, b2⟩ := stabLoop_spec x cb time fuel 4 g
        refine ⟨b1, ?_, ?_, ?_⟩
        · intro h; cases h
        · intro h; exact ⟨g, rfl, h⟩
        · intro g' h
          obtain ⟨c1, c2, c3⟩ := b2 g' h
          rw [c2, c3]
          exact ⟨a1, a2, a3, by omega⟩
      · rw [if_neg hpos]
        refine ⟨?_, ?_, ?_, ?_⟩
        · simp
        · intro h; cases h
        · intro h; cases h
        · intro g' h
          simp only [Outcome.done.injEq] at h
          subst h
          exact ⟨a1, a2, a3, by omega⟩

set_option maxRecDepth 100000 in
theorem MakeNewGridsTime_loops_witness :
    ∃ g, MakeNewGridsTime (refCollab lineEst 1) plainCallbacks true (freshState lineMesh)
        0 10 5 = Outcome.done g ∧
      g.grow_passes ≤ (freshState lineMesh).mesh.max_level.toNat ∧
      g.grow_passes ≤ g.raised.length + 1 ∧
      (∀ p ∈ g.raised, p.2 = p.1 + 1) ∧ g.stab_passes ≤ 4 := by
  obtain ⟨g, hg, -⟩ := exists_of_outcomeHas
    (MakeNewGridsTime (refCollab lineEst 1) plainCallbacks true (freshState lineMesh) 0 10 5)
    (fun _ => true) (by decide!)
  exact ⟨g, hg, (MakeNewGridsTime_loops (refCollab lineEst 1) plainCallbacks true
    (freshState lineMesh) 0 10 5 (by decide)).2.2.2 g hg⟩

end amrex

namespace amrex

/-! ### `FEIntegrator::evolve` -/

/-- C21 at a concrete input: the integrator at time 0 with time step 2 is asked for the output
time 1.  With `max_steps = 2` the first step (of size 1) reaches the output time and
`evolve` returns; with `max_steps = 1` the same first step reaches the output time, it is
the `max_steps`-th step, and `evolve` raises `Did not reach output time in max steps.` -/
theorem evolve_error_on_reaching_step :
    (∃ st, FEIntegrator.evolve recordStep (stepper 2) [] 1 5 = some (Except.ok st) ∧
      st.S_out = [(0, 1)] ∧ st.time_current = 1 ∧ st.stop = true) ∧
    FEIntegrator.evolve recordStep (stepper 1) [] 1 5
      = some (Except.error "Did not reach output time in max steps.") := by
  constructor
  · obtain ⟨st, hst, hP⟩ := exists_of_resultHas
      (FEIntegrator.evolve recordStep (stepper 2) [] 1 5)
      (fun st => decide (st.S_out = [(0, 1)] ∧ st.time_current = 1 ∧ st.stop = true))
      (by decide!)
    exact ⟨st, hst, of_decide_eq_true hP⟩
  · decide!

end amrex

namespace amrex

/-! ### The instruction `PARSER_EXE_POWI` -/

theorem cdiv_two (n : Int) (h : 0 ≤ n) : cdiv n 2 = n / 2 := by
  unfold cdiv
  exact Int.tdiv_eq_ediv h (by decide)

theorem cmod_two (n : Int) (h : 0 ≤ n) : cmod n 2 = n % 2 := by
  unfold cmod
  exact Int.tmod_eq_emod h (by decide)

/-- The squaring loop: for an exponent `1 <= n < 2 ^ fuel` it ends within `fuel` passes, and
the product of the values it leaves in `d` and `y` is `y * d ^ n`. -/
theorem powiLoop_spec : ∀ (fuel : Nat) (d y : ℚ) (n : Int), 1 ≤ n → n < 2 ^ fuel →
    ∃ d1 y1, powiLoop fuel d y n = some (d1, y1) ∧ d1 * y1 = y * d ^ n.toNat := by
  intro fuel
  induction fuel with
  | zero =>
    intro d y n h1 h2
    simp only [pow_zero] at h2
    omega
  | succ k ih =>
    intro d y n h1 h2
    unfold powiLoop
    by_cases hn : n > 1
    · rw [if_pos hn]
      have hpow : (2 : Int) ^ (k + 1) = 2 * 2 ^ k := by rw [pow_succ]; ring
      rw [hpow] at h2
      rw [cmod_two n (by omega)]
      by_cases he : n % 2 = 0
      · rw [if_pos he, cdiv_two n (by omega)]
        obtain ⟨d1, y1, g1, g2⟩ := ih (d * d) y (n / 2) (by omega) (by omega)
        refine ⟨d1, y1, g1, ?_⟩
        rw [g2]
        have hn2 : n.toNat = (n / 2).toNat + (n / 2).toNat := by omega
        rw [hn2, pow_add, mul_pow]
      · rw [if_neg he, cdiv_two (n - 1) (by omega)]
        obtain ⟨d1, y1, g1, g2⟩ := ih (d * d) (y * d) ((n - 1) / 2) (by omega) (by omega)
        refine ⟨d1, y1, g1, ?_⟩
        rw [g2]
        have hn2 : n.toNat = ((n - 1) / 2).toNat + ((n - 1) / 2).toNat + 1 := by omega
        rw [hn2, pow_succ, pow_add, mul_pow]
        ring
    · rw [if_neg hn]
      have : n = 1 := by omega
      subst this
      refine ⟨d, y, rfl, ?_⟩
      simp [mul_comm]

theorem intValue_of_small (z : Int) (h1 : -(2 ^ 31) ≤ z) (h2 : z < 2 ^ 31) :
    intValue z = some z := by
  unfold intValue
  rw [if_pos ⟨h1, h2⟩]

theorem intValue_of_large (z : Int) (h : 2 ^ 31 ≤ z) : intValue z = none := by
  unfold intValue
  rw [if_neg (fun hc => absurd hc.2 (not_lt.2 h))]

/-- C30: a `PARSER_EXE_POWI` instruction with the exponent `n = -2147483648`, the least
`int`, is not executed as the claim says.  The exponent is negative, so the instruction
runs `n = -n`, whose exact value `2147483648` is not an `int`: the negation overflows, which
is undefined behaviour, and no result is defined, whatever stands on the stack (here the
number 2) and however many passes the loop is allowed. -/
theorem powi_least_exponent :
    (-2147483648 : Int) < 0 ∧ intValue (-(-2147483648)) = none ∧
    exePOWI 31 (-2147483648) (stackOf [2]) = Exec.undefined ∧
    ∀ (fuel : Nat) (pstack : Stack), exePOWI fuel (-2147483648) pstack = Exec.undefined := by
  have hv : intValue (-(-2147483648)) = none :=
    intValue_of_large _ (by norm_num)
  have hall : ∀ (fuel : Nat) (pstack : Stack),
      exePOWI fuel (-2147483648) pstack = Exec.undefined := by
    intro fuel pstack
    unfold exePOWI powiSign
    simp only []
    rw [if_pos (by decide), if_pos (by decide), hv]
  exact ⟨by decide, hv, hall 31 (stackOf [2]), hall⟩

/-- The instruction `PARSER_EXE_POWI` for an exponent whose negation is an `int`: for every
value `d` on top of the parser stack and every `int` exponent `n` other than the least one,
`-2147483648` (with `d` non-zero when `n < 0`), the instruction replaces the top of the
stack by `d` raised to the power `n` in exact arithmetic (1 when `n = 0`, the reciprocal
power when `n < 0`); its squaring loop ends within 31 passes, and the stack size and all
other stack entries are unchanged. -/
theorem exePOWI_spec (fuel : Nat) (hfuel : 31 ≤ fuel) (n : Int)
    (hlo : -2147483648 < n) (hhi : n ≤ 2147483647) (pstack : Stack)
    (hs : 1 ≤ pstack.m_size) (hd : n < 0 → pstack.m_data (pstack.m_size - 1) ≠ 0) :
    ∃ s, exePOWI fuel n pstack = Exec.value s ∧ s.m_size = pstack.m_size ∧
      s.m_data (pstack.m_size - 1) = pstack.m_data (pstack.m_size - 1) ^ n ∧
      ∀ i, i ≠ pstack.m_size - 1 → s.m_data i = pstack.m_data i := by
  have hpow : (2 : Int) ^ 31 ≤ 2 ^ fuel := pow_le_pow_right₀ (by norm_num) hfuel
  have e31 : (2 : Int) ^ 31 = 2147483648 := by norm_num
  rw [e31] at hpow
  unfold exePOWI powiSign
  simp only []
  by_cases h0 : n = 0
  · subst h0
    rw [if_neg (by simp)]
    exact ⟨_, rfl, rfl, by simp, fun i hi => Function.update_noteq hi _ _⟩
  · rw [if_pos h0]
    by_cases hneg : n < 0
    · rw [if_pos hneg, intValue_of_small (-n) (by rw [e31]; omega) (by rw [e31]; omega)]
      simp only []
      obtain ⟨d1, y1, g1, g2⟩ := powiLoop_spec fuel (1 / pstack.m_data (pstack.m_size - 1)) 1
        (-n) (by omega) (by omega)
      rw [g1]
      refine ⟨_, rfl, rfl, ?_, fun i hi => Function.update_noteq hi _ _⟩
      simp only [Function.update_same]
      rw [g2, one_mul, one_div, inv_pow]
      have hn : n = -(((-n).toNat : Nat) : Int) := by omega
      conv_rhs => rw [hn, zpow_neg, zpow_natCast]
    · rw [if_neg hneg]
      simp only []
      obtain ⟨d1, y1, g1, g2⟩ := powiLoop_spec fuel (pstack.m_data (pstack.m_size - 1)) 1
        n (by omega) (by omega)
      rw [g1]
      refine ⟨_, rfl, rfl, ?_, fun i hi => Function.update_noteq hi _ _⟩
      simp only [Function.update_same]
      rw [g2, one_mul]
      have hn : n = ((n.toNat : Nat) : Int) := by omega
      conv_rhs => rw [hn, zpow_natCast]

theorem exePOWI_spec_witness :
    ∃ s, exePOWI 31 (-3) (stackOf [5, 2]) = Exec.value s ∧
      s.m_size = (stackOf [5, 2]).m_size ∧
      s.m_data ((stackOf [5, 2]).m_size - 1)
        = (stackOf [5, 2]).m_data ((stackOf [5, 2]).m_size - 1) ^ (-3 : Int) ∧
      ∀ i, i ≠ (stackOf [5, 2]).m_size - 1 → s.m_data i = (stackOf [5, 2]).m_data i :=
  exePOWI_spec 31 (le_refl _) (-3) (by decide) (by decide) (stackOf [5, 2]) (by decide)
    (fun _ => by simp [stackOf])

end amrex

namespace amrex

/-! ### `getEnumNameValuePairs` and `getEnum` -/

theorem find_name (l : List (String × Int)) (a : String) (h : a ∈ l.map Prod.fst) :
    ∃ x, l.find? (fun x => x.1 == a) = some x ∧ x ∈ l ∧ x.1 = a := by
  induction l with
  | nil => simp at h
  | cons p t ih =>
    by_cases hp : p.1 = a
    · refine ⟨p, ?_, List.mem_cons_self _ _, hp⟩
      simp [List.find?, hp]
    · have ht : a ∈ t.map Prod.fst := by
        simp only [List.map_cons, List.mem_cons] at h
        rcases h with h | h
        · exact absurd h.symm hp
        · exact h
      obtain ⟨x, g1, g2, g3⟩ := ih ht
      refine ⟨x, ?_, List.mem_cons_of_mem _ g2, g3⟩
      simp only [List.find?]
      have : (p.1 == a) = false := by simpa using hp
      rw [this]
      exact g1

theorem find_of_nodup (l : List (String × Int)) (hnd : (l.map Prod.fst).Nodup)
    (p : String × Int) (hp : p ∈ l) : l.find? (fun x => x.1 == p.1) = some p := by
  obtain ⟨x, g1, g2, g3⟩ := find_name l p.1 (List.mem_map.2 ⟨p, hp, rfl⟩)
  rw [g1]
  congr 1
  exact List.inj_on_of_nodup_map hnd g2 hp g3

/-- The loop of `getEnumNameValuePairs` from a vector `r` and a counter `next_value` that is
one more than the last value of `r` (0 when `r` is empty): it ends normally, and to `r` it
adds the enumerators not yet read with the values of the C++ definition. -/
theorem enumItem_foldl (ops : StringOps) (class_name enum_names : String) :
    ∀ (es : List Enumerator) (items : List String) (r : List (String × Int)) (nv : Int),
    items.map (fun item => (ops.split item "=").map ops.trim) = es.map Enumerator.fields →
    initsDeclared (r.map Prod.fst) es →
    nv = (match r.getLast? with
      | none => 0
      | some p => p.2 + 1) →
    ∃ nv1, items.foldl (enumItem ops class_name enum_names) (some (Except.ok (r, nv)))
      = some (Except.ok
          (es.foldl (fun before e => before ++ [(e.name, declaredValue before e)]) r, nv1)) := by
  intro es
  induction es with
  | nil =>
    intro items r nv hparse _ _
    have : items = [] := by simpa using hparse
    subst this
    exact ⟨nv, rfl⟩
  | cons e rest ih =>
    intro items r nv hparse hinit hnv
    cases items with
    | nil => simp at hparse
    | cons item items1 =>
      simp only [List.map_cons, List.cons.injEq] at hparse
      obtain ⟨hhead, htail⟩ := hparse
      unfold initsDeclared at hinit
      obtain ⟨hi1, hi2⟩ := hinit
      simp only [List.foldl_cons]
      cases hini : e.init with
      | none =>
        have hf : e.fields = [e.name] := by unfold Enumerator.fields; rw [hini]
        rw [hf] at hhead
        obtain ⟨k, hk1, hk2⟩ : ∃ k, ops.split item "=" = [k] ∧ ops.trim k = e.name := by
          cases hsp : ops.split item "=" with
          | nil => rw [hsp] at hhead; simp at hhead
          | cons k t =>
            rw [hsp] at hhead
            simp only [List.map_cons, List.cons.injEq, List.map_eq_nil_iff] at hhead
            obtain ⟨h1, h2⟩ := hhead
            subst h2
            exact ⟨k, rfl, h1⟩
        have hstep : enumItem ops class_name enum_names (some (Except.ok (r, nv))) item
            = some (Except.ok (r ++ [(e.name, declaredValue r e)], nv + 1)) := by
          unfold enumItem
          simp only []
          rw [hk1]
          simp only []
          rw [hk2]
          have : declaredValue r e = nv := by
            unfold declaredValue
            rw [hini]
            exact hnv.symm
          rw [this]
        rw [hstep]
        refine ih items1 (r ++ [(e.name, declaredValue r e)]) (nv + 1) htail ?_ ?_
        · simpa using hi2
        · have : declaredValue r e = nv := by
            unfold declaredValue
            rw [hini]
            exact hnv.symm
          rw [this]
          simp
      | some a =>
        have hf : e.fields = [e.name, a] := by unfold Enumerator.fields; rw [hini]
        rw [hf] at hhead
        rw [hini] at hi1
        obtain ⟨k, v, hk1, hk2, hk3⟩ : ∃ k v, ops.split item "=" = [k, v] ∧
            ops.trim k = e.name ∧ ops.trim v = a := by
          cases hsp : ops.split item "=" with
          | nil => rw [hsp] at hhead; simp at hhead
          | cons k t =>
            cases t with
            | nil => rw [hsp] at hhead; simp at hhead
            | cons v t2 =>
              rw [hsp] at hhead
              simp only [List.map_cons, List.cons.injEq, List.map_eq_nil_iff] at hhead
              obtain ⟨h1, h2, h3⟩ := hhead
              subst h3
              exact ⟨k, v, rfl, h1, h2⟩
        obtain ⟨x, hx1, hx2, hx3⟩ := find_name r a hi1
        have hdv : declaredValue r e = x.2 := by
          unfold declaredValue
          rw [hini]
          simp only []
          rw [hx1]
        have hstep : enumItem ops class_name enum_names (some (Except.ok (r, nv))) item
            = some (Except.ok (r ++ [(e.name, declaredValue r e)], x.2 + 1)) := by
          unfold enumItem
          simp only []
          rw [hk1]
          simp only []
          rw [hk3, hx1]
          simp only []
          rw [hk2, hdv]
        rw [hstep]
        refine ih items1 (r ++ [(e.name, declaredValue r e)]) (x.2 + 1) htail ?_ ?_
        · simpa using hi2
        · rw [hdv]
          simp

theorem declaredValues_names_from (es : List Enumerator) (r : List (String × Int)) :
    (es.foldl (fun before e => before ++ [(e.name, declaredValue before e)]) r).map Prod.fst
      = r.map Prod.fst ++ es.map Enumerator.name := by
  induction es generalizing r with
  | nil => simp
  | cons e rest ih =>
    simp only [List.foldl_cons, List.map_cons]
    rw [ih]
    simp

/-- C29: for an `AMREX_ENUM` enumerator list whose items are each `NAME` or
`NAME = EARLIER_NAME` (the two levels of `split` and the `trim` give the fields of the
enumerators `es`, and every name after `=` is declared earlier), `getEnumNameValuePairs`
returns the names in the order of declaration, each with the value that the C++ enum
definition gives it; so, the names being distinct, `getEnum(s)` returns that value for
every listed name `s`. -/
theorem getEnumNameValuePairs_spec (ops : StringOps) (class_name enum_names : String)
    (es : List Enumerator)
    (hparse : (ops.split enum_names ",").map (fun item => (ops.split item "=").map ops.trim)
      = es.map Enumerator.fields)
    (hinit : initsDeclared [] es) :
    getEnumNameValuePairs ops class_name enum_names = some (Except.ok (declaredValues es)) ∧
    (declaredValues es).map Prod.fst = es.map Enumerator.name ∧
    ((es.map Enumerator.name).Nodup → ∀ p ∈ declaredValues es,
      getEnum ops class_name enum_names p.1 = some (Except.ok p.2)) := by
  obtain ⟨nv1, hfold⟩ := enumItem_foldl ops class_name enum_names es
    (ops.split enum_names ",") [] 0 hparse hinit rfl
  have hpairs : getEnumNameValuePairs ops class_name enum_names
      = some (Except.ok (declaredValues es)) := by
    unfold getEnumNameValuePairs
    rw [hfold]
    rfl
  have hnames : (declaredValues es).map Prod.fst = es.map Enumerator.name := by
    unfold declaredValues
    rw [declaredValues_names_from]
    simp
  refine ⟨hpairs, hnames, fun hnd p hp => ?_⟩
  unfold getEnum
  rw [hpairs]
  simp only []
  rw [find_of_nodup (declaredValues es) (by rw [hnames]; exact hnd) p hp]

set_option maxRecDepth 100000 in
theorem getEnumNameValuePairs_spec_witness :
    getEnumNameValuePairs plainOps "Color" "red, green = red, blue"
      = some (Except.ok (declaredValues colorEnum)) ∧
    declaredValues colorEnum = [("red", 0), ("green", 0), ("blue", 1)] ∧
    getEnum plainOps "Color" "red, green = red, blue" "blue" = some (Except.ok 1) := by
  obtain ⟨h1, -, h3⟩ := getEnumNameValuePairs_spec plainOps "Color" "red, green = red, blue"
    colorEnum (by decide!) (by simp [initsDeclared, colorEnum])
  have hv : declaredValues colorEnum = [("red", 0), ("green", 0), ("blue", 1)] := by decide!
  refine ⟨h1, hv, ?_⟩
  exact h3 (by decide!) ("blue", 1) (by rw [hv]; simp)

end amrex

namespace amrex
variable {D : Nat} {T C : Type}

/-! ### The order of tagging and clustering in one regrid -/

/-- What a pass of the level loop adds to the record: the call of the estimator, unless the
level is held fixed, and then at most the generation of the boxes of the next level. -/
theorem levelStep_trace (x : Collab D T C) (m : AmrMesh D) (lbase : Int) (time : ℚ)
    (fuel : Nat) (st st1 : GridState D) (levc : Int)
    (h : levelStep x m lbase time fuel st levc = some (Except.ok st1)) :
    ∃ cl, (cl = [] ∨ cl = [Event.cluster (levc + 1)]) ∧
      st1.trace = cl ++ ((if notFixed m levc then [Event.errorEst levc] else []) ++ st.trace) := by
  obtain ⟨ba_proj, ngt, nf1, tagvec, -, -, h3⟩ := levelStep_ok x m lbase time fuel st st1 levc h
  have htr : (if notFixed m levc then Event.errorEst levc :: st.trace else st.trace)
      = (if notFixed m levc then [Event.errorEst levc] else []) ++ st.trace := by
    split <;> rfl
  rcases clusterLevel_cases x m lbase levc
    { new_finest := nf1, new_grids := st.new_grids,
      trace := if notFixed m levc then Event.errorEst levc :: st.trace else st.trace }
    tagvec with ⟨-, c2, -⟩ | ⟨-, -, -, c2⟩
  · refine ⟨[], Or.inl rfl, ?_⟩
    rw [h3, c2, List.nil_append]
    exact htr
  · refine ⟨[Event.cluster (levc + 1)], Or.inr rfl, ?_⟩
    rw [h3, c2]
    simp only [List.singleton_append, List.cons.injEq, true_and]
    exact htr

theorem count_pass (m : AmrMesh D) (levc l : Int) (cl : List Event)
    (hcl : cl = [] ∨ cl = [Event.cluster (levc + 1)]) :
    ((if notFixed m levc then [Event.errorEst levc] else []) ++ cl).count (Event.errorEst l)
      = if notFixed m l = true ∧ levc = l then 1 else 0 := by
  by_cases hl : levc = l
  · subst hl
    by_cases hn : notFixed m levc = true
    · rcases hcl with hcl | hcl <;> subst hcl <;> simp [hn, List.count_cons]
    · rcases hcl with hcl | hcl <;> subst hcl <;> simp [hn, List.count_cons]
  · by_cases hn : notFixed m levc = true
    · rcases hcl with hcl | hcl <;> subst hcl <;> simp [hn, hl, List.count_cons]
    · rcases hcl with hcl | hcl <;> subst hcl <;> simp [hn, hl, List.count_cons]

/-- The events of the level loop over the levels `levs`, in the order in which they
happened: they are taken in order from the schedule "estimator for `l`, boxes for `l+1`" of
the levels of `levs`, and the estimator is called once for each occurrence in `levs` of a
level that is not held fixed. -/
theorem levelLoop_trace (x : Collab D T C) (m : AmrMesh D) (lbase : Int) (time : ℚ)
    (fuel : Nat) (levs : List Int) (st st1 : GridState D)
    (h : levelLoop x m lbase time fuel levs st = some (Except.ok st1)) :
    ∃ ev : List Event, st1.trace = ev.reverse ++ st.trace ∧
      ev.Sublist (levs.flatMap (fun l => [Event.errorEst l, Event.cluster (l + 1)])) ∧
      ∀ l, ev.count (Event.errorEst l) = if notFixed m l then levs.count l else 0 := by
  induction levs generalizing st with
  | nil =>
    simp only [levelLoop, Option.some.injEq, Except.ok.injEq] at h
    subst h
    exact ⟨[], rfl, List.Sublist.refl _, fun l => by simp⟩
  | cons levc rest ih =>
    unfold levelLoop at h
    cases hs : levelStep x m lbase time fuel st levc with
    | none => rw [hs] at h; cases h
    | some r =>
      cases r with
      | error e => rw [hs] at h; cases h
      | ok st2 =>
        rw [hs] at h
        simp only [] at h
        obtain ⟨cl, hcl, htr⟩ := levelStep_trace x m lbase time fuel st st2 levc hs
        obtain ⟨ev, g1, g2, g3⟩ := ih st2 h
        refine ⟨((if notFixed m levc then [Event.errorEst levc] else []) ++ cl) ++ ev, ?_, ?_, ?_⟩
        · rw [g1, htr]
          simp only [List.reverse_append, List.append_assoc]
          congr 1
          rcases hcl with hcl | hcl <;> subst hcl <;> split <;> simp
        · rw [List.flatMap_cons]
          apply List.Sublist.append _ g2
          rcases hcl with hcl | hcl <;> subst hcl <;> split <;> simp
        · intro l
          rw [List.count_append, g3 l, count_pass m levc l cl hcl]
          by_cases hn : notFixed m l = true
          · by_cases hl : levc = l
            · subst hl
              simp [hn, List.count_cons, Nat.add_comm]
            · simp [hn, hl, List.count_cons]
          · simp [hn]

theorem levelsDown_nodup (hi lo : Int) : (levelsDown hi lo).Nodup := by
  unfold levelsDown
  apply List.Nodup.map _ (List.nodup_range _)
  intro a b h
  simp only at h
  omega

theorem levelsDown_pairwise (hi lo : Int) : (levelsDown hi lo).Pairwise (fun a b => b < a) := by
  unfold levelsDown
  rw [List.pairwise_map]
  apply List.Pairwise.imp _ (List.pairwise_lt_range _)
  intro a b h
  omega

/-- The record of a call of `MakeNewGrids` that returns is the record of its level loop. -/
theorem MakeNewGrids_trace (x : Collab D T C) (m : AmrMesh D) (lbase : Int) (time : ℚ)
    (new_grids : Int → BoxList D) (fuel : Nat) (st : GridState D)
    (h : MakeNewGrids x m lbase time new_grids fuel = some (Except.ok st)) :
    ∃ ev : List Event, st.trace = ev.reverse ∧
      ev.Sublist ((levelsDown (max_crse m) lbase).flatMap
        (fun l => [Event.errorEst l, Event.cluster (l + 1)])) ∧
      ∀ l, ev.count (Event.errorEst l)
        = if notFixed m l then (levelsDown (max_crse m) lbase).count l else 0 := by
  obtain ⟨st0, ha, hf⟩ := MakeNewGrids_ok x m lbase time new_grids fuel st h
  unfold afterLevels at ha
  obtain ⟨ev, g1, g2, g3⟩ := levelLoop_trace x m lbase time fuel _ _ st0 ha
  refine ⟨ev, ?_, g2, g3⟩
  rw [(finalLoop_new_finest x m _ st0 st hf).2, g1]
  simp

/-- C22: in one call of `MakeNewGrids(lbase, ...)` that returns, the error estimator
`ErrorEst` is invoked exactly once for each level `levc` in `[lbase, max_crse]` for which
it is not the case that the fixed-grid mode is on and `levc < useFixedUpToLevel()`, and is
never invoked for another level.  The call `ErrorEst(levc, tags, time, 0)` of the loop
body (`callErrorEst` in `tagLevelTraced`) puts its event `errorEst levc` on the record as
it is made: the record that `MakeNewGrids` returns holds that many events `errorEst levc`. -/
theorem ErrorEst_once_per_level (x : Collab D T C) (m : AmrMesh D) (lbase : Int) (time : ℚ)
    (new_grids : Int → BoxList D) (fuel : Nat) (st : GridState D)
    (h : MakeNewGrids x m lbase time new_grids fuel = some (Except.ok st)) (levc : Int) :
    st.trace.count (Event.errorEst levc) =
      if lbase ≤ levc ∧ levc ≤ max_crse m ∧
        ¬ (m.use_fixed_coarse_grids = true ∧ levc < m.use_fixed_upto_level) then 1 else 0 := by
  obtain ⟨ev, g1, -, g3⟩ := MakeNewGrids_trace x m lbase time new_grids fuel st h
  rw [g1, List.count_reverse, g3 levc]
  by_cases hn : notFixed m levc = true
  · rw [if_pos hn]
    by_cases hm : lbase ≤ levc ∧ levc ≤ max_crse m
    · rw [if_pos ⟨hm.1, hm.2, (notFixed_eq_true m levc).1 hn⟩]
      exact List.count_eq_one_of_mem (levelsDown_nodup _ _) ((mem_levelsDown _ _ _).2 hm)
    · rw [if_neg (fun hc => hm ⟨hc.1, hc.2.1⟩)]
      exact List.count_eq_zero_of_not_mem (fun hc => hm ((mem_levelsDown _ _ _).1 hc))
  · rw [if_neg hn, if_neg (fun hc => hn ((notFixed_eq_true m levc).2 hc.2.2))]

set_option maxRecDepth 100000 in
/-- Witness of C22: the regrid of `lineMesh` from level 0, where no level is held fixed
(`max_crse = 1`): the estimator is called once for level 0 and once for level 1, and not
for level 2; and the regrid of `heldBaseMesh` from level 0, in the fixed-grid mode with
`useFixedUpToLevel() = 1`: the estimator is not called for level 0, and once for level 1. -/
theorem ErrorEst_once_per_level_witness :
    (∃ st, MakeNewGrids (refCollab lineEst 1) lineMesh 0 0 (fun _ => []) 10
        = some (Except.ok st) ∧
      st.trace.count (Event.errorEst 0) = 1 ∧ st.trace.count (Event.errorEst 1) = 1 ∧
      st.trace.count (Event.errorEst 2) = 0) ∧
    (∃ st, MakeNewGrids (refCollab lineEst 1) heldBaseMesh 0 0 (fun lev => lineMesh.grids lev) 10
        = some (Except.ok st) ∧
      st.trace.count (Event.errorEst 0) = 0 ∧ st.trace.count (Event.errorEst 1) = 1) := by
  constructor
  · obtain ⟨st, hst⟩ := exists_of_ranOk
      (MakeNewGrids (refCollab lineEst 1) lineMesh 0 0 (fun _ => []) 10) (by decide!)
    refine ⟨st, hst, ?_, ?_, ?_⟩
    · rw [ErrorEst_once_per_level (refCollab lineEst 1) lineMesh 0 0 (fun _ => []) 10 st hst 0]
      decide
    · rw [ErrorEst_once_per_level (refCollab lineEst 1) lineMesh 0 0 (fun _ => []) 10 st hst 1]
      decide
    · rw [ErrorEst_once_per_level (refCollab lineEst 1) lineMesh 0 0 (fun _ => []) 10 st hst 2]
      decide
  · obtain ⟨st, hst⟩ := exists_of_ranOk
      (MakeNewGrids (refCollab lineEst 1) heldBaseMesh 0 0 (fun lev => lineMesh.grids lev) 10)
      (by decide!)
    refine ⟨st, hst, ?_, ?_⟩
    · rw [ErrorEst_once_per_level (refCollab lineEst 1) heldBaseMesh 0 0
        (fun lev => lineMesh.grids lev) 10 st hst 0]
      decide
    · rw [ErrorEst_once_per_level (refCollab lineEst 1) heldBaseMesh 0 0
        (fun lev => lineMesh.grids lev) 10 st hst 1]
      decide

set_option maxRecDepth 100000 in
/-- C23 fails as stated: in the regrid of `lineMesh` from level 0 the boxes of level 2 are
generated before the boxes of level 1: the record of the call, latest event first, is
"boxes of level 1, estimator of level 0, boxes of level 2, estimator of level 1". -/
theorem clustering_goes_downwards :
    ∃ st, MakeNewGrids (refCollab lineEst 1) lineMesh 0 0 (fun _ => []) 10
        = some (Except.ok st) ∧
      st.trace = [Event.cluster 1, Event.errorEst 0, Event.cluster 2, Event.errorEst 1] := by
  obtain ⟨st, hst, hP⟩ := exists_of_resultHas
    (MakeNewGrids (refCollab lineEst 1) lineMesh 0 0 (fun _ => []) 10)
    (fun st => decide (st.trace
      = [Event.cluster 1, Event.errorEst 0, Event.cluster 2, Event.errorEst 1])) (by decide!)
  exact ⟨st, hst, of_decide_eq_true hP⟩

/-- C23, amended: within one call of `MakeNewGrids(lbase, ...)` that returns, the levels
are tagged in strictly decreasing level order (`max_crse` down to `lbase`), and the new
boxes are generated in strictly decreasing level order as well: the boxes of level
`levc + 1` are generated in the pass of level `levc`, right after its tagging and before
the tagging of level `levc - 1`.  The events of the call, in the order in which they
happened, are taken in order from the schedule "estimator of `l`, boxes of `l + 1`" for
`l = max_crse, ..., lbase`. -/
theorem levels_tagged_and_clustered_downwards (x : Collab D T C) (m : AmrMesh D)
    (lbase : Int) (time : ℚ) (new_grids : Int → BoxList D) (fuel : Nat) (st : GridState D)
    (h : MakeNewGrids x m lbase time new_grids fuel = some (Except.ok st)) :
    st.trace.reverse.Sublist ((levelsDown (max_crse m) lbase).flatMap
      (fun l => [Event.errorEst l, Event.cluster (l + 1)])) ∧
    st.trace.reverse.Pairwise (fun e1 e2 => ∀ a b,
      (e1 = Event.errorEst a → e2 = Event.errorEst b → b < a) ∧
      (e1 = Event.cluster a → e2 = Event.cluster b → b < a) ∧
      (e1 = Event.cluster a → e2 = Event.errorEst b → b + 1 < a) ∧
      (e1 = Event.errorEst a → e2 = Event.cluster b → b ≤ a + 1)) := by
  obtain ⟨ev, g1, g2, -⟩ := MakeNewGrids_trace x m lbase time new_grids fuel st h
  have hrev : st.trace.reverse = ev := by rw [g1, List.reverse_reverse]
  rw [hrev]
  refine ⟨g2, List.Pairwise.sublist g2 ?_⟩
  rw [List.pairwise_flatMap]
  constructor
  · intro l _
    simp only [List.pairwise_cons, List.mem_singleton, List.not_mem_nil, false_implies,
      implies_true, List.Pairwise.nil, and_true, forall_eq]
    intro a b
    refine ⟨?_, ?_, ?_, ?_⟩ <;> intro h1 h2 <;>
      simp only [Event.errorEst.injEq, Event.cluster.injEq, reduceCtorEq] at h1 h2 <;> omega
  · apply List.Pairwise.imp _ (levelsDown_pairwise _ _)
    intro l1 l2 hlt e1 he1 e2 he2 a b
    simp only [List.mem_cons, List.mem_singleton, List.not_mem_nil, or_false] at he1 he2
    rcases he1 with rfl | rfl <;> rcases he2 with rfl | rfl <;>
      (refine ⟨?_, ?_, ?_, ?_⟩ <;> intro h1 h2 <;>
        simp only [Event.errorEst.injEq, Event.cluster.injEq, reduceCtorEq] at h1 h2 <;> omega)

set_option maxRecDepth 100000 in
theorem levels_tagged_and_clustered_downwards_witness :
    ∃ st, MakeNewGrids (refCollab lineEst 1) lineMesh 0 0 (fun _ => []) 10
        = some (Except.ok st) ∧
      st.trace.reverse.Sublist ((levelsDown (max_crse lineMesh) 0).flatMap
        (fun l => [Event.errorEst l, Event.cluster (l + 1)])) := by
  obtain ⟨st, hst⟩ := exists_of_ranOk
    (MakeNewGrids (refCollab lineEst 1) lineMesh 0 0 (fun _ => []) 10) (by decide!)
  exact ⟨st, hst, (levels_tagged_and_clustered_downwards (refCollab lineEst 1) lineMesh 0 0
    (fun _ => []) 10 st hst).1⟩

end amrex

namespace amrex
variable {D : Nat} {T C : Type}

/-! ### The area not to tag -/

/-- The tag array that `tagLevel` coarsens is `tagsFixed`. -/
theorem tagLevel_stages (x : Collab D T C) (m : AmrMesh D) (lbase : Int) (time : ℚ)
    (new_finest levc : Int) (ba_proj : BoxList D) (ngt : IntVect D) :
    tagLevel x m lbase time new_finest levc ba_proj ngt =
      (if bl_max m levc ≥ 1 then
        Except.ok
          (if m.use_fixed_coarse_grids ∧ ¬ levc ≥ m.use_fixed_upto_level
            then max new_finest (levc + 1) else new_finest,
           x.collate (x.setVal (p_n_comp_ba x m lbase levc) TagVal.CLEAR
            (x.mapPeriodicRemoveDuplicates (pc_domain m levc) (m.is_periodic levc)
              (if levc + 1 < (if m.use_fixed_coarse_grids ∧ ¬ levc ≥ m.use_fixed_upto_level
                  then max new_finest (levc + 1) else new_finest)
               then x.setVal (ba_proj.coarsen (bf_lev m levc)) TagVal.SET
                 (x.ManualTagsPlacement levc
                   (x.tagCoarsen (bf_lev m levc) (tagsFixed x m time levc ngt)) (bf_lev m))
               else x.ManualTagsPlacement levc
                 (x.tagCoarsen (bf_lev m levc) (tagsFixed x m time levc ngt)) (bf_lev m)))))
      else Except.error "blocking factor is too small relative to ref_ratio") := by
  rw [tagLevel_eq]
  rfl

theorem refSetVal_clear_tagAt (bl : BoxList D) (t : TagCells D) (c : IntVect D) :
    (refSetVal bl TagVal.CLEAR t).tagAt c
      = if bl.covers c then TagVal.CLEAR else t.tagAt c := by
  unfold TagCells.tagAt refSetVal
  by_cases hc : bl.covers c
  · simp [hc]
  · simp [hc]

set_option maxRecDepth 100000 in
/-- C24 fails as stated: on `fixedMesh` (fixed-grid mode, `useFixedUpToLevel() = 0`) with
the area not to tag `[5,5]`, the cells 5 and 6 of level 0 are tagged after the buffering;
after the step the tag of cell 6, outside the area, is still set, and the tag of cell 5,
inside the area, is cleared. -/
theorem area_not_to_tag_cleared_inside :
    fixedMesh.use_fixed_coarse_grids = true ∧ fixedMesh.use_fixed_upto_level ≤ 0 ∧
    (areaCollab.GetAreaNotToTag 0).covers (fun _ => 5) ∧
    ¬ (areaCollab.GetAreaNotToTag 0).covers (fun _ => 6) ∧
    (tagsBuffered areaCollab fixedMesh 0 0 (fun _ => 0)).tagAt (fun _ => 5) = TagVal.SET ∧
    (tagsBuffered areaCollab fixedMesh 0 0 (fun _ => 0)).tagAt (fun _ => 6) = TagVal.SET ∧
    (tagsFixed areaCollab fixedMesh 0 0 (fun _ => 0)).tagAt (fun _ => 5) = TagVal.CLEAR ∧
    (tagsFixed areaCollab fixedMesh 0 0 (fun _ => 0)).tagAt (fun _ => 6) = TagVal.SET := by
  decide!

/-- C24, amended: in fixed-coarse-grid mode, at every level `levc >= useFixedUpToLevel()`
processed by `MakeNewGrids`, after the buffering step every tag lying inside the region
returned by `GetAreaNotToTag(levc)` is cleared (set to `CLEAR`), while the tags outside
that region are left as they were.  (`tagAt` reads a cell of the tag array; `setVal` with
`CLEAR` clears the cells of the given box array and leaves the others.) -/
theorem fixed_mode_clears_area (x : Collab D T C) (m : AmrMesh D) (time : ℚ) (levc : Int)
    (ngt : IntVect D) (tagAt : T → IntVect D → TagVal)
    (hset : ∀ bl t c, tagAt (x.setVal bl TagVal.CLEAR t) c
      = if bl.covers c then TagVal.CLEAR else tagAt t c)
    (hfix : m.use_fixed_coarse_grids = true) (hlev : m.use_fixed_upto_level ≤ levc)
    (c : IntVect D) :
    ((x.GetAreaNotToTag levc).covers c → tagAt (tagsFixed x m time levc ngt) c = TagVal.CLEAR) ∧
    (¬ (x.GetAreaNotToTag levc).covers c →
      tagAt (tagsFixed x m time levc ngt) c = tagAt (tagsBuffered x m time levc ngt) c) := by
  have h : tagsFixed x m time levc ngt
      = x.setVal (x.GetAreaNotToTag levc) TagVal.CLEAR (tagsBuffered x m time levc ngt) := by
    unfold tagsFixed
    simp only []
    rw [if_pos ⟨hfix, hlev⟩]
  rw [h, hset]
  constructor
  · intro hc; rw [if_pos hc]
  · intro hc; rw [if_neg hc]

theorem fixed_mode_clears_area_witness :
    ((areaCollab.GetAreaNotToTag 0).covers (fun _ => 5) →
      (tagsFixed areaCollab fixedMesh 0 0 (fun _ => 0)).tagAt (fun _ => 5) = TagVal.CLEAR) ∧
    (¬ (areaCollab.GetAreaNotToTag 0).covers (fun _ => 5) →
      (tagsFixed areaCollab fixedMesh 0 0 (fun _ => 0)).tagAt (fun _ => 5)
        = (tagsBuffered areaCollab fixedMesh 0 0 (fun _ => 0)).tagAt (fun _ => 5)) :=
  fixed_mode_clears_area areaCollab fixedMesh 0 0 (fun _ => 0) TagCells.tagAt
    (fun bl t c => refSetVal_clear_tagAt bl t c) (by decide) (by decide) (fun _ => 5)

/-! ### The nesting domain of a level without grids -/

theorem simplify_nil (simplify : BoxList D → BoxList D) (hs : SimplifySpec simplify) :
    simplify [] = [] := by
  obtain ⟨h1, h2⟩ := hs []
  have hok := h2 (fun b hb => by cases hb)
  cases hl : simplify [] with
  | nil => rfl
  | cons b t =>
    exfalso
    have hb : b ∈ simplify [] := by rw [hl]; exact List.mem_cons_self _ _
    have hcov : (simplify []).covers b.smallEnd :=
      ⟨b, hb, fun d => ⟨le_refl _, hok b hb d⟩⟩
    have := (h1 b.smallEnd).1 hcov
    obtain ⟨b', hb', -⟩ := this
    cases hb'

set_option maxRecDepth 100000 in
/-- C25 fails as stated: `bareMesh` has no grids at level 0, its coarsened domain at level 0
is `[0,15]`, and the proper nesting domain of level 0 built by `MakeNewGrids(0, ...)` is
empty: it holds no box and does not cover the cell 3 of the domain. -/
theorem nesting_domain_empty_without_grids :
    bareMesh.grids 0 = [] ∧ pc_domain bareMesh 0 = box1 0 15 ∧
    p_n_ba (refCollab lineEst 1) bareMesh 0 0 = [] ∧
    (pc_domain bareMesh 0).contains (fun _ => 3) ∧
    ¬ (p_n_ba (refCollab lineEst 1) bareMesh 0 0).covers (fun _ => 3) := by
  decide!

/-- C25, amended: if the level `lbase` has no grids (`grids[lbase]` is empty) and
`n_proper >= 0`, the complement `p_n_comp_ba[lbase]` built by `MakeNewGrids(lbase, ...)`
covers the whole coarsened problem domain `pc_domain[lbase]`, and the proper nesting
domain `p_n_ba[lbase]` covers no cell: it is empty, not the full domain. -/
theorem nesting_domain_without_grids (x : Collab D T C) (m : AmrMesh D) (lbase : Int)
    (hs : SimplifySpec x.simplify) (hg : m.grids lbase = []) (hn : 0 ≤ m.n_proper)
    (hok : (pc_domain m lbase).ok) (c : IntVect D) :
    ((pc_domain m lbase).contains c → (p_n_comp_ba x m lbase lbase).covers c) ∧
    ¬ (p_n_ba x m lbase lbase).covers c := by
  have hcomp : (pc_domain m lbase).contains c → (p_n_comp_ba x m lbase lbase).covers c := by
    intro hc
    have h1 : ((x.simplify (BoxList.complementIn (pc_domain m lbase)
        ((x.simplify (m.grids lbase)).coarsen (bf_lev m lbase)))).accrete m.n_proper).covers c := by
      apply covers_accrete_of_covers _ _ hn
      rw [(hs _).1 c, (complementIn_spec _ _ hok).1 c, hg, simplify_nil x.simplify hs]
      refine ⟨hc, ?_⟩
      rintro ⟨b, hb, -⟩
      cases hb
    rw [p_n_comp_ba_base]
    split
    · exact covers_ProjPeriodic_of_covers _ _ _ c h1
    · exact h1
  refine ⟨hcomp, ?_⟩
  rw [covers_p_n_ba x m lbase lbase hs hok c]
  rintro ⟨h1, h2⟩
  exact h2 (hcomp h1)

theorem nesting_domain_without_grids_witness :
    ((pc_domain bareMesh 0).contains (fun _ => 3) →
      (p_n_comp_ba (refCollab lineEst 1) bareMesh 0 0).covers (fun _ => 3)) ∧
    ¬ (p_n_ba (refCollab lineEst 1) bareMesh 0 0).covers (fun _ => 3) :=
  nesting_domain_without_grids (refCollab lineEst 1) bareMesh 0 refSimplify_spec
    (by decide) (by decide) (by decide) (fun _ => 3)

/-! ### The base grids -/

set_option maxRecDepth 100000 in
/-- C27 at a concrete input: the level-0 domain `[1,2]` of `oddStartMesh` has 2 cells, an
even number, and with `max_grid_size[0] = 1` the base grid that `MakeBaseGrids` builds
before the call of `ChopGrids` holds the boxes `[1,1]` and `[2,2]`, of 1 cell each: the
low end of the domain is odd, so that `fac = 1`. -/
theorem base_boxes_odd_in_even_domain :
    checkInput oddStartMesh = Except.ok () ∧
    (oddStartMesh.domain 0).length 0 = 2 ∧
    baseBoxes (refCollab lineEst 1) oddStartMesh = [box1 1 1, box1 2 2] ∧
    ∀ b ∈ baseBoxes (refCollab lineEst 1) oddStartMesh, b.length 0 = 1 := by
  decide!

/-- In every direction in which the level-0 domain is left as it is by coarsening and
refining by 2 (its low end is even and its number of cells is even), every box of the
base grid built by `MakeBaseGrids` before the call of `ChopGrids` has an even number of
cells, whatever `maxSize` does. -/
theorem baseBoxes_even (x : Collab D T C) (m : AmrMesh D) (b : Box D)
    (hb : b ∈ baseBoxes x m) (d : Fin D)
    (hd : (m.domain 0).length d
      = (((m.domain 0).coarsen (fun _ => 2)).refine (fun _ => 2)).length d) :
    ∃ k, b.length d = 2 * k := by
  unfold baseBoxes at hb
  simp only [BoxList.refine, List.mem_map] at hb
  obtain ⟨a, -, rfl⟩ := hb
  refine ⟨a.length d, ?_⟩
  have e : ∀ r : IntVect D, (a.refine r).length d = r d * a.length d := by
    intro r
    unfold Box.length Box.refine
    simp only []
    ring
  rw [e, if_neg (fun h => h hd)]

end amrex

namespace amrex
variable {D : Nat}

/-! ### The direction that a pass of `ChopGrids` halves -/

theorem canHalve_iff (m : AmrMesh D) (lev : Int) (chunk : IntVect D) (d : Fin D) :
    canHalve m lev chunk d = true ↔
      m.refine_grid_layout_dims d ≠ 0 ∧ cdiv (chunk d) 2 ≠ 0 ∧
        m.blocking_factor lev d ∣ cdiv (chunk d) 2 := by
  unfold canHalve cmod
  simp only [Bool.and_eq_true, bne_iff_ne, ne_eq, beq_iff_eq]
  constructor
  · rintro ⟨h1, h2, h3⟩
    exact ⟨h1, h2, Int.dvd_of_tmod_eq_zero h3⟩
  · rintro ⟨h1, h2, h3⟩
    exact ⟨h1, h2, Int.tmod_eq_zero_of_dvd h3⟩

/-- The directions in the order in which a pass tries them: a direction comes before
another one when its cap is larger, or equal with a larger index. -/
theorem chunkOrder_pairwise (chunk : IntVect D) :
    (chunkOrder chunk).Pairwise (fun a b => pairLE (chunk b, b.val) (chunk a, a.val)) := by
  unfold chunkOrder
  rw [List.pairwise_reverse]
  have htot : IsTotal (Fin D) (fun a b => pairLE (chunk a, a.val) (chunk b, b.val)) :=
    ⟨fun a b => by unfold pairLE; simp only []; omega⟩
  have htr : IsTrans (Fin D) (fun a b => pairLE (chunk a, a.val) (chunk b, b.val)) :=
    ⟨fun a b c h1 h2 => by unfold pairLE at *; simp only [] at *; omega⟩
  exact List.sorted_insertionSort _ _

theorem find_split {α : Type} (p : α → Bool) (l : List α) (a : α)
    (h : l.find? p = some a) :
    p a = true ∧ ∃ as bs, l = as ++ a :: bs ∧ ∀ x ∈ as, p x = false := by
  induction l with
  | nil => cases h
  | cons b t ih =>
    unfold List.find? at h
    cases hb : p b with
    | true =>
      rw [hb] at h
      simp only [Option.some.injEq] at h
      subst h
      exact ⟨hb, [], t, rfl, fun x hx => by cases hx⟩
    | false =>
      rw [hb] at h
      obtain ⟨g1, as, bs, g2, g3⟩ := ih h
      refine ⟨g1, b :: as, bs, by rw [g2]; rfl, fun x hx => ?_⟩
      rcases List.mem_cons.1 hx with e | e
      · rw [e]; exact hb
      · exact g3 x e

/-- C28: each pass of the loop of `ChopGrids` halves the cap in at most one direction,
chosen as follows: among the enabled directions whose halved cap is a non-zero multiple of
the blocking factor, the one with the largest current cap, and among those of equal cap
the one with the largest index; then `ba.maxSize` is applied with the new cap.  When no
direction qualifies, the pass changes nothing and the loop ends with `ba` as it is. -/
theorem chopPass_choice (maxSize : IntVect D → BoxList D → BoxList D) (m : AmrMesh D)
    (lev : Int) (st : ChopState D) :
    (∀ d, canHalve m lev st.chunk d = true ↔
      m.refine_grid_layout_dims d ≠ 0 ∧ cdiv (st.chunk d) 2 ≠ 0 ∧
        m.blocking_factor lev d ∣ cdiv (st.chunk d) 2) ∧
    ((∀ d, canHalve m lev st.chunk d = false) →
      chopPass maxSize m lev st = st ∧
      ∀ fuel target_size, chopLoop maxSize m lev target_size (fuel + 1) st = some st) ∧
    ((∃ d, canHalve m lev st.chunk d = true) →
      ∃ idim, canHalve m lev st.chunk idim = true ∧
        (∀ d, canHalve m lev st.chunk d = true →
          st.chunk d < st.chunk idim ∨ (st.chunk d = st.chunk idim ∧ d ≤ idim)) ∧
        chopPass maxSize m lev st =
          { chunk := Function.update st.chunk idim (cdiv (st.chunk idim) 2)
            ba := maxSize (Function.update st.chunk idim (cdiv (st.chunk idim) 2)) st.ba
            applied := Function.update st.chunk idim (cdiv (st.chunk idim) 2) :: st.applied } ∧
        ∀ d, d ≠ idim → (chopPass maxSize m lev st).chunk d = st.chunk d) := by
  refine ⟨fun d => canHalve_iff m lev st.chunk d, ?_, ?_⟩
  · intro hno
    have hfind : (chunkOrder st.chunk).find? (canHalve m lev st.chunk) = none := by
      rw [List.find?_eq_none]
      intro d _
      rw [hno d]
      simp
    have hpass : chopPass maxSize m lev st = st := by
      unfold chopPass
      rw [hfind]
    refine ⟨hpass, fun fuel target_size => ?_⟩
    unfold chopLoop
    simp only []
    rw [hpass]
    simp
  · rintro ⟨d0, hd0⟩
    cases hfind : (chunkOrder st.chunk).find? (canHalve m lev st.chunk) with
    | none =>
      exfalso
      rw [List.find?_eq_none] at hfind
      exact hfind d0 (mem_chunkOrder st.chunk d0) hd0
    | some idim =>
      have hpass : chopPass maxSize m lev st =
          { chunk := Function.update st.chunk idim (cdiv (st.chunk idim) 2)
            ba := maxSize (Function.update st.chunk idim (cdiv (st.chunk idim) 2)) st.ba
            applied := Function.update st.chunk idim (cdiv (st.chunk idim) 2) :: st.applied } := by
        unfold chopPass
        rw [hfind]
      obtain ⟨hcan, as, bs, hsplit, hbefore⟩ := find_split _ _ _ hfind
      refine ⟨idim, hcan, ?_, hpass, ?_⟩
      · intro d hd
        have hmem : d ∈ chunkOrder st.chunk := mem_chunkOrder st.chunk d
        rw [hsplit] at hmem
        rcases List.mem_append.1 hmem with h | h
        · have := hbefore d h
          rw [hd] at this
          cases this
        · rcases List.mem_cons.1 h with h | h
          · subst h
            exact Or.inr ⟨rfl, le_refl _⟩
          · have hpw := chunkOrder_pairwise st.chunk
            rw [hsplit, List.pairwise_append] at hpw
            have := (List.pairwise_cons.1 hpw.2.1).1 d h
            unfold pairLE at this
            simp only [] at this
            rcases this with h1 | ⟨h1, h2⟩
            · exact Or.inl h1
            · exact Or.inr ⟨h1, h2⟩
      · intro d hd
        rw [hpass]
        exact Function.update_noteq hd _ _

set_option maxRecDepth 100000 in
theorem chopPass_choice_witness :
    ∃ idim, canHalve blockMesh 0 (chunkInit blockMesh 0) idim = true ∧
      (∀ d, canHalve blockMesh 0 (chunkInit blockMesh 0) d = true →
        chunkInit blockMesh 0 d < chunkInit blockMesh 0 idim ∨
          (chunkInit blockMesh 0 d = chunkInit blockMesh 0 idim ∧ d ≤ idim)) := by
  obtain ⟨idim, h1, h2, -⟩ := (chopPass_choice refMaxSize blockMesh 0
    { chunk := chunkInit blockMesh 0, ba := [box2 0 0 63 63], applied := [] }).2.2
    ⟨1, by decide⟩
  exact ⟨idim, h1, h2⟩

end amrex

namespace amrex
variable {D : Nat} {T C DM : Type}

/-! ### A pass of the stabilization loop -/

/-- An event of the driver itself for the level `lev`: the callback, or one of the two
setter calls that follow it. -/
theorem applyCalls_own [DecidableEq DM] (l : Int) (calls : List (SetterCall D DM))
    (hown : ∀ c ∈ calls, c.level = l) (s : MeshState D DM) :
    (∃ ev, (applyCalls s calls).log = ev ++ s.log ∧
      ∀ e ∈ ev, ∃ lev, e = DriverEvent.setBoxArray false lev ∨
        e = DriverEvent.setDistributionMap false lev) ∧
    ∀ lev, lev ≠ l → (applyCalls s calls).mesh.grids lev = s.mesh.grids lev ∧
      (applyCalls s calls).dmap lev = s.dmap lev := by
  induction calls generalizing s with
  | nil =>
    exact ⟨⟨[], rfl, fun e he => by cases he⟩, fun lev _ => ⟨rfl, rfl⟩⟩
  | cons c rest ih =>
    have hrest : ∀ c ∈ rest, c.level = l := fun c hc => hown c (List.mem_cons_of_mem _ hc)
    have hc := hown c (List.mem_cons_self _ _)
    cases c with
    | boxArray lc ba =>
      have hlc : lc = l := hc
      obtain ⟨⟨ev, g1, g2⟩, g3⟩ := ih hrest (SetBoxArray s false lc ba)
      have e1 : (SetBoxArray s false lc ba).log = DriverEvent.setBoxArray false lc :: s.log := rfl
      have e2 : (SetBoxArray s false lc ba).dmap = s.dmap := rfl
      have e3 : ∀ lev, lev ≠ l → (SetBoxArray s false lc ba).mesh.grids lev = s.mesh.grids lev := by
        intro lev hlev
        unfold SetBoxArray
        simp only []
        split
        · exact Function.update_noteq (by rw [hlc]; exact hlev) _ _
        · rfl
      simp only [applyCalls]
      refine ⟨⟨ev ++ [DriverEvent.setBoxArray false lc], ?_, ?_⟩, fun lev hlev => ?_⟩
      · rw [g1, e1]; simp
      · intro e he
        rcases List.mem_append.1 he with h | h
        · exact g2 e h
        · exact ⟨lc, Or.inl (List.mem_singleton.1 h)⟩
      · obtain ⟨a1, a2⟩ := g3 lev hlev
        exact ⟨a1.trans (e3 lev hlev), by rw [a2, e2]⟩
    | distributionMap lc dm =>
      have hlc : lc = l := hc
      obtain ⟨⟨ev, g1, g2⟩, g3⟩ := ih hrest (SetDistributionMap s false lc dm)
      have e1 : (SetDistributionMap s false lc dm).log
          = DriverEvent.setDistributionMap false lc :: s.log := rfl
      have e2 : (SetDistributionMap s false lc dm).mesh = s.mesh := rfl
      have e3 : ∀ lev, lev ≠ l → (SetDistributionMap s false lc dm).dmap lev = s.dmap lev := by
        intro lev hlev
        unfold SetDistributionMap
        simp only []
        split
        · exact Function.update_noteq (by rw [hlc]; exact hlev) _ _
        · rfl
      simp only [applyCalls]
      refine ⟨⟨ev ++ [DriverEvent.setDistributionMap false lc], ?_, ?_⟩, fun lev hlev => ?_⟩
      · rw [g1, e1]; simp
      · intro e he
        rcases List.mem_append.1 he with h | h
        · exact g2 e h
        · exact ⟨lc, Or.inr (List.mem_singleton.1 h)⟩
      · obtain ⟨a1, a2⟩ := g3 lev hlev
        exact ⟨by rw [a1, e2], a2.trans (e3 lev hlev)⟩

/-- The commit of the level `l` by a client that acts on its own level only: the events
it adds to the record are the callback and the two setter calls of the driver for `l`
(and setter calls of the callback), and the other levels are left as they are. -/
theorem commitLevel_own [DecidableEq DM] (cb : Callbacks D DM) (hown : cb.ownLevel)
    (s : MeshState D DM) (l : Int) (time : ℚ) (ba : BoxList D) (dm : DM) :
    (∃ ev, (commitLevel cb s l time ba dm).log = ev ++ s.log ∧
      DriverEvent.fromScratch l ∈ ev ∧ DriverEvent.setBoxArray true l ∈ ev ∧
      DriverEvent.setDistributionMap true l ∈ ev ∧
      ∀ lev, lev ≠ l → DriverEvent.fromScratch lev ∉ ev ∧
        DriverEvent.setBoxArray true lev ∉ ev ∧ DriverEvent.setDistributionMap true lev ∉ ev) ∧
    (commitLevel cb s l time ba dm).mesh.grids l = ba ∧
    (commitLevel cb s l time ba dm).dmap l = dm ∧
    ∀ lev, lev ≠ l → (commitLevel cb s l time ba dm).mesh.grids lev = s.mesh.grids lev ∧
      (commitLevel cb s l time ba dm).dmap lev = s.dmap lev := by
  obtain ⟨-, -, c3, c4, -, -⟩ := commitLevel_spec cb s l time ba dm
  obtain ⟨⟨ev, g1, g2⟩, g3⟩ := applyCalls_own l (cb.MakeNewLevelFromScratch s l time ba dm)
    (hown s l time ba dm) { s with log := DriverEvent.fromScratch l :: s.log }
  have hr : runFromScratch cb s l time ba dm
      = applyCalls { s with log := DriverEvent.fromScratch l :: s.log }
          (cb.MakeNewLevelFromScratch s l time ba dm) := rfl
  rw [← hr] at g1 g3
  have k1 : ({ s with log := DriverEvent.fromScratch l :: s.log } : MeshState D DM).log
      = DriverEvent.fromScratch l :: s.log := rfl
  rw [k1] at g1
  have hlog : (commitLevel cb s l time ba dm).log
      = DriverEvent.setDistributionMap true l :: DriverEvent.setBoxArray true l ::
          (runFromScratch cb s l time ba dm).log := rfl
  refine ⟨⟨DriverEvent.setDistributionMap true l :: DriverEvent.setBoxArray true l ::
      (ev ++ [DriverEvent.fromScratch l]), ?_, ?_, ?_, ?_, ?_⟩, c3, c4, ?_⟩
  · rw [hlog, g1]; simp
  · simp
  · simp
  · simp
  · intro lev hlev
    have hev : ∀ e ∈ ev, e ≠ DriverEvent.fromScratch lev ∧
        e ≠ DriverEvent.setBoxArray true lev ∧ e ≠ DriverEvent.setDistributionMap true lev := by
      intro e he
      obtain ⟨lev', h | h⟩ := g2 e he <;> subst h <;> simp
    refine ⟨?_, ?_, ?_⟩
    · simp only [List.mem_cons, List.mem_append, List.mem_singleton, reduceCtorEq, false_or,
        DriverEvent.fromScratch.injEq, List.not_mem_nil, or_false]
      rintro (h | h)
      · exact (hev _ h).1 rfl
      · exact hlev h
    · simp only [List.mem_cons, List.mem_append, List.mem_singleton, reduceCtorEq, false_or,
        DriverEvent.setBoxArray.injEq, true_and, List.not_mem_nil, or_false]
      rintro (h | h)
      · exact hlev h
      · exact (hev _ h).2.1 rfl
    · simp only [List.mem_cons, List.mem_append, List.mem_singleton, reduceCtorEq, false_or,
        DriverEvent.setDistributionMap.injEq, true_and, List.not_mem_nil, or_false]
      rintro (h | h)
      · exact hlev h
      · exact (hev _ h).2.2 rfl
  · intro lev hlev
    obtain ⟨a1, a2⟩ := g3 lev hlev
    have b1 : (commitLevel cb s l time ba dm).mesh.grids lev
        = (runFromScratch cb s l time ba dm).mesh.grids lev := by
      unfold commitLevel SetDistributionMap SetBoxArray
      simp only []
      split
      · exact Function.update_noteq hlev _ _
      · rfl
    have b2 : (commitLevel cb s l time ba dm).dmap lev
        = (runFromScratch cb s l time ba dm).dmap lev := by
      unfold commitLevel SetDistributionMap SetBoxArray
      simp only []
      split
      · exact Function.update_noteq hlev _ _
      · rfl
    exact ⟨b1.trans a1, b2.trans a2⟩

end amrex

namespace amrex
variable {D : Nat} {T C DM : Type}

theorem stabLevel_differs [DecidableEq DM] (cb : Callbacks D DM) (time : ℚ)
    (ng : Int → BoxList D) (nd : Int → DM) (s : MeshState D DM) (flag : Bool) (l : Int)
    (h : ng l ≠ s.mesh.grids l ∨ nd l ≠ s.dmap l) :
    stabLevel cb time ng nd (s, flag) l = (commitLevel cb s l time (ng l) (nd l), false) := by
  unfold stabLevel
  rw [if_pos h]

theorem stabLevel_same [DecidableEq DM] (cb : Callbacks D DM) (time : ℚ)
    (ng : Int → BoxList D) (nd : Int → DM) (s : MeshState D DM) (flag : Bool) (l : Int)
    (h : ¬ (ng l ≠ s.mesh.grids l ∨ nd l ≠ s.dmap l)) :
    stabLevel cb time ng nd (s, flag) l = (s, flag) := by
  unfold stabLevel
  rw [if_neg h]

/-- The loop over the levels of a stabilization pass, for a client that acts on its own
level only: the levels that differ are made again, the others are left alone, and the
flag stays set when no level differs. -/
theorem stabFold_spec [DecidableEq DM] (cb : Callbacks D DM) (hown : cb.ownLevel) (time : ℚ)
    (ng : Int → BoxList D) (nd : Int → DM) :
    ∀ (levs : List Int), levs.Nodup → ∀ (s : MeshState D DM) (flag : Bool),
    ∃ added, (levs.foldl (stabLevel cb time ng nd) (s, flag)).1.log = added ++ s.log ∧
      (∀ lev, lev ∈ levs → (ng lev ≠ s.mesh.grids lev ∨ nd lev ≠ s.dmap lev) →
        DriverEvent.fromScratch lev ∈ added ∧ DriverEvent.setBoxArray true lev ∈ added ∧
        DriverEvent.setDistributionMap true lev ∈ added ∧
        (levs.foldl (stabLevel cb time ng nd) (s, flag)).1.mesh.grids lev = ng lev ∧
        (levs.foldl (stabLevel cb time ng nd) (s, flag)).1.dmap lev = nd lev) ∧
      (∀ lev, ¬ (lev ∈ levs ∧ (ng lev ≠ s.mesh.grids lev ∨ nd lev ≠ s.dmap lev)) →
        DriverEvent.fromScratch lev ∉ added ∧ DriverEvent.setBoxArray true lev ∉ added ∧
        DriverEvent.setDistributionMap true lev ∉ added ∧
        (levs.foldl (stabLevel cb time ng nd) (s, flag)).1.mesh.grids lev = s.mesh.grids lev ∧
        (levs.foldl (stabLevel cb time ng nd) (s, flag)).1.dmap lev = s.dmap lev) ∧
      ((levs.foldl (stabLevel cb time ng nd) (s, flag)).2 = true ↔
        flag = true ∧ ∀ lev ∈ levs, ng lev = s.mesh.grids lev ∧ nd lev = s.dmap lev) := by
  intro levs
  induction levs with
  | nil =>
    intro _ s flag
    refine ⟨[], rfl, ?_, ?_, ?_⟩
    · intro lev hl
      cases hl
    · intro lev _
      refine ⟨?_, ?_, ?_, rfl, rfl⟩ <;> simp
    · simp
  | cons l rest ih =>
    intro hnd s flag
    have hl : l ∉ rest := (List.nodup_cons.1 hnd).1
    have hr : rest.Nodup := (List.nodup_cons.1 hnd).2
    rw [List.foldl_cons]
    by_cases hd : ng l ≠ s.mesh.grids l ∨ nd l ≠ s.dmap l
    · rw [stabLevel_differs cb time ng nd s flag l hd]
      obtain ⟨⟨ev, c1, c2, c3, c4, c5⟩, c6, c7, c8⟩ :=
        commitLevel_own cb hown s l time (ng l) (nd l)
      obtain ⟨added, i0, i1, i2, i3⟩ := ih hr (commitLevel cb s l time (ng l) (nd l)) false
      have hsame : ∀ lev, lev ≠ l →
          ((ng lev ≠ (commitLevel cb s l time (ng l) (nd l)).mesh.grids lev ∨
            nd lev ≠ (commitLevel cb s l time (ng l) (nd l)).dmap lev) ↔
          (ng lev ≠ s.mesh.grids lev ∨ nd lev ≠ s.dmap lev)) := by
        intro lev hlev
        rw [(c8 lev hlev).1, (c8 lev hlev).2]
      refine ⟨added ++ ev, ?_, ?_, ?_, ?_⟩
      · rw [i0, c1, List.append_assoc]
      · intro lev hmem hdiff
        rcases List.mem_cons.1 hmem with e | e
        · subst e
          obtain ⟨-, -, -, j4, j5⟩ := i2 lev (fun h => hl h.1)
          exact ⟨List.mem_append_right _ c2, List.mem_append_right _ c3,
            List.mem_append_right _ c4, j4.trans c6, j5.trans c7⟩
        · have hne : lev ≠ l := fun e' => hl (e' ▸ e)
          obtain ⟨j1, j2, j3, j4, j5⟩ := i1 lev e ((hsame lev hne).2 hdiff)
          exact ⟨List.mem_append_left _ j1, List.mem_append_left _ j2,
            List.mem_append_left _ j3, j4, j5⟩
      · intro lev hnot
        have hne : lev ≠ l := by
          intro e
          subst e
          exact hnot ⟨List.mem_cons_self _ _, hd⟩
        obtain ⟨j1, j2, j3, j4, j5⟩ := i2 lev (fun h =>
          hnot ⟨List.mem_cons_of_mem _ h.1, (hsame lev hne).1 h.2⟩)
        obtain ⟨k1, k2, k3⟩ := c5 lev hne
        refine ⟨?_, ?_, ?_, j4.trans (c8 lev hne).1, j5.trans (c8 lev hne).2⟩
        · intro h
          rcases List.mem_append.1 h with h | h
          · exact j1 h
          · exact k1 h
        · intro h
          rcases List.mem_append.1 h with h | h
          · exact j2 h
          · exact k2 h
        · intro h
          rcases List.mem_append.1 h with h | h
          · exact j3 h
          · exact k3 h
      · rw [i3]
        constructor
        · rintro ⟨h, -⟩
          cases h
        · rintro ⟨-, h⟩
          exfalso
          obtain ⟨a1, a2⟩ := h l (List.mem_cons_self _ _)
          rcases hd with hd | hd
          · exact hd a1
          · exact hd a2
    · rw [stabLevel_same cb time ng nd s flag l hd]
      obtain ⟨added, i0, i1, i2, i3⟩ := ih hr s flag
      refine ⟨added, i0, ?_, ?_, ?_⟩
      · intro lev hmem hdiff
        rcases List.mem_cons.1 hmem with e | e
        · subst e
          exact absurd hdiff hd
        · exact i1 lev e hdiff
      · intro lev hnot
        exact i2 lev (fun h => hnot ⟨List.mem_cons_of_mem _ h.1, h.2⟩)
      · rw [i3]
        have hl' : ng l = s.mesh.grids l ∧ nd l = s.dmap l := by
          constructor
          · by_contra h; exact hd (Or.inl h)
          · by_contra h; exact hd (Or.inr h)
        constructor
        · rintro ⟨h1, h2⟩
          refine ⟨h1, fun lev hmem => ?_⟩
          rcases List.mem_cons.1 hmem with e | e
          · subst e; exact hl'
          · exact h2 lev e
        · rintro ⟨h1, h2⟩
          exact ⟨h1, fun lev hmem => h2 lev (List.mem_cons_of_mem _ hmem)⟩

/-- A pass of the stabilization loop whose nested call has returned `new_finest`,
`new_grids` and `new_dmap` with `new_finest >= finest_level`: the loop ends when the
flag `grids_the_same` is still set after the loop over the levels, and goes on
otherwise. -/
theorem stabLoop_pass [DecidableEq DM] (x : Collab D T C) (cb : Callbacks D DM) (time : ℚ)
    (fuel k : Nat) (g : DriverState D DM) (new_finest : Int) (new_grids : Int → BoxList D)
    (new_dmap : Int → DM)
    (h : MakeNewGridsDM x cb g.s.mesh 0 time
      (fun i => if 1 ≤ i ∧ i ≤ g.s.mesh.finest_level then g.s.mesh.grids i else g.new_grids i)
      (fun i => if 1 ≤ i ∧ i ≤ g.s.mesh.finest_level then g.s.dmap i else g.new_dmap i)
      fuel = some (Except.ok (new_finest, new_grids, new_dmap)))
    (hnf : ¬ new_finest < g.s.mesh.finest_level) :
    stabLoop x cb time fuel (k + 1) g =
      if (stabPass cb time new_finest new_grids new_dmap
          { g.s with mesh := { g.s.mesh with finest_level := new_finest } }).2 = true then
        Outcome.done
          { s := (stabPass cb time new_finest new_grids new_dmap
              { g.s with mesh := { g.s.mesh with finest_level := new_finest } }).1
            new_grids := new_grids
            new_dmap := new_dmap
            raised := g.raised
            grow_passes := g.grow_passes
            stab_passes := g.stab_passes + 1 }
      else stabLoop x cb time fuel k
          { s := (stabPass cb time new_finest new_grids new_dmap
              { g.s with mesh := { g.s.mesh with finest_level := new_finest } }).1
            new_grids := new_grids
            new_dmap := new_dmap
            raised := g.raised
            grow_passes := g.grow_passes
            stab_passes := g.stab_passes + 1 } := by
  conv_lhs => unfold stabLoop
  simp only []
  rw [h]
  simp only []
  rw [if_neg hnf]

set_option maxRecDepth 100000 in
/-- C26 fails as stated: the client of `crossCallbacks 1 0 [[0,15]]` calls
`SetBoxArray(0, [[0,15]])` from `MakeNewLevelFromScratch(1, ...)`.  The stabilization loop
on `lineMesh` (two boxes `[0,7]`, `[8,15]` on level 0, finest level 1) makes two passes; in
the first one the nested call returns `new_finest = 2`, the levels 1 and 2 differ and are
made again, and while level 1 is made `SetBoxArray` is invoked for level 0, which is not
a level of `1..new_finest`, and the grids of level 0 are changed.  The record of the
loop, latest event first, lists every call. -/
theorem callback_sets_another_level :
    lineMesh.grids 0 = [box1 0 7, box1 8 15] ∧
    ∃ g, stabLoop (refCollab lineEst 1) (crossCallbacks 1 0 [box1 0 15]) 0 10 4
        (driverStart (crossCallbacks 1 0 [box1 0 15]) (freshState lineMesh))
        = Outcome.done g ∧
      g.stab_passes = 2 ∧ g.s.mesh.finest_level = 2 ∧
      g.s.mesh.grids 0 = [box1 0 15] ∧
      g.s.log = [DriverEvent.setDistributionMap true 2, DriverEvent.setBoxArray true 2,
        DriverEvent.fromScratch 2, DriverEvent.setDistributionMap true 1,
        DriverEvent.setBoxArray true 1, DriverEvent.setBoxArray false 0,
        DriverEvent.fromScratch 1] := by
  refine ⟨by decide, ?_⟩
  obtain ⟨g, hg, hP⟩ := exists_of_outcomeHas
    (stabLoop (refCollab lineEst 1) (crossCallbacks 1 0 [box1 0 15]) 0 10 4
      (driverStart (crossCallbacks 1 0 [box1 0 15]) (freshState lineMesh)))
    (fun g => decide (g.stab_passes = 2 ∧ g.s.mesh.finest_level = 2 ∧
      g.s.mesh.grids 0 = [box1 0 15] ∧
      g.s.log = [DriverEvent.setDistributionMap true 2, DriverEvent.setBoxArray true 2,
        DriverEvent.fromScratch 2, DriverEvent.setDistributionMap true 1,
        DriverEvent.setBoxArray true 1, DriverEvent.setBoxArray false 0,
        DriverEvent.fromScratch 1])) (by decide!)
  exact ⟨g, hg, of_decide_eq_true hP⟩

/-- C26, amended: in each pass of the stabilization loop of `MakeNewGrids(time)` that is
not ended by `new_finest < finest_level`, for a client whose callback
`MakeNewLevelFromScratch(lev, ...)` calls `SetBoxArray` and `SetDistributionMap` for the
level `lev` only, `MakeNewLevelFromScratch`, `SetBoxArray` and `SetDistributionMap` are
invoked by the driver for exactly those levels `lev` in `1..new_finest` whose `new_grids[lev]`
or `new_dmap[lev]` differs from the committed `grids[lev]` or `dmap[lev]`, which then hold
the new values; the grids and maps of all other levels are left unchanged; the flag
`grids_the_same` stays set exactly when no level differs, and then the loop stops. -/
theorem stabPass_spec [DecidableEq DM] (cb : Callbacks D DM) (hown : cb.ownLevel) (time : ℚ)
    (new_finest : Int) (new_grids : Int → BoxList D) (new_dmap : Int → DM)
    (s1 : MeshState D DM) :
    (∃ added, (stabPass cb time new_finest new_grids new_dmap s1).1.log = added ++ s1.log ∧
      (∀ lev, 1 ≤ lev → lev ≤ new_finest →
        (new_grids lev ≠ s1.mesh.grids lev ∨ new_dmap lev ≠ s1.dmap lev) →
        DriverEvent.fromScratch lev ∈ added ∧ DriverEvent.setBoxArray true lev ∈ added ∧
        DriverEvent.setDistributionMap true lev ∈ added ∧
        (stabPass cb time new_finest new_grids new_dmap s1).1.mesh.grids lev = new_grids lev ∧
        (stabPass cb time new_finest new_grids new_dmap s1).1.dmap lev = new_dmap lev) ∧
      (∀ lev, ¬ (1 ≤ lev ∧ lev ≤ new_finest ∧
          (new_grids lev ≠ s1.mesh.grids lev ∨ new_dmap lev ≠ s1.dmap lev)) →
        DriverEvent.fromScratch lev ∉ added ∧ DriverEvent.setBoxArray true lev ∉ added ∧
        DriverEvent.setDistributionMap true lev ∉ added ∧
        (stabPass cb time new_finest new_grids new_dmap s1).1.mesh.grids lev
          = s1.mesh.grids lev ∧
        (stabPass cb time new_finest new_grids new_dmap s1).1.dmap lev = s1.dmap lev)) ∧
    ((stabPass cb time new_finest new_grids new_dmap s1).2 = true ↔
      ∀ lev, 1 ≤ lev → lev ≤ new_finest →
        new_grids lev = s1.mesh.grids lev ∧ new_dmap lev = s1.dmap lev) ∧
    (∀ (x : Collab D T C) (fuel k : Nat) (g : DriverState D DM),
      s1 = { g.s with mesh := { g.s.mesh with finest_level := new_finest } } →
      MakeNewGridsDM x cb g.s.mesh 0 time
        (fun i => if 1 ≤ i ∧ i ≤ g.s.mesh.finest_level then g.s.mesh.grids i
          else g.new_grids i)
        (fun i => if 1 ≤ i ∧ i ≤ g.s.mesh.finest_level then g.s.dmap i else g.new_dmap i)
        fuel = some (Except.ok (new_finest, new_grids, new_dmap)) →
      ¬ new_finest < g.s.mesh.finest_level →
      (stabPass cb time new_finest new_grids new_dmap s1).2 = true →
      ∃ g1, stabLoop x cb time fuel (k + 1) g = Outcome.done g1 ∧
        g1.s = (stabPass cb time new_finest new_grids new_dmap s1).1) := by
  obtain ⟨added, i0, i1, i2, i3⟩ := stabFold_spec cb hown time new_grids new_dmap
    (levelsUp 1 (new_finest + 1)) (levelsUp_nodup _ _) s1 true
  have hmem : ∀ lev, lev ∈ levelsUp 1 (new_finest + 1) ↔ 1 ≤ lev ∧ lev ≤ new_finest := by
    intro lev
    rw [mem_levelsUp]
    constructor
    · rintro ⟨h1, h2⟩; exact ⟨h1, by omega⟩
    · rintro ⟨h1, h2⟩; exact ⟨h1, by omega⟩
  refine ⟨⟨added, i0, ?_, ?_⟩, ?_, ?_⟩
  · intro lev h1 h2 hd
    exact i1 lev ((hmem lev).2 ⟨h1, h2⟩) hd
  · intro lev hnot
    exact i2 lev (fun h => hnot ⟨((hmem lev).1 h.1).1, ((hmem lev).1 h.1).2, h.2⟩)
  · unfold stabPass
    rw [i3]
    constructor
    · rintro ⟨-, h⟩ lev h1 h2
      exact h lev ((hmem lev).2 ⟨h1, h2⟩)
    · intro h
      exact ⟨rfl, fun lev hl => h lev ((hmem lev).1 hl).1 ((hmem lev).1 hl).2⟩
  · intro x fuel k g hs1 hcall hnf hflag
    subst hs1
    rw [stabLoop_pass x cb time fuel k g new_finest new_grids new_dmap hcall hnf, if_pos hflag]
    exact ⟨_, rfl, rfl⟩

set_option maxRecDepth 100000 in
/-- Witness of C26: a pass on `lineMesh` (level 1 is `[8,23]`) for the client of
`placingCallbacks 1 [7]`, whose callback calls `SetDistributionMap(1, [7])` when level 1 is
made, with `new_finest = 1`, `new_grids[1] = [[10,13]]` and `new_dmap[1] = [0]`.  Level 1
differs: the callback and the two setters are invoked for it and it holds the new boxes and
the new map; the levels 0 and 2 are left as they are; the flag is cleared.  The loop itself,
run on this mesh, stops after its second pass. -/
theorem stabPass_spec_witness :
    (placingCallbacks 1 [7] : Callbacks 1 (List Nat)).ownLevel ∧
    (fun _ => [box1 10 13] : Int → BoxList 1) 1 ≠ (freshState lineMesh).mesh.grids 1 ∧
    (∃ added, (stabPass (placingCallbacks 1 [7]) 0 1 (fun _ => [box1 10 13]) (fun _ => [0])
        (freshState lineMesh)).1.log = added ++ (freshState lineMesh).log ∧
      DriverEvent.fromScratch 1 ∈ added ∧ DriverEvent.setBoxArray true 1 ∈ added ∧
      DriverEvent.setDistributionMap true 1 ∈ added ∧
      DriverEvent.fromScratch 0 ∉ added ∧ DriverEvent.setBoxArray true 0 ∉ added ∧
      DriverEvent.fromScratch 2 ∉ added ∧ DriverEvent.setBoxArray true 2 ∉ added) ∧
    (stabPass (placingCallbacks 1 [7]) 0 1 (fun _ => [box1 10 13]) (fun _ => [0])
      (freshState lineMesh)).1.mesh.grids 1 = [box1 10 13] ∧
    (stabPass (placingCallbacks 1 [7]) 0 1 (fun _ => [box1 10 13]) (fun _ => [0])
      (freshState lineMesh)).1.dmap 1 = [0] ∧
    (stabPass (placingCallbacks 1 [7]) 0 1 (fun _ => [box1 10 13]) (fun _ => [0])
      (freshState lineMesh)).1.mesh.grids 0 = lineMesh.grids 0 ∧
    (stabPass (placingCallbacks 1 [7]) 0 1 (fun _ => [box1 10 13]) (fun _ => [0])
      (freshState lineMesh)).1.mesh.grids 2 = lineMesh.grids 2 ∧
    ¬ (stabPass (placingCallbacks 1 [7]) 0 1 (fun _ => [box1 10 13]) (fun _ => [0])
      (freshState lineMesh)).2 = true ∧
    ∃ g, stabLoop (refCollab lineEst 1) (placingCallbacks 1 [7]) 0 10 4
        (driverStart (placingCallbacks 1 [7]) (freshState lineMesh)) = Outcome.done g ∧
      g.stab_passes = 2 := by
  have hown : (placingCallbacks 1 [7] : Callbacks 1 (List Nat)).ownLevel := by
    intro s lev time ba dm c hc
    simp only [placingCallbacks] at hc
    split at hc
    · rename_i hl
      simp only [List.mem_singleton] at hc
      subst hc
      exact hl.symm
    · cases hc
  have hdiff : (fun _ => [box1 10 13] : Int → BoxList 1) 1
      ≠ (freshState lineMesh).mesh.grids 1 := by decide
  obtain ⟨⟨added, h0, h1, h2⟩, h3, -⟩ := @stabPass_spec 1 Unit Unit (List Nat) _
    (placingCallbacks 1 [7] : Callbacks 1 (List Nat)) hown 0 1 (fun _ => [box1 10 13])
    (fun _ => [0]) (freshState lineMesh)
  obtain ⟨a1, a2, a3, a4, a5⟩ := h1 1 (by decide) (by decide) (Or.inl hdiff)
  obtain ⟨b1, b2, -, b4, -⟩ := h2 0 (fun h => absurd h.1 (by decide))
  obtain ⟨c1, c2, -, c4, -⟩ := h2 2 (fun h => absurd h.2.1 (by decide))
  refine ⟨hown, hdiff, ⟨added, h0, a1, a2, a3, b1, b2, c1, c2⟩, a4, a5, b4, c4, ?_, ?_⟩
  · intro hflag
    exact hdiff ((h3.1 hflag 1 (by decide) (by decide)).1)
  · obtain ⟨g, hg, hP⟩ := exists_of_outcomeHas
      (stabLoop (refCollab lineEst 1) (placingCallbacks 1 [7]) 0 10 4
        (driverStart (placingCallbacks 1 [7]) (freshState lineMesh)))
      (fun g => decide (g.stab_passes = 2)) (by decide!)
    exact ⟨g, hg, of_decide_eq_true hP⟩

end amrex

namespace amrex

/-! ### More on the base grids and on `FEIntegrator::evolve` -/

set_option maxRecDepth 100000 in
theorem baseBoxes_even_witness : ∃ k, (box1 0 7).length 0 = 2 * k :=
  baseBoxes_even (refCollab lineEst 1) lineMesh (box1 0 7) (by decide!) 0 (by decide!)

variable {S : Type}

theorem evolveLoop_stopped (advance : S → ℚ → ℚ → S) (max_steps : Int) (time_out : ℚ)
    (fuel : Nat) (k : Int) (st : EvolveState S) (h : st.stop = true) :
    evolveLoop advance max_steps time_out (fuel + 1) k st = some (Except.ok st) := by
  unfold evolveLoop
  rw [if_neg]
  rintro ⟨-, h2⟩
  rw [h] at h2
  cases h2

theorem evolveLoop_past (advance : S → ℚ → ℚ → S) (max_steps : Int) (time_out : ℚ)
    (fuel : Nat) (k : Int) (st : EvolveState S) (h : ¬ k < max_steps) :
    evolveLoop advance max_steps time_out (fuel + 1) k st = some (Except.ok st) := by
  unfold evolveLoop
  rw [if_neg]
  rintro ⟨h1, -⟩
  exact h h1

/-- The loop of `evolve` from the pass `k`, entered with `stop` unset and the time step
not yet adjusted: it ends within `max_steps - k` passes, and it raises the error exactly
when none of the passes `k, ..., max_steps - 2` adjusts the step to the output time. -/
theorem evolveLoop_spec (advance : S → ℚ → ℚ → S) (max_steps : Int) (time_out t0 dt0 : ℚ) :
    ∀ (fuel k : Nat) (st : EvolveState S), st.stop = false → st.dt = dt0 →
      st.time_current = t0 + k * dt0 → (k : Int) < max_steps →
      (max_steps - k).toNat ≤ fuel →
      (evolveLoop advance max_steps time_out fuel k st
          = some (Except.error "Did not reach output time in max steps.") ↔
        ∀ j : Nat, k ≤ j → (j : Int) < max_steps - 1 → ¬ (time_out - (t0 + j * dt0) < dt0)) ∧
      evolveLoop advance max_steps time_out fuel k st ≠ none := by
  intro fuel
  induction fuel with
  | zero =>
    intro k st _ _ _ hk hf
    omega
  | succ f ih =>
    intro k st hstop hdt htc hk hf
    unfold evolveLoop
    simp only []
    rw [if_pos ⟨hk, hstop⟩]
    by_cases hlast : (k : Int) = max_steps - 1
    · rw [if_pos hlast]
      refine ⟨⟨fun _ j h1 h2 => ?_, fun _ => rfl⟩, by simp⟩
      omega
    · rw [if_neg hlast]
      have hcast : ((k + 1 : Nat) : Int) = (k : Int) + 1 := by push_cast; ring
      rw [← hcast]
      by_cases hadj : time_out - st.time_current < st.dt
      · have hf1 : ∃ f1, f = f1 + 1 := ⟨f - 1, by omega⟩
        obtain ⟨f1, rfl⟩ := hf1
        have hd : decide (time_out - st.time_current < st.dt) = true := decide_eq_true hadj
        simp only [hd, if_true]
        rw [evolveLoop_stopped advance max_steps time_out f1 _ _ rfl]
        refine ⟨?_, by simp⟩
        constructor
        · intro h; cases h
        · intro h
          exfalso
          apply h k (le_refl _) (by omega)
          rw [← htc, ← hdt]
          exact hadj
      · have hd : decide (time_out - st.time_current < st.dt) = false := decide_eq_false hadj
        simp only [hd, Bool.false_eq_true, if_false]
        obtain ⟨i1, i2⟩ := ih (k + 1)
          { S_current := advance st.S_current st.time_current st.dt
            S_out := advance st.S_current st.time_current st.dt
            time_current := st.time_current + st.dt
            dt := st.dt
            stop := st.stop }
          hstop hdt (by simp only []; rw [htc, hdt]; push_cast; ring) (by omega) (by omega)
        refine ⟨?_, i2⟩
        rw [i1]
        constructor
        · intro h j h1 h2
          rcases Nat.eq_or_lt_of_le h1 with e | e
          · subst e
            rw [← htc, ← hdt]
            exact hadj
          · exact h j e h2
        · intro h j h1 h2
          exact h j (by omega) h2

/-- The condition under which `FEIntegrator::evolve(S_out, time_out)` raises `Did not
reach output time in max steps.`: `max_steps >= 1` and none of the first `max_steps - 1`
steps reaches the output time (none finds `time_out - time_current < dt`); the
`max_steps`-th step is not looked at.  The loop ends within `max_steps` passes. -/
theorem evolve_error_iff (advance : S → ℚ → ℚ → S) (it : FEIntegrator S) (S_out : S)
    (time_out : ℚ) (fuel : Nat) (hfuel : it.max_steps.toNat < fuel) :
    (FEIntegrator.evolve advance it S_out time_out fuel
        = some (Except.error "Did not reach output time in max steps.") ↔
      1 ≤ it.max_steps ∧ ∀ j : Nat, (j : Int) < it.max_steps - 1 →
        ¬ (time_out - (it.time_current + j * it.time_step) < it.time_step)) ∧
    FEIntegrator.evolve advance it S_out time_out fuel ≠ none := by
  unfold FEIntegrator.evolve
  by_cases hpos : 1 ≤ it.max_steps
  · obtain ⟨h1, h2⟩ := evolveLoop_spec advance it.max_steps time_out it.time_current
      it.time_step fuel 0
      { S_current := it.S_current, S_out := S_out, time_current := it.time_current,
        dt := it.time_step, stop := false } rfl rfl (by simp) (by simpa using hpos)
      (by simp only [Nat.cast_zero, sub_zero]; omega)
    simp only [Nat.cast_zero] at h1 h2
    refine ⟨?_, h2⟩
    rw [h1]
    constructor
    · intro h
      exact ⟨hpos, fun j hj => h j (Nat.zero_le _) hj⟩
    · rintro ⟨-, h⟩ j _ hj
      exact h j hj
  · obtain ⟨f1, rfl⟩ : ∃ f1, fuel = f1 + 1 := ⟨fuel - 1, by omega⟩
    rw [evolveLoop_past advance it.max_steps time_out f1 0 _ (by omega)]
    refine ⟨?_, by simp⟩
    constructor
    · intro h; cases h
    · intro h; exact absurd h.1 hpos

theorem evolve_error_iff_witness :
    FEIntegrator.evolve recordStep (stepper 1) [] 1 5
        = some (Except.error "Did not reach output time in max steps.") ↔
      1 ≤ (stepper 1).max_steps ∧ ∀ j : Nat, (j : Int) < (stepper 1).max_steps - 1 →
        ¬ ((1 : ℚ) - ((stepper 1).time_current + j * (stepper 1).time_step)
          < (stepper 1).time_step) :=
  (evolve_error_iff recordStep (stepper 1) [] 1 5 (by decide)).1

end amrex

namespace amrex

set_option maxRecDepth 100000 in
/-- Witness of C6: levels 1 and 2 of `nestedMesh`, regridding from level 1.  The complement
of the nesting domain of level 1 is `[-1,8]`, `[23,32]`, that of level 2 is `[-3,18]`,
`[45,66]`; the nesting domains are `[9,22]` and `[19,44]`.  The cell 10 lies in the refined
complement of level 1, hence in the complement of level 2; the cell 12 lies in the
coarsened nesting domain of level 2, hence in the nesting domain of level 1. -/
theorem nesting_domains_transitive_witness :
    SimplifySpec (refCollab lineEst 1).simplify ∧
    0 ≤ nestedMesh.n_proper ∧ (1 : Int) < 2 ∧ (2 : Int) ≤ max_crse nestedMesh ∧
    (∀ d, 0 < rr_lev nestedMesh (2 - 1) d) ∧
    pc_domain nestedMesh 2
      = (pc_domain nestedMesh (2 - 1)).refine (rr_lev nestedMesh (2 - 1)) ∧
    (pc_domain nestedMesh 2).ok ∧
    ((p_n_comp_ba (refCollab lineEst 1) nestedMesh 1 (2 - 1)).refine
      (rr_lev nestedMesh (2 - 1))).covers (fun _ => 10) ∧
    (p_n_comp_ba (refCollab lineEst 1) nestedMesh 1 2).covers (fun _ => 10) ∧
    ((p_n_ba (refCollab lineEst 1) nestedMesh 1 2).coarsen
      (rr_lev nestedMesh (2 - 1))).covers (fun _ => 12) ∧
    (p_n_ba (refCollab lineEst 1) nestedMesh 1 (2 - 1)).covers (fun _ => 12) ∧
    (∀ c, ((p_n_comp_ba (refCollab lineEst 1) nestedMesh 1 (2 - 1)).refine
        (rr_lev nestedMesh (2 - 1))).covers c →
      (p_n_comp_ba (refCollab lineEst 1) nestedMesh 1 2).covers c) ∧
    (∀ c, ((p_n_ba (refCollab lineEst 1) nestedMesh 1 2).coarsen
        (rr_lev nestedMesh (2 - 1))).covers c →
      (p_n_ba (refCollab lineEst 1) nestedMesh 1 (2 - 1)).covers c) := by
  have hdom : pc_domain nestedMesh 2
      = (pc_domain nestedMesh (2 - 1)).refine (rr_lev nestedMesh (2 - 1)) := by
    rw [Box.ext_iff']
    constructor <;> (funext d; fin_cases d; decide)
  have h := nesting_domains_transitive (refCollab lineEst 1) nestedMesh 1 2 refSimplify_spec
    (by decide) (by decide) (by decide)
  have h10 : ((p_n_comp_ba (refCollab lineEst 1) nestedMesh 1 (2 - 1)).refine
      (rr_lev nestedMesh (2 - 1))).covers (fun _ => 10) := by decide
  have h12 : ((p_n_ba (refCollab lineEst 1) nestedMesh 1 2).coarsen
      (rr_lev nestedMesh (2 - 1))).covers (fun _ => 12) := by decide
  exact ⟨refSimplify_spec, by decide, by decide, by decide, by decide, hdom, by decide,
    h10, h.1 _ h10, h12, h.2 hdom (by decide) _ h12, h.1, h.2 hdom (by decide)⟩

end amrex
